import Mathlib

/-!
# Poodle data codec (`src/util/data_util.go`) and indexing structures

A shallow embedding of the bit-packed value codec of the `util` package:
the constructed values (`Primitive`, `DataArray`, `RecordList`) with their
`Encode` methods, and the mapped views (`SimpleMappedData`,
`StandardMappedData`) with `Decode` and the lazy `DataAt`. It is followed
by the balanced trees of `src/util/avl.go` (namespace `util`) and of
`src/collection/avl.go` (namespace `collection`, with its iterator), and by
the minimal perfect hash of `src/util/mph_util.go` (namespace `util`).

Conventions of the embedding:

* a byte is a natural number below 256, a `[]byte` is a list of them; the
  conversions `uint8(x)` and `uint16(x)` of the source are written
  `x % 256` and `x % 65536`;
* a Go method with a pointer receiver that mutates its receiver becomes a
  function returning the new receiver together with the returned values;
* a Go `error` result is `Failure.error`; a run-time panic (explicit
  `panic`, index or slice out of range, nil dereference) is `Failure.panic`;
* a loop that may not end runs for a given number of iterations and yields
  `none` when they are used up;
* a tree node is a value, `nil` being the nil pointer; the keys of the trees
  are the elements of a linear order.
-/

namespace Poodle

/-- The two ways a call can fail: a returned Go `error`, or a panic. -/
inductive Failure where
  | error
  | panic
  deriving DecidableEq, Repr

/-- A byte buffer (`[]byte`); a nil slice and an empty slice are both `[]`
wherever the source does not compare the slice with `nil`. -/
abbrev Bytes := List Nat

/-- An interface-typed slot of a Go slice such as `[]IData`: the nil
interface, an interface holding a nil pointer (what assigning a nil
`*StandardMappedData` to an `IData` produces), or a pointer to a value. -/
inductive Slot (α : Type) where
  | empty
  | nilPtr
  | ptr (a : α)
  deriving Repr

/-- Modelled from the spec: the record collaborator (`IRecord`), whose
implementation is not among the sources. A record is represented by what
`RecordList.Encode` consumes of it, the outcome of its `Encode()` call
(the interface gives `encode() -> bytes, error`). -/
structure Record where
  Encode : Except Failure Bytes

/-- Modelled from the spec: a mapped record held in a slot of a mapped
record list (built by `NewMappedRecord`, not among the sources); the codec
uses only its consumed buffer `Buf()`. -/
structure MappedRecord where
  buf : Bytes
  deriving Repr

/-- The Go expression `buf[lo:hi]`, which panics unless
`lo ≤ hi ≤ cap(buf)`. The capacity is taken to be the length: wherever the
source slices, the length checks made before it give `hi ≤ len(buf)`. -/
def slice (buf : Bytes) (lo hi : Nat) : Except Failure Bytes :=
  if lo ≤ hi ∧ hi ≤ buf.length then .ok ((buf.take hi).drop lo) else .error .panic

/-- The call `binary.BigEndian.Uint16(buf[pos:])` once the caller has checked
that two bytes are available. -/
def bigEndianUint16 (buf : Bytes) (pos : Nat) : Nat :=
  (buf.getD pos 0) * 256 + buf.getD (pos + 1) 0

/-- The statement `buf[0] |= x`. -/
def orHead (buf : Bytes) (x : Nat) : Bytes :=
  match buf with
  | [] => []
  | h :: t => (h ||| x) :: t

/-! ## SimpleMappedData -/

/-- The struct `SimpleMappedData`. -/
structure SimpleMappedData where
  decoded : Bool
  parent : Nat
  buf : Bytes
  content : Bytes
  deriving DecidableEq, Repr

/-- The method `SimpleMappedData.Decode`; the sums `1+length` and `2+length`
used as slice bounds are `uint16` sums. -/
def SimpleMappedData.Decode (d : SimpleMappedData) (parent : Nat) :
    SimpleMappedData × Except Failure Unit :=
  if (d.parent &&& 0x03) ≠ (parent &&& 0x03) then (d, .error .error)
  else if d.parent &&& 0x03 = 0x00 then
    ({ d with content := [], buf := [], decoded := true }, .ok ())
  else if d.parent &&& 0x03 = 0x01 then
    if d.buf.length < 1 then (d, .error .error)
    else
      let length := d.buf.getD 0 0
      if d.buf.length < 1 + length then (d, .error .error)
      else
        match slice d.buf 1 ((1 + length) % 65536), slice d.buf 0 ((1 + length) % 65536) with
        | .ok content, .ok buf => ({ d with content := content, buf := buf, decoded := true }, .ok ())
        | _, _ => (d, .error .panic)
  else if d.parent &&& 0x03 = 0x02 then
    if d.buf.length < 2 then (d, .error .error)
    else
      let length := bigEndianUint16 d.buf 0
      if d.buf.length < 2 + length then (d, .error .error)
      else
        match slice d.buf 2 ((2 + length) % 65536), slice d.buf 0 ((2 + length) % 65536) with
        | .ok content, .ok buf => ({ d with content := content, buf := buf, decoded := true }, .ok ())
        | _, _ => (d, .error .panic)
  else (d, .error .error)

/-- The constructor `NewSimpleMappedData`: the view and the number of bytes
it consumed. -/
def NewSimpleMappedData (parent : Nat) (buf : Bytes) : Except Failure (SimpleMappedData × Nat) :=
  let result : SimpleMappedData :=
    { decoded := false, parent := parent &&& 0x03, buf := buf, content := [] }
  match result.Decode parent with
  | (_, .error e) => .error e
  | (result, .ok _) => .ok (result, result.buf.length)

/-! ## StandardMappedData -/

/-- The struct `StandardMappedData`. The fields `lookup` and `compression`
are left out: `Decode` only ever stores nil in them. -/
inductive StandardMappedData where
  | mk (decoded : Bool) (buf : Bytes)
      (data_array : Option (List (Slot StandardMappedData)))
      (record_list : Option (List (Slot MappedRecord)))
      (size : Nat) (content : Bytes)
  deriving Repr

namespace StandardMappedData

/-- Field `decoded`. -/
def decoded : StandardMappedData → Bool
  | mk d _ _ _ _ _ => d

/-- Field `buf`. -/
def buf : StandardMappedData → Bytes
  | mk _ b _ _ _ _ => b

/-- Field `data_array`: `none` is the nil slice. -/
def data_array : StandardMappedData → Option (List (Slot StandardMappedData))
  | mk _ _ a _ _ _ => a

/-- Field `record_list`: `none` is the nil slice. -/
def record_list : StandardMappedData → Option (List (Slot MappedRecord))
  | mk _ _ _ r _ _ => r

/-- Field `size`. -/
def size : StandardMappedData → Nat
  | mk _ _ _ _ s _ => s

/-- Field `content`. -/
def content : StandardMappedData → Bytes
  | mk _ _ _ _ _ c => c

/-- The method `IsNil`: `d.buf[0] == 0x00`. -/
def IsNil (d : StandardMappedData) : Except Failure Bool :=
  match d.buf with
  | [] => .error .panic
  | b0 :: _ => .ok (b0 == 0x00)

/-- The method `IsPrimitive`. -/
def IsPrimitive (d : StandardMappedData) : Except Failure Bool :=
  if !d.decoded then .error .panic
  else .ok (d.data_array.isNone && d.record_list.isNone)

/-- The method `IsDataArray`. -/
def IsDataArray (d : StandardMappedData) : Except Failure Bool :=
  if !d.decoded then .error .panic
  else .ok d.data_array.isSome

/-- The method `IsRecordList`. -/
def IsRecordList (d : StandardMappedData) : Except Failure Bool :=
  if !d.decoded then .error .panic
  else .ok d.record_list.isSome

/-- The method `Size`. -/
def Size (d : StandardMappedData) : Except Failure Nat :=
  if !d.decoded then .error .panic
  else .ok d.size

/-- The method `Data`. -/
def Data (d : StandardMappedData) : Except Failure Bytes :=
  if !d.decoded then .error .panic
  else if d.data_array.isNone && d.record_list.isNone then .ok d.content
  else .ok []

/-- The method `Buf`. -/
def Buf (d : StandardMappedData) : Bytes := d.buf

/-- Lines 446-469 of `Decode`, the data array bits: on success the updated
receiver, `format_is_set` and `pos`. -/
def Decode.dataArrayBits (d : StandardMappedData) (b0 : Nat) (pos : Nat) :
    Except Failure (StandardMappedData × Bool × Nat) :=
  let data_array_bits := (b0 >>> 6) &&& 0x03
  match d with
  | mk decoded buf data_array record_list size content =>
    if data_array_bits = 0x00 then
      .ok (mk decoded buf data_array record_list size content, false, pos)
    else if data_array_bits = 0x01 then
      if buf.length < 1 + pos then .error .error
      else
        let size := buf.getD pos 0
        .ok (mk decoded buf (some (List.replicate size Slot.empty)) record_list size content,
          true, (pos + 1) % 65536)
    else if data_array_bits = 0x02 then
      if buf.length < 2 + pos then .error .error
      else
        let size := bigEndianUint16 buf pos
        .ok (mk decoded buf (some (List.replicate size Slot.empty)) record_list size content,
          true, (pos + 2) % 65536)
    else .error .error

/-- Lines 471-500 of `Decode`, the record list bits: on success the updated
receiver and `pos`. -/
def Decode.recordListBits (d : StandardMappedData) (b0 : Nat) (format_is_set : Bool) (pos : Nat) :
    Except Failure (StandardMappedData × Nat) :=
  let record_list_bits := (b0 >>> 4) &&& 0x03
  match d with
  | mk decoded buf data_array record_list size content =>
    if record_list_bits = 0x00 then
      .ok (mk decoded buf data_array record_list size content, pos)
    else if record_list_bits = 0x01 then
      if format_is_set then .error .error
      else if buf.length < 1 + pos then .error .error
      else
        let size := buf.getD pos 0
        .ok (mk decoded buf data_array (some (List.replicate size Slot.empty)) size content,
          (pos + 1) % 65536)
    else if record_list_bits = 0x02 then
      if format_is_set then .error .error
      else if buf.length < 2 + pos then .error .error
      else
        let size := bigEndianUint16 buf pos
        .ok (mk decoded buf data_array (some (List.replicate size Slot.empty)) size content,
          (pos + 2) % 65536)
    else .error .error

/-- Lines 522-547 of `Decode`, the content length bits: on success `pos` and
`content_length`. The checks compare `int` values, the update of `pos` is a
`uint16` sum. -/
def Decode.lengthBits (buf : Bytes) (b0 : Nat) (pos : Nat) : Except Failure (Nat × Nat) :=
  let length_bits := b0 &&& 0x03
  if length_bits = 0x00 then .ok (pos, 0)
  else if length_bits = 0x01 then
    if buf.length < 1 + pos then .error .error
    else
      let content_length := buf.getD pos 0
      if buf.length < 1 + pos + content_length then .error .error
      else .ok ((pos + (1 + content_length)) % 65536, content_length)
  else if length_bits = 0x02 then
    if buf.length < 2 + pos then .error .error
    else
      let content_length := bigEndianUint16 buf pos
      if buf.length < 2 + pos + content_length then .error .error
      else .ok ((pos + (2 + content_length)) % 65536, content_length)
  else .error .error

/-- The method `StandardMappedData.Decode`. The local `pos` and
`content_length` are `uint16`, so `pos-content_length` wraps modulo 65536. -/
def Decode (d : StandardMappedData) (parent : Nat) : StandardMappedData × Except Failure Unit :=
  if parent &&& 0x03 ≠ 0x03 then (d, .error .error)
  else
    match d.buf with
    | [] => (d, .error .panic)
    | b0 :: _ =>
      match Decode.dataArrayBits d b0 1 with
      | .error e => (d, .error e)
      | .ok (d1, format_is_set, pos1) =>
        match Decode.recordListBits d1 b0 format_is_set pos1 with
        | .error e => (d1, .error e)
        | .ok (d2, pos2) =>
          if (b0 >>> 3) &&& 0x01 = 0x01 then (d2, .error .error)
          else if (b0 >>> 2) &&& 0x01 = 0x01 then (d2, .error .error)
          else
            match Decode.lengthBits d2.buf b0 pos2 with
            | .error e => (d2, .error e)
            | .ok (pos, content_length) =>
              match slice d2.buf ((pos + 65536 - content_length) % 65536) pos,
                    slice d2.buf 0 pos with
              | .ok content, .ok buf =>
                (mk true buf d2.data_array d2.record_list d2.size content, .ok ())
              | _, _ => (d2, .error .panic)

end StandardMappedData

/-- The constructor `NewStandardMappedData`. -/
def NewStandardMappedData (buf : Bytes) : Except Failure StandardMappedData :=
  if buf.length < 1 then .error .error
  else
    match (StandardMappedData.mk false buf none none 0 []).Decode 0xff with
    | (_, .error e) => .error e
    | (d, .ok _) => .ok d

namespace StandardMappedData

/-- The loop `for i := uint16(0); i <= idx; i++` of `DataAt`, run for the
given number of remaining iterations from counter `i` and offset `pos` on
the slot array `data_array`. A failed `NewStandardMappedData` leaves a nil
`*StandardMappedData` in the slot, and `Buf()` on such a slot dereferences
nil. -/
def DataAt.loop (content : Bytes) :
    Nat → Nat → Nat → List (Slot StandardMappedData) →
      List (Slot StandardMappedData) × Except Failure Unit
  | 0, _, _, data_array => (data_array, .ok ())
  | n + 1, i, pos, data_array =>
    match data_array.get? i with
    | none => (data_array, .error .panic)
    | some .empty =>
      if content.length < pos then (data_array, .error .error)
      else
        match NewStandardMappedData (content.drop pos) with
        | .error e => (data_array.set i .nilPtr, .error e)
        | .ok c => DataAt.loop content n (i + 1) (pos + c.Buf.length) (data_array.set i (.ptr c))
    | some .nilPtr => (data_array, .error .panic)
    | some (.ptr c) => DataAt.loop content n (i + 1) (pos + c.Buf.length) data_array

/-- The method `StandardMappedData.DataAt`: the receiver after the call and
the returned interface value. The loop runs `idx + 1` times: its `uint16`
counter cannot wrap because `idx < d.size ≤ 65535` has been checked. -/
def DataAt (d : StandardMappedData) (idx : Nat) :
    StandardMappedData × Except Failure (Slot StandardMappedData) :=
  if !d.decoded then (d, .error .panic)
  else
    match d.data_array with
    | none => (d, .error .error)
    | some data_array =>
      if idx ≥ d.size then (d, .error .error)
      else
        match data_array.get? idx with
        | none => (d, .error .panic)
        | some (.ptr c) => (d, .ok (.ptr c))
        | some .nilPtr => (d, .ok .nilPtr)
        | some .empty =>
          match DataAt.loop d.content (idx + 1) 0 0 data_array with
          | (data_array1, .error e) =>
            (mk d.decoded d.buf (some data_array1) d.record_list d.size d.content, .error e)
          | (data_array1, .ok _) =>
            match data_array1.get? idx with
            | none =>
              (mk d.decoded d.buf (some data_array1) d.record_list d.size d.content, .error .panic)
            | some s =>
              (mk d.decoded d.buf (some data_array1) d.record_list d.size d.content, .ok s)

end StandardMappedData

/-! ## Constructed values -/

/-- The struct `Primitive`; `data = none` is the nil slice. -/
structure Primitive where
  encoded : Bool
  magic : Nat
  buf : Bytes
  data : Option Bytes
  deriving DecidableEq, Repr

/-- The constructor `NewPrimitive`. -/
def NewPrimitive (data : Option Bytes) : Primitive :=
  { encoded := false, magic := 0, buf := [], data := data }

/-- The method `Primitive.Encode`: the receiver after the call, and the
returned buffer and byte, or the error. -/
def Primitive.Encode (d : Primitive) (parent : Bool) : Primitive × Except Failure (Bytes × Nat) :=
  match d.data with
  | none => ({ d with magic := 0x00, buf := [], encoded := true }, .ok ([], 0x00))
  | some data =>
    let content_len := data.length
    if content_len = 0 then
      if parent then
        let buf : Bytes := []
        ({ d with magic := 0x00, buf := buf, encoded := true }, .ok (buf, 0x00))
      else
        let buf : Bytes := [0x00]
        ({ d with magic := 0x00, buf := buf, encoded := true }, .ok (buf, 0xff))
    else if content_len < 256 then
      let length_buf : Bytes := [content_len % 256]
      if parent then
        let buf := length_buf ++ data
        ({ d with magic := 0x01, buf := buf, encoded := true }, .ok (buf, 0x01))
      else
        let buf := ([0x01] ++ length_buf) ++ data
        ({ d with magic := 0x01, buf := buf, encoded := true }, .ok (buf, 0xff))
    else if content_len < 65536 then
      let length_buf : Bytes := [(content_len >>> 8) % 256, content_len % 256]
      if parent then
        let buf := length_buf ++ data
        ({ d with magic := 0x02, buf := buf, encoded := true }, .ok (buf, 0x02))
      else
        let buf := ([0x02] ++ length_buf) ++ data
        ({ d with magic := 0x02, buf := buf, encoded := true }, .ok (buf, 0xff))
    else (d, .error .error)

/-- The method `Primitive.Buf`. -/
def Primitive.Buf (d : Primitive) : Except Failure Bytes :=
  if !d.encoded then .error .panic else .ok d.buf

/-- The struct `RecordList`; `record_list = none` is the nil slice. -/
structure RecordList where
  encoded : Bool
  buf : Bytes
  record_list : Option (List Record)

/-- The constructor `NewRecordList`. -/
def NewRecordList : RecordList :=
  { encoded := false, buf := [], record_list := some [] }

/-- The method `RecordList.Append`. -/
def RecordList.Append (d : RecordList) (record : Record) : RecordList :=
  { d with record_list := some (d.record_list.getD [] ++ [record]), encoded := false }

/-- The loop of `RecordList.Encode` that concatenates the records' encodings
and stops at the first record whose `Encode()` fails. -/
def RecordList.Encode.loop : List Record → Except Failure Bytes
  | [] => .ok []
  | r :: rs =>
    match r.Encode with
    | .error e => .error e
    | .ok record_buf =>
      match RecordList.Encode.loop rs with
      | .error e => .error e
      | .ok content_buf => .ok (record_buf ++ content_buf)

/-- The header byte and count field that `DataArray.Encode` and
`RecordList.Encode` build from the number of children, with the count code
shifted left by `shift` (6 for a data array, 4 for a record list). -/
def encodeSize (shift : Nat) (size : Nat) : Except Failure Bytes :=
  let buf : Bytes := [0x00]
  if size = 0 then .ok (orHead buf 0x00)
  else if size < 256 then .ok (orHead buf (0x01 <<< shift) ++ [size % 256])
  else if size < 65536 then .ok (orHead buf (0x02 <<< shift) ++ [(size >>> 8) % 256, size % 256])
  else .error .error

/-- The tail of `DataArray.Encode` and `RecordList.Encode`: the length code,
the length field and the content appended to the header and count in `buf`. -/
def encodeContent (buf : Bytes) (content_buf : Bytes) : Except Failure Bytes :=
  let content_len := content_buf.length
  if content_len = 0 then .ok buf
  else if content_len < 256 then
    .ok ((orHead buf 0x01 ++ [content_len % 256]) ++ content_buf)
  else if content_len < 65536 then
    .ok ((orHead buf 0x02 ++ [(content_len >>> 8) % 256, content_len % 256]) ++ content_buf)
  else .error .error

/-- The method `RecordList.Encode`. -/
def RecordList.Encode (d : RecordList) (_parent : Bool) :
    RecordList × Except Failure (Bytes × Nat) :=
  match d.record_list with
  | none => (d, .ok ([], 0x00))
  | some record_list =>
    match encodeSize 4 record_list.length with
    | .error e => (d, .error e)
    | .ok buf =>
      match RecordList.Encode.loop record_list with
      | .error e => (d, .error e)
      | .ok content_buf =>
        match encodeContent buf content_buf with
        | .error e => (d, .error e)
        | .ok buf => ({ d with buf := buf, encoded := true }, .ok (buf, 0xff))

/-- The interface `IData` as the sum of its five implementations. The
children of a data array are non-nil interface values. -/
inductive IData where
  | simple (d : SimpleMappedData)
  | standard (d : StandardMappedData)
  | primitive (d : Primitive)
  | dataArray (encoded : Bool) (buf : Bytes) (data_array : Option (List IData))
  | recordList (d : RecordList)

/-- The constructor `NewDataArray`. -/
def NewDataArray : IData := .dataArray false [] (some [])

mutual
/-- The interface method `Encode`, dispatched on the implementation; the
two mapped implementations return an error. -/
def IData.Encode : IData → Bool → IData × Except Failure (Bytes × Nat)
  | .simple d, _ => (.simple d, .error .error)
  | .standard d, _ => (.standard d, .error .error)
  | .primitive d, parent => ((.primitive (d.Encode parent).1), (d.Encode parent).2)
  | .recordList d, parent => ((.recordList (d.Encode parent).1), (d.Encode parent).2)
  | .dataArray encoded buf data_array, parent => DataArray.Encode encoded buf data_array parent
/-- The method `DataArray.Encode` on the receiver with the given fields. -/
def DataArray.Encode (encoded : Bool) (buf : Bytes) :
    Option (List IData) → Bool → IData × Except Failure (Bytes × Nat)
  | none, _ => (.dataArray encoded buf none, .ok ([], 0x00))
  | some data_array, _ =>
    match encodeSize 6 data_array.length with
    | .error e => (.dataArray encoded buf (some data_array), .error e)
    | .ok buf1 =>
      match DataArray.Encode.loop data_array with
      | (data_array1, .error e) => (.dataArray encoded buf (some data_array1), .error e)
      | (data_array1, .ok content_buf) =>
        match encodeContent buf1 content_buf with
        | .error e => (.dataArray encoded buf (some data_array1), .error e)
        | .ok buf2 => (.dataArray true buf2 (some data_array1), .ok (buf2, 0xff))
/-- The loop of `DataArray.Encode` that encodes every child with
`Encode(false)` and concatenates the results; it stops at the first child
that fails, the children before it having been encoded. -/
def DataArray.Encode.loop : List IData → List IData × Except Failure Bytes
  | [] => ([], .ok [])
  | c :: cs =>
    match c.Encode false with
    | (c1, .error e) => (c1 :: cs, .error e)
    | (c1, .ok (data_buf, _)) =>
      match DataArray.Encode.loop cs with
      | (cs1, .error e) => (c1 :: cs1, .error e)
      | (cs1, .ok content_buf) => (c1 :: cs1, .ok (data_buf ++ content_buf))
end

/-- The method `DataArray.Append` (on any other implementation the value is
returned as it is). -/
def IData.Append : IData → IData → IData
  | .dataArray _ buf data_array, data => .dataArray false buf (some (data_array.getD [] ++ [data]))
  | d, _ => d

/-- The method `Buf` of the constructed implementations and of the mapped
ones. -/
def IData.Buf : IData → Except Failure Bytes
  | .simple d => .ok d.buf
  | .standard d => .ok d.buf
  | .primitive d => d.Buf
  | .dataArray encoded buf _ => if !encoded then .error .panic else .ok buf
  | .recordList d => if !d.encoded then .error .panic else .ok d.buf

/-- The method `IsPrimitive` of the interface. For a data array and a record
list it is `d.IsNil() || false`. -/
def IData.IsPrimitive : IData → Except Failure Bool
  | .simple _ => .ok true
  | .standard d => d.IsPrimitive
  | .primitive _ => .ok true
  | .dataArray _ _ data_array =>
    .ok ((data_array.isNone || (data_array.getD []).length == 0) || false)
  | .recordList d => .ok ((d.record_list.isNone || (d.record_list.getD []).length == 0) || false)

/-- The method `IsDataArray` of the interface. -/
def IData.IsDataArray : IData → Except Failure Bool
  | .simple _ => .ok false
  | .standard d => d.IsDataArray
  | .primitive _ => .ok false
  | .dataArray _ _ _ => .ok true
  | .recordList _ => .ok false

/-- The method `IsRecordList` of the interface. -/
def IData.IsRecordList : IData → Except Failure Bool
  | .simple _ => .ok false
  | .standard d => d.IsRecordList
  | .primitive _ => .ok false
  | .dataArray _ _ _ => .ok false
  | .recordList _ => .ok true

/-- The method `Size` of the interface; for a data array and a record list
it is `uint16(len(...))`. -/
def IData.Size : IData → Except Failure Nat
  | .simple _ => .ok 0
  | .standard d => d.Size
  | .primitive _ => .ok 0
  | .dataArray _ _ data_array => .ok ((data_array.getD []).length % 65536)
  | .recordList d => .ok ((d.record_list.getD []).length % 65536)

/-- The method `Data` of the interface (a nil result is the empty list). -/
def IData.Data : IData → Except Failure Bytes
  | .simple d => .ok d.content
  | .standard d => d.Data
  | .primitive d => .ok (d.data.getD [])
  | .dataArray _ _ _ => .ok []
  | .recordList _ => .ok []

/-! ## Child access, mutation and copies -/

/-- Modelled from the spec: the operations of the record collaborator that
the codec calls and whose implementation is not among the sources:
the constructor `NewMappedRecord` (taken to return a pointer and an error,
as the other constructors of the package do), `CopyConstruct()` of a mapped
record and `CopyConstruct()` of a record held by a `RecordList`. -/
structure RecordOps where
  NewMappedRecord : Bytes → Except Failure MappedRecord
  mappedCopyConstruct : MappedRecord → Except Failure Record
  copyConstruct : Record → Except Failure Record

namespace StandardMappedData

/-- The loop `for i := uint16(0); i <= idx; i++` of `RecordAt`, the
counterpart of `DataAt.loop` on the record slots. -/
def RecordAt.loop (ops : RecordOps) (content : Bytes) :
    Nat → Nat → Nat → List (Slot MappedRecord) → List (Slot MappedRecord) × Except Failure Unit
  | 0, _, _, record_list => (record_list, .ok ())
  | n + 1, i, pos, record_list =>
    match record_list.get? i with
    | none => (record_list, .error .panic)
    | some .empty =>
      if content.length < pos then (record_list, .error .error)
      else
        match ops.NewMappedRecord (content.drop pos) with
        | .error e => (record_list.set i .nilPtr, .error e)
        | .ok r =>
          RecordAt.loop ops content n (i + 1) (pos + r.buf.length) (record_list.set i (.ptr r))
    | some .nilPtr => (record_list, .error .panic)
    | some (.ptr r) => RecordAt.loop ops content n (i + 1) (pos + r.buf.length) record_list

/-- The method `StandardMappedData.RecordAt`: the receiver after the call
and the returned interface value. -/
def RecordAt (ops : RecordOps) (d : StandardMappedData) (idx : Nat) :
    StandardMappedData × Except Failure (Slot MappedRecord) :=
  if !d.decoded then (d, .error .panic)
  else
    match d.record_list with
    | none => (d, .error .error)
    | some record_list =>
      if idx ≥ d.size then (d, .error .error)
      else
        match record_list.get? idx with
        | none => (d, .error .panic)
        | some (.ptr r) => (d, .ok (.ptr r))
        | some .nilPtr => (d, .ok .nilPtr)
        | some .empty =>
          match RecordAt.loop ops d.content (idx + 1) 0 0 record_list with
          | (record_list1, .error e) =>
            (mk d.decoded d.buf d.data_array (some record_list1) d.size d.content, .error e)
          | (record_list1, .ok _) =>
            match record_list1.get? idx with
            | none =>
              (mk d.decoded d.buf d.data_array (some record_list1) d.size d.content,
                .error .panic)
            | some s =>
              (mk d.decoded d.buf d.data_array (some record_list1) d.size d.content, .ok s)

/-- The method `StandardMappedData.Copy`: it panics when re-decoding the
duplicate of the buffer fails. -/
def Copy (d : StandardMappedData) : Except Failure StandardMappedData :=
  match NewStandardMappedData d.buf with
  | .error _ => .error .panic
  | .ok result => .ok result

end StandardMappedData

/-- The method `SimpleMappedData.DataAt`. -/
def SimpleMappedData.DataAt (_d : SimpleMappedData) (_i : Nat) : Except Failure IData :=
  .error .error

/-- The method `SimpleMappedData.RecordAt`. -/
def SimpleMappedData.RecordAt (_d : SimpleMappedData) (_i : Nat) : Except Failure Record :=
  .error .error

/-- The method `SimpleMappedData.Copy`: it panics when re-decoding the
duplicate of the buffer fails. -/
def SimpleMappedData.Copy (d : SimpleMappedData) : Except Failure SimpleMappedData :=
  match NewSimpleMappedData d.parent d.buf with
  | .error _ => .error .panic
  | .ok (result, _) => .ok result

/-- The method `Primitive.DataAt`. -/
def Primitive.DataAt (_d : Primitive) (_idx : Nat) : Except Failure IData :=
  .error .error

/-- The method `Primitive.RecordAt`. -/
def Primitive.RecordAt (_d : Primitive) (_idx : Nat) : Except Failure Record :=
  .error .error

/-- The method `Primitive.Copy`: a primitive over a duplicate of the data
(nil data stays nil). -/
def Primitive.Copy (d : Primitive) : Primitive :=
  NewPrimitive d.data

/-- The method `DataArray.DataAt` on the receiver with the given children
slice. -/
def DataArray.DataAt (data_array : Option (List IData)) (idx : Nat) : Except Failure IData :=
  if idx ≥ (data_array.getD []).length % 65536 then .error .error
  else
    match (data_array.getD []).get? idx with
    | none => .error .panic
    | some c => .ok c

/-- The method `DataArray.RecordAt`. -/
def DataArray.RecordAt (_data_array : Option (List IData)) (_idx : Nat) :
    Except Failure Record :=
  .error .error

/-- The method `DataArray.DeleteAt` (on any other implementation the value
is returned as it is): it panics when `idx >= uint16(len(d.data_array))`. -/
def IData.DeleteAt : IData → Nat → Except Failure IData
  | .dataArray _ buf data_array, idx =>
    if idx ≥ (data_array.getD []).length % 65536 then .error .panic
    else .ok (.dataArray false buf (some ((data_array.getD []).eraseIdx idx)))
  | d, _ => .ok d

/-- The method `IsEncoded` of the interface. -/
def IData.IsEncoded : IData → Bool
  | .simple _ => true
  | .standard _ => true
  | .primitive d => d.encoded
  | .dataArray encoded _ _ => encoded
  | .recordList d => d.encoded

/-- The method `RecordList.DataAt`. -/
def RecordList.DataAt (_d : RecordList) (_idx : Nat) : Except Failure IData :=
  .error .error

/-- The method `RecordList.RecordAt`. -/
def RecordList.RecordAt (d : RecordList) (idx : Nat) : Except Failure Record :=
  if idx ≥ (d.record_list.getD []).length % 65536 then .error .error
  else
    match (d.record_list.getD []).get? idx with
    | none => .error .panic
    | some r => .ok r

/-- The method `RecordList.DeleteAt`: it panics when
`idx >= uint16(len(d.record_list))`. -/
def RecordList.DeleteAt (d : RecordList) (idx : Nat) : Except Failure RecordList :=
  if idx ≥ (d.record_list.getD []).length % 65536 then .error .panic
  else .ok { d with record_list := some ((d.record_list.getD []).eraseIdx idx), encoded := false }

/-- The method `RecordList.Buf`. -/
def RecordList.Buf (d : RecordList) : Except Failure Bytes :=
  if !d.encoded then .error .panic else .ok d.buf

/-- The method `SimpleMappedData.CopyConstruct`: a primitive over a
duplicate of the content (a non-nil slice, also when the content is nil). -/
def SimpleMappedData.CopyConstruct (d : SimpleMappedData) : Except Failure IData :=
  .ok (.primitive (NewPrimitive (some d.content)))

/-- The method `Primitive.CopyConstruct`. -/
def Primitive.CopyConstruct (d : Primitive) : Except Failure IData :=
  .ok (.primitive d.Copy)

/-- The loop of `RecordList.CopyConstruct` over the records. -/
def RecordList.CopyConstruct.loop (ops : RecordOps) : List Record → Except Failure (List Record)
  | [] => .ok []
  | r :: rs =>
    match ops.copyConstruct r with
    | .error e => .error e
    | .ok r1 =>
      match RecordList.CopyConstruct.loop ops rs with
      | .error e => .error e
      | .ok rs1 => .ok (r1 :: rs1)

/-- The method `RecordList.CopyConstruct`. -/
def RecordList.CopyConstruct (ops : RecordOps) (d : RecordList) : Except Failure IData :=
  match d.record_list with
  | none => .ok (.recordList NewRecordList)
  | some record_list =>
    match RecordList.CopyConstruct.loop ops record_list with
    | .error e => .error e
    | .ok rs => .ok (.recordList { encoded := false, buf := [], record_list := some rs })

namespace StandardMappedData

/-- The loop `for i := uint16(0); i < d.Size(); i++` of the data array branch
of `CopyConstruct`, run for the given number of remaining iterations from
counter `i`, with `cc` the `CopyConstruct` method of the children and `acc`
the children appended to the result so far. Calling `CopyConstruct` on a
nil `*StandardMappedData` dereferences nil. -/
def CopyConstruct.dataLoop (cc : StandardMappedData → Option (Except Failure IData)) :
    Nat → Nat → StandardMappedData → List IData → Option (Except Failure (List IData))
  | 0, _, _, acc => some (.ok acc)
  | n + 1, i, d, acc =>
    match d.DataAt i with
    | (_, .error e) => some (.error e)
    | (_, .ok .empty) => some (.error .panic)
    | (_, .ok .nilPtr) => some (.error .panic)
    | (d1, .ok (.ptr data)) =>
      match cc data with
      | none => none
      | some (.error e) => some (.error e)
      | some (.ok data_copy) => CopyConstruct.dataLoop cc n (i + 1) d1 (acc ++ [data_copy])

/-- The loop of the record list branch of `CopyConstruct`. -/
def CopyConstruct.recordLoop (ops : RecordOps) :
    Nat → Nat → StandardMappedData → List Record → Except Failure (List Record)
  | 0, _, _, acc => .ok acc
  | n + 1, i, d, acc =>
    match d.RecordAt ops i with
    | (_, .error e) => .error e
    | (_, .ok .empty) => .error .panic
    | (_, .ok .nilPtr) => .error .panic
    | (d1, .ok (.ptr record)) =>
      match ops.mappedCopyConstruct record with
      | .error e => .error e
      | .ok record_copy => CopyConstruct.recordLoop ops n (i + 1) d1 (acc ++ [record_copy])

/-- The method `StandardMappedData.CopyConstruct`. The recursion through the
children follows the nesting of the mapped value; `fuel` bounds that depth
and `none` is returned when it is used up. The state of the cache after
the call is not returned. -/
def CopyConstruct (ops : RecordOps) : Nat → StandardMappedData → Option (Except Failure IData)
  | 0, _ => none
  | fuel + 1, d =>
    match d.IsPrimitive with
    | .error e => some (.error e)
    | .ok true =>
      match d.Data with
      | .error e => some (.error e)
      | .ok data => some (.ok (.primitive (NewPrimitive (some data))))
    | .ok false =>
      match d.IsDataArray, d.Size with
      | .error e, _ => some (.error e)
      | _, .error e => some (.error e)
      | .ok true, .ok size =>
        match CopyConstruct.dataLoop (CopyConstruct ops fuel) size 0 d [] with
        | none => none
        | some (.error e) => some (.error e)
        | some (.ok children) => some (.ok (.dataArray false [] (some children)))
      | .ok false, .ok size =>
        match d.IsRecordList with
        | .error e => some (.error e)
        | .ok true =>
          match CopyConstruct.recordLoop ops size 0 d [] with
          | .error e => some (.error e)
          | .ok records =>
            some (.ok (.recordList { encoded := false, buf := [], record_list := some records }))
        | .ok false => some (.error .error)

end StandardMappedData

mutual
/-- The interface method `CopyConstruct`, dispatched on the implementation;
`fuel` is passed to the mapped values met in the tree. -/
def IData.CopyConstruct (ops : RecordOps) (fuel : Nat) : IData → Option (Except Failure IData)
  | .simple d => some d.CopyConstruct
  | .standard d => d.CopyConstruct ops fuel
  | .primitive d => some d.CopyConstruct
  | .recordList d => some (d.CopyConstruct ops)
  | .dataArray _ _ data_array => DataArray.CopyConstruct ops fuel data_array
/-- The method `DataArray.CopyConstruct` on the receiver with the given
children slice. -/
def DataArray.CopyConstruct (ops : RecordOps) (fuel : Nat) :
    Option (List IData) → Option (Except Failure IData)
  | none => some (.ok NewDataArray)
  | some data_array =>
    match DataArray.CopyConstruct.loop ops fuel data_array with
    | none => none
    | some (.error e) => some (.error e)
    | some (.ok children) => some (.ok (.dataArray false [] (some children)))
/-- The loop of `DataArray.CopyConstruct` over the children; it stops at the
first child whose `CopyConstruct()` fails. -/
def DataArray.CopyConstruct.loop (ops : RecordOps) (fuel : Nat) :
    List IData → Option (Except Failure (List IData))
  | [] => some (.ok [])
  | c :: cs =>
    match c.CopyConstruct ops fuel with
    | none => none
    | some (.error e) => some (.error e)
    | some (.ok c1) =>
      match DataArray.CopyConstruct.loop ops fuel cs with
      | none => none
      | some (.error e) => some (.error e)
      | some (.ok cs1) => some (.ok (c1 :: cs1))
end

/-! ## Notions used to state the properties -/

mutual
/-- No nil content anywhere in the value: every primitive has non-nil data,
every data array and record list a non-nil slice. -/
def IData.noNil : IData → Bool
  | .simple _ => true
  | .standard _ => true
  | .primitive d => d.data.isSome
  | .recordList d => d.record_list.isSome
  | .dataArray _ _ data_array => noNilOpt data_array
/-- The children slice is non-nil and `IData.noNil` holds of every child. -/
def noNilOpt : Option (List IData) → Bool
  | none => false
  | some data_array => noNilList data_array
/-- `IData.noNil` holds of every value of the list. -/
def noNilList : List IData → Bool
  | [] => true
  | c :: cs => c.noNil && noNilList cs
end

/-- An empty data array or an empty record list. -/
def IData.isEmptyContainer : IData → Bool
  | .dataArray _ _ data_array => (data_array.getD []).isEmpty
  | .recordList d => (d.record_list.getD []).isEmpty
  | _ => false

/-- The mapped value `m` answers the accessors as the constructed value `v`
does, except that an empty data array or record list is mapped as a value
that is neither a data array nor a record list. -/
def SameShape (v : IData) (m : StandardMappedData) : Prop :=
  m.IsPrimitive = v.IsPrimitive ∧ m.Size = v.Size ∧ m.Data = v.Data ∧
  m.IsDataArray = (if v.isEmptyContainer then .ok false else v.IsDataArray) ∧
  m.IsRecordList = (if v.isEmptyContainer then .ok false else v.IsRecordList)

mutual
/-- Structural correspondence of a constructed value and a mapped value:
the same shape, and for a data array every `DataAt(i)` of the mapped value
succeeds with a mapped child that corresponds to the `i`-th child. -/
def Corresponds : IData → StandardMappedData → Prop
  | .dataArray encoded buf data_array, m =>
    SameShape (.dataArray encoded buf data_array) m ∧ CorrespondsOpt data_array m
  | .simple d, m => SameShape (.simple d) m
  | .standard d, m => SameShape (.standard d) m
  | .primitive d, m => SameShape (.primitive d) m
  | .recordList d, m => SameShape (.recordList d) m
/-- The children of a non-nil slice correspond, from index 0 on. -/
def CorrespondsOpt : Option (List IData) → StandardMappedData → Prop
  | none, _ => True
  | some data_array, m => CorrespondsFrom data_array m 0
/-- The children `cs` correspond to what `DataAt(i)`, `DataAt(i+1)`, ...
return on the mapped value `m`. -/
def CorrespondsFrom : List IData → StandardMappedData → Nat → Prop
  | [], _, _ => True
  | c :: cs, m, i =>
    (∃ m1 mc, m.DataAt i = (m1, .ok (.ptr mc)) ∧ Corresponds c mc) ∧ CorrespondsFrom cs m (i + 1)
end

/-- A decoded mapped value: what `NewStandardMappedData` returns on a
buffer of bytes, after any number of `DataAt` and `RecordAt` calls on it. -/
inductive Decoded : StandardMappedData → Prop where
  | new (b : Bytes) (m : StandardMappedData) :
    (∀ x ∈ b, x < 256) → NewStandardMappedData b = .ok m → Decoded m
  | dataAt (d : StandardMappedData) (idx : Nat) : Decoded d → Decoded (d.DataAt idx).1
  | recordAt (ops : RecordOps) (d : StandardMappedData) (idx : Nat) :
    Decoded d → Decoded (d.RecordAt ops idx).1

/-- The slot `j` of the cache of a mapped data array (nothing when the value
is not a data array or `j` is out of range). -/
def StandardMappedData.slot (d : StandardMappedData) (j : Nat) :
    Option (Slot StandardMappedData) :=
  match d.data_array with
  | none => none
  | some data_array => data_array.get? j

/-- A cache slot that is not the nil interface. -/
def Slot.isFilled {α : Type} : Slot α → Bool
  | .empty => false
  | _ => true

/-- The mapped value with every slot of its cache emptied. -/
def StandardMappedData.emptied (d : StandardMappedData) : StandardMappedData :=
  .mk d.decoded d.buf (d.data_array.map fun _ => List.replicate d.size Slot.empty)
    (d.record_list.map fun _ => List.replicate d.size Slot.empty) d.size d.content

/-- The number of bytes of the count field announced by the first byte of
the buffer: the array-count code plus the record-count code. -/
def countFieldBytes (b : Bytes) : Nat :=
  ((b.getD 0 0 >>> 6) &&& 0x03) + ((b.getD 0 0 >>> 4) &&& 0x03)

/-- The number of bytes of the length field announced by the first byte of
the buffer: the content-length code. -/
def lengthFieldBytes (b : Bytes) : Nat := b.getD 0 0 &&& 0x03

/-- The content length declared by the length field of the buffer. -/
def declaredContentLength (b : Bytes) : Nat :=
  if lengthFieldBytes b = 1 then b.getD (1 + countFieldBytes b) 0
  else if lengthFieldBytes b = 2 then bigEndianUint16 b (1 + countFieldBytes b)
  else 0

mutual
/-- Every node of the value is a constructed one (`Primitive`, `DataArray`
or `RecordList`), none is a mapped one. -/
def IData.isConstructed : IData → Bool
  | .simple _ => false
  | .standard _ => false
  | .primitive _ => true
  | .recordList _ => true
  | .dataArray _ _ data_array => isConstructedOpt data_array
/-- The children of the slice, if any, are constructed at every node. -/
def isConstructedOpt : Option (List IData) → Bool
  | none => true
  | some data_array => isConstructedList data_array
/-- Every value of the list is constructed at every node. -/
def isConstructedList : List IData → Bool
  | [] => true
  | c :: cs => c.isConstructed && isConstructedList cs
end

/-- The big-endian representation of `x` in `k` bytes, for `k` equal to 1 or
2 (and no bytes for any other `k`). -/
def bigEndian (k x : Nat) : Bytes :=
  if k = 1 then [x % 256]
  else if k = 2 then [x / 256 % 256, x % 256]
  else []

/-- The count code or length code of a number that is at least 1 and at
most 65535: 1 when it fits one byte, else 2. -/
def codeOf (x : Nat) : Nat := if x < 256 then 1 else 2

/-- The property of a child and its encoding that the round trip needs: the
encoding followed by any bytes decodes to a view over exactly the encoding
that corresponds to the child. -/
def Good (c : IData) (b : Bytes) : Prop :=
  ∀ t, ∃ m, NewStandardMappedData (b ++ t) = .ok m ∧ m.Buf = b ∧ Corresponds c m

/-- The buffer `b0 :: (cnt ++ (lenb ++ content))` is a well-formed frame:
the header `b0` has valid codes `ac`, `rc`, `lc` and no reserved bit, `cnt`
is the count field of the count `n`, `lenb` is the length field of the
content, and the whole is shorter than 65536 bytes. -/
def IsFrame (b0 : Nat) (cnt lenb content : Bytes) (ac rc lc n : Nat) : Prop :=
  (b0 >>> 6) &&& 0x03 = ac ∧ (b0 >>> 4) &&& 0x03 = rc ∧
  (b0 >>> 3) &&& 0x01 = 0 ∧ (b0 >>> 2) &&& 0x01 = 0 ∧ b0 &&& 0x03 = lc ∧
  ((ac = 0 ∧ rc = 0 ∧ cnt = [] ∧ n = 0) ∨ (ac = 1 ∧ rc = 0 ∧ cnt = [n]) ∨
    (ac = 2 ∧ rc = 0 ∧ cnt = [n / 256, n % 256]) ∨ (ac = 0 ∧ rc = 1 ∧ cnt = [n]) ∨
    (ac = 0 ∧ rc = 2 ∧ cnt = [n / 256, n % 256])) ∧
  ((lc = 0 ∧ lenb = [] ∧ content.length = 0) ∨ (lc = 1 ∧ lenb = [content.length]) ∨
    (lc = 2 ∧ lenb = [content.length / 256, content.length % 256])) ∧
  1 + cnt.length + lenb.length + content.length < 65536

/-- The number of bytes that the header of the buffer announces: the header
byte, the count field, the length field and the declared content. -/
def consumedLength (b : Bytes) : Nat :=
  1 + countFieldBytes b + lengthFieldBytes b + declaredContentLength b

/-- The filled slots of a cache form an initial segment: below a filled
slot every slot is filled. -/
def DownClosed {α : Type} (arr : List (Slot α)) : Prop :=
  ∀ (j k : Nat) (s : Slot α), j ≤ k → arr[k]? = some s → s.isFilled = true →
    ∃ s1 : Slot α, arr[j]? = some s1 ∧ s1.isFilled = true

/-- What holds of every decoded mapped value: it is a view over a
well-formed frame, with a cache of `size` slots exactly when the count code
is set, whose filled slots form an initial segment. -/
def DecodedInv (d : StandardMappedData) : Prop :=
  ∃ b0 cnt lenb content ac rc lc n arrs recs, IsFrame b0 cnt lenb content ac rc lc n ∧
    d = StandardMappedData.mk true (b0 :: (cnt ++ (lenb ++ content))) arrs recs n content ∧
    (ac = 0 → arrs = none) ∧
    (ac ≠ 0 → ∃ arr, arrs = some arr ∧ arr.length = n ∧ DownClosed arr) ∧
    (rc = 0 → recs = none) ∧
    (rc ≠ 0 → ∃ rl, recs = some rl ∧ rl.length = n)

/-! ## The ordered keys of the trees (`IComparable`) -/

/-- Modelled from the spec: the method `Equal` of the interface
`IComparable`, whose implementations the trees do not fix. Keys are taken
from a linear order and `Equal` holds exactly of equal keys. -/
def Equal {K : Type} [LinearOrder K] (a b : K) : Bool := decide (a = b)

/-- Modelled from the spec: the method `Compare` of the interface
`IComparable`: negative, zero or positive as the receiver is below, equal to
or above the argument in the linear order of the keys. -/
def Compare {K : Type} [LinearOrder K] (a b : K) : Int :=
  if a < b then -1 else if a = b then 0 else 1

/-! ## The tree of `src/util/avl.go` -/

namespace util

/-- The struct `AVLNode` of the package `util`; `nil` is the nil pointer. -/
inductive AVLNode (D : Type) where
  | nil : AVLNode D
  | mk (data : D) (balance : Int) (link0 link1 : AVLNode D) : AVLNode D
  deriving Repr

/-- The struct `AVLTree` of the package `util`. -/
structure AVLTree (D : Type) where
  root : AVLNode D

/-- The function `opp`. -/
def opp (dir : Nat) : Nat := 1 - dir

namespace AVLNode

variable {D : Type}

/-- The expression `n.link[dir]`; it panics on a nil `n`. -/
def link : AVLNode D → Nat → Except Failure (AVLNode D)
  | nil, _ => .error .panic
  | mk _ _ l0 l1, dir => .ok (if dir = 0 then l0 else l1)

/-- The assignment `n.link[dir] = c`; it panics on a nil `n`. -/
def setLink : AVLNode D → Nat → AVLNode D → Except Failure (AVLNode D)
  | nil, _, _ => .error .panic
  | mk d b l0 l1, dir, c => .ok (if dir = 0 then mk d b c l1 else mk d b l0 c)

/-- The expression `n.balance`; it panics on a nil `n`. -/
def balance : AVLNode D → Except Failure Int
  | nil => .error .panic
  | mk _ b _ _ => .ok b

/-- The assignment `n.balance = b`; it panics on a nil `n`. -/
def setBalance : AVLNode D → Int → Except Failure (AVLNode D)
  | nil, _ => .error .panic
  | mk d _ l0 l1, b => .ok (mk d b l0 l1)

/-- The method `single`: the rotation, returning the new root of the
subtree. -/
def single (root : AVLNode D) (dir : Nat) : Except Failure (AVLNode D) := do
  let save ← root.link (opp dir)
  let root ← root.setLink (opp dir) (← save.link dir)
  save.setLink dir root

/-- The method `double`: the double rotation. The nodes are updated in
the order of the source; `child` is the node `root.link[opp(dir)]`. -/
def double (root : AVLNode D) (dir : Nat) : Except Failure (AVLNode D) := do
  let child ← root.link (opp dir)
  let save ← child.link dir
  let child ← child.setLink dir (← save.link (opp dir))
  let save ← save.setLink (opp dir) child
  let root ← root.setLink (opp dir) save
  let save ← root.link (opp dir)
  let root ← root.setLink (opp dir) (← save.link dir)
  save.setLink dir root

/-- The method `adjustBalance`, returning the receiver with the balance
factors of `root`, `n` and `nn` updated. -/
def adjustBalance (root : AVLNode D) (dir : Nat) (bal : Int) : Except Failure (AVLNode D) := do
  let n ← root.link dir
  let nn ← n.link (opp dir)
  let nnb ← nn.balance
  let root ← root.setBalance (if nnb = 0 then 0 else if nnb = bal then -bal else 0)
  let n ← n.setBalance (if nnb = 0 then 0 else if nnb = bal then 0 else bal)
  let nn ← nn.setBalance 0
  let n ← n.setLink (opp dir) nn
  root.setLink dir n

/-- The method `insertBalance`. -/
def insertBalance (root : AVLNode D) (dir : Nat) : Except Failure (AVLNode D) := do
  let n ← root.link dir
  let bal : Int := 2 * dir - 1
  if (← n.balance) = bal then
    let root ← root.setBalance 0
    let n ← n.setBalance 0
    let root ← root.setLink dir n
    root.single (opp dir)
  else
    let root ← root.adjustBalance dir bal
    root.double (opp dir)

/-- The statements of `putR` that follow the recursive call
`root.link[dir], done = root.link[dir].putR(data)`, on the `root` whose link
has been assigned. -/
def putR.finish (root : AVLNode D) (dir : Nat) (done : Bool) :
    Except Failure (AVLNode D × Bool) :=
  if done then .ok (root, true)
  else do
    let root ← root.setBalance ((← root.balance) + (2 * dir - 1))
    let b ← root.balance
    if b = 0 then .ok (root, true)
    else if b = 1 ∨ b = -1 then .ok (root, false)
    else do
      let r ← root.insertBalance dir
      .ok (r, true)

/-- The method `putR`. The check `if root == nil` of the source is commented
out, so that on a nil receiver the first statement to touch the node,
`root.data.Equal(data)`, dereferences nil. -/
def putR [LinearOrder D] : AVLNode D → D → Except Failure (AVLNode D × Bool)
  | nil, _ => .error .panic
  | mk d b l0 l1, data =>
    if Equal d data then .ok (mk data b l0 l1, true)
    else if Compare d data < 0 then
      match l1.putR data with
      | .error e => .error e
      | .ok (c, done) => putR.finish (mk d b l0 c) 1 done
    else
      match l0.putR data with
      | .error e => .error e
      | .ok (c, done) => putR.finish (mk d b c l1) 0 done

end AVLNode

/-- The method `AVLTree.Put` of the package `util`. -/
def AVLTree.Put {D : Type} [LinearOrder D] (t : AVLTree D) (data : D) :
    Except Failure (AVLTree D) :=
  match t.root with
  | .nil => .ok { root := .mk data 0 .nil .nil }
  | root =>
    match root.putR data with
    | .error e => .error e
    | .ok (r, _) => .ok { root := r }

/-- The data stored in the nodes of a tree. -/
def AVLNode.contents {D : Type} : AVLNode D → List D
  | .nil => []
  | .mk d _ l0 l1 => l0.contents ++ d :: l1.contents

end util

/-! ## The ordered map of `src/collection/avl.go` -/

namespace collection

/-- The struct `AVLNode` of the package `collection`; `nil` is the nil
pointer. -/
inductive AVLNode (K V : Type) where
  | nil : AVLNode K V
  | mk (key : K) (value : V) (balance : Int) (link0 link1 : AVLNode K V) : AVLNode K V
  deriving Repr

/-- The struct `AVLTree` of the package `collection`. -/
structure AVLTree (K V : Type) where
  root : AVLNode K V
  size : Int

/-- The constructor `NewAVLTree`. -/
def NewAVLTree {K V : Type} : AVLTree K V := { root := .nil, size := 0 }

/-- Modelled from the spec: the helper `IsNil` of the package, not among the
sources, applied to a `*AVLNode`: true of the nil pointer. -/
def IsNil {K V : Type} : AVLNode K V → Bool
  | .nil => true
  | _ => false

/-- The function `opp`. -/
def opp (dir : Nat) : Nat := 1 - dir

namespace AVLNode

variable {K V : Type}

/-- The expression `n.link[dir]`; it panics on a nil `n`. -/
def link : AVLNode K V → Nat → Except Failure (AVLNode K V)
  | nil, _ => .error .panic
  | mk _ _ _ l0 l1, dir => .ok (if dir = 0 then l0 else l1)

/-- The assignment `n.link[dir] = c`; it panics on a nil `n`. -/
def setLink : AVLNode K V → Nat → AVLNode K V → Except Failure (AVLNode K V)
  | nil, _, _ => .error .panic
  | mk k v b l0 l1, dir, c => .ok (if dir = 0 then mk k v b c l1 else mk k v b l0 c)

/-- The expression `n.balance`; it panics on a nil `n`. -/
def balance : AVLNode K V → Except Failure Int
  | nil => .error .panic
  | mk _ _ b _ _ => .ok b

/-- The assignment `n.balance = b`; it panics on a nil `n`. -/
def setBalance : AVLNode K V → Int → Except Failure (AVLNode K V)
  | nil, _ => .error .panic
  | mk k v _ l0 l1, b => .ok (mk k v b l0 l1)

/-- The method `single`: the rotation, returning the new root of the
subtree. -/
def single (root : AVLNode K V) (dir : Nat) : Except Failure (AVLNode K V) := do
  let save ← root.link (opp dir)
  let root ← root.setLink (opp dir) (← save.link dir)
  save.setLink dir root

/-- The method `double`: the double rotation. The nodes are updated in
the order of the source; `child` is the node `root.link[opp(dir)]`. -/
def double (root : AVLNode K V) (dir : Nat) : Except Failure (AVLNode K V) := do
  let child ← root.link (opp dir)
  let save ← child.link dir
  let child ← child.setLink dir (← save.link (opp dir))
  let save ← save.setLink (opp dir) child
  let root ← root.setLink (opp dir) save
  let save ← root.link (opp dir)
  let root ← root.setLink (opp dir) (← save.link dir)
  save.setLink dir root

/-- The method `adjustBalance`, returning the receiver with the balance
factors of `root`, `n` and `nn` updated. -/
def adjustBalance (root : AVLNode K V) (dir : Nat) (bal : Int) :
    Except Failure (AVLNode K V) := do
  let n ← root.link dir
  let nn ← n.link (opp dir)
  let nnb ← nn.balance
  let root ← root.setBalance (if nnb = 0 then 0 else if nnb = bal then -bal else 0)
  let n ← n.setBalance (if nnb = 0 then 0 else if nnb = bal then 0 else bal)
  let nn ← nn.setBalance 0
  let n ← n.setLink (opp dir) nn
  root.setLink dir n

/-- The method `putBalance`. -/
def putBalance (root : AVLNode K V) (dir : Nat) : Except Failure (AVLNode K V) := do
  let n ← root.link dir
  let bal : Int := 2 * dir - 1
  if (← n.balance) = bal then
    let root ← root.setBalance 0
    let n ← n.setBalance 0
    let root ← root.setLink dir n
    root.single (opp dir)
  else
    let root ← root.adjustBalance dir bal
    root.double (opp dir)

/-- The statements of `putR` that follow the recursive call
`root.link[dir], node, done = root.link[dir].putR(key, value)`, on the
`root` whose link has been assigned. -/
def putR.finish (root : AVLNode K V) (dir : Nat) (node : AVLNode K V) (done : Bool) :
    Except Failure (AVLNode K V × AVLNode K V × Bool) :=
  if done then .ok (root, node, true)
  else do
    let root ← root.setBalance ((← root.balance) + (2 * dir - 1))
    let b ← root.balance
    if b = 0 then .ok (root, node, true)
    else if b = 1 ∨ b = -1 then .ok (root, node, false)
    else do
      let r ← root.putBalance dir
      .ok (r, node, true)

/-- The method `putR`: the new root of the subtree, the old entry if the
key was matched (else nil) and whether the height is settled. -/
def putR [LinearOrder K] : AVLNode K V → K → V →
    Except Failure (AVLNode K V × AVLNode K V × Bool)
  | nil, key, value => .ok (mk key value 0 nil nil, nil, false)
  | mk k v b l0 l1, key, value =>
    if Equal k key then .ok (mk key value b l0 l1, mk k v 0 nil nil, true)
    else if Compare k key < 0 then
      match l1.putR key value with
      | .error e => .error e
      | .ok (c, node, done) => putR.finish (mk k v b l0 c) 1 node done
    else
      match l0.putR key value with
      | .error e => .error e
      | .ok (c, node, done) => putR.finish (mk k v b c l1) 0 node done

/-- The method `removeBalance`. -/
def removeBalance (root : AVLNode K V) (dir : Nat) : Except Failure (AVLNode K V × Bool) := do
  let n ← root.link (opp dir)
  let bal : Int := 2 * dir - 1
  let nb ← n.balance
  if nb = -bal then
    let root ← root.setBalance 0
    let n ← n.setBalance 0
    let root ← root.setLink (opp dir) n
    let r ← root.single dir
    .ok (r, false)
  else if nb = bal then
    let root ← root.adjustBalance (opp dir) (-bal)
    let r ← root.double dir
    .ok (r, false)
  else
    let root ← root.setBalance (-bal)
    let n ← n.setBalance bal
    let root ← root.setLink (opp dir) n
    let r ← root.single dir
    .ok (r, true)

/-- The loop `for heir.link[1] != nil { heir = heir.link[1] }` of `removeR`,
from a non-nil `heir`: the key and value of the last node on the right
spine. -/
def removeR.heir : K → V → AVLNode K V → K × V
  | k, v, nil => (k, v)
  | _, _, mk k v _ _ l1 => removeR.heir k v l1

/-- The statements of `removeR` that follow the recursive call
`root.link[dir], node, done = root.link[dir].removeR(key)`, on the `root`
whose link has been assigned. -/
def removeR.finish (root : AVLNode K V) (dir : Nat) (found node : AVLNode K V) (done : Bool) :
    Except Failure (AVLNode K V × AVLNode K V × Bool) :=
  let found := if IsNil found then node else found
  if done then .ok (root, found, true)
  else do
    let root ← root.setBalance ((← root.balance) + (1 - 2 * dir))
    let b ← root.balance
    if b = 1 ∨ b = -1 then .ok (root, found, true)
    else if b = 0 then .ok (root, found, false)
    else do
      let (resultRoot, resultDone) ← root.removeBalance dir
      .ok (resultRoot, found, resultDone)

/-- The method `removeR`: the new root of the subtree, the removed entry (nil
if the key was not matched) and whether the height is settled. When the
matched node has two children its entry is replaced by the one of its
in-order predecessor `heir`, which is then removed from the left subtree. -/
def removeR [LinearOrder K] : AVLNode K V → K → Except Failure (AVLNode K V × AVLNode K V × Bool)
  | nil, _ => .ok (nil, nil, true)
  | mk k v b l0 l1, key =>
    if Equal k key then
      match l0 with
      | nil => .ok (l1, mk k v 0 nil nil, false)
      | mk k0 v0 b0 l00 l01 =>
        match l1 with
        | nil => .ok (mk k0 v0 b0 l00 l01, mk k v 0 nil nil, false)
        | mk k1 v1 b1 l10 l11 =>
          let h := removeR.heir k0 v0 l01
          if Compare h.1 h.1 < 0 then
            match (mk k1 v1 b1 l10 l11).removeR h.1 with
            | .error e => .error e
            | .ok (c, node, done) =>
              removeR.finish (mk h.1 h.2 b (mk k0 v0 b0 l00 l01) c) 1 (mk k v 0 nil nil) node done
          else
            match (mk k0 v0 b0 l00 l01).removeR h.1 with
            | .error e => .error e
            | .ok (c, node, done) =>
              removeR.finish (mk h.1 h.2 b c (mk k1 v1 b1 l10 l11)) 0 (mk k v 0 nil nil) node done
    else if Compare k key < 0 then
      match l1.removeR key with
      | .error e => .error e
      | .ok (c, node, done) => removeR.finish (mk k v b l0 c) 1 nil node done
    else
      match l0.removeR key with
      | .error e => .error e
      | .ok (c, node, done) => removeR.finish (mk k v b c l1) 0 nil node done

/-- The method `getR`; it panics on a nil receiver. -/
def getR [LinearOrder K] : AVLNode K V → K → Except Failure (AVLNode K V)
  | nil, _ => .error .panic
  | mk k v b l0 l1, key =>
    if Equal k key then .ok (mk k v b l0 l1)
    else if Compare k key < 0 then
      match l1 with
      | nil => .ok nil
      | mk k1 v1 b1 l10 l11 => (mk k1 v1 b1 l10 l11).getR key
    else
      match l0 with
      | nil => .ok nil
      | mk k0 v0 b0 l00 l01 => (mk k0 v0 b0 l00 l01).getR key

end AVLNode

namespace AVLTree

variable {K V : Type} [LinearOrder K]

/-- The method `AVLTree.Get`. -/
def Get (t : AVLTree K V) (data : K) : Except Failure (AVLNode K V) :=
  match t.root with
  | .nil => .ok .nil
  | root => root.getR data

/-- The method `AVLTree.Put`: the tree after the call and the returned node;
`key = none` is the nil key. -/
def Put (t : AVLTree K V) (key : Option K) (value : V) :
    Except Failure (AVLTree K V × AVLNode K V) :=
  match key with
  | none => .error .panic
  | some key =>
    match t.root with
    | .nil => .ok ({ root := .mk key value 0 .nil .nil, size := t.size + 1 }, .nil)
    | root =>
      match root.putR key value with
      | .error e => .error e
      | .ok (r, node, _) =>
        .ok ({ root := r, size := if IsNil node then t.size + 1 else t.size }, node)

/-- The method `AVLTree.Remove`: the tree after the call and the returned
node; `key = none` is the nil key. -/
def Remove (t : AVLTree K V) (key : Option K) : Except Failure (AVLTree K V × AVLNode K V) :=
  match key with
  | none => .error .panic
  | some key =>
    match t.root.removeR key with
    | .error e => .error e
    | .ok (r, node, _) =>
      .ok ({ root := r, size := if !IsNil node then t.size - 1 else t.size }, node)

/-- The method `AVLTree.Size`. -/
def Size (t : AVLTree K V) : Int := t.size

end AVLTree

/-- The struct `AVLIterator`. The stack `paths` grows at its end; the field
`end` of the source is `stop` here. -/
structure AVLIterator (K V : Type) where
  initialized : Bool
  paths : List (AVLNode K V)
  currNode : AVLNode K V
  currPos : Int
  start : Option K
  stop : Option K

namespace AVLIterator

variable {K V : Type} [LinearOrder K]

/-- The loop `for iter.currNode != nil && iter.currNode.link[0] != nil` of
`NewAVLIterator` (and, from a non-nil node, the loop
`for i.currNode.link[0] != nil` of `advance`): the stack and the node
reached by going down the left links. -/
def descend : List (AVLNode K V) → AVLNode K V → List (AVLNode K V) × AVLNode K V
  | paths, .nil => (paths, .nil)
  | paths, .mk k v b .nil l1 => (paths, .mk k v b .nil l1)
  | paths, .mk k v b (.mk k0 v0 b0 l00 l01) l1 =>
    descend (paths ++ [.mk k v b (.mk k0 v0 b0 l00 l01) l1]) (.mk k0 v0 b0 l00 l01)

/-- The expression `n.key`; it panics on a nil `n`. -/
def key : AVLNode K V → Except Failure K
  | .nil => .error .panic
  | .mk k _ _ _ _ => .ok k

/-- The loop `for comp := i.start.Compare(i.currNode.key); comp < 0; {...}`
of `advance`, run for at most the given number of iterations (`none` when
they are used up): the stack and the current node after the loop, and
whether `advance` returned from inside the loop. -/
def advance.startLoop (start : K) :
    Nat → List (AVLNode K V) → AVLNode K V →
      Option (Except Failure (List (AVLNode K V) × AVLNode K V × Bool))
  | 0, _, _ => none
  | fuel + 1, paths, currNode =>
    match key currNode with
    | .error e => some (.error e)
    | .ok k =>
      if Compare start k < 0 then
        match currNode.link 1 with
        | .error e => some (.error e)
        | .ok .nil =>
          match paths.getLast? with
          | none => some (.ok (paths, .nil, true))
          | some top => advance.startLoop start fuel paths.dropLast top
        | .ok next => advance.startLoop start fuel paths next
      else some (.ok (paths, currNode, false))

/-- The loop `for comp := i.currNode.key.Compare(i.end); comp >= 0; {...}` of
`advance`, run for at most the given number of iterations. -/
def advance.stopLoop (stop : K) :
    Nat → List (AVLNode K V) → AVLNode K V →
      Option (Except Failure (List (AVLNode K V) × AVLNode K V × Bool))
  | 0, _, _ => none
  | fuel + 1, paths, currNode =>
    match key currNode with
    | .error e => some (.error e)
    | .ok k =>
      if Compare k stop ≥ 0 then
        match paths.getLast? with
        | none => some (.ok (paths, .nil, true))
        | some top => advance.stopLoop stop fuel paths.dropLast top
      else some (.ok (paths, currNode, false))

/-- The number of nodes of a subtree. -/
def nodes : AVLNode K V → Nat
  | .nil => 0
  | .mk _ _ _ l0 l1 => nodes l0 + 1 + nodes l1

/-- The statements of `advance` from `if i.start != nil` on. They are
reached with `currPos` equal to 0, so that the assignments `i.currPos = 0`
in the loops change nothing. The loops are given more iterations than the
stack and the current subtree hold nodes; `none` is returned when a loop
uses them up. -/
def advance.range (i : AVLIterator K V) : Option (Except Failure (AVLIterator K V)) :=
  let fuel := (i.paths.map nodes).sum + nodes i.currNode + 1
  let afterStart : Option (Except Failure (AVLIterator K V × Bool)) :=
    match i.start with
    | none => some (.ok (i, false))
    | some start =>
      match advance.startLoop start fuel i.paths i.currNode with
      | none => none
      | some (.error e) => some (.error e)
      | some (.ok (paths, currNode, true)) =>
        some (.ok ({ i with paths := paths, currNode := currNode }, true))
      | some (.ok (paths, currNode, false)) =>
        some (.ok ({ i with paths := paths, currNode := currNode, start := none }, false))
  match afterStart with
  | none => none
  | some (.error e) => some (.error e)
  | some (.ok (i, true)) => some (.ok i)
  | some (.ok (i, false)) =>
    match i.stop with
    | none => some (.ok i)
    | some stop =>
      match advance.stopLoop stop fuel i.paths i.currNode with
      | none => none
      | some (.error e) => some (.error e)
      | some (.ok (paths, currNode, true)) =>
        some (.ok { i with paths := paths, currNode := currNode, stop := none })
      | some (.ok (paths, currNode, false)) =>
        some (.ok { i with paths := paths, currNode := currNode })

/-- The method `advance`. -/
def advance (i : AVLIterator K V) : Option (Except Failure (AVLIterator K V)) :=
  let popped : Option (AVLIterator K V) :=
    match i.currNode with
    | .nil =>
      match i.paths.getLast? with
      | none => none
      | some top => some { i with currNode := top, currPos := 0, paths := i.paths.dropLast }
    | _ => some i
  match popped with
  | none => some (.ok i)
  | some i =>
    if i.currPos = 0 then advance.range i
    else if i.currPos = 1 then
      match i.currNode.link 1 with
      | .error e => some (.error e)
      | .ok .nil =>
        match i.paths.getLast? with
        | some top =>
          advance.range { i with currNode := top, currPos := 0, paths := i.paths.dropLast }
        | none => some (.ok { i with currNode := .nil, start := none, stop := none })
      | .ok next =>
        advance.range
          { i with paths := (descend i.paths next).1, currNode := (descend i.paths next).2,
                   currPos := 0 }
    else some (.error .panic)

/-- The method `Next`: the iterator after the call and the returned node (a
copy of the current entry, or nil). -/
def Next (i : AVLIterator K V) : Option (Except Failure (AVLIterator K V × AVLNode K V)) :=
  match advance i with
  | none => none
  | some (.error e) => some (.error e)
  | some (.ok i) =>
    match i.paths, i.currNode with
    | [], .nil => some (.ok (i, .nil))
    | _, .nil => some (.error .panic)
    | _, .mk k v _ _ _ => some (.ok ({ i with currPos := 1 }, .mk k v 0 .nil .nil))

end AVLIterator

/-- The constructor `NewAVLIterator`. -/
def NewAVLIterator {K V : Type} [LinearOrder K] (root : AVLNode K V) (start stop : Option K) :
    Except Failure (AVLIterator K V) :=
  let iter : AVLIterator K V :=
    { initialized := false, paths := (AVLIterator.descend [] root).1,
      currNode := (AVLIterator.descend [] root).2, currPos := 0, start := none, stop := none }
  match start, stop with
  | none, none => .ok iter
  | some s, some e =>
    if Compare s e > 0 then .error .panic else .ok { iter with start := start, stop := stop }
  | _, _ => .ok { iter with start := start, stop := stop }

/-- The method `AVLTree.RangeIterator`. -/
def AVLTree.RangeIterator {K V : Type} [LinearOrder K] (t : AVLTree K V) (start stop : Option K) :
    Except Failure (AVLIterator K V) :=
  NewAVLIterator t.root start stop

/-- The method `AVLTree.Iterator`. -/
def AVLTree.Iterator {K V : Type} [LinearOrder K] (t : AVLTree K V) :
    Except Failure (AVLIterator K V) :=
  NewAVLIterator t.root none none

end collection

namespace collection

variable {K V : Type}

/-- The entries of a subtree in symmetric order: left subtree, node, right
subtree. -/
def AVLNode.inorder : AVLNode K V → List (K × V)
  | .nil => []
  | .mk k v _ l0 l1 => l0.inorder ++ (k, v) :: l1.inorder

/-- The height of a subtree. -/
def AVLNode.height : AVLNode K V → Nat
  | .nil => 0
  | .mk _ _ _ l0 l1 => 1 + max l0.height l1.height

/-- The balance field of every node is the height of its right subtree minus
the height of its left subtree, and it is -1, 0 or 1. -/
def AVLNode.Balanced : AVLNode K V → Prop
  | .nil => True
  | .mk _ _ b l0 l1 =>
    b = (l1.height : Int) - (l0.height : Int) ∧ -1 ≤ b ∧ b ≤ 1 ∧ l0.Balanced ∧ l1.Balanced

/-- The keys of a list of entries are strictly increasing. -/
def Sorted [LinearOrder K] (l : List (K × V)) : Prop := l.Pairwise (fun a b => a.1 < b.1)

/-- The keys of a subtree are strictly increasing in symmetric order. -/
def AVLNode.Ordered [LinearOrder K] (t : AVLNode K V) : Prop := Sorted t.inorder

/-- The key and value that a node holds (nothing for the nil pointer). -/
def AVLNode.entry : AVLNode K V → Option (K × V)
  | .nil => none
  | .mk k v _ _ _ => some (k, v)

/-- The node that `Put` and `Remove` return for an entry: a fresh node
holding its key and value, or nil for no entry. -/
def AVLNode.ofEntry : Option (K × V) → AVLNode K V
  | none => .nil
  | some (k, v) => .mk k v 0 .nil .nil

/-- The value bound to a key in a list of entries. -/
def assocFind [LinearOrder K] (k : K) : List (K × V) → Option V
  | [] => none
  | (a, w) :: xs => if k = a then some w else assocFind k xs

/-- A sorted list of entries with the key bound to the value: the entry of
an equal key is replaced, else the new entry is put at its place. -/
def assocPut [LinearOrder K] (k : K) (v : V) : List (K × V) → List (K × V)
  | [] => [(k, v)]
  | (a, w) :: xs =>
    if k < a then (k, v) :: (a, w) :: xs
    else if k = a then (k, v) :: xs
    else (a, w) :: assocPut k v xs

/-- A list of entries without the first entry of the key. -/
def assocDel [LinearOrder K] (k : K) : List (K × V) → List (K × V)
  | [] => []
  | (a, w) :: xs => if k = a then xs else (a, w) :: assocDel k xs

/-- The trees that `Put` and `Remove` calls build from the empty tree. -/
inductive Reached [LinearOrder K] : AVLTree K V → Prop where
  | new : Reached NewAVLTree
  | put (t t1 : AVLTree K V) (k : K) (v : V) (r : AVLNode K V) :
    Reached t → t.Put (some k) v = .ok (t1, r) → Reached t1
  | remove (t t1 : AVLTree K V) (k : K) (r : AVLNode K V) :
    Reached t → t.Remove (some k) = .ok (t1, r) → Reached t1

end collection

/-! ## The minimal perfect hash of `src/util/mph_util.go` -/

namespace util

/-- Modelled from the spec: the helper `TestEq` of the package, not among the
sources, applied to two byte slices: true exactly when they hold the same
bytes. -/
def TestEq (a b : Bytes) : Bool := decide (a = b)

namespace MurmurSeed

/-- The constant `c1`. -/
def c1 : Nat := 0xcc9e2d51

/-- The constant `c2`. -/
def c2 : Nat := 0x1b873593

/-- The constant `r1Left`. -/
def r1Left : Nat := 15

/-- The constant `r1Right`. -/
def r1Right : Nat := 32 - r1Left

/-- The constant `r2Left`. -/
def r2Left : Nat := 13

/-- The constant `r2Right`. -/
def r2Right : Nat := 32 - r2Left

/-- The constant `m`. -/
def m : Nat := 5

/-- The constant `n`. -/
def n : Nat := 0xe6546b64

/-- The statements `k *= c1; k = (k << r1Left) | (k >> r1Right); k *= c2`
on a `uint32`. -/
def hash.scramble (k : Nat) : Nat :=
  let k := k * c1 % 2 ^ 32
  let k := (k <<< r1Left % 2 ^ 32) ||| (k >>> r1Right)
  k * c2 % 2 ^ 32

/-- The loop `for _, k := range blocks` of `hash`. The slice `blocks` is the
memory of `b` read as `len(b) / 4` words of 32 bits, taken here in
little-endian byte order. -/
def hash.blocks : Nat → Bytes → Nat
  | h, b0 :: b1 :: b2 :: b3 :: rest =>
    let k := b0 + b1 * 2 ^ 8 + b2 * 2 ^ 16 + b3 * 2 ^ 24
    let h := h ^^^ hash.scramble k
    let h := (h <<< r2Left % 2 ^ 32) ||| (h >>> r2Right)
    hash.blocks ((h * m + n) % 2 ^ 32) rest
  | h, _ => h

/-- The method `MurmurSeed.hash`: the 32-bit Murmur3 hash of `b` with the
seed `ms`. -/
def hash (ms : Nat) (b : Bytes) : Nat :=
  let h := hash.blocks (ms % 2 ^ 32) b
  let l := b.length
  let ntail := l &&& 3
  let itail := l - ntail
  let k := 0
  let k := if ntail = 3 then k ^^^ (b.getD (itail + 2) 0 <<< 16 % 2 ^ 32) else k
  let k := if ntail = 3 ∨ ntail = 2 then k ^^^ (b.getD (itail + 1) 0 <<< 8 % 2 ^ 32) else k
  let h := if ntail = 3 ∨ ntail = 2 ∨ ntail = 1 then
      h ^^^ hash.scramble (k ^^^ b.getD itail 0)
    else h
  let h := h ^^^ (l % 2 ^ 32)
  let h := h ^^^ (h >>> 16)
  let h := h * 0x85ebca6b % 2 ^ 32
  let h := h ^^^ (h >>> 13)
  let h := h * 0xc2b2ae35 % 2 ^ 32
  h ^^^ (h >>> 16)

end MurmurSeed

/-- The struct `MPHTable`; the masks, which are never negative, are natural
numbers. -/
structure MPHTable where
  keys : List Bytes
  level0 : List Nat
  level0Mask : Nat
  level1 : List Nat
  level1Mask : Nat
  deriving Repr

/-- The struct `indexBucket`. -/
structure indexBucket where
  n : Nat
  vals : List Nat
  deriving Repr

/-- The method `bySize.Less`, on the two buckets at the compared indexes. -/
def bySize.Less (a b : indexBucket) : Bool := a.vals.length > b.vals.length

/-- The loop of `nextPow2`, run for at most the given number of iterations
(`none` when they are used up). -/
def nextPow2.loop (n : Nat) : Nat → Nat → Option Nat
  | 0, _ => none
  | fuel + 1, i => if i ≥ n then some i else nextPow2.loop n fuel (i * 2)

/-- The function `nextPow2`. The variable `i` is an `int` of 64 bits: after
the 63 values from 1 to `2 ^ 62` the product `i * 2` wraps to a negative
number and then to 0, where it stays, so that for `n` above `2 ^ 62` the loop
does not end (`none`). -/
def nextPow2 (n : Nat) : Option Nat := nextPow2.loop n 63 1

/-- The loop `for i, s := range keys` of `MPHBuild`, from the index `i`. -/
def MPHBuild.fill (level0Mask : Nat) :
    List Bytes → Nat → List (List Nat) → Except Failure (List (List Nat))
  | [], _, sparseBuckets => .ok sparseBuckets
  | s :: keys, i, sparseBuckets =>
    let n := MurmurSeed.hash 0 s &&& level0Mask
    match sparseBuckets[n]? with
    | none => .error .panic
    | some vals => MPHBuild.fill level0Mask keys (i + 1) (sparseBuckets.set n (vals ++ [i]))

/-- The loop `for n, vals := range sparseBuckets` of `MPHBuild`, from the
index `n`. -/
def MPHBuild.collect : List (List Nat) → Nat → List indexBucket → List indexBucket
  | [], _, buckets => buckets
  | vals :: rest, n, buckets =>
    MPHBuild.collect rest (n + 1) (if vals.length > 0 then buckets ++ [⟨n, vals⟩] else buckets)

/-- The loop `for _, n := range tmpOcc { occ[n] = false }`. -/
def MPHBuild.release : List Nat → List Bool → Except Failure (List Bool)
  | [], occ => .ok occ
  | n :: tmpOcc, occ =>
    if n < occ.length then MPHBuild.release tmpOcc (occ.set n false) else .error .panic

/-- The loop `for _, i := range bucket.vals` of `MPHBuild` for one seed: the
slices `occ` and `level1` after it, and whether it ran to its end (`true`) or
met an occupied slot, released the slots of `tmpOcc` and left for the next
seed (`false`). -/
def MPHBuild.place (keys : List Bytes) (level1Mask seed : Nat) :
    List Nat → List Bool → List Nat → List Nat → Except Failure (List Bool × List Nat × Bool)
  | [], occ, _, level1 => .ok (occ, level1, true)
  | i :: vals, occ, tmpOcc, level1 =>
    match keys[i]? with
    | none => .error .panic
    | some key =>
      let n := MurmurSeed.hash seed key &&& level1Mask
      match occ[n]? with
      | none => .error .panic
      | some true =>
        match MPHBuild.release tmpOcc occ with
        | .error e => .error e
        | .ok occ => .ok (occ, level1, false)
      | some false =>
        if n < level1.length then
          MPHBuild.place keys level1Mask seed vals (occ.set n true) (tmpOcc ++ [n])
            (level1.set n (i % 2 ^ 32))
        else .error .panic

/-- The statements from the label `trySeed` to the end of the loop over
`bucket.vals`, repeated with `seed++` (on a `uint32`) for at most the given
number of seeds (`none` when they are used up): the seed that placed the
bucket, and the slices `occ` and `level1`. -/
def MPHBuild.trySeed (keys : List Bytes) (level1Mask : Nat) (vals : List Nat) :
    Nat → Nat → List Bool → List Nat → Option (Except Failure (Nat × List Bool × List Nat))
  | 0, _, _, _ => none
  | fuel + 1, seed, occ, level1 =>
    match MPHBuild.place keys level1Mask seed vals occ [] level1 with
    | .error e => some (.error e)
    | .ok (occ, level1, true) => some (.ok (seed, occ, level1))
    | .ok (occ, level1, false) =>
      MPHBuild.trySeed keys level1Mask vals fuel ((seed + 1) % 2 ^ 32) occ level1

/-- The loop `for _, bucket := range buckets` of `MPHBuild`, each bucket
trying at most `fuel` seeds: the slices `level0` and `level1` after it. -/
def MPHBuild.assign (keys : List Bytes) (level1Mask fuel : Nat) :
    List indexBucket → List Nat → List Nat → List Bool →
      Option (Except Failure (List Nat × List Nat))
  | [], level0, level1, _ => some (.ok (level0, level1))
  | bucket :: buckets, level0, level1, occ =>
    match MPHBuild.trySeed keys level1Mask bucket.vals fuel 0 occ level1 with
    | none => none
    | some (.error e) => some (.error e)
    | some (.ok (seed, occ, level1)) =>
      if bucket.n < level0.length then
        MPHBuild.assign keys level1Mask fuel buckets (level0.set bucket.n seed) level1 occ
      else some (.error .panic)

/-- The function `MPHBuild`. The argument `sort` stands for the library call
`sort.Sort(bySize(buckets))`, and every bucket tries at most `fuel` seeds:
the result is `none` when a loop of the source does not end within them. -/
def MPHBuild (sort : List indexBucket → List indexBucket) (fuel : Nat) (keys : List Bytes) :
    Option (Except Failure MPHTable) :=
  match nextPow2 (keys.length / 4), nextPow2 keys.length with
  | some len0, some len1 =>
    let level0 := List.replicate len0 0
    let level0Mask := level0.length - 1
    let level1 := List.replicate len1 0
    let level1Mask := level1.length - 1
    let sparseBuckets : List (List Nat) := List.replicate level0.length []
    match MPHBuild.fill level0Mask keys 0 sparseBuckets with
    | .error e => some (.error e)
    | .ok sparseBuckets =>
      let buckets := sort (MPHBuild.collect sparseBuckets 0 [])
      let occ := List.replicate level1.length false
      match MPHBuild.assign keys level1Mask fuel buckets level0 level1 occ with
      | none => none
      | some (.error e) => some (.error e)
      | some (.ok (level0, level1)) =>
        some (.ok
          { keys := keys, level0 := level0, level0Mask := level0Mask,
            level1 := level1, level1Mask := level1Mask })
  | _, _ => none

/-- The method `MPHTable.Lookup`; an index out of range is a panic. -/
def MPHTable.Lookup (t : MPHTable) (s : Bytes) : Except Failure (Nat × Bool) :=
  let i0 := MurmurSeed.hash 0 s &&& t.level0Mask
  match t.level0[i0]? with
  | none => .error .panic
  | some seed =>
    let i1 := MurmurSeed.hash seed s &&& t.level1Mask
    match t.level1[i1]? with
    | none => .error .panic
    | some n =>
      match t.keys[n]? with
      | none => .error .panic
      | some key => .ok (n, TestEq s key)

/-- The slots occupied in `occ` are occupied in `occ1` and hold in `level11`
what they hold in `level1`; the slices keep their lengths. -/
def MPHBuild.Kept (occ : List Bool) (level1 : List Nat) (occ1 : List Bool)
    (level11 : List Nat) : Prop :=
  occ1.length = occ.length ∧ level11.length = level1.length ∧
    ∀ s : Nat, occ[s]? = some true → occ1[s]? = some true ∧ level11[s]? = level1[s]?

/-- A sort of the buckets by decreasing size, by insertion; one of the
orders that `sort.Sort(bySize(buckets))` may produce. -/
def sortBySize (buckets : List indexBucket) : List indexBucket :=
  buckets.insertionSort (fun a b => a.vals.length ≥ b.vals.length)

end util

/-! ## Further notions used to state the properties -/

/-- Exactly one of the three answers is true. -/
def exactlyOne (p a r : Bool) : Bool :=
  (p && !a && !r) || (!p && a && !r) || (!p && !a && r)

namespace collection

variable {K V : Type}

/-- The binary-search order of a subtree: at every node the keys of the left
subtree are below the key of the node and the keys of the right subtree are
above it. -/
def AVLNode.IsSearchTree [LinearOrder K] : AVLNode K V → Prop
  | .nil => True
  | .mk k _ _ l0 l1 =>
    (∀ x ∈ l0.inorder, x.1 < k) ∧ (∀ y ∈ l1.inorder, k < y.1) ∧
      l0.IsSearchTree ∧ l1.IsSearchTree

end collection

/-! ## The loop of `DataAt` with its 16-bit counter, and the children of a mapped array -/

namespace StandardMappedData

/-- The loop `for i := uint16(0); i <= idx; i++` of `DataAt` as the source
writes it, with a counter of 16 bits that wraps around: the body runs at
most `fuel` times, and the result is `none` when the condition still holds
after them. -/
def DataAt.loop16 (content : Bytes) (idx : Nat) :
    Nat → Nat → Nat → List (Slot StandardMappedData) →
      Option (List (Slot StandardMappedData) × Except Failure Unit)
  | 0, i, _, data_array => if i ≤ idx then none else some (data_array, .ok ())
  | fuel + 1, i, pos, data_array =>
    if i ≤ idx then
      match data_array.get? i with
      | none => some (data_array, .error .panic)
      | some .empty =>
        if content.length < pos then some (data_array, .error .error)
        else
          match NewStandardMappedData (content.drop pos) with
          | .error e => some (data_array.set i .nilPtr, .error e)
          | .ok c =>
            DataAt.loop16 content idx fuel ((i + 1) % 65536) (pos + c.Buf.length)
              (data_array.set i (.ptr c))
      | some .nilPtr => some (data_array, .error .panic)
      | some (.ptr c) =>
        DataAt.loop16 content idx fuel ((i + 1) % 65536) (pos + c.Buf.length) data_array
    else some (data_array, .ok ())

/-- The method `StandardMappedData.DataAt` with the loop `DataAt.loop16`:
`none` when the loop does not end within `fuel` runs of its body. -/
def DataAt16 (fuel : Nat) (d : StandardMappedData) (idx : Nat) :
    Option (StandardMappedData × Except Failure (Slot StandardMappedData)) :=
  if !d.decoded then some (d, .error .panic)
  else
    match d.data_array with
    | none => some (d, .error .error)
    | some data_array =>
      if idx ≥ d.size then some (d, .error .error)
      else
        match data_array.get? idx with
        | none => some (d, .error .panic)
        | some (.ptr c) => some (d, .ok (.ptr c))
        | some .nilPtr => some (d, .ok .nilPtr)
        | some .empty =>
          match DataAt.loop16 d.content idx fuel 0 0 data_array with
          | none => none
          | some (data_array1, .error e) =>
            some (mk d.decoded d.buf (some data_array1) d.record_list d.size d.content, .error e)
          | some (data_array1, .ok _) =>
            match data_array1.get? idx with
            | none =>
              some (mk d.decoded d.buf (some data_array1) d.record_list d.size d.content,
                .error .panic)
            | some s =>
              some (mk d.decoded d.buf (some data_array1) d.record_list d.size d.content, .ok s)

end StandardMappedData

/-- The offset in the content of a mapped data array at which the child `j`
starts: the sum of the lengths of the buffers of the children before it,
each decoded at its own offset (`none` when one of them does not decode). -/
def childOffset (content : Bytes) : Nat → Option Nat
  | 0 => some 0
  | j + 1 =>
    match childOffset content j with
    | none => none
    | some pos =>
      match NewStandardMappedData (content.drop pos) with
      | .ok c => some (pos + c.Buf.length)
      | .error _ => none

/-- The view of the child `j` of a mapped data array: the decode of the
content from the offset of the child on. -/
def childView (content : Bytes) (j : Nat) : Option StandardMappedData :=
  match childOffset content j with
  | none => none
  | some pos =>
    match NewStandardMappedData (content.drop pos) with
    | .ok c => some c
    | .error _ => none

/-- A mapped value that `NewStandardMappedData` returned on a buffer of
bytes, after any number of successful `DataAt` calls on it. -/
inductive Viewed : StandardMappedData → Prop where
  | new (b : Bytes) (m : StandardMappedData) :
    (∀ x ∈ b, x < 256) → NewStandardMappedData b = .ok m → Viewed m
  | dataAt (d d1 : StandardMappedData) (idx : Nat) (s : Slot StandardMappedData) :
    Viewed d → d.DataAt idx = (d1, .ok s) → Viewed d1

/-! ## Values built from primitives and data arrays -/

mutual
/-- The value is built from primitives and data arrays only, at every
depth. -/
def IData.isPlain : IData → Bool
  | .simple _ => false
  | .standard _ => false
  | .primitive _ => true
  | .recordList _ => false
  | .dataArray _ _ data_array => isPlainOpt data_array
/-- The children of the slice, if any, are built from primitives and data
arrays only. -/
def isPlainOpt : Option (List IData) → Bool
  | none => true
  | some data_array => isPlainList data_array
/-- Every value of the list is built from primitives and data arrays only. -/
def isPlainList : List IData → Bool
  | [] => true
  | c :: cs => c.isPlain && isPlainList cs
end

/-- The property of an encoding that re-encoding needs: when the encoding
followed by any bytes decodes, the view spans exactly the encoding, and every
successful `CopyConstruct` of the view returns a value whose `Encode(false)`
returns the encoding. -/
def Relifts (ops : RecordOps) (b : Bytes) : Prop :=
  ∀ t m, (∀ x ∈ b ++ t, x < 256) → NewStandardMappedData (b ++ t) = .ok m →
    m.Buf = b ∧ ∀ fuel c, m.CopyConstruct ops fuel = some (.ok c) →
      ∃ code, (c.Encode false).2 = .ok (b, code)

/-! ## Values whose records return from `Encode()` -/

/-- The `Encode()` call of the record returns, with a buffer or with an
error: it does not panic. -/
def Record.returns (r : Record) : Bool :=
  match r.Encode with
  | .error .panic => false
  | _ => true

mutual
/-- The `Encode()` call of every record held by the value, at every depth,
returns. -/
def IData.recordsReturn : IData → Bool
  | .simple _ => true
  | .standard _ => true
  | .primitive _ => true
  | .recordList d => (d.record_list.getD []).all Record.returns
  | .dataArray _ _ data_array => recordsReturnOpt data_array
/-- The records held by the children of the slice, if any, return from
`Encode()`. -/
def recordsReturnOpt : Option (List IData) → Bool
  | none => true
  | some data_array => recordsReturnList data_array
/-- The records held by the values of the list return from `Encode()`. -/
def recordsReturnList : List IData → Bool
  | [] => true
  | c :: cs => c.recordsReturn && recordsReturnList cs
end

/-! ## Auxiliary facts -/

theorem shiftRight8_mod (x : Nat) : (x >>> 8) % 256 = x / 256 % 256 := by
  rw [Nat.shiftRight_eq_div_pow]

theorem and3_eq_mod (x : Nat) : x &&& 3 = x % 4 := Nat.and_pow_two_sub_one_eq_mod x 2

theorem loop_of_forall₂ (arr : List IData) (bufs : List Bytes)
    (h : List.Forall₂ (fun c b => ∃ code, (c.Encode false).2 = .ok (b, code)) arr bufs) :
    (DataArray.Encode.loop arr).2 = .ok bufs.flatten := by
  induction h with
  | nil => simp [DataArray.Encode.loop]
  | @cons c b cs bs hc _ ih =>
    obtain ⟨code, hc⟩ := hc
    rw [DataArray.Encode.loop]
    rcases hce : c.Encode false with ⟨c1, r⟩
    rw [hce] at hc
    simp only at hc
    subst hc
    rcases hl : DataArray.Encode.loop cs with ⟨cs1, r2⟩
    rw [hl] at ih
    simp only at ih
    subst ih
    simp

theorem recordLoop_of_map (recs : List Record) (bufs : List Bytes)
    (h : recs.map Record.Encode = bufs.map Except.ok) :
    RecordList.Encode.loop recs = .ok bufs.flatten := by
  induction recs generalizing bufs with
  | nil =>
    cases bufs with
    | nil => simp [RecordList.Encode.loop]
    | cons b bs => simp at h
  | cons r rs ih =>
    cases bufs with
    | nil => simp at h
    | cons b bs =>
      simp only [List.map_cons, List.cons.injEq] at h
      rw [RecordList.Encode.loop, h.1, ih bs h.2]
      simp

theorem encodeSize_eq (shift n : Nat) (h1 : 1 ≤ n) (h2 : n ≤ 65535) :
    encodeSize shift n = .ok ([codeOf n <<< shift] ++ bigEndian (codeOf n) n) := by
  unfold encodeSize codeOf bigEndian orHead
  by_cases h : n < 256
  · have h0 : n ≠ 0 := by omega
    simp [h, h0]
  · have h0 : n ≠ 0 := by omega
    have h3 : n < 65536 := by omega
    simp [h, h0, h3, shiftRight8_mod]

theorem encodeContent_eq (h0 : Nat) (cnt content : Bytes) (h1 : 1 ≤ content.length)
    (h2 : content.length ≤ 65535) :
    encodeContent ([h0] ++ cnt) content =
      .ok ([h0 ||| codeOf content.length] ++ cnt
        ++ bigEndian (codeOf content.length) content.length ++ content) := by
  unfold encodeContent codeOf bigEndian orHead
  by_cases h : content.length < 256
  · have hz : content.length ≠ 0 := by omega
    simp [h, hz]
  · have hz : content.length ≠ 0 := by omega
    have h3 : content.length < 65536 := by omega
    simp [h, hz, h3, shiftRight8_mod]

theorem dataArrayBits_nonzero (d : StandardMappedData) (b0 pos : Nat)
    (ha : (b0 >>> 6) &&& 0x03 ≠ 0) :
    StandardMappedData.Decode.dataArrayBits d b0 pos = .error .error ∨
    ∃ d1 pos1, StandardMappedData.Decode.dataArrayBits d b0 pos = .ok (d1, true, pos1) := by
  cases d with
  | mk decoded buf data_array record_list size content =>
    unfold StandardMappedData.Decode.dataArrayBits
    simp only [ha, if_false]
    split_ifs
    · exact Or.inl rfl
    · exact Or.inr ⟨_, _, rfl⟩
    · exact Or.inl rfl
    · exact Or.inr ⟨_, _, rfl⟩
    · exact Or.inl rfl

theorem recordListBits_conflict (d : StandardMappedData) (b0 pos : Nat)
    (hr : (b0 >>> 4) &&& 0x03 ≠ 0) :
    StandardMappedData.Decode.recordListBits d b0 true pos = .error .error := by
  cases d with
  | mk decoded buf data_array record_list size content =>
    unfold StandardMappedData.Decode.recordListBits
    simp only [hr, if_false, if_true]
    split_ifs <;> rfl

theorem slice_frame (pre content t : Bytes) (lo hi : Nat) (hlo : lo = pre.length)
    (hhi : hi = pre.length + content.length) :
    slice (pre ++ content ++ t) lo hi = .ok content ∧
    slice (pre ++ content ++ t) 0 hi = .ok (pre ++ content) := by
  subst hlo hhi
  unfold slice
  constructor
  · rw [if_pos (by simp)]
    rw [← List.length_append, List.take_left, List.drop_left]
  · rw [if_pos (by simp)]
    rw [← List.length_append, List.take_left, List.drop_zero]

theorem getD_pre (pre rest : Bytes) (k : Nat) :
    (pre ++ rest).getD (pre.length + k) 0 = rest.getD k 0 := by
  rw [List.getD_append_right _ _ _ _ (by omega)]
  congr 1
  omega

theorem dataArrayBits_zero (d : StandardMappedData) (b0 pos : Nat)
    (h : (b0 >>> 6) &&& 0x03 = 0) :
    StandardMappedData.Decode.dataArrayBits d b0 pos = .ok (d, false, pos) := by
  cases d
  simp [StandardMappedData.Decode.dataArrayBits, h]

theorem dataArrayBits_one (dec : Bool) (buf : Bytes) (da : Option (List (Slot StandardMappedData)))
    (rl : Option (List (Slot MappedRecord))) (sz : Nat) (ct : Bytes) (b0 pos : Nat)
    (h : (b0 >>> 6) &&& 0x03 = 1) (hlen : 1 + pos ≤ buf.length) :
    StandardMappedData.Decode.dataArrayBits (.mk dec buf da rl sz ct) b0 pos =
      .ok (.mk dec buf (some (List.replicate (buf.getD pos 0) Slot.empty)) rl (buf.getD pos 0) ct,
        true, (pos + 1) % 65536) := by
  unfold StandardMappedData.Decode.dataArrayBits
  simp only [h]
  split_ifs <;> first | rfl | omega | (exfalso; omega) | contradiction

theorem dataArrayBits_two (dec : Bool) (buf : Bytes) (da : Option (List (Slot StandardMappedData)))
    (rl : Option (List (Slot MappedRecord))) (sz : Nat) (ct : Bytes) (b0 pos : Nat)
    (h : (b0 >>> 6) &&& 0x03 = 2) (hlen : 2 + pos ≤ buf.length) :
    StandardMappedData.Decode.dataArrayBits (.mk dec buf da rl sz ct) b0 pos =
      .ok (.mk dec buf (some (List.replicate (bigEndianUint16 buf pos) Slot.empty)) rl
        (bigEndianUint16 buf pos) ct, true, (pos + 2) % 65536) := by
  unfold StandardMappedData.Decode.dataArrayBits
  simp only [h]
  split_ifs <;> first | rfl | omega | (exfalso; omega) | contradiction

theorem recordListBits_zero (d : StandardMappedData) (b0 pos : Nat) (fmt : Bool)
    (h : (b0 >>> 4) &&& 0x03 = 0) :
    StandardMappedData.Decode.recordListBits d b0 fmt pos = .ok (d, pos) := by
  cases d
  simp [StandardMappedData.Decode.recordListBits, h]

theorem recordListBits_one (dec : Bool) (buf : Bytes) (da : Option (List (Slot StandardMappedData)))
    (rl : Option (List (Slot MappedRecord))) (sz : Nat) (ct : Bytes) (b0 pos : Nat)
    (h : (b0 >>> 4) &&& 0x03 = 1) (hlen : 1 + pos ≤ buf.length) :
    StandardMappedData.Decode.recordListBits (.mk dec buf da rl sz ct) b0 false pos =
      .ok (.mk dec buf da (some (List.replicate (buf.getD pos 0) Slot.empty)) (buf.getD pos 0) ct,
        (pos + 1) % 65536) := by
  unfold StandardMappedData.Decode.recordListBits
  simp only [h]
  split_ifs <;> first | rfl | omega | (exfalso; omega) | contradiction

theorem recordListBits_two (dec : Bool) (buf : Bytes) (da : Option (List (Slot StandardMappedData)))
    (rl : Option (List (Slot MappedRecord))) (sz : Nat) (ct : Bytes) (b0 pos : Nat)
    (h : (b0 >>> 4) &&& 0x03 = 2) (hlen : 2 + pos ≤ buf.length) :
    StandardMappedData.Decode.recordListBits (.mk dec buf da rl sz ct) b0 false pos =
      .ok (.mk dec buf da (some (List.replicate (bigEndianUint16 buf pos) Slot.empty))
        (bigEndianUint16 buf pos) ct, (pos + 2) % 65536) := by
  unfold StandardMappedData.Decode.recordListBits
  simp only [h]
  split_ifs <;> first | rfl | omega | (exfalso; omega) | contradiction

theorem lengthBits_zero (buf : Bytes) (b0 pos : Nat) (h : b0 &&& 0x03 = 0) :
    StandardMappedData.Decode.lengthBits buf b0 pos = .ok (pos, 0) := by
  simp [StandardMappedData.Decode.lengthBits, h]

theorem lengthBits_one (buf : Bytes) (b0 pos : Nat) (h : b0 &&& 0x03 = 1)
    (hlen : 1 + pos + buf.getD pos 0 ≤ buf.length) :
    StandardMappedData.Decode.lengthBits buf b0 pos =
      .ok ((pos + (1 + buf.getD pos 0)) % 65536, buf.getD pos 0) := by
  unfold StandardMappedData.Decode.lengthBits
  simp only [h]
  split_ifs <;> first | rfl | omega | (exfalso; omega) | contradiction

theorem lengthBits_two (buf : Bytes) (b0 pos : Nat) (h : b0 &&& 0x03 = 2)
    (hlen : 2 + pos + bigEndianUint16 buf pos ≤ buf.length) :
    StandardMappedData.Decode.lengthBits buf b0 pos =
      .ok ((pos + (2 + bigEndianUint16 buf pos)) % 65536, bigEndianUint16 buf pos) := by
  unfold StandardMappedData.Decode.lengthBits
  simp only [h]
  split_ifs <;> first | rfl | omega | (exfalso; omega) | contradiction

/-- How `NewStandardMappedData` is assembled from the phases of `Decode`. -/
theorem NewStandardMappedData_of_phases (b0 : Nat) (rest : Bytes)
    (d1 d2 : StandardMappedData) (fmt : Bool) (pos1 pos2 pos cl : Nat) (content buf1 : Bytes)
    (h1 : StandardMappedData.Decode.dataArrayBits
      (StandardMappedData.mk false (b0 :: rest) none none 0 []) b0 1 = .ok (d1, fmt, pos1))
    (h2 : StandardMappedData.Decode.recordListBits d1 b0 fmt pos1 = .ok (d2, pos2))
    (hlk : (b0 >>> 3) &&& 0x01 = 0) (hcp : (b0 >>> 2) &&& 0x01 = 0)
    (h3 : StandardMappedData.Decode.lengthBits d2.buf b0 pos2 = .ok (pos, cl))
    (h4 : slice d2.buf ((pos + 65536 - cl) % 65536) pos = .ok content)
    (h5 : slice d2.buf 0 pos = .ok buf1) :
    NewStandardMappedData (b0 :: rest) =
      .ok (StandardMappedData.mk true buf1 d2.data_array d2.record_list d2.size content) := by
  unfold NewStandardMappedData
  rw [if_neg (by simp)]
  unfold StandardMappedData.Decode
  rw [if_neg (by decide)]
  have hb : (StandardMappedData.mk false (b0 :: rest) none none 0 []).buf = b0 :: rest := rfl
  simp only [hb, h1, h2, hlk, hcp, h3, h4, h5]
  simp


/-- The count phase of `Decode` on a fresh view over `b0 :: (cnt ++ rest)`. -/
theorem decode_count_phase (b0 : Nat) (cnt rest : Bytes) (ac rc n : Nat)
    (hac : (b0 >>> 6) &&& 0x03 = ac) (hrc : (b0 >>> 4) &&& 0x03 = rc)
    (hcnt : (ac = 0 ∧ rc = 0 ∧ cnt = [] ∧ n = 0) ∨ (ac = 1 ∧ rc = 0 ∧ cnt = [n]) ∨
      (ac = 2 ∧ rc = 0 ∧ cnt = [n / 256, n % 256]) ∨ (ac = 0 ∧ rc = 1 ∧ cnt = [n]) ∨
      (ac = 0 ∧ rc = 2 ∧ cnt = [n / 256, n % 256])) :
    ∃ d1 fmt pos1,
      StandardMappedData.Decode.dataArrayBits
        (StandardMappedData.mk false (b0 :: (cnt ++ rest)) none none 0 []) b0 1 = .ok (d1, fmt, pos1) ∧
      StandardMappedData.Decode.recordListBits d1 b0 fmt pos1 =
        .ok (StandardMappedData.mk false (b0 :: (cnt ++ rest))
          (if ac = 0 then none else some (List.replicate n Slot.empty))
          (if rc = 0 then none else some (List.replicate n Slot.empty)) n [], 1 + cnt.length) := by
  have hdm : n / 256 * 256 + n % 256 = n := Nat.div_add_mod' n 256
  rcases hcnt with ⟨rfl, rfl, rfl, rfl⟩ | ⟨rfl, rfl, rfl⟩ | ⟨rfl, rfl, rfl⟩ | ⟨rfl, rfl, rfl⟩ |
    ⟨rfl, rfl, rfl⟩
  · exact ⟨_, _, _, dataArrayBits_zero _ _ _ hac, recordListBits_zero _ _ _ _ hrc⟩
  · refine ⟨_, _, _, dataArrayBits_one _ _ _ _ _ _ _ _ hac (by simp), ?_⟩
    rw [recordListBits_zero _ _ _ _ hrc]
    simp
  · refine ⟨_, _, _, dataArrayBits_two _ _ _ _ _ _ _ _ hac (by simp), ?_⟩
    rw [recordListBits_zero _ _ _ _ hrc]
    simp [bigEndianUint16, hdm]
  · refine ⟨_, _, _, dataArrayBits_zero _ _ _ hac, ?_⟩
    rw [recordListBits_one _ _ _ _ _ _ _ _ hrc (by simp)]
    simp
  · refine ⟨_, _, _, dataArrayBits_zero _ _ _ hac, ?_⟩
    rw [recordListBits_two _ _ _ _ _ _ _ _ hrc (by simp)]
    simp [bigEndianUint16, hdm]

/-- The length phase of `Decode` at offset `pre.length` of the buffer
`pre ++ (lenb ++ (content ++ t))`. -/
theorem decode_length_phase (b0 : Nat) (pre lenb content t : Bytes) (lc : Nat)
    (hlc : b0 &&& 0x03 = lc)
    (hlen : (lc = 0 ∧ lenb = [] ∧ content.length = 0) ∨ (lc = 1 ∧ lenb = [content.length]) ∨
      (lc = 2 ∧ lenb = [content.length / 256, content.length % 256]))
    (htot : pre.length + lenb.length + content.length < 65536) :
    StandardMappedData.Decode.lengthBits (pre ++ (lenb ++ (content ++ t))) b0 pre.length =
      .ok (pre.length + lenb.length + content.length, content.length) := by
  have hdm : content.length / 256 * 256 + content.length % 256 = content.length :=
    Nat.div_add_mod' _ 256
  rcases hlen with ⟨rfl, rfl, h0⟩ | ⟨rfl, rfl⟩ | ⟨rfl, rfl⟩
  · rw [lengthBits_zero _ _ _ hlc, h0]
    rfl
  · have h1 : (pre ++ ([content.length] ++ (content ++ t))).getD pre.length 0 = content.length := by
      have := getD_pre pre ([content.length] ++ (content ++ t)) 0
      simpa using this
    simp only [List.length_cons, List.length_nil] at htot
    rw [lengthBits_one _ _ _ hlc (by rw [h1]; simp; omega), h1, Nat.mod_eq_of_lt (by omega)]
    simp only [List.length_cons, List.length_nil]
    congr 2
    omega
  · have h1 : bigEndianUint16 (pre ++ ([content.length / 256, content.length % 256] ++ (content ++ t)))
        pre.length = content.length := by
      unfold bigEndianUint16
      have e0 := getD_pre pre ([content.length / 256, content.length % 256] ++ (content ++ t)) 0
      have e1 := getD_pre pre ([content.length / 256, content.length % 256] ++ (content ++ t)) 1
      rw [Nat.add_zero] at e0
      rw [e0, e1]
      simpa using hdm
    simp only [List.length_cons, List.length_nil] at htot
    rw [lengthBits_two _ _ _ hlc (by rw [h1]; simp; omega), h1, Nat.mod_eq_of_lt (by omega)]
    simp only [List.length_cons, List.length_nil]
    congr 2
    omega


/-- Decoding a well-formed frame: header `b0`, count field `cnt`, length
field `lenb`, then the content, followed by any bytes `t`. -/
theorem decode_frame (b0 : Nat) (cnt lenb content t : Bytes) (ac rc lc n : Nat)
    (hac : (b0 >>> 6) &&& 0x03 = ac) (hrc : (b0 >>> 4) &&& 0x03 = rc)
    (hlk : (b0 >>> 3) &&& 0x01 = 0) (hcp : (b0 >>> 2) &&& 0x01 = 0)
    (hlc : b0 &&& 0x03 = lc)
    (hcnt : (ac = 0 ∧ rc = 0 ∧ cnt = [] ∧ n = 0) ∨ (ac = 1 ∧ rc = 0 ∧ cnt = [n]) ∨
      (ac = 2 ∧ rc = 0 ∧ cnt = [n / 256, n % 256]) ∨ (ac = 0 ∧ rc = 1 ∧ cnt = [n]) ∨
      (ac = 0 ∧ rc = 2 ∧ cnt = [n / 256, n % 256]))
    (hlen : (lc = 0 ∧ lenb = [] ∧ content.length = 0) ∨ (lc = 1 ∧ lenb = [content.length]) ∨
      (lc = 2 ∧ lenb = [content.length / 256, content.length % 256]))
    (htot : 1 + cnt.length + lenb.length + content.length < 65536) :
    NewStandardMappedData (b0 :: (cnt ++ (lenb ++ (content ++ t)))) =
      .ok (StandardMappedData.mk true (b0 :: (cnt ++ (lenb ++ content)))
        (if ac = 0 then none else some (List.replicate n Slot.empty))
        (if rc = 0 then none else some (List.replicate n Slot.empty)) n content) := by
  obtain ⟨d1, fmt, pos1, h1, h2⟩ :=
    decode_count_phase b0 cnt (lenb ++ (content ++ t)) ac rc n hac hrc hcnt
  have h3 := decode_length_phase b0 (b0 :: cnt) lenb content t lc hlc hlen
    (by simp only [List.length_cons]; omega)
  have hsl := slice_frame ((b0 :: cnt) ++ lenb) content t ((b0 :: cnt).length + lenb.length)
    ((b0 :: cnt).length + lenb.length + content.length) (by simp only [List.length_append])
    (by simp only [List.length_append])
  have hlo : ((b0 :: cnt).length + lenb.length + content.length + 65536 - content.length) % 65536
      = (b0 :: cnt).length + lenb.length := by
    simp only [List.length_cons]
    omega
  have hpos : 1 + cnt.length = (b0 :: cnt).length := by simp only [List.length_cons]; omega
  have hbuf : (b0 :: cnt) ++ (lenb ++ (content ++ t)) = b0 :: (cnt ++ (lenb ++ (content ++ t))) := rfl
  have hbuf2 : (b0 :: cnt) ++ lenb ++ content ++ t = b0 :: (cnt ++ (lenb ++ (content ++ t))) := by
    simp
  have hbuf3 : (b0 :: cnt) ++ lenb ++ content = b0 :: (cnt ++ (lenb ++ content)) := by simp
  rw [hbuf2, hbuf3] at hsl
  rw [hbuf] at h3
  rw [hpos] at h2
  have := NewStandardMappedData_of_phases b0 (cnt ++ (lenb ++ (content ++ t))) d1 _ fmt pos1 _ _ _
    content (b0 :: (cnt ++ (lenb ++ content))) h1 h2 hlk hcp h3 (by rw [hlo]; exact hsl.1) hsl.2
  exact this

/-- Decoding what `Primitive.Encode(false)` produced for non-nil content. -/
theorem decode_of_primitive (d : Primitive) (data buf : Bytes) (code : Nat)
    (hd : d.data = some data) (henc : (d.Encode false).2 = .ok (buf, code))
    (hlen : buf.length < 65536) (t : Bytes) :
    NewStandardMappedData (buf ++ t) = .ok (StandardMappedData.mk true buf none none 0 data) := by
  unfold Primitive.Encode at henc
  rw [hd] at henc
  by_cases h0 : data.length = 0
  · have hnil : data = [] := List.length_eq_zero.mp h0
    subst hnil
    simp at henc
    obtain ⟨rfl, -⟩ := henc
    exact decode_frame 0 [] [] [] t 0 0 0 0 (by decide) (by decide) (by decide) (by decide)
      (by decide) (Or.inl ⟨rfl, rfl, rfl, rfl⟩) (Or.inl ⟨rfl, rfl, rfl⟩) (by decide)
  · by_cases h1 : data.length < 256
    · simp [h0, h1] at henc
      obtain ⟨rfl, -⟩ := henc
      have hm : data.length % 256 = data.length := Nat.mod_eq_of_lt h1
      rw [hm] at hlen ⊢
      have := decode_frame 1 [] [data.length] data t 0 0 1 0 (by decide) (by decide) (by decide)
        (by decide) (by decide) (Or.inl ⟨rfl, rfl, rfl, rfl⟩) (Or.inr (Or.inl ⟨rfl, rfl⟩))
        (by simp at hlen ⊢; omega)
      simpa using this
    · have h2 : data.length < 65536 := by
        by_contra hc
        simp [h0, h1, hc] at henc
      simp [h0, h1, h2] at henc
      obtain ⟨rfl, -⟩ := henc
      have hm : data.length / 256 % 256 = data.length / 256 := by omega
      rw [shiftRight8_mod, hm] at hlen ⊢
      have := decode_frame 2 [] [data.length / 256, data.length % 256] data t 0 0 2 0 (by decide)
        (by decide) (by decide) (by decide) (by decide) (Or.inl ⟨rfl, rfl, rfl, rfl⟩)
        (Or.inr (Or.inr ⟨rfl, rfl⟩)) (by simp at hlen ⊢; omega)
      simpa using this

theorem ite_swap {α : Type} (p q : Prop) [Decidable p] [Decidable q] (h : p ↔ ¬ q) (a b : α) :
    (if p then a else b) = (if q then b else a) := by
  by_cases hq : q <;> simp [hq, h]

/-- The header byte and count field built by `encodeSize`. -/
theorem encodeSize_form (shift n : Nat) (buf1 : Bytes) (hs : shift = 6 ∨ shift = 4)
    (h1 : encodeSize shift n = .ok buf1) :
    ∃ h0 cnt, buf1 = h0 :: cnt ∧ n < 65536 ∧
      (h0 = 0 ∨ h0 = 64 ∨ h0 = 128 ∨ h0 = 16 ∨ h0 = 32) ∧
      (((h0 >>> 6) &&& 0x03 = 0 ∧ (h0 >>> 4) &&& 0x03 = 0 ∧ cnt = [] ∧ n = 0) ∨
        ((h0 >>> 6) &&& 0x03 = 1 ∧ (h0 >>> 4) &&& 0x03 = 0 ∧ cnt = [n]) ∨
        ((h0 >>> 6) &&& 0x03 = 2 ∧ (h0 >>> 4) &&& 0x03 = 0 ∧ cnt = [n / 256, n % 256]) ∨
        ((h0 >>> 6) &&& 0x03 = 0 ∧ (h0 >>> 4) &&& 0x03 = 1 ∧ cnt = [n]) ∨
        ((h0 >>> 6) &&& 0x03 = 0 ∧ (h0 >>> 4) &&& 0x03 = 2 ∧ cnt = [n / 256, n % 256])) ∧
      ((h0 >>> 6) &&& 0x03 = 0 ↔ ¬ (shift = 6 ∧ n ≠ 0)) ∧
      ((h0 >>> 4) &&& 0x03 = 0 ↔ ¬ (shift = 4 ∧ n ≠ 0)) := by
  unfold encodeSize orHead at h1
  by_cases hn0 : n = 0
  · subst hn0
    simp at h1
    subst h1
    exact ⟨0, [], rfl, by decide, Or.inl rfl, Or.inl ⟨by decide, by decide, rfl, rfl⟩,
      iff_of_true (by decide) (fun h => h.2 rfl), iff_of_true (by decide) (fun h => h.2 rfl)⟩
  · by_cases hn1 : n < 256
    · have hm : n % 256 = n := Nat.mod_eq_of_lt hn1
      simp [hn0, hn1] at h1
      rcases hs with rfl | rfl
      · subst h1
        exact ⟨64, [n], by rw [hm]; rfl, by omega, Or.inr (Or.inl rfl),
          Or.inr (Or.inl ⟨by decide, by decide, rfl⟩),
          iff_of_false (by decide) (fun h => h ⟨rfl, hn0⟩),
          iff_of_true (by decide) (fun h => absurd h.1 (by decide))⟩
      · subst h1
        exact ⟨16, [n], by rw [hm]; rfl, by omega, Or.inr (Or.inr (Or.inr (Or.inl rfl))),
          Or.inr (Or.inr (Or.inr (Or.inl ⟨by decide, by decide, rfl⟩))),
          iff_of_true (by decide) (fun h => absurd h.1 (by decide)),
          iff_of_false (by decide) (fun h => h ⟨rfl, hn0⟩)⟩
    · have hn2 : n < 65536 := by
        by_contra hc
        simp [hn0, hn1, hc] at h1
      have hm : n / 256 % 256 = n / 256 := by omega
      simp [hn0, hn1, hn2, shiftRight8_mod, hm] at h1
      rcases hs with rfl | rfl
      · subst h1
        exact ⟨128, [n / 256, n % 256], rfl, hn2, Or.inr (Or.inr (Or.inl rfl)),
          Or.inr (Or.inr (Or.inl ⟨by decide, by decide, rfl⟩)),
          iff_of_false (by decide) (fun h => h ⟨rfl, hn0⟩),
          iff_of_true (by decide) (fun h => absurd h.1 (by decide))⟩
      · subst h1
        exact ⟨32, [n / 256, n % 256], rfl, hn2, Or.inr (Or.inr (Or.inr (Or.inr rfl))),
          Or.inr (Or.inr (Or.inr (Or.inr ⟨by decide, by decide, rfl⟩))),
          iff_of_true (by decide) (fun h => absurd h.1 (by decide)),
          iff_of_false (by decide) (fun h => h ⟨rfl, hn0⟩)⟩

/-- The length code, length field and content appended by `encodeContent`. -/
theorem encodeContent_form (h0 : Nat) (cnt content buf2 : Bytes)
    (h2 : encodeContent (h0 :: cnt) content = .ok buf2) :
    ∃ lc lenb, buf2 = (h0 ||| lc) :: (cnt ++ (lenb ++ content)) ∧ (lc = 0 ∨ lc = 1 ∨ lc = 2) ∧
      ((lc = 0 ∧ lenb = [] ∧ content.length = 0) ∨ (lc = 1 ∧ lenb = [content.length]) ∨
        (lc = 2 ∧ lenb = [content.length / 256, content.length % 256])) := by
  unfold encodeContent orHead at h2
  by_cases hl0 : content.length = 0
  · have hc : content = [] := List.length_eq_zero.mp hl0
    subst hc
    simp at h2
    subst h2
    exact ⟨0, [], by simp, Or.inl rfl, Or.inl ⟨rfl, rfl, rfl⟩⟩
  · by_cases hl1 : content.length < 256
    · have hm : content.length % 256 = content.length := Nat.mod_eq_of_lt hl1
      simp [hl0, hl1] at h2
      subst h2
      exact ⟨1, [content.length], by simp [hl1], Or.inr (Or.inl rfl), Or.inr (Or.inl ⟨rfl, rfl⟩)⟩
    · have hl2 : content.length < 65536 := by
        by_contra hc
        simp [hl0, hl1, hc] at h2
      have hm : content.length / 256 % 256 = content.length / 256 := by omega
      simp [hl0, hl1, hl2, shiftRight8_mod, hm] at h2
      subst h2
      exact ⟨2, [content.length / 256, content.length % 256], by simp, Or.inr (Or.inr rfl),
        Or.inr (Or.inr ⟨rfl, rfl⟩)⟩

/-- Or-ing the length code into a header built by `encodeSize` leaves the
count codes and the reserved bits as they are. -/
theorem header_bits (h0 lc : Nat) (hh : h0 = 0 ∨ h0 = 64 ∨ h0 = 128 ∨ h0 = 16 ∨ h0 = 32)
    (hl : lc = 0 ∨ lc = 1 ∨ lc = 2) :
    ((h0 ||| lc) >>> 6) &&& 0x03 = (h0 >>> 6) &&& 0x03 ∧
    ((h0 ||| lc) >>> 4) &&& 0x03 = (h0 >>> 4) &&& 0x03 ∧
    ((h0 ||| lc) >>> 3) &&& 0x01 = 0 ∧ ((h0 ||| lc) >>> 2) &&& 0x01 = 0 ∧
    (h0 ||| lc) &&& 0x03 = lc := by
  rcases hh with rfl | rfl | rfl | rfl | rfl <;> rcases hl with rfl | rfl | rfl <;> decide

/-- Decoding what `DataArray.Encode` (`shift = 6`) or `RecordList.Encode`
(`shift = 4`) assembled from `n` children and the content `content`. -/
theorem decode_of_container (shift n : Nat) (content buf1 buf2 : Bytes)
    (hs : shift = 6 ∨ shift = 4)
    (h1 : encodeSize shift n = .ok buf1) (h2 : encodeContent buf1 content = .ok buf2)
    (hlen : buf2.length < 65536) (t : Bytes) :
    NewStandardMappedData (buf2 ++ t) =
      .ok (StandardMappedData.mk true buf2
        (if shift = 6 ∧ n ≠ 0 then some (List.replicate n Slot.empty) else none)
        (if shift = 4 ∧ n ≠ 0 then some (List.replicate n Slot.empty) else none) n content) ∧
    n < 65536 ∧ content.length ≤ buf2.length := by
  obtain ⟨h0, cnt, rfl, hn, hh, hcnt, ha, hr⟩ := encodeSize_form shift n buf1 hs h1
  obtain ⟨lc, lenb, rfl, hl, hlenb⟩ := encodeContent_form h0 cnt content buf2 h2
  obtain ⟨b6, b4, b3, b2, b0⟩ := header_bits h0 lc hh hl
  refine ⟨?_, hn, by simp; omega⟩
  have := decode_frame (h0 ||| lc) cnt lenb content t _ _ lc n b6 b4 b3 b2 b0 hcnt hlenb
    (by simp at hlen; omega)
  rw [ite_swap _ _ ha, ite_swap _ _ hr] at this
  simpa using this

/-- What a successful run of the children loop of `DataArray.Encode`
returns: the concatenation of the children's `Encode(false)` buffers. -/
theorem loop_inv (arr : List IData) (content : Bytes)
    (h : (DataArray.Encode.loop arr).2 = .ok content) :
    ∃ bufs, List.Forall₂ (fun c b => ∃ code, (c.Encode false).2 = .ok (b, code)) arr bufs ∧
      content = bufs.flatten := by
  induction arr generalizing content with
  | nil =>
    simp [DataArray.Encode.loop] at h
    exact ⟨[], List.Forall₂.nil, by simp [h]⟩
  | cons c cs ih =>
    rw [DataArray.Encode.loop] at h
    rcases hce : c.Encode false with ⟨c1, r⟩
    rw [hce] at h
    cases r with
    | error e => simp at h
    | ok bc =>
      obtain ⟨b, code⟩ := bc
      simp only at h
      rcases hl : DataArray.Encode.loop cs with ⟨cs1, r2⟩
      rw [hl] at h
      cases r2 with
      | error e => simp at h
      | ok rest =>
        simp only [Except.ok.injEq] at h
        obtain ⟨bufs, hf, hc⟩ := ih rest (by rw [hl])
        refine ⟨b :: bufs, List.Forall₂.cons ⟨code, by rw [hce]⟩ hf, ?_⟩
        rw [← h, hc]
        simp

theorem length_le_flatten (bs : List Bytes) (b : Bytes) (h : b ∈ bs) :
    b.length ≤ bs.flatten.length := by
  induction bs with
  | nil => simp at h
  | cons x xs ih =>
    simp only [List.flatten_cons, List.length_append]
    rcases List.mem_cons.mp h with rfl | h
    · omega
    · have := ih h
      omega

/-- The loop of `DataAt` over a content made of good encodings fills the
next `fuel` slots with views that correspond to the children. -/
theorem DataAt_loop_spec (content : Bytes) (cs : List IData) (bs : List Bytes)
    (h : List.Forall₂ Good cs bs) :
    ∀ (fuel : Nat) (done : List (Slot StandardMappedData)) (pre : Bytes),
      fuel ≤ cs.length → content = pre ++ bs.flatten →
      ∃ ms : List StandardMappedData, ms.length = fuel ∧
        List.Forall₂ Corresponds (cs.take fuel) ms ∧
        StandardMappedData.DataAt.loop content fuel done.length pre.length
            (done ++ List.replicate cs.length Slot.empty)
          = (done ++ ms.map Slot.ptr ++ List.replicate (cs.length - fuel) Slot.empty, .ok ()) := by
  induction h with
  | nil =>
    intro fuel done pre hf hc
    have : fuel = 0 := by simpa using hf
    subst this
    exact ⟨[], rfl, by simp, by simp [StandardMappedData.DataAt.loop]⟩
  | @cons c b cs bs hg _ ih =>
    intro fuel done pre hf hc
    cases fuel with
    | zero => exact ⟨[], rfl, by simp, by simp [StandardMappedData.DataAt.loop]⟩
    | succ f =>
      obtain ⟨m, hm, hbuf, hcorr⟩ := hg bs.flatten
      have hdrop : content.drop pre.length = b ++ bs.flatten := by
        rw [hc, List.drop_left]
        simp
      obtain ⟨ms, hlen, hfa, hloop⟩ := ih f (done ++ [Slot.ptr m]) (pre ++ b)
        (by simp at hf; omega) (by rw [hc]; simp)
      refine ⟨m :: ms, by simp [hlen], ?_, ?_⟩
      · simpa using List.Forall₂.cons hcorr hfa
      · rw [StandardMappedData.DataAt.loop]
        have hget : (done ++ List.replicate (c :: cs).length Slot.empty).get? done.length
            = some Slot.empty := by
          rw [List.get?_eq_getElem?, List.getElem?_append_right (le_refl _)]
          simp [List.replicate_succ]
        rw [hget]
        simp only
        rw [if_neg (by rw [hc]; simp), hdrop, hm]
        simp only
        have hset : (done ++ List.replicate (c :: cs).length Slot.empty).set done.length (Slot.ptr m)
            = done ++ [Slot.ptr m] ++ List.replicate cs.length Slot.empty := by
          simp [List.replicate_succ]
        have hb : m.Buf.length = b.length := by rw [hbuf]
        rw [hset, hb]
        have e1 : done.length + 1 = (done ++ [Slot.ptr m]).length := by simp
        have e2 : pre.length + b.length = (pre ++ b).length := by simp
        rw [e1, e2, hloop]
        simp


/-- `DataAt(idx)` on a freshly decoded data array whose content is made of
good encodings returns a view that corresponds to the child at `idx`. -/
theorem DataAt_of_good (buf : Bytes) (rl : Option (List (Slot MappedRecord)))
    (cs : List IData) (bs : List Bytes) (h : List.Forall₂ Good cs bs) (idx : Nat) (c : IData)
    (hc : cs[idx]? = some c) :
    ∃ m1 mc, (StandardMappedData.mk true buf (some (List.replicate cs.length Slot.empty)) rl
        cs.length bs.flatten).DataAt idx = (m1, .ok (Slot.ptr mc)) ∧ Corresponds c mc := by
  have hidx : idx < cs.length := by
    by_contra hn
    rw [List.getElem?_eq_none (by omega)] at hc
    cases hc
  obtain ⟨ms, hlen, hfa, hloop⟩ := DataAt_loop_spec bs.flatten cs bs h (idx + 1) [] []
    (by omega) (by simp)
  have hml : idx < ms.length := by omega
  have hcorr : Corresponds c ms[idx] := by
    have h2 := (List.forall₂_iff_get.mp hfa).2 idx (by simp; omega) hml
    have h3 : (cs.take (idx + 1))[idx]? = some c := by
      rw [List.getElem?_take_of_lt (by omega)]
      exact hc
    have h4 : (cs.take (idx + 1)).get ⟨idx, by simp; omega⟩ = c := by
      have := List.getElem?_eq_some_iff.mp h3
      obtain ⟨_, h5⟩ := this
      simpa using h5
    rw [h4] at h2
    simpa using h2
  refine ⟨StandardMappedData.mk true buf (some (List.map Slot.ptr ms ++
    List.replicate (cs.length - (idx + 1)) Slot.empty)) rl cs.length bs.flatten, ms[idx], ?_, hcorr⟩
  unfold StandardMappedData.DataAt
  simp only [StandardMappedData.decoded, StandardMappedData.data_array, StandardMappedData.size,
    StandardMappedData.content, StandardMappedData.buf, StandardMappedData.record_list]
  have hget : (List.replicate cs.length (Slot.empty : Slot StandardMappedData))[idx]?
      = some Slot.empty := by
    simp [hidx]
  simp only [List.nil_append, List.length_nil] at hloop
  have hget2 : (List.map Slot.ptr ms ++ List.replicate (cs.length - (idx + 1))
      (Slot.empty : Slot StandardMappedData))[idx]? = some (Slot.ptr ms[idx]) := by
    rw [List.getElem?_append_left (by simp; omega)]
    simp [hml]
  simp only [List.get?_eq_getElem?, hget, hloop, hget2, Bool.not_true, Bool.false_eq_true,
    if_false, ge_iff_le, Nat.not_le.mpr hidx]

theorem correspondsFrom_of_forall (m : StandardMappedData) (cs : List IData) (k : Nat)
    (h : ∀ i c, cs[i]? = some c →
      ∃ m1 mc, m.DataAt (k + i) = (m1, .ok (Slot.ptr mc)) ∧ Corresponds c mc) :
    CorrespondsFrom cs m k := by
  induction cs generalizing k with
  | nil => simp [CorrespondsFrom]
  | cons c cs ih =>
    rw [CorrespondsFrom]
    refine ⟨by simpa using h 0 c (by simp), ih (k + 1) ?_⟩
    intro i c1 hi
    have := h (i + 1) c1 (by simpa using hi)
    have e : k + (i + 1) = k + 1 + i := by omega
    rw [e] at this
    exact this


theorem sameShape_primitive (d : Primitive) (data buf : Bytes) (hd : d.data = some data) :
    SameShape (.primitive d) (StandardMappedData.mk true buf none none 0 data) := by
  simp [SameShape, StandardMappedData.IsPrimitive, StandardMappedData.Size,
    StandardMappedData.Data, StandardMappedData.IsDataArray, StandardMappedData.IsRecordList,
    IData.IsPrimitive, IData.Size, IData.Data, IData.IsDataArray, IData.IsRecordList,
    IData.isEmptyContainer, StandardMappedData.decoded, StandardMappedData.data_array,
    StandardMappedData.record_list, StandardMappedData.size, StandardMappedData.content, hd]

theorem sameShape_dataArray (e : Bool) (b buf content : Bytes) (arr : List IData)
    (hn : arr.length < 65536) (hc : arr = [] → content = []) :
    SameShape (.dataArray e b (some arr)) (StandardMappedData.mk true buf
      (if 6 = 6 ∧ arr.length ≠ 0 then some (List.replicate arr.length Slot.empty) else none)
      (if 6 = 4 ∧ arr.length ≠ 0 then some (List.replicate arr.length Slot.empty) else none)
      arr.length content) := by
  cases arr with
  | nil =>
    simp [SameShape, StandardMappedData.IsPrimitive, StandardMappedData.Size,
      StandardMappedData.Data, StandardMappedData.IsDataArray, StandardMappedData.IsRecordList,
      IData.IsPrimitive, IData.Size, IData.Data, IData.IsDataArray, IData.IsRecordList,
      IData.isEmptyContainer, StandardMappedData.decoded, StandardMappedData.data_array,
      StandardMappedData.record_list, StandardMappedData.size, StandardMappedData.content, hc]
  | cons c cs =>
    have hm : (cs.length + 1) % 65536 = cs.length + 1 := Nat.mod_eq_of_lt (by simpa using hn)
    simp [SameShape, StandardMappedData.IsPrimitive, StandardMappedData.Size,
      StandardMappedData.Data, StandardMappedData.IsDataArray, StandardMappedData.IsRecordList,
      IData.IsPrimitive, IData.Size, IData.Data, IData.IsDataArray, IData.IsRecordList,
      IData.isEmptyContainer, StandardMappedData.decoded, StandardMappedData.data_array,
      StandardMappedData.record_list, StandardMappedData.size, StandardMappedData.content, hm]

theorem sameShape_recordList (d : RecordList) (buf content : Bytes) (recs : List Record)
    (hd : d.record_list = some recs) (hn : recs.length < 65536) (hc : recs = [] → content = []) :
    SameShape (.recordList d) (StandardMappedData.mk true buf
      (if 4 = 6 ∧ recs.length ≠ 0 then some (List.replicate recs.length Slot.empty) else none)
      (if 4 = 4 ∧ recs.length ≠ 0 then some (List.replicate recs.length Slot.empty) else none)
      recs.length content) := by
  cases recs with
  | nil =>
    simp [SameShape, StandardMappedData.IsPrimitive, StandardMappedData.Size,
      StandardMappedData.Data, StandardMappedData.IsDataArray, StandardMappedData.IsRecordList,
      IData.IsPrimitive, IData.Size, IData.Data, IData.IsDataArray, IData.IsRecordList,
      IData.isEmptyContainer, StandardMappedData.decoded, StandardMappedData.data_array,
      StandardMappedData.record_list, StandardMappedData.size, StandardMappedData.content, hc, hd]
  | cons c cs =>
    have hm : (cs.length + 1) % 65536 = cs.length + 1 := Nat.mod_eq_of_lt (by simpa using hn)
    simp [SameShape, StandardMappedData.IsPrimitive, StandardMappedData.Size,
      StandardMappedData.Data, StandardMappedData.IsDataArray, StandardMappedData.IsRecordList,
      IData.IsPrimitive, IData.Size, IData.Data, IData.IsDataArray, IData.IsRecordList,
      IData.isEmptyContainer, StandardMappedData.decoded, StandardMappedData.data_array,
      StandardMappedData.record_list, StandardMappedData.size, StandardMappedData.content, hm, hd]

theorem recordLoop_nil_of_nil (content : Bytes) (h : RecordList.Encode.loop [] = .ok content) :
    content = [] := by
  simp [RecordList.Encode.loop] at h
  exact h


/-- The round trip, for a value and for a list of children: an encoding
that succeeded, has no nil content and is shorter than 65536 bytes decodes,
whatever follows it, to a view over exactly the encoding that corresponds
to the value. -/
theorem good_of_encode (v : IData) :
    ∀ buf code, v.noNil = true → (v.Encode false).2 = .ok (buf, code) → buf.length < 65536 →
      Good v buf := by
  refine @IData.rec
    (fun v => ∀ buf code, v.noNil = true → (v.Encode false).2 = .ok (buf, code) →
      buf.length < 65536 → Good v buf)
    (fun o => ∀ l, o = some l → ∀ bs, noNilList l = true →
      List.Forall₂ (fun c b => ∃ code, (c.Encode false).2 = .ok (b, code)) l bs →
      (∀ b ∈ bs, b.length < 65536) → List.Forall₂ Good l bs)
    (fun l => ∀ bs, noNilList l = true →
      List.Forall₂ (fun c b => ∃ code, (c.Encode false).2 = .ok (b, code)) l bs →
      (∀ b ∈ bs, b.length < 65536) → List.Forall₂ Good l bs)
    ?_ ?_ ?_ ?_ ?_ ?_ ?_ ?_ ?_ v
  · intro d buf code _ henc
    simp [IData.Encode] at henc
  · intro d buf code _ henc
    simp [IData.Encode] at henc
  · intro d buf code hnn henc hlen t
    rw [IData.noNil] at hnn
    obtain ⟨data, hd⟩ := Option.isSome_iff_exists.mp hnn
    rw [IData.Encode] at henc
    refine ⟨_, decode_of_primitive d data buf code hd henc hlen t, rfl, ?_⟩
    rw [Corresponds]
    exact sameShape_primitive d data buf hd
  · intro e b o ih buf code hnn henc hlen t
    rw [IData.noNil] at hnn
    cases o with
    | none => simp [noNilOpt] at hnn
    | some arr =>
      rw [noNilOpt] at hnn
      rw [IData.Encode, DataArray.Encode] at henc
      cases h1 : encodeSize 6 arr.length with
      | error e1 => rw [h1] at henc; simp at henc
      | ok buf1 =>
        rw [h1] at henc
        simp only at henc
        rcases hl : DataArray.Encode.loop arr with ⟨arr1, r⟩
        rw [hl] at henc
        cases r with
        | error e2 => simp at henc
        | ok content =>
          simp only at henc
          cases h2 : encodeContent buf1 content with
          | error e3 => rw [h2] at henc; simp at henc
          | ok buf2 =>
            rw [h2] at henc
            simp only [Except.ok.injEq, Prod.mk.injEq] at henc
            obtain ⟨rfl, -⟩ := henc
            obtain ⟨hdec, hn, hcl⟩ :=
              decode_of_container 6 arr.length content buf1 buf2 (Or.inl rfl) h1 h2 hlen t
            obtain ⟨bufs, hf, rfl⟩ := loop_inv arr content (by rw [hl])
            have hgood := ih arr rfl bufs hnn hf (fun x hx => by
              have := length_le_flatten bufs x hx
              omega)
            refine ⟨_, hdec, rfl, ?_⟩
            rw [Corresponds, CorrespondsOpt]
            refine ⟨sameShape_dataArray e b buf2 _ arr hn ?_, ?_⟩
            · intro ha
              subst ha
              cases hf
              rfl
            · by_cases hz : arr.length = 0
              · have : arr = [] := List.length_eq_zero.mp hz
                subst this
                simp [CorrespondsFrom]
              · apply correspondsFrom_of_forall
                intro i c hi
                simp only [hz, ne_eq, not_false_eq_true, and_self, if_true, Nat.zero_add,
                  and_true, if_false, show ¬ (6 = 4) from by decide, false_and]
                exact DataAt_of_good buf2 none arr bufs hgood i c hi
  · intro d buf code hnn henc hlen t
    rw [IData.noNil] at hnn
    obtain ⟨recs, hd⟩ := Option.isSome_iff_exists.mp hnn
    rw [IData.Encode] at henc
    unfold RecordList.Encode at henc
    rw [hd] at henc
    simp only at henc
    cases h1 : encodeSize 4 recs.length with
    | error e1 => rw [h1] at henc; simp at henc
    | ok buf1 =>
      rw [h1] at henc
      simp only at henc
      cases hl : RecordList.Encode.loop recs with
      | error e2 => rw [hl] at henc; simp at henc
      | ok content =>
        rw [hl] at henc
        simp only at henc
        cases h2 : encodeContent buf1 content with
        | error e3 => rw [h2] at henc; simp at henc
        | ok buf2 =>
          rw [h2] at henc
          simp only [Except.ok.injEq, Prod.mk.injEq] at henc
          obtain ⟨rfl, -⟩ := henc
          obtain ⟨hdec, hn, hcl⟩ :=
            decode_of_container 4 recs.length content buf1 buf2 (Or.inr rfl) h1 h2 hlen t
          refine ⟨_, hdec, rfl, ?_⟩
          rw [Corresponds]
          refine sameShape_recordList d buf2 content recs hd hn ?_
          intro hr
          subst hr
          exact recordLoop_nil_of_nil content hl
  · intro l h
    cases h
  · intro val ih l h
    cases h
    exact ih
  · intro bs _ hf _
    cases hf
    exact List.Forall₂.nil
  · intro head tail ih1 ih3 bs hnn hf hlen
    rw [noNilList, Bool.and_eq_true] at hnn
    cases hf with
    | @cons _ b _ bs1 hc hrest =>
      obtain ⟨code, hc⟩ := hc
      exact List.Forall₂.cons (ih1 b code hnn.1 hc (hlen b (by simp)))
        (ih3 bs1 hnn.2 hrest (fun x hx => hlen x (by simp [hx])))

theorem and1_eq_mod (x : Nat) : x &&& 1 = x % 2 := Nat.and_pow_two_sub_one_eq_mod x 1

/-- `NewStandardMappedData` on a non-empty buffer, as the sequence of the
phases of `Decode`. -/
theorem NewStandardMappedData_cons (b0 : Nat) (rest : Bytes) :
    NewStandardMappedData (b0 :: rest) =
      match StandardMappedData.Decode.dataArrayBits
          (StandardMappedData.mk false (b0 :: rest) none none 0 []) b0 1 with
      | .error e => .error e
      | .ok (d1, fmt, pos1) =>
        match StandardMappedData.Decode.recordListBits d1 b0 fmt pos1 with
        | .error e => .error e
        | .ok (d2, pos2) =>
          if (b0 >>> 3) &&& 0x01 = 0x01 then .error .error
          else if (b0 >>> 2) &&& 0x01 = 0x01 then .error .error
          else
            match StandardMappedData.Decode.lengthBits d2.buf b0 pos2 with
            | .error e => .error e
            | .ok (pos, cl) =>
              match slice d2.buf ((pos + 65536 - cl) % 65536) pos, slice d2.buf 0 pos with
              | .ok content, .ok buf =>
                .ok (StandardMappedData.mk true buf d2.data_array d2.record_list d2.size content)
              | _, _ => .error .panic := by
  unfold NewStandardMappedData
  rw [if_neg (by simp)]
  unfold StandardMappedData.Decode
  rw [if_neg (by decide)]
  have hb : (StandardMappedData.mk false (b0 :: rest) none none 0 []).buf = b0 :: rest := rfl
  simp only [hb]
  cases StandardMappedData.Decode.dataArrayBits
      (StandardMappedData.mk false (b0 :: rest) none none 0 []) b0 1 with
  | error e => rfl
  | ok x =>
    obtain ⟨d1, fmt, pos1⟩ := x
    simp only
    cases StandardMappedData.Decode.recordListBits d1 b0 fmt pos1 with
    | error e => rfl
    | ok y =>
      obtain ⟨d2, pos2⟩ := y
      simp only
      split_ifs
      · rfl
      · rfl
      · cases StandardMappedData.Decode.lengthBits d2.buf b0 pos2 with
        | error e => rfl
        | ok z =>
          obtain ⟨pos, cl⟩ := z
          simp only
          cases slice d2.buf ((pos + 65536 - cl) % 65536) pos <;> cases slice d2.buf 0 pos <;> rfl

theorem dataArrayBits_error (d : StandardMappedData) (b0 pos : Nat) (e : Failure)
    (h : StandardMappedData.Decode.dataArrayBits d b0 pos = .error e) : e = .error := by
  cases d
  unfold StandardMappedData.Decode.dataArrayBits at h
  simp only at h
  split_ifs at h <;> cases h <;> rfl

theorem recordListBits_error (d : StandardMappedData) (b0 pos : Nat) (fmt : Bool) (e : Failure)
    (h : StandardMappedData.Decode.recordListBits d b0 fmt pos = .error e) : e = .error := by
  cases d
  unfold StandardMappedData.Decode.recordListBits at h
  simp only at h
  split_ifs at h <;> cases h <;> rfl

theorem lengthBits_error (buf : Bytes) (b0 pos : Nat) (e : Failure)
    (h : StandardMappedData.Decode.lengthBits buf b0 pos = .error e) : e = .error := by
  unfold StandardMappedData.Decode.lengthBits at h
  simp only at h
  split_ifs at h <;> cases h <;> rfl

theorem dataArrayBits_three (d : StandardMappedData) (b0 pos : Nat)
    (h : (b0 >>> 6) &&& 0x03 = 3) :
    StandardMappedData.Decode.dataArrayBits d b0 pos = .error .error := by
  cases d
  simp [StandardMappedData.Decode.dataArrayBits, h]

theorem recordListBits_three (d : StandardMappedData) (b0 pos : Nat) (fmt : Bool)
    (h : (b0 >>> 4) &&& 0x03 = 3) :
    StandardMappedData.Decode.recordListBits d b0 fmt pos = .error .error := by
  cases d
  simp [StandardMappedData.Decode.recordListBits, h]

theorem lengthBits_three (buf : Bytes) (b0 pos : Nat) (h : b0 &&& 0x03 = 3) :
    StandardMappedData.Decode.lengthBits buf b0 pos = .error .error := by
  simp [StandardMappedData.Decode.lengthBits, h]

theorem dataArrayBits_inv (dec : Bool) (buf : Bytes)
    (da : Option (List (Slot StandardMappedData))) (rl : Option (List (Slot MappedRecord)))
    (sz : Nat) (ct : Bytes) (b0 pos : Nat) (d1 : StandardMappedData) (fmt : Bool) (pos1 : Nat)
    (h : StandardMappedData.Decode.dataArrayBits (.mk dec buf da rl sz ct) b0 pos
      = .ok (d1, fmt, pos1)) :
    ((b0 >>> 6) &&& 0x03 = 0 ∧ d1 = .mk dec buf da rl sz ct ∧ fmt = false ∧ pos1 = pos) ∨
    ((b0 >>> 6) &&& 0x03 = 1 ∧ 1 + pos ≤ buf.length ∧
      d1 = .mk dec buf (some (List.replicate (buf.getD pos 0) Slot.empty)) rl (buf.getD pos 0) ct ∧
      fmt = true ∧ pos1 = (pos + 1) % 65536) ∨
    ((b0 >>> 6) &&& 0x03 = 2 ∧ 2 + pos ≤ buf.length ∧
      d1 = .mk dec buf (some (List.replicate (bigEndianUint16 buf pos) Slot.empty)) rl
        (bigEndianUint16 buf pos) ct ∧
      fmt = true ∧ pos1 = (pos + 2) % 65536) := by
  unfold StandardMappedData.Decode.dataArrayBits at h
  simp only at h
  split_ifs at h with h0 h1 hl1 h2 hl2 <;>
    simp only [Except.ok.injEq, Prod.mk.injEq, reduceCtorEq] at h
  · obtain ⟨rfl, rfl, rfl⟩ := h
    exact Or.inl ⟨h0, rfl, rfl, rfl⟩
  · obtain ⟨rfl, rfl, rfl⟩ := h
    exact Or.inr (Or.inl ⟨h1, by omega, rfl, rfl, rfl⟩)
  · obtain ⟨rfl, rfl, rfl⟩ := h
    exact Or.inr (Or.inr ⟨h2, by omega, rfl, rfl, rfl⟩)

theorem recordListBits_inv (dec : Bool) (buf : Bytes)
    (da : Option (List (Slot StandardMappedData))) (rl : Option (List (Slot MappedRecord)))
    (sz : Nat) (ct : Bytes) (b0 pos : Nat) (fmt : Bool) (d2 : StandardMappedData) (pos2 : Nat)
    (h : StandardMappedData.Decode.recordListBits (.mk dec buf da rl sz ct) b0 fmt pos
      = .ok (d2, pos2)) :
    ((b0 >>> 4) &&& 0x03 = 0 ∧ d2 = .mk dec buf da rl sz ct ∧ pos2 = pos) ∨
    ((b0 >>> 4) &&& 0x03 = 1 ∧ fmt = false ∧ 1 + pos ≤ buf.length ∧
      d2 = .mk dec buf da (some (List.replicate (buf.getD pos 0) Slot.empty)) (buf.getD pos 0) ct ∧
      pos2 = (pos + 1) % 65536) ∨
    ((b0 >>> 4) &&& 0x03 = 2 ∧ fmt = false ∧ 2 + pos ≤ buf.length ∧
      d2 = .mk dec buf da (some (List.replicate (bigEndianUint16 buf pos) Slot.empty))
        (bigEndianUint16 buf pos) ct ∧
      pos2 = (pos + 2) % 65536) := by
  unfold StandardMappedData.Decode.recordListBits at h
  simp only at h
  split_ifs at h with h0 h1 hf1 hl1 h2 hf2 hl2 <;>
    simp only [Except.ok.injEq, Prod.mk.injEq, reduceCtorEq] at h
  · obtain ⟨rfl, rfl⟩ := h
    exact Or.inl ⟨h0, rfl, rfl⟩
  · obtain ⟨rfl, rfl⟩ := h
    exact Or.inr (Or.inl ⟨h1, by simpa using hf1, by omega, rfl, rfl⟩)
  · obtain ⟨rfl, rfl⟩ := h
    exact Or.inr (Or.inr ⟨h2, by simpa using hf2, by omega, rfl, rfl⟩)

theorem lengthBits_inv (buf : Bytes) (b0 pos pos3 cl : Nat)
    (h : StandardMappedData.Decode.lengthBits buf b0 pos = .ok (pos3, cl)) :
    (b0 &&& 0x03 = 0 ∧ pos3 = pos ∧ cl = 0) ∨
    (b0 &&& 0x03 = 1 ∧ 1 + pos + cl ≤ buf.length ∧ cl = buf.getD pos 0 ∧
      pos3 = (pos + (1 + cl)) % 65536) ∨
    (b0 &&& 0x03 = 2 ∧ 2 + pos + cl ≤ buf.length ∧ cl = bigEndianUint16 buf pos ∧
      pos3 = (pos + (2 + cl)) % 65536) := by
  unfold StandardMappedData.Decode.lengthBits at h
  simp only at h
  split_ifs at h with h0 h1 hl1 hc1 h2 hl2 hc2 <;>
    simp only [Except.ok.injEq, Prod.mk.injEq, reduceCtorEq] at h
  · obtain ⟨rfl, rfl⟩ := h
    exact Or.inl ⟨h0, rfl, rfl⟩
  · obtain ⟨rfl, rfl⟩ := h
    exact Or.inr (Or.inl ⟨h1, by omega, rfl, rfl⟩)
  · obtain ⟨rfl, rfl⟩ := h
    exact Or.inr (Or.inr ⟨h2, by omega, rfl, rfl⟩)

theorem slice_inv (buf : Bytes) (lo hi : Nat) (x : Bytes) (h : slice buf lo hi = .ok x) :
    lo ≤ hi ∧ hi ≤ buf.length ∧ x = (buf.take hi).drop lo := by
  unfold slice at h
  split_ifs at h with hc
  injection h with h
  exact ⟨hc.1, hc.2, h.symm⟩

theorem be16_split (x0 x1 : Nat) (h1 : x1 < 256) :
    [x0, x1] = [(x0 * 256 + x1) / 256, (x0 * 256 + x1) % 256] := by
  have e1 : (x0 * 256 + x1) / 256 = x0 := by omega
  have e2 : (x0 * 256 + x1) % 256 = x1 := by omega
  rw [e1, e2]

/-- What the success of the two count phases of `Decode` on a fresh view
says about the buffer. -/
theorem count_inv (b0 : Nat) (rest : Bytes) (hb : ∀ x ∈ rest, x < 256)
    (d1 d2 : StandardMappedData) (fmt : Bool) (pos1 pos2 : Nat)
    (h1 : StandardMappedData.Decode.dataArrayBits
      (StandardMappedData.mk false (b0 :: rest) none none 0 []) b0 1 = .ok (d1, fmt, pos1))
    (h2 : StandardMappedData.Decode.recordListBits d1 b0 fmt pos1 = .ok (d2, pos2)) :
    ∃ cnt rest1 ac rc n, rest = cnt ++ rest1 ∧
      (b0 >>> 6) &&& 0x03 = ac ∧ (b0 >>> 4) &&& 0x03 = rc ∧
      ((ac = 0 ∧ rc = 0 ∧ cnt = [] ∧ n = 0) ∨ (ac = 1 ∧ rc = 0 ∧ cnt = [n]) ∨
        (ac = 2 ∧ rc = 0 ∧ cnt = [n / 256, n % 256]) ∨ (ac = 0 ∧ rc = 1 ∧ cnt = [n]) ∨
        (ac = 0 ∧ rc = 2 ∧ cnt = [n / 256, n % 256])) ∧
      d2 = StandardMappedData.mk false (b0 :: rest)
        (if ac = 0 then none else some (List.replicate n Slot.empty))
        (if rc = 0 then none else some (List.replicate n Slot.empty)) n [] ∧
      pos2 = 1 + cnt.length := by
  rcases dataArrayBits_inv _ _ _ _ _ _ _ _ _ _ _ h1 with
    ⟨ha, rfl, rfl, rfl⟩ | ⟨ha, hl, rfl, rfl, rfl⟩ | ⟨ha, hl, rfl, rfl, rfl⟩
  · rcases recordListBits_inv _ _ _ _ _ _ _ _ _ _ _ h2 with
      ⟨hr, rfl, rfl⟩ | ⟨hr, -, hl, rfl, rfl⟩ | ⟨hr, -, hl, rfl, rfl⟩
    · exact ⟨[], rest, 0, 0, 0, rfl, ha, hr, Or.inl ⟨rfl, rfl, rfl, rfl⟩, rfl, rfl⟩
    · rcases rest with _ | ⟨x0, rest⟩
      · simp at hl
      · exact ⟨[x0], rest, 0, 1, x0, rfl, ha, hr,
          Or.inr (Or.inr (Or.inr (Or.inl ⟨rfl, rfl, rfl⟩))), rfl, rfl⟩
    · rcases rest with _ | ⟨x0, _ | ⟨x1, rest⟩⟩
      · simp at hl
      · simp at hl
      · have hx1 : x1 < 256 := hb x1 (by simp)
        refine ⟨[x0, x1], rest, 0, 2, x0 * 256 + x1, rfl, ha, hr,
          Or.inr (Or.inr (Or.inr (Or.inr ⟨rfl, rfl, be16_split x0 x1 hx1⟩))), rfl, rfl⟩
  · rcases rest with _ | ⟨x0, rest⟩
    · simp at hl
    · rcases recordListBits_inv _ _ _ _ _ _ _ _ _ _ _ h2 with
        ⟨hr, rfl, rfl⟩ | ⟨-, hf, -⟩ | ⟨-, hf, -⟩
      · exact ⟨[x0], rest, 1, 0, x0, rfl, ha, hr, Or.inr (Or.inl ⟨rfl, rfl, rfl⟩), rfl, rfl⟩
      · cases hf
      · cases hf
  · rcases rest with _ | ⟨x0, _ | ⟨x1, rest⟩⟩
    · simp at hl
    · simp at hl
    · have hx1 : x1 < 256 := hb x1 (by simp)
      rcases recordListBits_inv _ _ _ _ _ _ _ _ _ _ _ h2 with
        ⟨hr, rfl, rfl⟩ | ⟨-, hf, -⟩ | ⟨-, hf, -⟩
      · exact ⟨[x0, x1], rest, 2, 0, x0 * 256 + x1, rfl, ha, hr,
          Or.inr (Or.inr (Or.inl ⟨rfl, rfl, be16_split x0 x1 hx1⟩)), rfl, rfl⟩
      · cases hf
      · cases hf

/-- A buffer of bytes on which `NewStandardMappedData` succeeds starts with
a well-formed frame, and the view is the one over that frame. -/
theorem frame_of_decode (B : Bytes) (m : StandardMappedData) (hb : ∀ x ∈ B, x < 256)
    (h : NewStandardMappedData B = .ok m) :
    ∃ b0 cnt lenb content t ac rc lc n, IsFrame b0 cnt lenb content ac rc lc n ∧
      B = b0 :: (cnt ++ (lenb ++ (content ++ t))) ∧
      m = StandardMappedData.mk true (b0 :: (cnt ++ (lenb ++ content)))
        (if ac = 0 then none else some (List.replicate n Slot.empty))
        (if rc = 0 then none else some (List.replicate n Slot.empty)) n content := by
  rcases B with _ | ⟨b0, rest⟩
  · simp [NewStandardMappedData] at h
  have h0 := h
  rw [NewStandardMappedData_cons] at h
  cases h1 : StandardMappedData.Decode.dataArrayBits
      (StandardMappedData.mk false (b0 :: rest) none none 0 []) b0 1 with
  | error e => rw [h1] at h; simp at h
  | ok x =>
    obtain ⟨d1, fmt, pos1⟩ := x
    rw [h1] at h
    simp only at h
    cases h2 : StandardMappedData.Decode.recordListBits d1 b0 fmt pos1 with
    | error e => rw [h2] at h; simp at h
    | ok y =>
      obtain ⟨d2, pos2⟩ := y
      rw [h2] at h
      simp only at h
      obtain ⟨cnt, rest1, ac, rc, n, rfl, hac, hrc, hcnt, rfl, rfl⟩ :=
        count_inv b0 rest (fun x hx => hb x (by simp [hx])) d1 d2 fmt pos1 pos2 h1 h2
      have hcl : cnt.length ≤ 2 := by
        rcases hcnt with ⟨-, -, rfl, -⟩ | ⟨-, -, rfl⟩ | ⟨-, -, rfl⟩ | ⟨-, -, rfl⟩ | ⟨-, -, rfl⟩ <;>
          simp
      have hlk : (b0 >>> 3) &&& 0x01 = 0 := by
        by_contra hc
        have : (b0 >>> 3) &&& 0x01 = 1 := by
          have := and1_eq_mod (b0 >>> 3)
          omega
        rw [if_pos this] at h
        cases h
      have hcp : (b0 >>> 2) &&& 0x01 = 0 := by
        by_contra hc
        have : (b0 >>> 2) &&& 0x01 = 1 := by
          have := and1_eq_mod (b0 >>> 2)
          omega
        rw [if_neg (by omega), if_pos this] at h
        cases h
      rw [if_neg (by omega), if_neg (by omega)] at h
      have hbuf : (StandardMappedData.mk false (b0 :: (cnt ++ rest1))
          (if ac = 0 then none else some (List.replicate n Slot.empty))
          (if rc = 0 then none else some (List.replicate n Slot.empty)) n []).buf
          = (b0 :: cnt) ++ rest1 := rfl
      rw [hbuf] at h
      have hpos : 1 + cnt.length = (b0 :: cnt).length := by simp; omega
      rw [hpos] at h
      cases h3 : StandardMappedData.Decode.lengthBits ((b0 :: cnt) ++ rest1) b0 (b0 :: cnt).length with
      | error e => rw [h3] at h; simp at h
      | ok z =>
        obtain ⟨pos3, cl⟩ := z
        rw [h3] at h
        simp only at h
        have hs : ∃ content, slice ((b0 :: cnt) ++ rest1) ((pos3 + 65536 - cl) % 65536) pos3
            = .ok content := by
          cases hs1 : slice ((b0 :: cnt) ++ rest1) ((pos3 + 65536 - cl) % 65536) pos3 with
          | error e => rw [hs1] at h; simp at h
          | ok c => exact ⟨c, rfl⟩
        obtain ⟨c0, hs⟩ := hs
        obtain ⟨hlo, hhi, -⟩ := slice_inv _ _ _ _ hs
        have e0 := getD_pre (b0 :: cnt) rest1 0
        have e1 := getD_pre (b0 :: cnt) rest1 1
        rw [Nat.add_zero] at e0
        have hlen : ((b0 :: cnt) ++ rest1).length = cnt.length + 1 + rest1.length := by
          simp only [List.length_append, List.length_cons]
        simp only [List.length_cons] at hlo e0 e1
        rcases lengthBits_inv _ _ _ _ _ h3 with
          ⟨hlc, rfl, rfl⟩ | ⟨hlc, hl, hcv, rfl⟩ | ⟨hlc, hl, hcv, rfl⟩
        · have hfr : IsFrame b0 cnt [] [] ac rc 0 n :=
            ⟨hac, hrc, hlk, hcp, hlc, hcnt, Or.inl ⟨rfl, rfl, rfl⟩, by simp; omega⟩
          have hB : b0 :: (cnt ++ rest1) = b0 :: (cnt ++ ([] ++ ([] ++ rest1))) := by simp
          refine ⟨b0, cnt, [], [], rest1, ac, rc, 0, n, hfr, hB, ?_⟩
          rw [hB, decode_frame b0 cnt [] [] rest1 ac rc 0 n hac hrc hlk hcp hlc hcnt
            (Or.inl ⟨rfl, rfl, rfl⟩) (by simp; omega)] at h0
          exact (Except.ok.inj h0).symm
        · simp only [List.length_cons] at hcv
          rw [hlen] at hl
          simp only [List.length_cons] at hl
          rw [e0] at hcv
          rcases rest1 with _ | ⟨y0, rest2⟩
          · simp only [List.length_nil] at hl
            omega
          simp only [List.getD_cons_zero] at hcv
          subst hcv
          have hy0 : cl < 256 := hb cl (by simp)
          have hl2 : cl ≤ rest2.length := by
            simp only [List.length_cons] at hl
            omega
          have hct : (rest2.take cl).length = cl := by simp; omega
          have hfr : IsFrame b0 cnt [cl] (rest2.take cl) ac rc 1 n :=
            ⟨hac, hrc, hlk, hcp, hlc, hcnt, Or.inr (Or.inl ⟨rfl, by rw [hct]⟩),
              by rw [hct]; simp; omega⟩
          have hB : b0 :: (cnt ++ cl :: rest2)
              = b0 :: (cnt ++ ([cl] ++ (rest2.take cl ++ rest2.drop cl))) := by
            simp [List.take_append_drop]
          refine ⟨b0, cnt, [cl], rest2.take cl, rest2.drop cl, ac, rc, 1, n, hfr, hB, ?_⟩
          rw [hB, decode_frame b0 cnt [cl] (rest2.take cl) (rest2.drop cl) ac rc 1 n hac hrc hlk
            hcp hlc hcnt (Or.inr (Or.inl ⟨rfl, by rw [hct]⟩)) (by rw [hct]; simp; omega)] at h0
          exact (Except.ok.inj h0).symm
        · simp only [List.length_cons] at hcv
          rw [hlen] at hl
          simp only [List.length_cons] at hl
          unfold bigEndianUint16 at hcv
          rw [e0, e1] at hcv
          rcases rest1 with _ | ⟨y0, _ | ⟨y1, rest2⟩⟩
          · simp only [List.length_nil] at hl
            omega
          · simp only [List.length_cons, List.length_nil] at hl
            omega
          simp only [List.getD_cons_zero, List.getD_cons_succ] at hcv
          have hy0 : y0 < 256 := hb y0 (by simp)
          have hy1 : y1 < 256 := hb y1 (by simp)
          have hl2 : cl ≤ rest2.length := by
            simp only [List.length_cons] at hl
            omega
          have hct : (rest2.take cl).length = cl := by simp; omega
          have htot : 1 + cnt.length + 2 + cl < 65536 := by omega
          have hle : [y0, y1] = [cl / 256, cl % 256] := by
            rw [hcv]
            exact be16_split y0 y1 hy1
          have hfr : IsFrame b0 cnt [y0, y1] (rest2.take cl) ac rc 2 n :=
            ⟨hac, hrc, hlk, hcp, hlc, hcnt, Or.inr (Or.inr ⟨rfl, by rw [hct]; exact hle⟩),
              by rw [hct]; simp; omega⟩
          have hB : b0 :: (cnt ++ y0 :: y1 :: rest2)
              = b0 :: (cnt ++ ([y0, y1] ++ (rest2.take cl ++ rest2.drop cl))) := by
            simp [List.take_append_drop]
          refine ⟨b0, cnt, [y0, y1], rest2.take cl, rest2.drop cl, ac, rc, 2, n, hfr, hB, ?_⟩
          rw [hB, decode_frame b0 cnt [y0, y1] (rest2.take cl) (rest2.drop cl) ac rc 2 n hac hrc
            hlk hcp hlc hcnt (Or.inr (Or.inr ⟨rfl, by rw [hct]; exact hle⟩))
            (by rw [hct]; simp; omega)] at h0
          exact (Except.ok.inj h0).symm

/-- On a buffer that starts with a frame, the lengths announced by the
header are those of the parts of the frame. -/
theorem frame_measures (b0 : Nat) (cnt lenb content t : Bytes) (ac rc lc n : Nat)
    (hf : IsFrame b0 cnt lenb content ac rc lc n) :
    countFieldBytes (b0 :: (cnt ++ (lenb ++ (content ++ t)))) = cnt.length ∧
    lengthFieldBytes (b0 :: (cnt ++ (lenb ++ (content ++ t)))) = lenb.length ∧
    declaredContentLength (b0 :: (cnt ++ (lenb ++ (content ++ t)))) = content.length := by
  obtain ⟨hac, hrc, -, -, hlc, hcnt, hlen, -⟩ := hf
  have h1 : countFieldBytes (b0 :: (cnt ++ (lenb ++ (content ++ t)))) = cnt.length := by
    unfold countFieldBytes
    simp only [List.getD_cons_zero, hac, hrc]
    rcases hcnt with ⟨rfl, rfl, rfl, -⟩ | ⟨rfl, rfl, rfl⟩ | ⟨rfl, rfl, rfl⟩ | ⟨rfl, rfl, rfl⟩ |
      ⟨rfl, rfl, rfl⟩ <;> rfl
  have h2 : lengthFieldBytes (b0 :: (cnt ++ (lenb ++ (content ++ t)))) = lenb.length := by
    unfold lengthFieldBytes
    simp only [List.getD_cons_zero, hlc]
    rcases hlen with ⟨rfl, rfl, -⟩ | ⟨rfl, rfl⟩ | ⟨rfl, rfl⟩ <;> rfl
  refine ⟨h1, h2, ?_⟩
  unfold declaredContentLength
  rw [h1, h2]
  have hB : b0 :: (cnt ++ (lenb ++ (content ++ t))) = (b0 :: cnt) ++ (lenb ++ (content ++ t)) := rfl
  have hp : 1 + cnt.length = (b0 :: cnt).length + 0 := by simp only [List.length_cons]; omega
  have hp1 : (b0 :: cnt).length + 0 + 1 = (b0 :: cnt).length + 1 := by omega
  rcases hlen with ⟨-, rfl, h0⟩ | ⟨-, rfl⟩ | ⟨-, rfl⟩
  · simp [h0]
  · rw [if_pos (show [content.length].length = 1 from rfl), hB, hp, getD_pre]
    rfl
  · rw [if_neg (show ¬ [content.length / 256, content.length % 256].length = 1 from by simp),
      if_pos (show [content.length / 256, content.length % 256].length = 2 from rfl), hB, hp]
    unfold bigEndianUint16
    rw [hp1, getD_pre, getD_pre]
    simp only [List.cons_append, List.getD_cons_zero, List.getD_cons_succ, List.nil_append]
    exact Nat.div_add_mod' _ 256

/-- The view returned on a buffer of bytes spans exactly the announced
bytes, and what follows them has no influence. -/
theorem decode_consumes (b : Bytes) (m : StandardMappedData)
    (hb : ∀ x ∈ b, x < 256) (h : NewStandardMappedData b = .ok m) :
    consumedLength b ≤ b.length ∧
    m.Buf = b.take (consumedLength b) ∧
    m.content = (b.take (consumedLength b)).drop (consumedLength b - declaredContentLength b) ∧
    m.content.length = declaredContentLength b ∧
    ∀ t, NewStandardMappedData (b.take (consumedLength b) ++ t) = .ok m := by
  obtain ⟨b0, cnt, lenb, content, t0, ac, rc, lc, n, hf, rfl, rfl⟩ := frame_of_decode b m hb h
  obtain ⟨hc, hl, hd⟩ := frame_measures b0 cnt lenb content t0 ac rc lc n hf
  have htot : consumedLength (b0 :: (cnt ++ (lenb ++ (content ++ t0))))
      = (b0 :: (cnt ++ (lenb ++ content))).length := by
    unfold consumedLength
    rw [hc, hl, hd]
    simp only [List.length_cons, List.length_append]
    omega
  have htake : (b0 :: (cnt ++ (lenb ++ (content ++ t0)))).take
      (b0 :: (cnt ++ (lenb ++ content))).length = b0 :: (cnt ++ (lenb ++ content)) := by
    have e : b0 :: (cnt ++ (lenb ++ (content ++ t0))) = (b0 :: (cnt ++ (lenb ++ content))) ++ t0 := by
      simp
    rw [e, List.take_left]
  rw [htot, htake, hd]
  obtain ⟨hac, hrc, hlk, hcp, hlc, hcnt, hlen, hlt⟩ := hf
  refine ⟨by simp only [List.length_cons, List.length_append]; omega, rfl, ?_, rfl, ?_⟩
  · have e : b0 :: (cnt ++ (lenb ++ content)) = (b0 :: (cnt ++ lenb)) ++ content := by simp
    have e2 : (b0 :: (cnt ++ (lenb ++ content))).length - content.length
        = (b0 :: (cnt ++ lenb)).length := by
      simp only [List.length_cons, List.length_append]
      omega
    rw [e2, e, List.drop_left]
    rfl
  · intro t
    have := decode_frame b0 cnt lenb content t ac rc lc n hac hrc hlk hcp hlc hcnt hlen hlt
    simpa using this

/-- What the success of the two count phases of `Decode` on a fresh view
says about the offset reached. -/
theorem count_inv_len (b0 : Nat) (rest : Bytes)
    (d1 d2 : StandardMappedData) (fmt : Bool) (pos1 pos2 : Nat)
    (h1 : StandardMappedData.Decode.dataArrayBits
      (StandardMappedData.mk false (b0 :: rest) none none 0 []) b0 1 = .ok (d1, fmt, pos1))
    (h2 : StandardMappedData.Decode.recordListBits d1 b0 fmt pos1 = .ok (d2, pos2)) :
    d2.buf = b0 :: rest ∧ pos2 = 1 + countFieldBytes (b0 :: rest) ∧
      pos2 ≤ (b0 :: rest).length := by
  unfold countFieldBytes
  simp only [List.getD_cons_zero, List.length_cons]
  rcases dataArrayBits_inv _ _ _ _ _ _ _ _ _ _ _ h1 with
    ⟨ha, rfl, rfl, rfl⟩ | ⟨ha, hl, rfl, rfl, rfl⟩ | ⟨ha, hl, rfl, rfl, rfl⟩ <;>
  rcases recordListBits_inv _ _ _ _ _ _ _ _ _ _ _ h2 with
    ⟨hr, rfl, rfl⟩ | ⟨hr, hf, hl2, rfl, rfl⟩ | ⟨hr, hf, hl2, rfl, rfl⟩ <;>
  first
    | (cases hf; done)
    | (refine ⟨rfl, ?_, ?_⟩ <;> (try simp only [List.length_cons] at *) <;> omega)

/-- Unless `NewStandardMappedData` returns an error, the bytes that the
header announces are all in the buffer. -/
theorem consumed_le_of_not_error (b : Bytes) (h : NewStandardMappedData b ≠ .error .error) :
    1 + countFieldBytes b + lengthFieldBytes b ≤ b.length ∧ consumedLength b ≤ b.length := by
  rcases b with _ | ⟨b0, rest⟩
  · exact absurd rfl h
  rw [NewStandardMappedData_cons] at h
  cases h1 : StandardMappedData.Decode.dataArrayBits
      (StandardMappedData.mk false (b0 :: rest) none none 0 []) b0 1 with
  | error e =>
    rw [h1, dataArrayBits_error _ _ _ _ h1] at h
    exact absurd rfl h
  | ok x =>
    obtain ⟨d1, fmt, pos1⟩ := x
    rw [h1] at h
    simp only at h
    cases h2 : StandardMappedData.Decode.recordListBits d1 b0 fmt pos1 with
    | error e =>
      rw [h2, recordListBits_error _ _ _ _ _ h2] at h
      exact absurd rfl h
    | ok y =>
      obtain ⟨d2, pos2⟩ := y
      rw [h2] at h
      simp only at h
      obtain ⟨hbuf, hpos, hle⟩ := count_inv_len b0 rest d1 d2 fmt pos1 pos2 h1 h2
      rw [hbuf] at h
      by_cases hlk : (b0 >>> 3) &&& 0x01 = 0x01
      · rw [if_pos hlk] at h
        exact absurd rfl h
      rw [if_neg hlk] at h
      by_cases hcp : (b0 >>> 2) &&& 0x01 = 0x01
      · rw [if_pos hcp] at h
        exact absurd rfl h
      rw [if_neg hcp] at h
      cases h3 : StandardMappedData.Decode.lengthBits (b0 :: rest) b0 pos2 with
      | error e =>
        rw [h3, lengthBits_error _ _ _ _ h3] at h
        exact absurd rfl h
      | ok z =>
        obtain ⟨pos3, cl⟩ := z
        unfold consumedLength declaredContentLength
        have hlf : lengthFieldBytes (b0 :: rest) = b0 &&& 0x03 := rfl
        rw [hlf, ← hpos]
        rcases lengthBits_inv _ _ _ _ _ h3 with
          ⟨hlc, -, -⟩ | ⟨hlc, hl, hcv, -⟩ | ⟨hlc, hl, hcv, -⟩
        · rw [hlc]
          simp only [show ¬ (0 = 1) from by decide, show ¬ (0 = 2) from by decide, if_false]
          omega
        · rw [hlc, if_pos rfl, ← hcv]
          omega
        · rw [hlc, if_neg (by decide), if_pos rfl, ← hcv]
          omega

theorem getD_take (b : Bytes) (k i : Nat) (h : i < k) : (b.take k).getD i 0 = b.getD i 0 := by
  simp only [List.getD_eq_getElem?_getD, List.getElem?_take_of_lt h]

/-- The announced length of a truncated buffer that still holds the whole
header, count field and length field is the announced length of the
buffer. -/
theorem consumedLength_take (B : Bytes) (k : Nat)
    (h : 1 + countFieldBytes (B.take k) + lengthFieldBytes (B.take k) ≤ k) :
    consumedLength (B.take k) = consumedLength B := by
  have hc : countFieldBytes (B.take k) = countFieldBytes B := by
    unfold countFieldBytes
    rw [getD_take B k 0 (by omega)]
  have hl : lengthFieldBytes (B.take k) = lengthFieldBytes B := by
    unfold lengthFieldBytes
    rw [getD_take B k 0 (by omega)]
  rw [hc, hl] at h
  unfold consumedLength declaredContentLength
  rw [hc, hl]
  by_cases h1 : lengthFieldBytes B = 1
  · rw [if_pos h1, if_pos h1, getD_take B k _ (by omega)]
  · rw [if_neg h1, if_neg h1]
    by_cases h2 : lengthFieldBytes B = 2
    · rw [if_pos h2, if_pos h2]
      unfold bigEndianUint16
      rw [getD_take B k _ (by omega), getD_take B k _ (by omega)]
    · rw [if_neg h2, if_neg h2]

theorem downClosed_replicate {α : Type} (n : Nat) :
    DownClosed (List.replicate n (Slot.empty : Slot α)) := by
  unfold DownClosed
  intro j k s _ hk hs
  rw [List.getElem?_replicate] at hk
  split_ifs at hk
  injection hk with hk
  subst hk
  cases hs

theorem downClosed_set {α : Type} (arr : List (Slot α)) (i : Nat) (s : Slot α)
    (hs : s.isFilled = true) (hi : i < arr.length) (hd : DownClosed arr)
    (hbelow : ∀ j, j < i → ∃ s1, arr[j]? = some s1 ∧ s1.isFilled = true) :
    DownClosed (arr.set i s) ∧
    ∀ j, j < i + 1 → ∃ s1, (arr.set i s)[j]? = some s1 ∧ s1.isFilled = true := by
  have hall : ∀ j, j < i + 1 → ∃ s1, (arr.set i s)[j]? = some s1 ∧ s1.isFilled = true := by
    intro j hj
    by_cases hji : j = i
    · subst hji
      exact ⟨s, by rw [List.getElem?_set_self hi], hs⟩
    · rw [List.getElem?_set_ne (fun h => hji h.symm)]
      exact hbelow j (by omega)
  refine ⟨?_, hall⟩
  unfold DownClosed
  intro j k s0 hjk hk hs0
  by_cases hj : j < i + 1
  · exact hall j hj
  · have hki : i ≠ k := by omega
    rw [List.getElem?_set_ne hki] at hk
    rw [List.getElem?_set_ne (by omega)]
    exact hd j k s0 hjk hk hs0

/-- What the loop of `DataAt` does to the slots, whatever its outcome: the
number of slots is kept, the filled slots still form an initial segment,
the slots outside the range of the loop are untouched, and on success every
slot of the range holds a view. -/
theorem DataAt_loop_props (content : Bytes) :
    ∀ (n i pos : Nat) (arr : List (Slot StandardMappedData)),
      DownClosed arr → (∀ j, j < i → ∃ s1, arr[j]? = some s1 ∧ s1.isFilled = true) →
      (StandardMappedData.DataAt.loop content n i pos arr).1.length = arr.length ∧
      DownClosed (StandardMappedData.DataAt.loop content n i pos arr).1 ∧
      (∀ j, j < i ∨ i + n ≤ j →
        (StandardMappedData.DataAt.loop content n i pos arr).1[j]? = arr[j]?) ∧
      ((StandardMappedData.DataAt.loop content n i pos arr).2 = .ok () →
        ∀ j, i ≤ j → j < i + n →
          ∃ c, (StandardMappedData.DataAt.loop content n i pos arr).1[j]? = some (Slot.ptr c)) := by
  intro n
  induction n with
  | zero =>
    intro i pos arr hd _
    refine ⟨rfl, hd, fun _ _ => rfl, ?_⟩
    intro _ j h1 h2
    omega
  | succ n ih =>
    intro i pos arr hd hbelow
    rw [StandardMappedData.DataAt.loop, List.get?_eq_getElem?]
    cases hg : arr[i]? with
    | none =>
      refine ⟨rfl, hd, fun _ _ => rfl, ?_⟩
      intro h
      cases h
    | some s =>
      have hi : i < arr.length := by
        by_contra hc
        rw [List.getElem?_eq_none (by omega)] at hg
        cases hg
      cases s with
      | nilPtr =>
        refine ⟨rfl, hd, fun _ _ => rfl, ?_⟩
        intro h
        cases h
      | ptr c =>
        simp only
        have hb2 : ∀ j, j < i + 1 → ∃ s1, arr[j]? = some s1 ∧ s1.isFilled = true := by
          intro j hj
          by_cases hji : j = i
          · subst hji
            exact ⟨_, hg, rfl⟩
          · exact hbelow j (by omega)
        obtain ⟨h1, h2, h3, h4⟩ := ih (i + 1) (pos + c.Buf.length) arr hd hb2
        refine ⟨h1, h2, fun j hj => h3 j (by omega), ?_⟩
        intro hok j hj1 hj2
        by_cases hji : j = i
        · subst hji
          rw [h3 j (by omega)]
          exact ⟨c, hg⟩
        · exact h4 hok j (by omega) (by omega)
      | empty =>
        simp only
        split_ifs with hlen
        · refine ⟨rfl, hd, fun _ _ => rfl, ?_⟩
          intro h
          cases h
        · cases hdec : NewStandardMappedData (content.drop pos) with
          | error e =>
            simp only
            obtain ⟨hd2, -⟩ := downClosed_set arr i Slot.nilPtr rfl hi hd hbelow
            refine ⟨by simp, hd2, ?_, ?_⟩
            · intro j hj
              rw [List.getElem?_set_ne (by omega)]
            · intro h
              cases h
          | ok c =>
            simp only
            obtain ⟨hd2, hb2⟩ := downClosed_set arr i (Slot.ptr c) rfl hi hd hbelow
            obtain ⟨h1, h2, h3, h4⟩ :=
              ih (i + 1) (pos + c.Buf.length) (arr.set i (Slot.ptr c)) hd2 hb2
            refine ⟨by rw [h1]; simp, h2, ?_, ?_⟩
            · intro j hj
              rw [h3 j (by omega), List.getElem?_set_ne (by omega)]
            · intro hok j hj1 hj2
              by_cases hji : j = i
              · subst hji
                rw [h3 j (by omega), List.getElem?_set_self hi]
                exact ⟨c, rfl⟩
              · exact h4 hok j (by omega) (by omega)

theorem RecordAt_loop_length (ops : RecordOps) (content : Bytes) :
    ∀ (n i pos : Nat) (rl : List (Slot MappedRecord)),
      (StandardMappedData.RecordAt.loop ops content n i pos rl).1.length = rl.length := by
  intro n
  induction n with
  | zero => intro i pos rl; rfl
  | succ n ih =>
    intro i pos rl
    rw [StandardMappedData.RecordAt.loop]
    cases rl.get? i with
    | none => rfl
    | some s =>
      cases s with
      | nilPtr => rfl
      | ptr r => exact ih _ _ _
      | empty =>
        simp only
        split_ifs
        · rfl
        · cases ops.NewMappedRecord (content.drop pos) with
          | error e => simp
          | ok r =>
            simp only
            rw [ih]
            simp

/-- What `DataAt` does to the receiver, whatever its outcome: only the data
array slots may change, their number is kept and the filled ones still
form an initial segment. -/
theorem DataAt_state (dec : Bool) (buf : Bytes)
    (arrs : Option (List (Slot StandardMappedData))) (rl : Option (List (Slot MappedRecord)))
    (sz : Nat) (ct : Bytes) (idx : Nat) :
    ∃ arrs1, ((StandardMappedData.mk dec buf arrs rl sz ct).DataAt idx).1
        = StandardMappedData.mk dec buf arrs1 rl sz ct ∧
      (arrs = none → arrs1 = none) ∧
      (∀ arr, arrs = some arr → DownClosed arr →
        ∃ arr1, arrs1 = some arr1 ∧ arr1.length = arr.length ∧ DownClosed arr1) := by
  unfold StandardMappedData.DataAt
  simp only [StandardMappedData.decoded, StandardMappedData.data_array, StandardMappedData.size,
    StandardMappedData.content, StandardMappedData.buf, StandardMappedData.record_list]
  have hsame : ∃ arrs1, StandardMappedData.mk dec buf arrs rl sz ct
        = StandardMappedData.mk dec buf arrs1 rl sz ct ∧
      (arrs = none → arrs1 = none) ∧
      (∀ arr, arrs = some arr → DownClosed arr →
        ∃ arr1, arrs1 = some arr1 ∧ arr1.length = arr.length ∧ DownClosed arr1) :=
    ⟨arrs, rfl, id, fun arr h hd => ⟨arr, h, rfl, hd⟩⟩
  cases dec with
  | false => exact hsame
  | true =>
  cases arrs with
  | none => exact hsame
  | some arr =>
      simp only [Bool.not_true, Bool.false_eq_true, if_false]
      by_cases hi : idx ≥ sz
      · rw [if_pos hi]; exact hsame
      · rw [if_neg hi, List.get?_eq_getElem?]
        cases arr[idx]? with
        | none => exact hsame
        | some s =>
          cases s with
          | ptr c => exact hsame
          | nilPtr => exact hsame
          | empty =>
            simp only
            have hp := fun hd => DataAt_loop_props ct (idx + 1) 0 0 arr hd
              (fun j hj => absurd hj (Nat.not_lt_zero j))
            rcases hl : StandardMappedData.DataAt.loop ct (idx + 1) 0 0 arr with ⟨arr1, r⟩
            rw [hl] at hp
            have hres : ∀ arr2, arr2 = arr1 → ∃ arrs1,
                StandardMappedData.mk true buf (some arr2) rl sz ct
                  = StandardMappedData.mk true buf arrs1 rl sz ct ∧
                (some arr = none → arrs1 = none) ∧
                (∀ a, some arr = some a → DownClosed a →
                  ∃ a1, arrs1 = some a1 ∧ a1.length = a.length ∧ DownClosed a1) := by
              intro arr2 h2
              subst h2
              refine ⟨some arr2, rfl, fun h => Option.noConfusion h, ?_⟩
              intro a ha hd
              cases ha
              exact ⟨arr2, rfl, (hp hd).1, (hp hd).2.1⟩
            cases r with
            | error e => exact hres arr1 rfl
            | ok u =>
              simp only
              rw [List.get?_eq_getElem?]
              cases arr1[idx]? with
              | none => exact hres arr1 rfl
              | some s => exact hres arr1 rfl

/-- What `RecordAt` does to the receiver, whatever its outcome: only the
record slots may change, and their number is kept. -/
theorem RecordAt_state (ops : RecordOps) (dec : Bool) (buf : Bytes)
    (arrs : Option (List (Slot StandardMappedData))) (rl : Option (List (Slot MappedRecord)))
    (sz : Nat) (ct : Bytes) (idx : Nat) :
    ∃ rl1, ((StandardMappedData.mk dec buf arrs rl sz ct).RecordAt ops idx).1
        = StandardMappedData.mk dec buf arrs rl1 sz ct ∧
      (rl = none → rl1 = none) ∧
      (∀ l, rl = some l → ∃ l1, rl1 = some l1 ∧ l1.length = l.length) := by
  unfold StandardMappedData.RecordAt
  simp only [StandardMappedData.decoded, StandardMappedData.data_array, StandardMappedData.size,
    StandardMappedData.content, StandardMappedData.buf, StandardMappedData.record_list]
  have hsame : ∃ rl1, StandardMappedData.mk dec buf arrs rl sz ct
        = StandardMappedData.mk dec buf arrs rl1 sz ct ∧
      (rl = none → rl1 = none) ∧
      (∀ l, rl = some l → ∃ l1, rl1 = some l1 ∧ l1.length = l.length) :=
    ⟨rl, rfl, id, fun l h => ⟨l, h, rfl⟩⟩
  cases dec with
  | false => exact hsame
  | true =>
  cases rl with
  | none => exact hsame
  | some l =>
      simp only [Bool.not_true, Bool.false_eq_true, if_false]
      by_cases hi : idx ≥ sz
      · rw [if_pos hi]; exact hsame
      · rw [if_neg hi, List.get?_eq_getElem?]
        cases l[idx]? with
        | none => exact hsame
        | some s =>
          cases s with
          | ptr c => exact hsame
          | nilPtr => exact hsame
          | empty =>
            simp only
            have hp := RecordAt_loop_length ops ct (idx + 1) 0 0 l
            rcases hl : StandardMappedData.RecordAt.loop ops ct (idx + 1) 0 0 l with ⟨l1, r⟩
            rw [hl] at hp
            have hres : ∃ rl1, StandardMappedData.mk true buf arrs (some l1) sz ct
                  = StandardMappedData.mk true buf arrs rl1 sz ct ∧
                (some l = none → rl1 = none) ∧
                (∀ a, some l = some a → ∃ a1, rl1 = some a1 ∧ a1.length = a.length) := by
              refine ⟨some l1, rfl, fun h => Option.noConfusion h, ?_⟩
              intro a ha
              cases ha
              exact ⟨l1, rfl, hp⟩
            cases r with
            | error e => exact hres
            | ok u =>
              simp only
              rw [List.get?_eq_getElem?]
              cases l1[idx]? with
              | none => exact hres
              | some s => exact hres

/-- Every decoded mapped value satisfies the invariant `DecodedInv`. -/
theorem inv_of_decoded (d : StandardMappedData) (h : Decoded d) : DecodedInv d := by
  induction h with
  | new b m hb hdec =>
    obtain ⟨b0, cnt, lenb, content, t, ac, rc, lc, n, hf, -, rfl⟩ := frame_of_decode b m hb hdec
    refine ⟨b0, cnt, lenb, content, ac, rc, lc, n, _, _, hf, rfl, ?_, ?_, ?_, ?_⟩
    · intro h; rw [if_pos h]
    · intro h; rw [if_neg h]
      exact ⟨_, rfl, by simp, downClosed_replicate n⟩
    · intro h; rw [if_pos h]
    · intro h; rw [if_neg h]
      exact ⟨_, rfl, by simp⟩
  | dataAt d idx _ ih =>
    obtain ⟨b0, cnt, lenb, content, ac, rc, lc, n, arrs, recs, hf, rfl, h1, h2, h3, h4⟩ := ih
    obtain ⟨arrs1, he, hn, hs⟩ := DataAt_state true (b0 :: (cnt ++ (lenb ++ content))) arrs recs n
      content idx
    refine ⟨b0, cnt, lenb, content, ac, rc, lc, n, arrs1, recs, hf, he, ?_, ?_, h3, h4⟩
    · intro h; exact hn (h1 h)
    · intro h
      obtain ⟨arr, ha, hl, hd⟩ := h2 h
      obtain ⟨arr1, ha1, hl1, hd1⟩ := hs arr ha hd
      exact ⟨arr1, ha1, by rw [hl1, hl], hd1⟩
  | recordAt ops d idx _ ih =>
    obtain ⟨b0, cnt, lenb, content, ac, rc, lc, n, arrs, recs, hf, rfl, h1, h2, h3, h4⟩ := ih
    obtain ⟨rl1, he, hn, hs⟩ := RecordAt_state ops true (b0 :: (cnt ++ (lenb ++ content))) arrs
      recs n content idx
    refine ⟨b0, cnt, lenb, content, ac, rc, lc, n, arrs, rl1, hf, he, h1, h2, ?_, ?_⟩
    · intro h; exact hn (h3 h)
    · intro h
      obtain ⟨l, ha, hl⟩ := h4 h
      obtain ⟨l1, ha1, hl1⟩ := hs l ha
      exact ⟨l1, ha1, by rw [hl1, hl]⟩

theorem getD_lt_of_bytes (b : Bytes) (hb : ∀ x ∈ b, x < 256) (i : Nat) : b.getD i 0 < 256 := by
  rw [List.getD_eq_getElem?_getD]
  cases h : b[i]? with
  | none => simp
  | some x => exact hb x (List.getElem?_mem h)

/-- The constructor `NewSimpleMappedData` with length code 1 on a buffer that
is exactly a length byte and the content it announces. -/
theorem simple_decode_one (B : Bytes) (hlen : B.length = 1 + B.getD 0 0)
    (hL : B.getD 0 0 < 256) :
    NewSimpleMappedData 1 B
      = .ok ({ decoded := true, parent := 1, buf := B, content := B.drop 1 }, B.length) := by
  unfold NewSimpleMappedData SimpleMappedData.Decode
  have e : (1 + B.getD 0 0) % 65536 = B.length := by rw [hlen]; omega
  simp only [e, slice]
  rw [if_neg (by decide), if_neg (by decide), if_pos (by decide), if_neg (by omega),
    if_neg (by omega), if_pos ⟨by omega, le_refl _⟩, if_pos ⟨by omega, le_refl _⟩]
  simp

/-- The constructor `NewSimpleMappedData` with length code 2 on a buffer that
is exactly a two-byte length and the content it announces. -/
theorem simple_decode_two (B : Bytes) (hlen : B.length = 2 + bigEndianUint16 B 0)
    (hL : B.length < 65536) :
    NewSimpleMappedData 2 B
      = .ok ({ decoded := true, parent := 2, buf := B, content := B.drop 2 }, B.length) := by
  unfold NewSimpleMappedData SimpleMappedData.Decode
  have e : (2 + bigEndianUint16 B 0) % 65536 = B.length := by rw [← hlen]; omega
  simp only [e, slice]
  rw [if_neg (by decide), if_neg (by decide), if_neg (by decide), if_pos (by decide),
    if_neg (by omega), if_neg (by omega), if_pos ⟨by omega, le_refl _⟩,
    if_pos ⟨by omega, le_refl _⟩]
  simp
  rfl

/-- Decoding again the buffer of a view that `NewSimpleMappedData` returned
on a buffer of bytes gives the same view. -/
theorem simple_redecode (p : Nat) (b : Bytes) (s : SimpleMappedData) (n : Nat)
    (hb : ∀ x ∈ b, x < 256) (h : NewSimpleMappedData p b = .ok (s, n)) :
    NewSimpleMappedData s.parent s.buf = .ok (s, s.buf.length) := by
  have hq : (p &&& 3) &&& 3 = p &&& 3 := by
    rw [and3_eq_mod, and3_eq_mod]; omega
  have hlt : p &&& 3 < 4 := by rw [and3_eq_mod]; omega
  have h0 := getD_lt_of_bytes b hb 0
  have h1 := getD_lt_of_bytes b hb 1
  unfold NewSimpleMappedData SimpleMappedData.Decode at h
  simp only [hq, ne_eq, not_true_eq_false, if_false] at h
  generalize hpq : p &&& 3 = q at h hlt hq
  interval_cases q
  · simp only [if_true] at h
    obtain ⟨rfl, rfl⟩ := Prod.mk.inj (Except.ok.inj h)
    rfl
  · rw [if_neg (by decide), if_pos (by decide)] at h
    by_cases c1 : b.length < 1
    · rw [if_pos c1] at h; cases h
    · rw [if_neg c1] at h
      by_cases c2 : b.length < 1 + b.getD 0 0
      · rw [if_pos c2] at h; cases h
      · rw [if_neg c2] at h
        have e : (1 + b.getD 0 0) % 65536 = 1 + b.getD 0 0 := by omega
        simp only [e, slice] at h
        rw [if_pos ⟨by omega, by omega⟩, if_pos ⟨by omega, by omega⟩] at h
        simp only at h
        obtain ⟨rfl, rfl⟩ := Prod.mk.inj (Except.ok.inj h)
        simp only [List.drop_zero]
        have hl : (b.take (1 + b.getD 0 0)).length = 1 + b.getD 0 0 := by
          rw [List.length_take]; omega
        have hg : (b.take (1 + b.getD 0 0)).getD 0 0 = b.getD 0 0 := getD_take b _ 0 (by omega)
        exact simple_decode_one (b.take (1 + b.getD 0 0)) (by rw [hl, hg]) (by rw [hg]; exact h0)
  · rw [if_neg (by decide), if_neg (by decide), if_pos (by decide)] at h
    by_cases c1 : b.length < 2
    · rw [if_pos c1] at h; cases h
    · rw [if_neg c1] at h
      by_cases c2 : b.length < 2 + bigEndianUint16 b 0
      · rw [if_pos c2] at h; cases h
      · rw [if_neg c2] at h
        simp only [slice] at h
        by_cases c3 : 2 ≤ (2 + bigEndianUint16 b 0) % 65536 ∧
            (2 + bigEndianUint16 b 0) % 65536 ≤ b.length
        · rw [if_pos c3, if_pos ⟨by omega, c3.2⟩] at h
          simp only at h
          obtain ⟨rfl, rfl⟩ := Prod.mk.inj (Except.ok.inj h)
          simp only [List.drop_zero]
          have h2 : b.getD (0 + 1) 0 < 256 := h1
          have hbe : bigEndianUint16 b 0 < 65536 := by
            unfold bigEndianUint16; omega
          have e : (2 + bigEndianUint16 b 0) % 65536 = 2 + bigEndianUint16 b 0 := by omega
          rw [e]
          have hl : (b.take (2 + bigEndianUint16 b 0)).length = 2 + bigEndianUint16 b 0 := by
            rw [List.length_take]; omega
          have hg : bigEndianUint16 (b.take (2 + bigEndianUint16 b 0)) 0 = bigEndianUint16 b 0 := by
            unfold bigEndianUint16
            rw [getD_take b _ 0 (by omega), getD_take b _ (0 + 1) (by omega)]
          exact simple_decode_two (b.take (2 + bigEndianUint16 b 0)) (by rw [hl, hg])
            (by rw [hl]; omega)
        · rw [if_neg c3] at h
          simp only at h
          cases h
  · rw [if_neg (by decide), if_neg (by decide), if_neg (by decide)] at h
    cases h

/-- Decoding the buffer of a decoded mapped value gives the value with an
empty cache. -/
theorem redecode_of_decoded (d : StandardMappedData) (hd : Decoded d) :
    NewStandardMappedData d.buf = .ok d.emptied := by
  obtain ⟨b0, cnt, lenb, content, ac, rc, lc, n, arrs, recs, hf, rfl, h1, h2, h3, h4⟩ :=
    inv_of_decoded d hd
  obtain ⟨hac, hrc, hlk, hcp, hlc, hcnt, hlen, htot⟩ := hf
  have := decode_frame b0 cnt lenb content [] ac rc lc n hac hrc hlk hcp hlc hcnt hlen htot
  rw [List.append_nil] at this
  show NewStandardMappedData (b0 :: (cnt ++ (lenb ++ content))) = _
  rw [this]
  have ha : (if ac = 0 then none else some (List.replicate n Slot.empty))
      = arrs.map fun _ => List.replicate n (Slot.empty : Slot StandardMappedData) := by
    by_cases h0 : ac = 0
    · rw [if_pos h0, h1 h0]; rfl
    · obtain ⟨arr, harr, -⟩ := h2 h0
      rw [if_neg h0, harr]; rfl
  have hr : (if rc = 0 then none else some (List.replicate n Slot.empty))
      = recs.map fun _ => List.replicate n (Slot.empty : Slot MappedRecord) := by
    by_cases h0 : rc = 0
    · rw [if_pos h0, h3 h0]; rfl
    · obtain ⟨l, hl, -⟩ := h4 h0
      rw [if_neg h0, hl]; rfl
  rw [ha, hr]
  rfl

/-- The buffer of a decoded mapped value holds bytes. -/
theorem decoded_bytes (d : StandardMappedData) (hd : Decoded d) : ∀ x ∈ d.buf, x < 256 := by
  induction hd with
  | new b m hb hdec =>
    obtain ⟨-, hbuf, -⟩ := decode_consumes b m hb hdec
    intro x hx
    have hx : x ∈ m.Buf := hx
    rw [hbuf] at hx
    exact hb x (List.mem_of_mem_take hx)
  | dataAt d idx _ ih =>
    obtain ⟨dec, buf, arrs, recs, sz, ct⟩ := d
    obtain ⟨arrs1, he, -⟩ := DataAt_state dec buf arrs recs sz ct idx
    rw [he]
    exact ih
  | recordAt ops d idx _ ih =>
    obtain ⟨dec, buf, arrs, recs, sz, ct⟩ := d
    obtain ⟨rl1, he, -⟩ := RecordAt_state ops dec buf arrs recs sz ct idx
    rw [he]
    exact ih

/-- The content of a decoded mapped value holds bytes. -/
theorem decoded_content_bytes (d : StandardMappedData) (hd : Decoded d) :
    ∀ x ∈ d.content, x < 256 := by
  have hb := decoded_bytes d hd
  obtain ⟨b0, cnt, lenb, content, ac, rc, lc, n, arrs, recs, -, rfl, -⟩ := inv_of_decoded d hd
  intro x hx
  apply hb x
  show x ∈ b0 :: (cnt ++ (lenb ++ content))
  have hx : x ∈ content := hx
  simp [hx]

/-- On a decoded mapped value `DataAt` changes the cache at most. -/
theorem emptied_DataAt (d : StandardMappedData) (hd : Decoded d) (idx : Nat) :
    (d.DataAt idx).1.emptied = d.emptied := by
  obtain ⟨b0, cnt, lenb, content, ac, rc, lc, n, arrs, recs, -, rfl, h1, h2, -, -⟩ :=
    inv_of_decoded d hd
  obtain ⟨arrs1, he, hn, hs⟩ := DataAt_state true (b0 :: (cnt ++ (lenb ++ content))) arrs recs n
    content idx
  rw [he]
  cases arrs with
  | none => rw [hn rfl]
  | some arr =>
    have hac : ac ≠ 0 := fun h0 => Option.noConfusion (h1 h0)
    obtain ⟨arrZ, harr, -, hdc⟩ := h2 hac
    cases harr
    obtain ⟨arr1, ha1, -⟩ := hs arr rfl hdc
    rw [ha1]
    rfl

/-- The value that a successful `DataAt(k)` returns is the one that slot `k`
holds after the call. -/
theorem DataAt_result_slot (d d1 : StandardMappedData) (k : Nat) (s : Slot StandardMappedData)
    (h : d.DataAt k = (d1, .ok s)) : d1.slot k = some s := by
  obtain ⟨dec, buf, arrs, recs, sz, ct⟩ := d
  unfold StandardMappedData.DataAt at h
  simp only [StandardMappedData.decoded, StandardMappedData.data_array, StandardMappedData.size,
    StandardMappedData.content, StandardMappedData.buf, StandardMappedData.record_list] at h
  cases dec with
  | false => cases h
  | true =>
  cases arrs with
  | none => cases h
  | some arr =>
    simp only [Bool.not_true, Bool.false_eq_true, if_false] at h
    by_cases hi : k ≥ sz
    · rw [if_pos hi] at h; cases h
    · rw [if_neg hi] at h
      cases hk : arr.get? k with
      | none => rw [hk] at h; cases h
      | some s0 =>
        rw [hk] at h
        have hcached : ∀ s1 : Slot StandardMappedData, arr.get? k = some s1 →
            (StandardMappedData.mk true buf (some arr) recs sz ct,
              (Except.ok s1 : Except Failure (Slot StandardMappedData))) = (d1, .ok s) →
            d1.slot k = some s := by
          intro s1 hs1 he
          obtain ⟨rfl, he2⟩ := Prod.mk.inj he
          cases Except.ok.inj he2
          exact hs1
        cases s0 with
        | ptr c => exact hcached _ hk h
        | nilPtr => exact hcached _ hk h
        | empty =>
          simp only at h
          rcases hl : StandardMappedData.DataAt.loop ct (k + 1) 0 0 arr with ⟨arr1, r⟩
          rw [hl] at h
          cases r with
          | error e => cases h
          | ok u =>
            simp only at h
            cases hk1 : arr1.get? k with
            | none => rw [hk1] at h; cases h
            | some s1 =>
              rw [hk1] at h
              obtain ⟨rfl, he2⟩ := Prod.mk.inj h
              cases Except.ok.inj he2
              exact hk1

/-- The loop of `DataAt` on a content of bytes fills the slots with decoded
mapped values. -/
theorem DataAt_loop_decoded (content : Bytes) (hb : ∀ x ∈ content, x < 256) :
    ∀ (n i pos : Nat) (arr : List (Slot StandardMappedData)),
      (∀ (j : Nat) (c : StandardMappedData), arr[j]? = some (Slot.ptr c) → Decoded c) →
      ∀ (j : Nat) (c : StandardMappedData),
        (StandardMappedData.DataAt.loop content n i pos arr).1[j]? = some (Slot.ptr c) →
        Decoded c := by
  intro n
  induction n with
  | zero => intro i pos arr h; exact h
  | succ n ih =>
    intro i pos arr h
    rw [StandardMappedData.DataAt.loop]
    cases hg : arr.get? i with
    | none => exact h
    | some s =>
      cases s with
      | nilPtr => exact h
      | ptr c => exact ih _ _ _ h
      | empty =>
        rw [List.get?_eq_getElem?] at hg
        simp only
        split_ifs
        · exact h
        · cases hc : NewStandardMappedData (content.drop pos) with
          | error e =>
            simp only
            intro j c hj
            by_cases hij : i = j
            · subst hij
              rw [List.getElem?_set_self', hg] at hj
              cases hj
            · rw [List.getElem?_set_ne hij] at hj
              exact h j c hj
          | ok c0 =>
            simp only
            apply ih
            intro j c hj
            by_cases hij : i = j
            · subst hij
              rw [List.getElem?_set_self', hg] at hj
              cases hj
              exact Decoded.new (content.drop pos) c0
                (fun x hx => hb x (List.mem_of_mem_drop hx)) hc
            · rw [List.getElem?_set_ne hij] at hj
              exact h j c hj

/-- The method `DataAt` on a content of bytes keeps the slots filled with
decoded mapped values. -/
theorem DataAt_slots_decoded (d : StandardMappedData) (idx : Nat)
    (hb : ∀ x ∈ d.content, x < 256)
    (h : ∀ (j : Nat) (c : StandardMappedData), d.slot j = some (Slot.ptr c) → Decoded c) :
    ∀ (j : Nat) (c : StandardMappedData), (d.DataAt idx).1.slot j = some (Slot.ptr c) →
      Decoded c := by
  obtain ⟨dec, buf, arrs, recs, sz, ct⟩ := d
  unfold StandardMappedData.DataAt
  simp only [StandardMappedData.decoded, StandardMappedData.data_array, StandardMappedData.size,
    StandardMappedData.content, StandardMappedData.buf, StandardMappedData.record_list]
  cases dec with
  | false => exact h
  | true =>
  cases arrs with
  | none => exact h
  | some arr =>
    simp only [Bool.not_true, Bool.false_eq_true, if_false]
    by_cases hi : idx ≥ sz
    · rw [if_pos hi]; exact h
    · rw [if_neg hi]
      cases arr.get? idx with
      | none => exact h
      | some s0 =>
        cases s0 with
        | ptr c => exact h
        | nilPtr => exact h
        | empty =>
          simp only
          have hl := DataAt_loop_decoded ct hb (idx + 1) 0 0 arr (fun j c hj => h j c (by
            simp only [StandardMappedData.slot, StandardMappedData.data_array,
              List.get?_eq_getElem?]; exact hj))
          rcases hloop : StandardMappedData.DataAt.loop ct (idx + 1) 0 0 arr with ⟨arr1, r⟩
          rw [hloop] at hl
          have hres : ∀ (j : Nat) (c : StandardMappedData),
              (StandardMappedData.mk true buf (some arr1) recs sz ct).slot j = some (Slot.ptr c) →
              Decoded c := by
            intro j c hj
            simp only [StandardMappedData.slot, StandardMappedData.data_array,
              List.get?_eq_getElem?] at hj
            exact hl j c hj
          cases r with
          | error e => exact hres
          | ok u =>
            simp only
            cases arr1.get? idx with
            | none => exact hres
            | some s => exact hres

/-- The slots of a decoded mapped value hold decoded mapped values. -/
theorem slots_of_decoded (d : StandardMappedData) (hd : Decoded d) :
    ∀ (j : Nat) (c : StandardMappedData), d.slot j = some (Slot.ptr c) → Decoded c := by
  induction hd with
  | new b m hb hdec =>
    obtain ⟨b0, cnt, lenb, content, t, ac, rc, lc, n, -, -, rfl⟩ := frame_of_decode b m hb hdec
    intro j c hj
    by_cases h0 : ac = 0
    · simp only [StandardMappedData.slot, StandardMappedData.data_array, if_pos h0] at hj
      cases hj
    · simp only [StandardMappedData.slot, StandardMappedData.data_array, if_neg h0,
        List.get?_eq_getElem?] at hj
      rw [List.getElem?_replicate] at hj
      split_ifs at hj
      cases hj
  | dataAt d idx hd0 ih =>
    exact DataAt_slots_decoded d idx (decoded_content_bytes d hd0) ih
  | recordAt ops d idx _ ih =>
    obtain ⟨dec, buf, arrs, recs, sz, ct⟩ := d
    obtain ⟨rl1, he, -⟩ := RecordAt_state ops dec buf arrs recs sz ct idx
    rw [he]
    exact ih

/-- The child that `DataAt` returns on a decoded mapped value is a decoded
mapped value. -/
theorem child_decoded (d d1 c : StandardMappedData) (k : Nat) (hd : Decoded d)
    (h : d.DataAt k = (d1, .ok (Slot.ptr c))) : Decoded c := by
  have hd1 : Decoded (d.DataAt k).1 := Decoded.dataAt d k hd
  rw [h] at hd1
  exact slots_of_decoded d1 hd1 k c (DataAt_result_slot d d1 k _ h)

/-- The count of a decoded mapped value fits a `uint16`, and it is zero
for a primitive. -/
theorem decoded_size (d : StandardMappedData) (hd : Decoded d) :
    d.size < 65536 ∧ (d.data_array = none → d.record_list = none → d.size = 0) ∧
    (d.data_array ≠ none → d.record_list = none) ∧ d.decoded = true := by
  have hb := decoded_bytes d hd
  obtain ⟨b0, cnt, lenb, content, ac, rc, lc, n, arrs, recs, hf, rfl, h1, h2, h3, h4⟩ :=
    inv_of_decoded d hd
  obtain ⟨-, -, -, -, -, hcnt, -, -⟩ := hf
  have hb : ∀ x ∈ b0 :: (cnt ++ (lenb ++ content)), x < 256 := hb
  have hcb : ∀ x ∈ cnt, x < 256 := fun x hx => hb x (by simp [hx])
  have key : n < 65536 ∧ (arrs = none → recs = none → n = 0) ∧ (arrs ≠ none → recs = none) := by
    rcases hcnt with ⟨rfl, rfl, rfl, rfl⟩ | ⟨rfl, rfl, rfl⟩ | ⟨rfl, rfl, rfl⟩ | ⟨rfl, rfl, rfl⟩ |
      ⟨rfl, rfl, rfl⟩
    · exact ⟨by omega, fun _ _ => rfl, fun _ => h3 rfl⟩
    · have := hcb n (by simp)
      obtain ⟨arr, ha, -⟩ := h2 (by decide)
      exact ⟨by omega, fun h => (by rw [ha] at h; cases h), fun _ => h3 rfl⟩
    · have := hcb (n / 256) (by simp)
      obtain ⟨arr, ha, -⟩ := h2 (by decide)
      exact ⟨by omega, fun h => (by rw [ha] at h; cases h), fun _ => h3 rfl⟩
    · have := hcb n (by simp)
      obtain ⟨l, hl, -⟩ := h4 (by decide)
      exact ⟨by omega, fun _ h => (by rw [hl] at h; cases h), fun h => absurd (h1 rfl) h⟩
    · have := hcb (n / 256) (by simp)
      obtain ⟨l, hl, -⟩ := h4 (by decide)
      exact ⟨by omega, fun _ h => (by rw [hl] at h; cases h), fun h => absurd (h1 rfl) h⟩
  exact ⟨key.1, key.2.1, key.2.2, rfl⟩

/-- The data array loop of `CopyConstruct` on a decoded mapped value, when it
succeeds: it appends one child for each index, the copy of the child that
`DataAt` returned at that index. -/
theorem dataLoop_spec (cc : StandardMappedData → Option (Except Failure IData)) :
    ∀ (n i : Nat) (d : StandardMappedData) (acc res : List IData), Decoded d →
      StandardMappedData.CopyConstruct.dataLoop cc n i d acc = some (.ok res) →
      ∃ rs, res = acc ++ rs ∧ rs.length = n ∧
        ∀ j, j < n → ∃ dj dj1 cj rj, Decoded dj ∧ dj.emptied = d.emptied ∧
          dj.DataAt (i + j) = (dj1, .ok (Slot.ptr cj)) ∧ Decoded cj ∧
          cc cj = some (.ok rj) ∧ rs[j]? = some rj := by
  intro n
  induction n with
  | zero =>
    intro i d acc res _ h
    rw [StandardMappedData.CopyConstruct.dataLoop] at h
    cases Except.ok.inj (Option.some.inj h)
    exact ⟨[], by simp, rfl, fun j hj => absurd hj (Nat.not_lt_zero j)⟩
  | succ n ih =>
    intro i d acc res hd h
    rw [StandardMappedData.CopyConstruct.dataLoop] at h
    rcases hda : d.DataAt i with ⟨d1, r⟩
    rw [hda] at h
    cases r with
    | error e => cases h
    | ok s =>
      cases s with
      | empty => cases h
      | nilPtr => cases h
      | ptr data =>
        simp only at h
        cases hcc : cc data with
        | none => rw [hcc] at h; cases h
        | some o =>
          rw [hcc] at h
          cases o with
          | error e => cases h
          | ok data_copy =>
            simp only at h
            have hd1 : Decoded d1 := by
              have := Decoded.dataAt d i hd
              rw [hda] at this
              exact this
            have he1 : d1.emptied = d.emptied := by
              have := emptied_DataAt d hd i
              rw [hda] at this
              exact this
            obtain ⟨rs, hres, hlen, hch⟩ := ih (i + 1) d1 (acc ++ [data_copy]) res hd1 h
            refine ⟨data_copy :: rs, by rw [hres]; simp, by simp [hlen], ?_⟩
            intro j hj
            cases j with
            | zero =>
              exact ⟨d, d1, data, data_copy, hd, rfl, hda, child_decoded d d1 data i hd hda, hcc,
                by simp⟩
            | succ j =>
              obtain ⟨dj, dj1, cj, rj, h1, h2, h3, h4, h5, h6⟩ := hch j (by omega)
              refine ⟨dj, dj1, cj, rj, h1, h2.trans he1, ?_, h4, h5, by simpa using h6⟩
              rw [← h3]
              congr 1
              omega

/-- The record list loop of `CopyConstruct`, when it succeeds, appends one
record for each index. -/
theorem recordLoop_length (ops : RecordOps) :
    ∀ (n i : Nat) (d : StandardMappedData) (acc res : List Record),
      StandardMappedData.CopyConstruct.recordLoop ops n i d acc = .ok res →
      res.length = acc.length + n := by
  intro n
  induction n with
  | zero =>
    intro i d acc res h
    rw [StandardMappedData.CopyConstruct.recordLoop] at h
    cases Except.ok.inj h
    rfl
  | succ n ih =>
    intro i d acc res h
    rw [StandardMappedData.CopyConstruct.recordLoop] at h
    rcases hda : d.RecordAt ops i with ⟨d1, r⟩
    rw [hda] at h
    cases r with
    | error e => cases h
    | ok s =>
      cases s with
      | empty => cases h
      | nilPtr => cases h
      | ptr record =>
        simp only at h
        cases hcc : ops.mappedCopyConstruct record with
        | error e => rw [hcc] at h; cases h
        | ok record_copy =>
          rw [hcc] at h
          simp only at h
          rw [ih _ _ _ _ h]
          simp
          omega

theorem isConstructedList_append (xs ys : List IData) :
    isConstructedList (xs ++ ys) = (isConstructedList xs && isConstructedList ys) := by
  induction xs with
  | nil => simp [isConstructedList]
  | cons x xs ih => simp [isConstructedList, ih, Bool.and_assoc]

/-- The data array loop of `CopyConstruct` appends constructed values when
the copies of the children are constructed. -/
theorem dataLoop_constructed (cc : StandardMappedData → Option (Except Failure IData))
    (hcc : ∀ c r, cc c = some (.ok r) → r.isConstructed = true) :
    ∀ (n i : Nat) (d : StandardMappedData) (acc res : List IData),
      isConstructedList acc = true →
      StandardMappedData.CopyConstruct.dataLoop cc n i d acc = some (.ok res) →
      isConstructedList res = true := by
  intro n
  induction n with
  | zero =>
    intro i d acc res ha h
    rw [StandardMappedData.CopyConstruct.dataLoop] at h
    cases Except.ok.inj (Option.some.inj h)
    exact ha
  | succ n ih =>
    intro i d acc res ha h
    rw [StandardMappedData.CopyConstruct.dataLoop] at h
    rcases hda : d.DataAt i with ⟨d1, r⟩
    rw [hda] at h
    cases r with
    | error e => cases h
    | ok s =>
      cases s with
      | empty => cases h
      | nilPtr => cases h
      | ptr data =>
        simp only at h
        cases hc : cc data with
        | none => rw [hc] at h; cases h
        | some o =>
          rw [hc] at h
          cases o with
          | error e => cases h
          | ok data_copy =>
            simp only at h
            refine ih (i + 1) d1 (acc ++ [data_copy]) res ?_ h
            rw [isConstructedList_append, ha]
            simp [isConstructedList, hcc data data_copy hc]

/-- The three ways in which `StandardMappedData.CopyConstruct` succeeds. -/
theorem copyConstruct_cases (ops : RecordOps) (fuel : Nat) (d : StandardMappedData) (r : IData)
    (h : d.CopyConstruct ops (fuel + 1) = some (.ok r)) :
    (d.IsPrimitive = .ok true ∧ ∃ data, d.Data = .ok data ∧
      r = .primitive (NewPrimitive (some data))) ∨
    (d.IsPrimitive = .ok false ∧ d.IsDataArray = .ok true ∧ ∃ size children,
      d.Size = .ok size ∧
      StandardMappedData.CopyConstruct.dataLoop (StandardMappedData.CopyConstruct ops fuel)
        size 0 d [] = some (.ok children) ∧
      r = .dataArray false [] (some children)) ∨
    (d.IsPrimitive = .ok false ∧ d.IsDataArray = .ok false ∧ d.IsRecordList = .ok true ∧
      ∃ size records, d.Size = .ok size ∧
        StandardMappedData.CopyConstruct.recordLoop ops size 0 d [] = .ok records ∧
        r = .recordList { encoded := false, buf := [], record_list := some records }) := by
  rw [StandardMappedData.CopyConstruct] at h
  cases hp : d.IsPrimitive with
  | error e => rw [hp] at h; cases h
  | ok p =>
    rw [hp] at h
    cases p with
    | true =>
      simp only at h
      cases hdata : d.Data with
      | error e => rw [hdata] at h; cases h
      | ok data =>
        rw [hdata] at h
        cases Except.ok.inj (Option.some.inj h)
        exact Or.inl ⟨rfl, data, rfl, rfl⟩
    | false =>
      simp only at h
      cases ha : d.IsDataArray with
      | error e =>
        cases hs : d.Size with
        | error e1 => rw [ha, hs] at h; cases h
        | ok size => rw [ha, hs] at h; cases h
      | ok a =>
        cases hs : d.Size with
        | error e => rw [ha, hs] at h; cases a <;> cases h
        | ok size =>
          rw [ha, hs] at h
          cases a with
          | true =>
            simp only at h
            cases hl : StandardMappedData.CopyConstruct.dataLoop
                (StandardMappedData.CopyConstruct ops fuel) size 0 d [] with
            | none => rw [hl] at h; cases h
            | some o =>
              rw [hl] at h
              cases o with
              | error e => cases h
              | ok children =>
                cases Except.ok.inj (Option.some.inj h)
                exact Or.inr (Or.inl ⟨rfl, rfl, size, children, rfl, hl, rfl⟩)
          | false =>
            simp only at h
            cases hr : d.IsRecordList with
            | error e => rw [hr] at h; cases h
            | ok b =>
              rw [hr] at h
              cases b with
              | false => cases h
              | true =>
                simp only at h
                cases hl : StandardMappedData.CopyConstruct.recordLoop ops size 0 d [] with
                | error e => rw [hl] at h; cases h
                | ok records =>
                  rw [hl] at h
                  cases Except.ok.inj (Option.some.inj h)
                  exact Or.inr (Or.inr ⟨rfl, rfl, rfl, size, records, rfl, hl, rfl⟩)

/-- What `StandardMappedData.CopyConstruct` returns is constructed at every
node. -/
theorem std_constructed (ops : RecordOps) :
    ∀ (fuel : Nat) (d : StandardMappedData) (r : IData),
      d.CopyConstruct ops fuel = some (.ok r) → r.isConstructed = true := by
  intro fuel
  induction fuel with
  | zero =>
    intro d r h
    rw [StandardMappedData.CopyConstruct] at h
    cases h
  | succ fuel ih =>
    intro d r h
    rcases copyConstruct_cases ops fuel d r h with ⟨-, data, -, rfl⟩ |
      ⟨-, -, size, children, -, hl, rfl⟩ | ⟨-, -, -, size, records, -, -, rfl⟩
    · rfl
    · rw [IData.isConstructed, isConstructedOpt]
      exact dataLoop_constructed _ ih size 0 d [] children rfl hl
    · rfl

/-- The loop of `DataArray.CopyConstruct`, when it succeeds, returns the
copies of the children, in order. -/
theorem copyLoop_forall₂ (ops : RecordOps) (fuel : Nat) :
    ∀ (cs rs : List IData), DataArray.CopyConstruct.loop ops fuel cs = some (.ok rs) →
      List.Forall₂ (fun c rc => c.CopyConstruct ops fuel = some (.ok rc)) cs rs := by
  intro cs
  induction cs with
  | nil =>
    intro rs h
    rw [DataArray.CopyConstruct.loop] at h
    cases Except.ok.inj (Option.some.inj h)
    exact List.Forall₂.nil
  | cons c cs ih =>
    intro rs h
    rw [DataArray.CopyConstruct.loop] at h
    cases hc : c.CopyConstruct ops fuel with
    | none => rw [hc] at h; cases h
    | some o =>
      rw [hc] at h
      cases o with
      | error e => cases h
      | ok c1 =>
        simp only at h
        cases hl : DataArray.CopyConstruct.loop ops fuel cs with
        | none => rw [hl] at h; cases h
        | some o1 =>
          rw [hl] at h
          cases o1 with
          | error e => cases h
          | ok cs1 =>
            cases Except.ok.inj (Option.some.inj h)
            exact List.Forall₂.cons hc (ih cs1 hl)

/-- The loop of `RecordList.CopyConstruct`, when it succeeds, returns as
many records as it was given. -/
theorem recordCopyLoop_length (ops : RecordOps) :
    ∀ (rs res : List Record), RecordList.CopyConstruct.loop ops rs = .ok res →
      res.length = rs.length := by
  intro rs
  induction rs with
  | nil =>
    intro res h
    rw [RecordList.CopyConstruct.loop] at h
    cases Except.ok.inj h
    rfl
  | cons r rs ih =>
    intro res h
    rw [RecordList.CopyConstruct.loop] at h
    cases hc : ops.copyConstruct r with
    | error e => rw [hc] at h; cases h
    | ok r1 =>
      rw [hc] at h
      simp only at h
      cases hl : RecordList.CopyConstruct.loop ops rs with
      | error e => rw [hl] at h; cases h
      | ok rs1 =>
        rw [hl] at h
        cases Except.ok.inj h
        simp [ih rs1 hl]

/-- What the interface method `CopyConstruct` returns is constructed at
every node, whatever the implementation of the source. -/
theorem idata_constructed (ops : RecordOps) (fuel : Nat) (v : IData) :
    ∀ r, v.CopyConstruct ops fuel = some (.ok r) → r.isConstructed = true := by
  refine @IData.rec
    (fun v => ∀ r, v.CopyConstruct ops fuel = some (.ok r) → r.isConstructed = true)
    (fun o => ∀ l, o = some l → ∀ rs, DataArray.CopyConstruct.loop ops fuel l = some (.ok rs) →
      isConstructedList rs = true)
    (fun l => ∀ rs, DataArray.CopyConstruct.loop ops fuel l = some (.ok rs) →
      isConstructedList rs = true)
    ?_ ?_ ?_ ?_ ?_ ?_ ?_ ?_ ?_ v
  · intro d r h
    rw [IData.CopyConstruct, SimpleMappedData.CopyConstruct] at h
    cases Except.ok.inj (Option.some.inj h)
    rfl
  · intro d r h
    rw [IData.CopyConstruct] at h
    exact std_constructed ops fuel d r h
  · intro d r h
    rw [IData.CopyConstruct, Primitive.CopyConstruct] at h
    cases Except.ok.inj (Option.some.inj h)
    rfl
  · intro e b o ih r h
    rw [IData.CopyConstruct] at h
    cases o with
    | none =>
      rw [DataArray.CopyConstruct] at h
      cases Except.ok.inj (Option.some.inj h)
      rfl
    | some l =>
      rw [DataArray.CopyConstruct] at h
      cases hl : DataArray.CopyConstruct.loop ops fuel l with
      | none => rw [hl] at h; cases h
      | some o1 =>
        rw [hl] at h
        cases o1 with
        | error e1 => cases h
        | ok rs =>
          cases Except.ok.inj (Option.some.inj h)
          rw [IData.isConstructed, isConstructedOpt]
          exact ih l rfl rs hl
  · intro d r h
    rw [IData.CopyConstruct, RecordList.CopyConstruct] at h
    cases hr : d.record_list with
    | none =>
      rw [hr] at h
      cases Except.ok.inj (Option.some.inj h)
      rfl
    | some l =>
      rw [hr] at h
      simp only at h
      cases hl : RecordList.CopyConstruct.loop ops l with
      | error e => rw [hl] at h; cases h
      | ok rs =>
        rw [hl] at h
        cases Except.ok.inj (Option.some.inj h)
        rfl
  · intro l h
    cases h
  · intro l ih l1 h
    cases h
    exact ih
  · intro rs h
    rw [DataArray.CopyConstruct.loop] at h
    cases Except.ok.inj (Option.some.inj h)
    rfl
  · intro c cs ihc ihcs rs h
    rw [DataArray.CopyConstruct.loop] at h
    cases hc : c.CopyConstruct ops fuel with
    | none => rw [hc] at h; cases h
    | some o =>
      rw [hc] at h
      cases o with
      | error e => cases h
      | ok c1 =>
        simp only at h
        cases hl : DataArray.CopyConstruct.loop ops fuel cs with
        | none => rw [hl] at h; cases h
        | some o1 =>
          rw [hl] at h
          cases o1 with
          | error e => cases h
          | ok cs1 =>
            cases Except.ok.inj (Option.some.inj h)
            rw [isConstructedList, ihc c1 hc, ihcs cs1 hl]
            rfl

/-- What a successful `CopyConstruct` of a decoded mapped value returns: a
value with the same answers to `IsDataArray`, `IsRecordList`, `Size` and
`Data`, to `IsPrimitive` too unless the source is a container of size 0,
and for a data array the copies of the children that `DataAt` returns. -/
theorem std_copyConstruct_spec (ops : RecordOps) (fuel : Nat) (d : StandardMappedData)
    (r : IData) (hd : Decoded d) (h : d.CopyConstruct ops (fuel + 1) = some (.ok r)) :
    r.IsDataArray = d.IsDataArray ∧ r.IsRecordList = d.IsRecordList ∧
    r.Size = d.Size ∧ r.Data = d.Data ∧
    (d.size ≠ 0 ∨ d.IsPrimitive = .ok true → r.IsPrimitive = d.IsPrimitive) ∧
    (d.size = 0 → r.IsPrimitive = .ok true) ∧
    (d.IsDataArray = .ok true →
      ∃ rs, r = .dataArray false [] (some rs) ∧ rs.length = d.size ∧
        ∀ j, j < d.size → ∃ dj dj1 cj rj, Decoded dj ∧ dj.emptied = d.emptied ∧
          dj.DataAt j = (dj1, .ok (Slot.ptr cj)) ∧ Decoded cj ∧
          cj.CopyConstruct ops fuel = some (.ok rj) ∧ rs[j]? = some rj) := by
  obtain ⟨hlt, hzero, hexcl, hdec⟩ := decoded_size d hd
  rcases copyConstruct_cases ops fuel d r h with ⟨hp, data, hdata, rfl⟩ |
      ⟨hp, ha, size, children, hs, hl, rfl⟩ | ⟨hp, ha, hr, size, records, hs, hl, rfl⟩
  · obtain ⟨dec, buf, arrs, recs, sz, ct⟩ := d
    cases hdec
    cases arrs with
    | some arr => cases hp
    | none =>
      cases recs with
      | some l => cases hp
      | none =>
        have hz : sz = 0 := hzero rfl rfl
        subst hz
        cases Except.ok.inj hdata
        exact ⟨rfl, rfl, rfl, rfl, fun _ => rfl, fun _ => rfl, fun h => by cases h⟩
  · obtain ⟨rs, hres, hlen, hch⟩ := dataLoop_spec _ size 0 d [] children hd hl
    obtain ⟨dec, buf, arrs, recs, sz, ct⟩ := d
    cases hdec
    cases Except.ok.inj hs
    rw [List.nil_append] at hres
    subst hres
    have hlen : children.length = sz := hlen
    have hlt : sz < 65536 := hlt
    cases arrs with
    | none => cases ha
    | some arr =>
      have hrn : recs = none := hexcl (fun h => Option.noConfusion h)
      subst hrn
      have hlt : children.length < 65536 := lt_of_eq_of_lt hlen hlt
      refine ⟨rfl, rfl, ?_, rfl, ?_, ?_, ?_⟩
      · show Except.ok (children.length % 65536) = Except.ok sz
        rw [Nat.mod_eq_of_lt hlt]
        exact congrArg _ hlen
      · intro hne
        rcases hne with hne | hne
        · have hne : children.length ≠ 0 := fun h0 => hne (hlen.symm.trans h0)
          simp [IData.IsPrimitive, StandardMappedData.IsPrimitive, StandardMappedData.decoded,
            StandardMappedData.data_array, hne]
        · cases hne
      · intro hz
        have hz : sz = 0 := hz
        have : children.length = 0 := hlen.trans hz
        simp [IData.IsPrimitive, this]
      · intro _
        refine ⟨children, rfl, hlen, ?_⟩
        intro j hj
        obtain ⟨dj, dj1, cj, rj, h1, h2, h3, h4, h5, h6⟩ := hch j hj
        rw [Nat.zero_add] at h3
        exact ⟨dj, dj1, cj, rj, h1, h2, h3, h4, h5, h6⟩
  · have hlen := recordLoop_length ops size 0 d [] records hl
    obtain ⟨dec, buf, arrs, recs, sz, ct⟩ := d
    cases hdec
    cases Except.ok.inj hs
    cases arrs with
    | some arr => cases ha
    | none =>
      cases recs with
      | none => cases hr
      | some l =>
        have hlen : records.length = sz := by simpa using hlen
        have hlt : sz < 65536 := hlt
        have hlt : records.length < 65536 := lt_of_eq_of_lt hlen hlt
        refine ⟨rfl, rfl, ?_, rfl, ?_, ?_, fun h => by cases h⟩
        · show Except.ok (records.length % 65536) = Except.ok sz
          rw [Nat.mod_eq_of_lt hlt]
          exact congrArg _ hlen
        · intro hne
          rcases hne with hne | hne
          · have hne : records.length ≠ 0 := fun h0 => hne (hlen.symm.trans h0)
            simp [IData.IsPrimitive, StandardMappedData.IsPrimitive, StandardMappedData.decoded,
              StandardMappedData.data_array, StandardMappedData.record_list, hne]
          · cases hne
        · intro hz
          have hz : sz = 0 := hz
          have : records.length = 0 := hlen.trans hz
          simp [IData.IsPrimitive, this]

/-- The loop of `DataAt` fills the slots with views decoded from the
content at some offset. -/
theorem DataAt_loop_origin (content : Bytes) :
    ∀ (n i pos : Nat) (arr : List (Slot StandardMappedData)),
      (∀ (j : Nat) (c : StandardMappedData), arr[j]? = some (Slot.ptr c) →
        ∃ p, NewStandardMappedData (content.drop p) = .ok c) →
      ∀ (j : Nat) (c : StandardMappedData),
        (StandardMappedData.DataAt.loop content n i pos arr).1[j]? = some (Slot.ptr c) →
        ∃ p, NewStandardMappedData (content.drop p) = .ok c := by
  intro n
  induction n with
  | zero => intro i pos arr h; exact h
  | succ n ih =>
    intro i pos arr h
    rw [StandardMappedData.DataAt.loop]
    cases hg : arr.get? i with
    | none => exact h
    | some s =>
      cases s with
      | nilPtr => exact h
      | ptr c => exact ih _ _ _ h
      | empty =>
        rw [List.get?_eq_getElem?] at hg
        simp only
        split_ifs
        · exact h
        · cases hc : NewStandardMappedData (content.drop pos) with
          | error e =>
            simp only
            intro j c hj
            by_cases hij : i = j
            · subst hij
              rw [List.getElem?_set_self', hg] at hj
              cases hj
            · rw [List.getElem?_set_ne hij] at hj
              exact h j c hj
          | ok c0 =>
            simp only
            apply ih
            intro j c hj
            by_cases hij : i = j
            · subst hij
              rw [List.getElem?_set_self', hg] at hj
              cases hj
              exact ⟨pos, hc⟩
            · rw [List.getElem?_set_ne hij] at hj
              exact h j c hj

/-- The method `DataAt` keeps the slots filled with views decoded from the
content at some offset. -/
theorem DataAt_slots_origin (d : StandardMappedData) (idx : Nat)
    (h : ∀ (j : Nat) (c : StandardMappedData), d.slot j = some (Slot.ptr c) →
      ∃ p, NewStandardMappedData (d.content.drop p) = .ok c) :
    ∀ (j : Nat) (c : StandardMappedData), (d.DataAt idx).1.slot j = some (Slot.ptr c) →
      ∃ p, NewStandardMappedData (d.content.drop p) = .ok c := by
  obtain ⟨dec, buf, arrs, recs, sz, ct⟩ := d
  unfold StandardMappedData.DataAt
  simp only [StandardMappedData.decoded, StandardMappedData.data_array, StandardMappedData.size,
    StandardMappedData.content, StandardMappedData.buf, StandardMappedData.record_list]
  have h : ∀ (j : Nat) (c : StandardMappedData),
      (StandardMappedData.mk dec buf arrs recs sz ct).slot j = some (Slot.ptr c) →
      ∃ p, NewStandardMappedData (ct.drop p) = .ok c := h
  cases dec with
  | false => exact h
  | true =>
  cases arrs with
  | none => exact h
  | some arr =>
    simp only [Bool.not_true, Bool.false_eq_true, if_false]
    by_cases hi : idx ≥ sz
    · rw [if_pos hi]; exact h
    · rw [if_neg hi]
      cases arr.get? idx with
      | none => exact h
      | some s0 =>
        cases s0 with
        | ptr c => exact h
        | nilPtr => exact h
        | empty =>
          simp only
          have hl := DataAt_loop_origin ct (idx + 1) 0 0 arr (fun j c hj => h j c (by
            simp only [StandardMappedData.slot, StandardMappedData.data_array,
              List.get?_eq_getElem?]; exact hj))
          rcases hloop : StandardMappedData.DataAt.loop ct (idx + 1) 0 0 arr with ⟨arr1, r⟩
          rw [hloop] at hl
          have hres : ∀ (j : Nat) (c : StandardMappedData),
              (StandardMappedData.mk true buf (some arr1) recs sz ct).slot j = some (Slot.ptr c) →
              ∃ p, NewStandardMappedData (ct.drop p) = .ok c := by
            intro j c hj
            simp only [StandardMappedData.slot, StandardMappedData.data_array,
              List.get?_eq_getElem?] at hj
            exact hl j c hj
          cases r with
          | error e => exact hres
          | ok u =>
            simp only
            cases arr1.get? idx with
            | none => exact hres
            | some s => exact hres

/-- The slots of a decoded mapped value hold views decoded from its content
at some offset. -/
theorem slots_origin (d : StandardMappedData) (hd : Decoded d) :
    ∀ (j : Nat) (c : StandardMappedData), d.slot j = some (Slot.ptr c) →
      ∃ p, NewStandardMappedData (d.content.drop p) = .ok c := by
  induction hd with
  | new b m hb hdec =>
    obtain ⟨b0, cnt, lenb, content, t, ac, rc, lc, n, -, -, rfl⟩ := frame_of_decode b m hb hdec
    intro j c hj
    by_cases h0 : ac = 0
    · simp only [StandardMappedData.slot, StandardMappedData.data_array, if_pos h0] at hj
      cases hj
    · simp only [StandardMappedData.slot, StandardMappedData.data_array, if_neg h0,
        List.get?_eq_getElem?] at hj
      rw [List.getElem?_replicate] at hj
      split_ifs at hj
      cases hj
  | dataAt d idx hd0 ih =>
    have hct : (d.DataAt idx).1.content = d.content := by
      have := congrArg StandardMappedData.content (emptied_DataAt d hd0 idx)
      exact this
    rw [hct]
    exact DataAt_slots_origin d idx ih
  | recordAt ops d idx _ ih =>
    obtain ⟨dec, buf, arrs, recs, sz, ct⟩ := d
    obtain ⟨rl1, he, -⟩ := RecordAt_state ops dec buf arrs recs sz ct idx
    rw [he]
    exact ih

/-- The child that `DataAt` returns on a decoded mapped value is a view over
fewer bytes than the value. -/
theorem child_shorter (d d1 c : StandardMappedData) (k : Nat) (hd : Decoded d)
    (h : d.DataAt k = (d1, .ok (Slot.ptr c))) : c.buf.length < d.buf.length := by
  have hd1 : Decoded (d.DataAt k).1 := Decoded.dataAt d k hd
  have he := emptied_DataAt d hd k
  rw [h] at hd1 he
  obtain ⟨p, hp⟩ := slots_origin d1 hd1 k c (DataAt_result_slot d d1 k _ h)
  have hct : d1.content = d.content := by
    have := congrArg StandardMappedData.content he
    exact this
  rw [hct] at hp
  have hcb := decoded_content_bytes d hd
  obtain ⟨hle, hbuf, -⟩ := decode_consumes (d.content.drop p) c
    (fun x hx => hcb x (List.mem_of_mem_drop hx)) hp
  have h1 : c.buf.length ≤ d.content.length := by
    have : c.buf = c.Buf := rfl
    rw [this, hbuf, List.length_take, List.length_drop]
    omega
  obtain ⟨b0, cnt, lenb, content, ac, rc, lc, n, arrs, recs, -, rfl, -⟩ := inv_of_decoded d hd
  have h2 : (StandardMappedData.mk true (b0 :: (cnt ++ (lenb ++ content))) arrs recs n
      content).buf.length = 1 + cnt.length + lenb.length + content.length := by
    simp [StandardMappedData.buf]
    omega
  have h3 : (StandardMappedData.mk true (b0 :: (cnt ++ (lenb ++ content))) arrs recs n
      content).content = content := rfl
  rw [h3] at h1
  omega

/-- The data array loop of `CopyConstruct` on a decoded mapped value comes
to an end when the copy of every child does. -/
theorem dataLoop_ends (cc : StandardMappedData → Option (Except Failure IData)) :
    ∀ (n i : Nat) (d : StandardMappedData) (acc : List IData), Decoded d →
      (∀ (dj dj1 c : StandardMappedData) (j : Nat), Decoded dj → dj.emptied = d.emptied →
        dj.DataAt j = (dj1, .ok (Slot.ptr c)) → cc c ≠ none) →
      StandardMappedData.CopyConstruct.dataLoop cc n i d acc ≠ none := by
  intro n
  induction n with
  | zero =>
    intro i d acc _ _
    rw [StandardMappedData.CopyConstruct.dataLoop]
    exact fun h => Option.noConfusion h
  | succ n ih =>
    intro i d acc hd hcc
    rw [StandardMappedData.CopyConstruct.dataLoop]
    rcases hda : d.DataAt i with ⟨d1, r⟩
    cases r with
    | error e => exact fun h => Option.noConfusion h
    | ok s =>
      cases s with
      | empty => exact fun h => Option.noConfusion h
      | nilPtr => exact fun h => Option.noConfusion h
      | ptr data =>
        simp only
        have hne := hcc d d1 data i hd rfl hda
        cases hc : cc data with
        | none => exact absurd hc hne
        | some o =>
          cases o with
          | error e => exact fun h => Option.noConfusion h
          | ok data_copy =>
            simp only
            have hd1 : Decoded d1 := by
              have := Decoded.dataAt d i hd
              rw [hda] at this
              exact this
            have he1 : d1.emptied = d.emptied := by
              have := emptied_DataAt d hd i
              rw [hda] at this
              exact this
            exact ih (i + 1) d1 _ hd1
              (fun dj dj1 c j h1 h2 h3 => hcc dj dj1 c j h1 (h2.trans he1) h3)

/-- On a decoded mapped value `CopyConstruct` comes to an end, with a value
or with an error, as soon as `fuel` exceeds the length of the buffer. -/
theorem copyConstruct_ends (ops : RecordOps) :
    ∀ (fuel : Nat) (d : StandardMappedData), Decoded d → d.buf.length < fuel →
      d.CopyConstruct ops fuel ≠ none := by
  intro fuel
  induction fuel with
  | zero => intro d _ h; exact absurd h (Nat.not_lt_zero _)
  | succ fuel ih =>
    intro d hd hlen
    rw [StandardMappedData.CopyConstruct]
    have hloop : ∀ size, StandardMappedData.CopyConstruct.dataLoop
        (StandardMappedData.CopyConstruct ops fuel) size 0 d [] ≠ none := by
      intro size
      apply dataLoop_ends _ size 0 d [] hd
      intro dj dj1 c j h1 h2 h3
      have hb : dj.buf = d.buf := by
        have := congrArg StandardMappedData.buf h2
        exact this
      have hs := child_shorter dj dj1 c j h1 h3
      rw [hb] at hs
      exact ih c (child_decoded dj dj1 c j h1 h3) (by omega)
    cases d.IsPrimitive with
    | error e => exact fun h => Option.noConfusion h
    | ok p =>
      cases p with
      | true =>
        simp only
        cases d.Data <;> exact fun h => Option.noConfusion h
      | false =>
        simp only
        cases d.IsDataArray with
        | error e => cases d.Size <;> exact fun h => Option.noConfusion h
        | ok a =>
          cases d.Size with
          | error e => cases a <;> exact fun h => Option.noConfusion h
          | ok size =>
            cases a with
            | true =>
              simp only
              have := hloop size
              cases hl : StandardMappedData.CopyConstruct.dataLoop
                  (StandardMappedData.CopyConstruct ops fuel) size 0 d [] with
              | none => exact absurd hl this
              | some o => cases o <;> exact fun h => Option.noConfusion h
            | false =>
              simp only
              cases d.IsRecordList with
              | error e => exact fun h => Option.noConfusion h
              | ok b =>
                cases b with
                | false => exact fun h => Option.noConfusion h
                | true =>
                  simp only
                  cases StandardMappedData.CopyConstruct.recordLoop ops size 0 d [] <;>
                    exact fun h => Option.noConfusion h

/-- Appending values one after the other to a data array adds them, in
order, at the end of its children. -/
theorem foldl_Append (vs : List IData) :
    ∀ (encoded : Bool) (buf : Bytes) (cs : List IData),
      vs.foldl IData.Append (.dataArray encoded buf (some cs))
        = .dataArray (encoded && vs.isEmpty) buf (some (cs ++ vs)) := by
  induction vs with
  | nil => intro e b cs; simp
  | cons v vs ih =>
    intro e b cs
    rw [List.foldl_cons, IData.Append, ih]
    simp

/-- With the header 0x02 and the declared content length 65535, on a buffer
long enough to pass the length checks of `Decode`, the `uint16` position
wraps to 2 and the slice expression `d.buf[pos-content_length : pos]`, that
is `d.buf[3:2]`, panics. -/
theorem decode_wraps (rest : Bytes) (h : 65535 ≤ rest.length) :
    NewStandardMappedData (0x02 :: 0xff :: 0xff :: rest) = .error .panic ∧
    ((StandardMappedData.mk false (0x02 :: 0xff :: 0xff :: rest) none none 0 []).Decode 0xff).2
      = .error .panic := by
  have h1 : StandardMappedData.Decode.dataArrayBits
      (StandardMappedData.mk false (0x02 :: 0xff :: 0xff :: rest) none none 0 []) 0x02 1
      = .ok (StandardMappedData.mk false (0x02 :: 0xff :: 0xff :: rest) none none 0 [], false, 1) :=
    dataArrayBits_zero _ _ _ (by decide)
  have h2 : StandardMappedData.Decode.recordListBits
      (StandardMappedData.mk false (0x02 :: 0xff :: 0xff :: rest) none none 0 []) 0x02 false 1
      = .ok (StandardMappedData.mk false (0x02 :: 0xff :: 0xff :: rest) none none 0 [], 1) :=
    recordListBits_zero _ _ _ _ (by decide)
  have hbe : bigEndianUint16 (0x02 :: 0xff :: 0xff :: rest) 1 = 65535 := by
    unfold bigEndianUint16
    show 255 * 256 + 255 = 65535
    norm_num
  have h3 : StandardMappedData.Decode.lengthBits (0x02 :: 0xff :: 0xff :: rest) 0x02 1
      = .ok (2, 65535) := by
    rw [lengthBits_two _ _ _ (by decide) (by rw [hbe]; simp only [List.length_cons]; omega), hbe]
  have h4 : slice (0x02 :: 0xff :: 0xff :: rest) ((2 + 65536 - 65535) % 65536) 2
      = .error .panic := by
    unfold slice
    rw [if_neg (by omega)]
  have hb : (StandardMappedData.mk false (0x02 :: 0xff :: 0xff :: rest) none none 0 []).buf
      = 0x02 :: 0xff :: 0xff :: rest := rfl
  constructor
  · rw [NewStandardMappedData_cons, h1]
    simp only
    rw [h2]
    simp only [hb]
    rw [if_neg (by decide), if_neg (by decide), h3]
    simp only
    rw [h4]
  · unfold StandardMappedData.Decode
    rw [if_neg (by decide)]
    simp only [hb, h1, h2]
    rw [if_neg (by decide), if_neg (by decide), h3]
    simp only
    rw [h4]

/-- The constructor `NewSimpleMappedData` with length code 2 panics when the
declared length is 65534 or 65535: the `uint16` sum `2+length` wraps and
the slice expression `d.buf[2 : 2+length]` has its bounds out of order. -/
theorem simple_decode_wraps (B : Bytes) (hL : 65534 ≤ bigEndianUint16 B 0)
    (hU : bigEndianUint16 B 0 < 65536) (hlen : 2 + bigEndianUint16 B 0 ≤ B.length) :
    NewSimpleMappedData 2 B = .error .panic := by
  unfold NewSimpleMappedData SimpleMappedData.Decode
  simp only [slice]
  rw [if_neg (by decide), if_neg (by decide), if_neg (by decide), if_pos (by decide),
    if_neg (by omega), if_neg (by omega), if_neg (by omega)]

/-- The constructor `NewSimpleMappedData` with length code 1 on a length byte
followed by the content it announces and by any bytes. -/
theorem simple_decode_one_tail (data tail : Bytes) (hL : data.length < 256) :
    NewSimpleMappedData 1 (([data.length % 256] ++ data) ++ tail)
      = .ok ({ decoded := true, parent := 1, buf := [data.length % 256] ++ data, content := data },
          ([data.length % 256] ++ data).length) := by
  have hm : data.length % 256 = data.length := Nat.mod_eq_of_lt hL
  rw [hm]
  have hg : (([data.length] ++ data) ++ tail).getD 0 0 = data.length := rfl
  have hlen : (([data.length] ++ data) ++ tail).length = 1 + data.length + tail.length := by
    simp only [List.length_append, List.length_cons, List.length_nil]
  have e : (1 + data.length) % 65536 = 1 + data.length := by omega
  have hs := slice_frame [data.length] data tail 1 (1 + data.length) rfl
    (by simp only [List.length_cons, List.length_nil])
  unfold NewSimpleMappedData SimpleMappedData.Decode
  simp only [hg, e, hlen]
  rw [if_neg (by decide), if_neg (by decide), if_pos (by decide), if_neg (by omega),
    if_neg (by omega), hs.1, hs.2]
  simp

/-- The constructor `NewSimpleMappedData` with length code 2 on a two-byte
length followed by the content it announces, of at most 65533 bytes, and by
any bytes. -/
theorem simple_decode_two_tail (data tail : Bytes) (hL : data.length ≤ 65533) :
    NewSimpleMappedData 2
        (([(data.length >>> 8) % 256, data.length % 256] ++ data) ++ tail)
      = .ok ({ decoded := true, parent := 2,
               buf := [(data.length >>> 8) % 256, data.length % 256] ++ data, content := data },
          ([(data.length >>> 8) % 256, data.length % 256] ++ data).length) := by
  have hg : bigEndianUint16
      (([(data.length >>> 8) % 256, data.length % 256] ++ data) ++ tail) 0 = data.length := by
    unfold bigEndianUint16
    show (data.length >>> 8) % 256 * 256 + data.length % 256 = data.length
    rw [shiftRight8_mod]
    omega
  have hlen : (([(data.length >>> 8) % 256, data.length % 256] ++ data) ++ tail).length
      = 2 + data.length + tail.length := by
    simp only [List.length_append, List.length_cons, List.length_nil]
  have e : (2 + data.length) % 65536 = 2 + data.length := by omega
  have hs := slice_frame [(data.length >>> 8) % 256, data.length % 256] data tail 2
    (2 + data.length) rfl (by simp only [List.length_cons, List.length_nil])
  unfold NewSimpleMappedData SimpleMappedData.Decode
  simp only [hg, e, hlen]
  rw [if_neg (by decide), if_neg (by decide), if_neg (by decide), if_pos (by decide),
    if_neg (by omega), if_neg (by omega), hs.1, hs.2]
  simp
  rfl

/-- The constructor `NewSimpleMappedData` with length code 0 consumes
nothing. -/
theorem simple_decode_zero (tail : Bytes) :
    NewSimpleMappedData 0 tail
      = .ok ({ decoded := true, parent := 0, buf := [], content := [] }, 0) := by
  simp [NewSimpleMappedData, SimpleMappedData.Decode]

theorem encodeSize_error_iff (shift n : Nat) :
    (∃ e, encodeSize shift n = .error e) ↔ 65536 ≤ n := by
  unfold encodeSize
  constructor
  · rintro ⟨e, h⟩
    by_contra hn
    split_ifs at h
    omega
  · intro hn
    rw [if_neg (by omega), if_neg (by omega), if_neg (by omega)]
    exact ⟨_, rfl⟩

theorem encodeContent_error_iff (buf content : Bytes) :
    (∃ e, encodeContent buf content = .error e) ↔ 65536 ≤ content.length := by
  unfold encodeContent
  constructor
  · rintro ⟨e, h⟩
    by_contra hn
    simp only at h
    split_ifs at h
    omega
  · intro hn
    simp only
    rw [if_neg (by omega), if_neg (by omega), if_neg (by omega)]
    exact ⟨_, rfl⟩

/-- The children loop of `DataArray.Encode` fails exactly when the
`Encode(false)` of some child fails. -/
theorem loop_error_iff (arr : List IData) :
    (∃ e, (DataArray.Encode.loop arr).2 = .error e) ↔
      ∃ c ∈ arr, ∃ e, (c.Encode false).2 = .error e := by
  induction arr with
  | nil =>
    rw [DataArray.Encode.loop]
    constructor
    · rintro ⟨e, h⟩; cases h
    · rintro ⟨c, hc, -⟩; cases hc
  | cons c cs ih =>
    rw [DataArray.Encode.loop]
    rcases hce : c.Encode false with ⟨c1, r⟩
    cases r with
    | error e =>
      simp only
      exact ⟨fun _ => ⟨c, List.mem_cons_self _ _, e, by rw [hce]⟩, fun _ => ⟨e, rfl⟩⟩
    | ok bc =>
      obtain ⟨data_buf, code⟩ := bc
      simp only
      rcases hl : DataArray.Encode.loop cs with ⟨cs1, r2⟩
      rw [hl] at ih
      cases r2 with
      | error e =>
        simp only
        obtain ⟨c2, hc2, e2, he2⟩ := ih.mp ⟨e, rfl⟩
        exact ⟨fun _ => ⟨c2, List.mem_cons_of_mem _ hc2, e2, he2⟩, fun _ => ⟨e, rfl⟩⟩
      | ok content_buf =>
        simp only
        constructor
        · rintro ⟨e, h⟩; cases h
        · rintro ⟨c2, hc2, e2, he2⟩
          rcases List.mem_cons.mp hc2 with rfl | hc2
          · rw [hce] at he2; cases he2
          · obtain ⟨e3, h3⟩ := ih.mpr ⟨c2, hc2, e2, he2⟩
            cases h3

/-- The outcomes of `DataArray.Encode` on a non-nil slice, by the outcomes of
its three steps. -/
theorem DataArray_Encode_cases (encoded : Bool) (buf : Bytes) (arr : List IData)
    (parent : Bool) :
    (∃ e arr1, DataArray.Encode encoded buf (some arr) parent
        = (.dataArray encoded buf (some arr1), .error e) ∧
      (65536 ≤ arr.length ∨ (∃ c ∈ arr, ∃ e1, (c.Encode false).2 = .error e1) ∨
        ∃ content, (DataArray.Encode.loop arr).2 = .ok content ∧ 65536 ≤ content.length)) ∨
    (∃ buf1 arr1 content buf2, arr.length < 65536 ∧ encodeSize 6 arr.length = .ok buf1 ∧
      DataArray.Encode.loop arr = (arr1, .ok content) ∧ content.length < 65536 ∧
      encodeContent buf1 content = .ok buf2 ∧
      DataArray.Encode encoded buf (some arr) parent
        = (.dataArray true buf2 (some arr1), .ok (buf2, 0xff))) := by
  rw [DataArray.Encode]
  cases h1 : encodeSize 6 arr.length with
  | error e =>
    exact Or.inl ⟨e, arr, rfl, Or.inl ((encodeSize_error_iff 6 arr.length).mp ⟨e, h1⟩)⟩
  | ok buf1 =>
    have hn : arr.length < 65536 := by
      by_contra hc
      obtain ⟨e, he⟩ := (encodeSize_error_iff 6 arr.length).mpr (by omega)
      rw [h1] at he
      cases he
    simp only
    rcases hl : DataArray.Encode.loop arr with ⟨arr1, r⟩
    cases r with
    | error e =>
      exact Or.inl ⟨e, arr1, rfl, Or.inr (Or.inl ((loop_error_iff arr).mp ⟨e, by rw [hl]⟩))⟩
    | ok content =>
      simp only
      cases h2 : encodeContent buf1 content with
      | error e =>
        exact Or.inl ⟨e, arr1, rfl, Or.inr (Or.inr ⟨content, rfl,
          (encodeContent_error_iff buf1 content).mp ⟨e, h2⟩⟩)⟩
      | ok buf2 =>
        have hc : content.length < 65536 := by
          by_contra hc
          obtain ⟨e, he⟩ := (encodeContent_error_iff buf1 content).mpr (by omega)
          rw [h2] at he
          cases he
        exact Or.inr ⟨buf1, arr1, content, buf2, hn, rfl, rfl, hc, h2, rfl⟩

/-- The first byte of a buffer assembled by `encodeSize` and `encodeContent`:
only the count code of the container (at bit `shift`) and the length code
are set, and neither is 3. -/
theorem container_header_valid (shift n : Nat) (content buf1 buf2 : Bytes)
    (hs : shift = 6 ∨ shift = 4)
    (h1 : encodeSize shift n = .ok buf1) (h2 : encodeContent buf1 content = .ok buf2) :
    ∃ b0 rest, buf2 = b0 :: rest ∧
      (b0 >>> 3) &&& 0x01 = 0 ∧ (b0 >>> 2) &&& 0x01 = 0 ∧
      (b0 >>> 6) &&& 0x03 ≠ 3 ∧ (b0 >>> 4) &&& 0x03 ≠ 3 ∧ b0 &&& 0x03 ≠ 3 ∧
      (shift = 6 → (b0 >>> 4) &&& 0x03 = 0) ∧ (shift = 4 → (b0 >>> 6) &&& 0x03 = 0) := by
  obtain ⟨h0, cnt, rfl, -, hh, -, ha, hr⟩ := encodeSize_form shift n buf1 hs h1
  obtain ⟨lc, lenb, rfl, hl, -⟩ := encodeContent_form h0 cnt content buf2 h2
  obtain ⟨e6, e4, e3, e2, e0⟩ := header_bits h0 lc hh hl
  refine ⟨h0 ||| lc, _, rfl, e3, e2, ?_, ?_, ?_, ?_, ?_⟩
  · rw [e6]; rcases hh with rfl | rfl | rfl | rfl | rfl <;> decide
  · rw [e4]; rcases hh with rfl | rfl | rfl | rfl | rfl <;> decide
  · rw [e0]; rcases hl with rfl | rfl | rfl <;> decide
  · intro h6
    rw [e4]
    exact hr.mpr (fun h => by omega)
  · intro h4
    rw [e6]
    exact ha.mpr (fun h => by omega)

/-- In the package `util`, `putR` of a datum that is not stored in the
subtree panics: the recursion ends on a nil link. -/
theorem util_putR_panics {D : Type} [LinearOrder D] (root : util.AVLNode D) (data : D) :
    data ∉ root.contents → root.putR data = .error .panic := by
  induction root with
  | nil => intro _; rfl
  | mk d b l0 l1 ih0 ih1 =>
    intro h
    rw [util.AVLNode.contents] at h
    simp only [List.mem_append, List.mem_cons, not_or] at h
    obtain ⟨h0, hd, h1⟩ := h
    rw [util.AVLNode.putR]
    have he : ¬ Equal d data = true := fun he => hd (of_decide_eq_true he).symm
    rw [if_neg he]
    by_cases hc : Compare d data < 0
    · rw [if_pos hc, ih1 h1]
    · rw [if_neg hc, ih0 h0]

namespace collection

variable {K V : Type} [LinearOrder K]

theorem sorted_cons (a : K × V) (l : List (K × V)) :
    Sorted (a :: l) ↔ (∀ x ∈ l, a.1 < x.1) ∧ Sorted l := by
  unfold Sorted
  exact List.pairwise_cons

theorem sorted_append (xs ys : List (K × V)) :
    Sorted (xs ++ ys) ↔ Sorted xs ∧ Sorted ys ∧ ∀ x ∈ xs, ∀ y ∈ ys, x.1 < y.1 := by
  unfold Sorted
  exact List.pairwise_append

/-- What sortedness says around an entry in the middle of a list. -/
theorem sorted_mid (xs ys : List (K × V)) (a : K × V) :
    Sorted (xs ++ a :: ys) ↔
      Sorted xs ∧ Sorted ys ∧ (∀ x ∈ xs, x.1 < a.1) ∧ (∀ y ∈ ys, a.1 < y.1) := by
  rw [sorted_append, sorted_cons]
  constructor
  · rintro ⟨h1, ⟨h2, h3⟩, h4⟩
    exact ⟨h1, h3, fun x hx => h4 x hx a (List.mem_cons_self _ _), h2⟩
  · rintro ⟨h1, h2, h3, h4⟩
    refine ⟨h1, ⟨h4, h2⟩, ?_⟩
    intro x hx y hy
    rcases List.mem_cons.mp hy with rfl | hy
    · exact h3 x hx
    · exact lt_trans (h3 x hx) (h4 y hy)

theorem assocFind_none (k : K) (l : List (K × V)) (h : ∀ x ∈ l, x.1 ≠ k) :
    assocFind k l = none := by
  induction l with
  | nil => rfl
  | cons p xs ih =>
    obtain ⟨a, w⟩ := p
    rw [assocFind, if_neg (fun e => h (a, w) (List.mem_cons_self _ _) e.symm)]
    exact ih (fun x hx => h x (List.mem_cons_of_mem _ hx))

theorem assocFind_append_left (k : K) (xs zs : List (K × V)) (h : ∀ x ∈ zs, x.1 ≠ k) :
    assocFind k (xs ++ zs) = assocFind k xs := by
  induction xs with
  | nil => exact assocFind_none k zs h
  | cons p xs ih =>
    obtain ⟨a, w⟩ := p
    rw [List.cons_append, assocFind, assocFind, ih]

theorem assocFind_append_right (k : K) (xs zs : List (K × V)) (h : ∀ x ∈ xs, x.1 ≠ k) :
    assocFind k (xs ++ zs) = assocFind k zs := by
  induction xs with
  | nil => rfl
  | cons p xs ih =>
    obtain ⟨a, w⟩ := p
    rw [List.cons_append, assocFind,
      if_neg (fun e => h (a, w) (List.mem_cons_self _ _) e.symm)]
    exact ih (fun x hx => h x (List.mem_cons_of_mem _ hx))

theorem assocFind_put_same (k : K) (v : V) (l : List (K × V)) :
    assocFind k (assocPut k v l) = some v := by
  induction l with
  | nil => simp [assocPut, assocFind]
  | cons p xs ih =>
    obtain ⟨a, w⟩ := p
    rw [assocPut]
    split_ifs with h1 h2
    · simp [assocFind]
    · simp [assocFind]
    · rw [assocFind, if_neg h2, ih]

theorem assocFind_put_other (k k1 : K) (v : V) (l : List (K × V)) (hne : k1 ≠ k) :
    assocFind k1 (assocPut k v l) = assocFind k1 l := by
  induction l with
  | nil => simp [assocPut, assocFind, hne]
  | cons p xs ih =>
    obtain ⟨a, w⟩ := p
    rw [assocPut]
    split_ifs with h1 h2
    · rw [assocFind, if_neg hne]
    · subst h2
      rw [assocFind, if_neg hne, assocFind, if_neg hne]
    · rw [assocFind, assocFind, ih]

theorem mem_assocPut (k : K) (v : V) (l : List (K × V)) (y : K × V)
    (hy : y ∈ assocPut k v l) : y = (k, v) ∨ y ∈ l := by
  induction l with
  | nil =>
    rw [assocPut] at hy
    exact Or.inl (List.mem_singleton.mp hy)
  | cons p xs ih =>
    obtain ⟨a, w⟩ := p
    rw [assocPut] at hy
    split_ifs at hy with h1 h2
    · rcases List.mem_cons.mp hy with h | h
      · exact Or.inl h
      · exact Or.inr h
    · rcases List.mem_cons.mp hy with h | h
      · exact Or.inl h
      · exact Or.inr (List.mem_cons_of_mem _ h)
    · rcases List.mem_cons.mp hy with h | h
      · exact Or.inr (h ▸ List.mem_cons_self _ _)
      · rcases ih h with h | h
        · exact Or.inl h
        · exact Or.inr (List.mem_cons_of_mem _ h)

theorem sorted_assocPut (k : K) (v : V) (l : List (K × V)) (h : Sorted l) :
    Sorted (assocPut k v l) := by
  induction l with
  | nil =>
    rw [assocPut, sorted_cons]
    exact ⟨fun x hx => (by cases hx), List.Pairwise.nil⟩
  | cons p xs ih =>
    obtain ⟨a, w⟩ := p
    rw [sorted_cons] at h
    obtain ⟨ha, hs⟩ := h
    rw [assocPut]
    split_ifs with h1 h2
    · rw [sorted_cons, sorted_cons]
      refine ⟨?_, ha, hs⟩
      intro x hx
      rcases List.mem_cons.mp hx with rfl | hx
      · exact h1
      · exact lt_trans h1 (ha x hx)
    · subst h2
      rw [sorted_cons]
      exact ⟨ha, hs⟩
    · rw [sorted_cons]
      refine ⟨?_, ih hs⟩
      intro x hx
      rcases mem_assocPut k v xs x hx with rfl | hx
      · exact lt_of_le_of_ne (not_lt.mp h1) (Ne.symm h2)
      · exact ha x hx

theorem assocPut_append_lt (k : K) (v : V) (xs ys : List (K × V)) (a : K × V) (h : k < a.1) :
    assocPut k v (xs ++ a :: ys) = assocPut k v xs ++ a :: ys := by
  induction xs with
  | nil =>
    obtain ⟨a, w⟩ := a
    have h : k < a := h
    simp [assocPut, h]
  | cons p xs ih =>
    obtain ⟨x, u⟩ := p
    rw [List.cons_append, assocPut, assocPut, ih]
    split_ifs <;> rfl

theorem assocPut_append_eq (v : V) (xs ys : List (K × V)) (a : K × V)
    (h : ∀ x ∈ xs, x.1 < a.1) :
    assocPut a.1 v (xs ++ a :: ys) = xs ++ (a.1, v) :: ys := by
  induction xs with
  | nil =>
    obtain ⟨a, w⟩ := a
    simp [assocPut]
  | cons p xs ih =>
    obtain ⟨x, u⟩ := p
    have hx : x < a.1 := h (x, u) (List.mem_cons_self _ _)
    rw [List.cons_append, assocPut, if_neg (not_lt.mpr (le_of_lt hx)), if_neg (ne_of_gt hx),
      ih (fun y hy => h y (List.mem_cons_of_mem _ hy))]
    rfl

theorem assocPut_append_gt (k : K) (v : V) (xs ys : List (K × V)) (a : K × V)
    (h : ∀ x ∈ xs, x.1 < a.1) (hk : a.1 < k) :
    assocPut k v (xs ++ a :: ys) = xs ++ a :: assocPut k v ys := by
  induction xs with
  | nil =>
    obtain ⟨a, w⟩ := a
    have hk : a < k := hk
    simp [assocPut, not_lt.mpr (le_of_lt hk), ne_of_gt hk]
  | cons p xs ih =>
    obtain ⟨x, u⟩ := p
    have hx : x < k := lt_trans (h (x, u) (List.mem_cons_self _ _)) hk
    rw [List.cons_append, assocPut, if_neg (not_lt.mpr (le_of_lt hx)), if_neg (ne_of_gt hx),
      ih (fun y hy => h y (List.mem_cons_of_mem _ hy))]
    rfl

theorem assocDel_notin (k : K) (l : List (K × V)) (h : ∀ x ∈ l, x.1 ≠ k) :
    assocDel k l = l := by
  induction l with
  | nil => rfl
  | cons p xs ih =>
    obtain ⟨a, w⟩ := p
    rw [assocDel, if_neg (fun e => h (a, w) (List.mem_cons_self _ _) e.symm),
      ih (fun x hx => h x (List.mem_cons_of_mem _ hx))]

theorem assocDel_append_left (k : K) (xs zs : List (K × V)) (h : ∀ x ∈ zs, x.1 ≠ k) :
    assocDel k (xs ++ zs) = assocDel k xs ++ zs := by
  induction xs with
  | nil => exact assocDel_notin k zs h
  | cons p xs ih =>
    obtain ⟨a, w⟩ := p
    rw [List.cons_append, assocDel, assocDel, ih]
    split_ifs <;> rfl

theorem assocDel_append_right (k : K) (xs zs : List (K × V)) (h : ∀ x ∈ xs, x.1 ≠ k) :
    assocDel k (xs ++ zs) = xs ++ assocDel k zs := by
  induction xs with
  | nil => rfl
  | cons p xs ih =>
    obtain ⟨a, w⟩ := p
    rw [List.cons_append, assocDel,
      if_neg (fun e => h (a, w) (List.mem_cons_self _ _) e.symm),
      ih (fun x hx => h x (List.mem_cons_of_mem _ hx))]
    rfl

theorem mem_assocDel (k : K) (l : List (K × V)) (y : K × V) (hy : y ∈ assocDel k l) :
    y ∈ l := by
  induction l with
  | nil => exact hy
  | cons p xs ih =>
    obtain ⟨a, w⟩ := p
    rw [assocDel] at hy
    split_ifs at hy with h1
    · exact List.mem_cons_of_mem _ hy
    · rcases List.mem_cons.mp hy with h | h
      · exact h ▸ List.mem_cons_self _ _
      · exact List.mem_cons_of_mem _ (ih h)

theorem sorted_assocDel (k : K) (l : List (K × V)) (h : Sorted l) : Sorted (assocDel k l) := by
  induction l with
  | nil => exact h
  | cons p xs ih =>
    obtain ⟨a, w⟩ := p
    rw [sorted_cons] at h
    obtain ⟨ha, hs⟩ := h
    rw [assocDel]
    split_ifs with h1
    · exact hs
    · rw [sorted_cons]
      exact ⟨fun x hx => ha x (mem_assocDel k xs x hx), ih hs⟩

theorem assocFind_del_same (k : K) (l : List (K × V)) (h : Sorted l) :
    assocFind k (assocDel k l) = none := by
  induction l with
  | nil => rfl
  | cons p xs ih =>
    obtain ⟨a, w⟩ := p
    rw [sorted_cons] at h
    obtain ⟨ha, hs⟩ := h
    rw [assocDel]
    split_ifs with h1
    · subst h1
      exact assocFind_none k xs (fun x hx => ne_of_gt (ha x hx))
    · rw [assocFind, if_neg h1, ih hs]

theorem assocFind_del_other (k k1 : K) (l : List (K × V)) (hne : k1 ≠ k) :
    assocFind k1 (assocDel k l) = assocFind k1 l := by
  induction l with
  | nil => rfl
  | cons p xs ih =>
    obtain ⟨a, w⟩ := p
    rw [assocDel]
    split_ifs with h1
    · subst h1
      rw [assocFind, if_neg hne]
    · rw [assocFind, assocFind, ih]

end collection

namespace collection

variable {K V : Type}

/-- The single rotation of `putBalance` after an insertion on the right. -/
theorem putBalance_one_single (k kc : K) (v vc : V) (b : Int) (l0 c0 c1 : AVLNode K V) :
    (AVLNode.mk k v b l0 (.mk kc vc 1 c0 c1)).putBalance 1
      = .ok (.mk kc vc 0 (.mk k v 0 l0 c0) c1) := rfl

/-- The double rotation of `putBalance` after an insertion on the right. -/
theorem putBalance_one_double (k kc kn : K) (v vc vn : V) (b cb bn : Int)
    (l0 n0 n1 c1 : AVLNode K V) (h : cb ≠ 1) :
    (AVLNode.mk k v b l0 (.mk kc vc cb (.mk kn vn bn n0 n1) c1)).putBalance 1
      = .ok (.mk kn vn 0
          (.mk k v (if bn = 0 then 0 else if bn = 1 then -1 else 0) l0 n0)
          (.mk kc vc (if bn = 0 then 0 else if bn = 1 then 0 else 1) n1 c1)) := by
  simp [AVLNode.putBalance, AVLNode.link, AVLNode.balance, AVLNode.adjustBalance,
    AVLNode.double, AVLNode.setLink, AVLNode.setBalance, opp, bind, Except.bind, h]

/-- The single rotation of `putBalance` after an insertion on the left. -/
theorem putBalance_zero_single (k kc : K) (v vc : V) (b : Int) (c0 c1 l1 : AVLNode K V) :
    (AVLNode.mk k v b (.mk kc vc (-1) c0 c1) l1).putBalance 0
      = .ok (.mk kc vc 0 c0 (.mk k v 0 c1 l1)) := rfl

/-- The double rotation of `putBalance` after an insertion on the left. -/
theorem putBalance_zero_double (k kc kn : K) (v vc vn : V) (b cb bn : Int)
    (c0 n0 n1 l1 : AVLNode K V) (h : cb ≠ -1) :
    (AVLNode.mk k v b (.mk kc vc cb c0 (.mk kn vn bn n0 n1)) l1).putBalance 0
      = .ok (.mk kn vn 0
          (.mk kc vc (if bn = 0 then 0 else if bn = -1 then 0 else -1) c0 n0)
          (.mk k v (if bn = 0 then 0 else if bn = -1 then 1 else 0) n1 l1)) := by
  simp [AVLNode.putBalance, AVLNode.link, AVLNode.balance, AVLNode.adjustBalance,
    AVLNode.double, AVLNode.setLink, AVLNode.setBalance, opp, bind, Except.bind, h]


theorem balanced_cases (k : K) (v : V) (b : Int) (l0 l1 : AVLNode K V)
    (h : (AVLNode.mk k v b l0 l1).Balanced) :
    b = (l1.height : Int) - (l0.height : Int) ∧ (b = -1 ∨ b = 0 ∨ b = 1) ∧
      l0.Balanced ∧ l1.Balanced := by
  rw [AVLNode.Balanced] at h
  obtain ⟨h1, h2, h3, h4, h5⟩ := h
  exact ⟨h1, by omega, h4, h5⟩

theorem balanced_mk (k : K) (v : V) (b : Int) (l0 l1 : AVLNode K V)
    (h1 : b = (l1.height : Int) - (l0.height : Int)) (h2 : -1 ≤ b) (h3 : b ≤ 1)
    (h4 : l0.Balanced) (h5 : l1.Balanced) : (AVLNode.mk k v b l0 l1).Balanced := by
  rw [AVLNode.Balanced]
  exact ⟨h1, h2, h3, h4, h5⟩

theorem height_pos_shape (c : AVLNode K V) (h : 0 < c.height) :
    ∃ kk vv bb a d, c = .mk kk vv bb a d := by
  cases c with
  | nil => simp [AVLNode.height] at h
  | mk kk vv bb a d => exact ⟨kk, vv, bb, a, d, rfl⟩

/-- The end of `putR` after an insertion into the right subtree: with the
subtree `c` that replaces `l1` balanced and at most one higher, the result
is balanced, holds the same entries in the same order, and is one higher
only when `done` is false. -/
theorem putR_finish_one (k0 : K) (v0 : V) (b : Int) (l0 l1 c node : AVLNode K V) (done : Bool)
    (hb : (AVLNode.mk k0 v0 b l0 l1).Balanced) (hc : c.Balanced)
    (hd : done = true → c.height = l1.height)
    (hnd : done = false → c.height = l1.height + 1 ∧
      (l1 = .nil ∨ ∃ kk vv bb a d, c = .mk kk vv bb a d ∧ bb ≠ 0)) :
    ∃ r done1, AVLNode.putR.finish (.mk k0 v0 b l0 c) 1 node done = .ok (r, node, done1) ∧
      r.Balanced ∧ r.inorder = l0.inorder ++ (k0, v0) :: c.inorder ∧
      (done1 = true → r.height = (AVLNode.mk k0 v0 b l0 l1).height) ∧
      (done1 = false → r.height = (AVLNode.mk k0 v0 b l0 l1).height + 1 ∧
        ∃ kk vv bb a d, r = .mk kk vv bb a d ∧ bb ≠ 0) := by
  obtain ⟨hbe, hbc, hl0, hl1⟩ := balanced_cases k0 v0 b l0 l1 hb
  cases done with
  | true =>
    have hh := hd rfl
    refine ⟨.mk k0 v0 b l0 c, true, rfl, balanced_mk _ _ _ _ _ (by omega) (by omega) (by omega)
      hl0 hc, rfl, fun _ => ?_, fun h => by cases h⟩
    simp only [AVLNode.height]
    omega
  | false =>
    obtain ⟨hh, hshape⟩ := hnd rfl
    rcases hbc with rfl | rfl | rfl
    · refine ⟨.mk k0 v0 0 l0 c, true, rfl, balanced_mk _ _ _ _ _ (by omega) (by omega)
        (by omega) hl0 hc, rfl, fun _ => ?_, fun h => by cases h⟩
      simp only [AVLNode.height]
      omega
    · refine ⟨.mk k0 v0 1 l0 c, false, rfl, balanced_mk _ _ _ _ _ (by omega) (by omega)
        (by omega) hl0 hc, rfl, fun h => (by cases h), fun _ => ⟨?_, k0, v0, 1, l0, c, rfl, by decide⟩⟩
      simp only [AVLNode.height]
      omega
    · rcases hshape with rfl | ⟨kc, vc, cb, c0, c1, rfl, hcb⟩
      · simp only [AVLNode.height] at hbe
        omega
      · obtain ⟨hce, hcc, hc0, hc1⟩ := balanced_cases kc vc cb c0 c1 hc
        simp only [AVLNode.height] at hh
        rcases hcc with rfl | rfl | rfl
        · have hpos : 0 < c0.height := by omega
          obtain ⟨kn, vn, bn, n0, n1, rfl⟩ := height_pos_shape c0 hpos
          obtain ⟨hne, hnc, hn0, hn1⟩ := balanced_cases kn vn bn n0 n1 hc0
          simp only [AVLNode.height] at hh hce
          refine ⟨.mk kn vn 0
            (.mk k0 v0 (if bn = 0 then 0 else if bn = 1 then -1 else 0) l0 n0)
            (.mk kc vc (if bn = 0 then 0 else if bn = 1 then 0 else 1) n1 c1),
            true, ?_, ?_, ?_, fun _ => ?_, fun h => by cases h⟩
          · show (do
              let r ← (AVLNode.mk k0 v0 2 l0 (.mk kc vc (-1) (.mk kn vn bn n0 n1) c1)).putBalance 1
              Except.ok (r, node, true)) = _
            rw [putBalance_one_double _ _ _ _ _ _ _ _ _ _ _ _ _ (by decide)]
            rfl
          · rcases hnc with rfl | rfl | rfl <;>
              exact balanced_mk _ _ _ _ _ (by simp only [AVLNode.height]; omega) (by omega)
                (by omega)
                (balanced_mk _ _ _ _ _ (by simp; omega) (by simp) (by simp) hl0 hn0)
                (balanced_mk _ _ _ _ _ (by simp; omega) (by simp) (by simp) hn1 hc1)
          · simp [AVLNode.inorder]
          · simp only [AVLNode.height]
            omega
        · exact absurd rfl hcb
        · refine ⟨.mk kc vc 0 (.mk k0 v0 0 l0 c0) c1, true, ?_, ?_, ?_, fun _ => ?_,
            fun h => by cases h⟩
          · show (do
              let r ← (AVLNode.mk k0 v0 2 l0 (.mk kc vc 1 c0 c1)).putBalance 1
              Except.ok (r, node, true)) = _
            rw [putBalance_one_single]
            rfl
          · exact balanced_mk _ _ _ _ _ (by simp only [AVLNode.height]; omega) (by omega)
              (by omega) (balanced_mk _ _ _ _ _ (by omega) (by omega) (by omega) hl0 hc0) hc1
          · simp [AVLNode.inorder]
          · simp only [AVLNode.height]
            omega


/-- The end of `putR` after an insertion into the left subtree. -/
theorem putR_finish_zero (k0 : K) (v0 : V) (b : Int) (l0 l1 c node : AVLNode K V) (done : Bool)
    (hb : (AVLNode.mk k0 v0 b l0 l1).Balanced) (hc : c.Balanced)
    (hd : done = true → c.height = l0.height)
    (hnd : done = false → c.height = l0.height + 1 ∧
      (l0 = .nil ∨ ∃ kk vv bb a d, c = .mk kk vv bb a d ∧ bb ≠ 0)) :
    ∃ r done1, AVLNode.putR.finish (.mk k0 v0 b c l1) 0 node done = .ok (r, node, done1) ∧
      r.Balanced ∧ r.inorder = c.inorder ++ (k0, v0) :: l1.inorder ∧
      (done1 = true → r.height = (AVLNode.mk k0 v0 b l0 l1).height) ∧
      (done1 = false → r.height = (AVLNode.mk k0 v0 b l0 l1).height + 1 ∧
        ∃ kk vv bb a d, r = .mk kk vv bb a d ∧ bb ≠ 0) := by
  obtain ⟨hbe, hbc, hl0, hl1⟩ := balanced_cases k0 v0 b l0 l1 hb
  cases done with
  | true =>
    have hh := hd rfl
    refine ⟨.mk k0 v0 b c l1, true, rfl, balanced_mk _ _ _ _ _ (by omega) (by omega) (by omega)
      hc hl1, rfl, fun _ => ?_, fun h => by cases h⟩
    simp only [AVLNode.height]
    omega
  | false =>
    obtain ⟨hh, hshape⟩ := hnd rfl
    rcases hbc with rfl | rfl | rfl
    · rcases hshape with rfl | ⟨kc, vc, cb, c0, c1, rfl, hcb⟩
      · simp only [AVLNode.height] at hbe
        omega
      · obtain ⟨hce, hcc, hc0, hc1⟩ := balanced_cases kc vc cb c0 c1 hc
        simp only [AVLNode.height] at hh
        rcases hcc with rfl | rfl | rfl
        · refine ⟨.mk kc vc 0 c0 (.mk k0 v0 0 c1 l1), true, ?_, ?_, ?_, fun _ => ?_,
            fun h => by cases h⟩
          · show (do
              let r ← (AVLNode.mk k0 v0 (-2) (.mk kc vc (-1) c0 c1) l1).putBalance 0
              Except.ok (r, node, true)) = _
            rw [putBalance_zero_single]
            rfl
          · exact balanced_mk _ _ _ _ _ (by simp only [AVLNode.height]; omega) (by omega)
              (by omega) hc0 (balanced_mk _ _ _ _ _ (by omega) (by omega) (by omega) hc1 hl1)
          · simp [AVLNode.inorder]
          · simp only [AVLNode.height]
            omega
        · exact absurd rfl hcb
        · have hpos : 0 < c1.height := by omega
          obtain ⟨kn, vn, bn, n0, n1, rfl⟩ := height_pos_shape c1 hpos
          obtain ⟨hne, hnc, hn0, hn1⟩ := balanced_cases kn vn bn n0 n1 hc1
          simp only [AVLNode.height] at hh hce
          refine ⟨.mk kn vn 0
            (.mk kc vc (if bn = 0 then 0 else if bn = -1 then 0 else -1) c0 n0)
            (.mk k0 v0 (if bn = 0 then 0 else if bn = -1 then 1 else 0) n1 l1),
            true, ?_, ?_, ?_, fun _ => ?_, fun h => by cases h⟩
          · show (do
              let r ← (AVLNode.mk k0 v0 (-2) (.mk kc vc 1 c0 (.mk kn vn bn n0 n1)) l1).putBalance 0
              Except.ok (r, node, true)) = _
            rw [putBalance_zero_double _ _ _ _ _ _ _ _ _ _ _ _ _ (by decide)]
            rfl
          · rcases hnc with rfl | rfl | rfl <;>
              exact balanced_mk _ _ _ _ _ (by simp only [AVLNode.height]; omega) (by omega)
                (by omega)
                (balanced_mk _ _ _ _ _ (by simp; omega) (by simp) (by simp) hc0 hn0)
                (balanced_mk _ _ _ _ _ (by simp; omega) (by simp) (by simp) hn1 hl1)
          · simp [AVLNode.inorder]
          · simp only [AVLNode.height]
            omega
    · refine ⟨.mk k0 v0 (-1) c l1, false, (by rfl), balanced_mk _ _ _ _ _ (by omega) (by omega)
        (by omega) hc hl1, rfl, fun h => (by cases h),
        fun _ => ⟨?_, k0, v0, -1, c, l1, rfl, by decide⟩⟩
      simp only [AVLNode.height]
      omega
    · refine ⟨.mk k0 v0 0 c l1, true, rfl, balanced_mk _ _ _ _ _ (by omega) (by omega)
        (by omega) hc hl1, rfl, fun _ => ?_, fun h => by cases h⟩
      simp only [AVLNode.height]
      omega

variable [LinearOrder K]

theorem Equal_iff (a b : K) : Equal a b = true ↔ a = b := by
  unfold Equal
  exact decide_eq_true_iff

theorem Compare_neg_iff (a b : K) : Compare a b < 0 ↔ a < b := by
  unfold Compare
  split_ifs with h1 h2
  · exact iff_of_true (by decide) h1
  · exact iff_of_false (by decide) h1
  · exact iff_of_false (by decide) h1

/-- What `putR` does on a balanced, ordered subtree: it returns a balanced
subtree that holds the entries with the key bound to the value, the old
entry of the key, and `done` tells whether the height is unchanged. -/
theorem putR_spec (k : K) (v : V) (root : AVLNode K V) :
    root.Balanced → root.Ordered →
    ∃ r done, root.putR k v
        = .ok (r, AVLNode.ofEntry ((assocFind k root.inorder).map fun w => (k, w)), done) ∧
      r.Balanced ∧ r.inorder = assocPut k v root.inorder ∧
      (done = true → r.height = root.height) ∧
      (done = false → r.height = root.height + 1 ∧
        (root = .nil ∨ ∃ kk vv bb a d, r = .mk kk vv bb a d ∧ bb ≠ 0)) := by
  induction root with
  | nil =>
    intro _ _
    exact ⟨.mk k v 0 .nil .nil, false, rfl, balanced_mk _ _ _ _ _ rfl (by decide) (by decide)
      trivial trivial, rfl, fun h => (by cases h), fun _ => ⟨rfl, Or.inl rfl⟩⟩
  | mk k0 v0 b l0 l1 ih0 ih1 =>
    intro hb ho
    obtain ⟨hbe, hbc, hl0, hl1⟩ := balanced_cases k0 v0 b l0 l1 hb
    have ho1 : Sorted (l0.inorder ++ (k0, v0) :: l1.inorder) := ho
    obtain ⟨hs0, hs1, hlt0, hlt1⟩ := (sorted_mid _ _ _).mp ho1
    rw [AVLNode.putR]
    simp only [AVLNode.inorder]
    by_cases he : Equal k0 k = true
    · have hk : k0 = k := (Equal_iff k0 k).mp he
      subst hk
      rw [if_pos he]
      have hf : assocFind k0 (l0.inorder ++ (k0, v0) :: l1.inorder) = some v0 := by
        rw [assocFind_append_right _ _ _ (fun x hx => ne_of_lt (hlt0 x hx)), assocFind,
          if_pos rfl]
      rw [hf]
      refine ⟨.mk k0 v b l0 l1, true, rfl, balanced_mk _ _ _ _ _ hbe (by omega) (by omega)
        hl0 hl1, ?_, fun _ => rfl, fun h => by cases h⟩
      rw [AVLNode.inorder]
      exact (assocPut_append_eq v l0.inorder l1.inorder (k0, v0) hlt0).symm
    · rw [if_neg he]
      have hne : k0 ≠ k := fun h => he ((Equal_iff k0 k).mpr h)
      by_cases hc : Compare k0 k < 0
      · have hlt : k0 < k := (Compare_neg_iff k0 k).mp hc
        rw [if_pos hc]
        obtain ⟨c, done, hput, hcb, hcin, hcd, hcnd⟩ := ih1 hl1 hs1
        rw [hput]
        simp only
        have hf : assocFind k (l0.inorder ++ (k0, v0) :: l1.inorder) = assocFind k l1.inorder := by
          rw [assocFind_append_right _ _ _ (fun x hx => ne_of_lt (lt_trans (hlt0 x hx) hlt)),
            assocFind, if_neg (Ne.symm hne)]
        rw [hf]
        obtain ⟨r, done1, hfin, hrb, hrin, hrd, hrnd⟩ :=
          putR_finish_one k0 v0 b l0 l1 c _ done hb hcb hcd hcnd
        refine ⟨r, done1, hfin, hrb, ?_, hrd, fun h => ⟨(hrnd h).1, Or.inr (hrnd h).2⟩⟩
        rw [hrin, hcin]
        exact (assocPut_append_gt k v l0.inorder l1.inorder (k0, v0) hlt0 hlt).symm
      · have hlt : k < k0 := lt_of_le_of_ne (not_lt.mp (fun h => hc ((Compare_neg_iff k0 k).mpr h)))
          (Ne.symm hne)
        rw [if_neg hc]
        obtain ⟨c, done, hput, hcb, hcin, hcd, hcnd⟩ := ih0 hl0 hs0
        rw [hput]
        simp only
        have hf : assocFind k (l0.inorder ++ (k0, v0) :: l1.inorder) = assocFind k l0.inorder := by
          apply assocFind_append_left
          intro x hx
          rcases List.mem_cons.mp hx with rfl | hx
          · exact hne
          · exact ne_of_gt (lt_trans hlt (hlt1 x hx))
        rw [hf]
        obtain ⟨r, done1, hfin, hrb, hrin, hrd, hrnd⟩ :=
          putR_finish_zero k0 v0 b l0 l1 c _ done hb hcb hcd hcnd
        refine ⟨r, done1, hfin, hrb, ?_, hrd, fun h => ⟨(hrnd h).1, Or.inr (hrnd h).2⟩⟩
        rw [hrin, hcin]
        exact (assocPut_append_lt k v l0.inorder l1.inorder (k0, v0) hlt).symm

end collection

namespace collection

variable {K V : Type}

/-- The end of `removeR` after a removal from the right subtree: with the
subtree `c` that replaces `l1` balanced and at most one lower, the result is
balanced, holds the same entries in the same order, and is one lower only
when `done` is false. -/
theorem removeR_finish_one (k0 : K) (v0 : V) (b : Int) (l0 l1 c found node : AVLNode K V)
    (done : Bool)
    (hb : (AVLNode.mk k0 v0 b l0 l1).Balanced) (hc : c.Balanced)
    (hd : done = true → c.height = l1.height)
    (hnd : done = false → c.height + 1 = l1.height) :
    ∃ r done1, AVLNode.removeR.finish (.mk k0 v0 b l0 c) 1 found node done
        = .ok (r, (if IsNil found then node else found), done1) ∧
      r.Balanced ∧ r.inorder = l0.inorder ++ (k0, v0) :: c.inorder ∧
      (done1 = true → r.height = (AVLNode.mk k0 v0 b l0 l1).height) ∧
      (done1 = false → r.height + 1 = (AVLNode.mk k0 v0 b l0 l1).height) := by
  obtain ⟨hbe, hbc, hl0, hl1⟩ := balanced_cases k0 v0 b l0 l1 hb
  cases done with
  | true =>
    have hh := hd rfl
    refine ⟨.mk k0 v0 b l0 c, true, (by rfl), balanced_mk _ _ _ _ _ (by omega) (by omega)
      (by omega) hl0 hc, rfl, fun _ => ?_, fun h => by cases h⟩
    simp only [AVLNode.height]
    omega
  | false =>
    have hh := hnd rfl
    rcases hbc with rfl | rfl | rfl
    · have hpos : 0 < l0.height := by omega
      obtain ⟨kc, vc, cb, c0, c1, rfl⟩ := height_pos_shape l0 hpos
      obtain ⟨hce, hcc, hc0, hc1⟩ := balanced_cases kc vc cb c0 c1 hl0
      simp only [AVLNode.height] at hbe
      rcases hcc with rfl | rfl | rfl
      · refine ⟨.mk kc vc 0 c0 (.mk k0 v0 0 c1 c), false, (by rfl), ?_, ?_,
          fun h => (by cases h), fun _ => ?_⟩
        · exact balanced_mk _ _ _ _ _ (by simp only [AVLNode.height]; omega) (by omega)
            (by omega) hc0 (balanced_mk _ _ _ _ _ (by omega) (by omega) (by omega) hc1 hc)
        · simp [AVLNode.inorder]
        · simp only [AVLNode.height]
          omega
      · refine ⟨.mk kc vc 1 c0 (.mk k0 v0 (-1) c1 c), true, (by rfl), ?_, ?_,
          fun _ => ?_, fun h => by cases h⟩
        · exact balanced_mk _ _ _ _ _ (by simp only [AVLNode.height]; omega) (by omega)
            (by omega) hc0 (balanced_mk _ _ _ _ _ (by omega) (by omega) (by omega) hc1 hc)
        · simp [AVLNode.inorder]
        · simp only [AVLNode.height]
          omega
      · have hpos1 : 0 < c1.height := by omega
        obtain ⟨kn, vn, bn, n0, n1, rfl⟩ := height_pos_shape c1 hpos1
        obtain ⟨hne, hnc, hn0, hn1⟩ := balanced_cases kn vn bn n0 n1 hc1
        simp only [AVLNode.height] at hbe hce
        refine ⟨.mk kn vn 0
          (.mk kc vc (if bn = 0 then 0 else if bn = -1 then 0 else -1) c0 n0)
          (.mk k0 v0 (if bn = 0 then 0 else if bn = -1 then 1 else 0) n1 c),
          false, (by rfl), ?_, ?_, fun h => (by cases h), fun _ => ?_⟩
        · rcases hnc with rfl | rfl | rfl <;>
            exact balanced_mk _ _ _ _ _ (by simp only [AVLNode.height]; omega) (by omega)
              (by omega)
              (balanced_mk _ _ _ _ _ (by simp; omega) (by simp) (by simp) hc0 hn0)
              (balanced_mk _ _ _ _ _ (by simp; omega) (by simp) (by simp) hn1 hc)
        · simp [AVLNode.inorder]
        · simp only [AVLNode.height]
          omega
    · refine ⟨.mk k0 v0 (-1) l0 c, true, (by rfl), balanced_mk _ _ _ _ _ (by omega) (by omega)
        (by omega) hl0 hc, rfl, fun _ => ?_, fun h => by cases h⟩
      simp only [AVLNode.height]
      omega
    · refine ⟨.mk k0 v0 0 l0 c, false, (by rfl), balanced_mk _ _ _ _ _ (by omega) (by omega)
        (by omega) hl0 hc, rfl, fun h => (by cases h), fun _ => ?_⟩
      simp only [AVLNode.height]
      omega

/-- The end of `removeR` after a removal from the left subtree. -/
theorem removeR_finish_zero (k0 : K) (v0 : V) (b : Int) (l0 l1 c found node : AVLNode K V)
    (done : Bool)
    (hb : (AVLNode.mk k0 v0 b l0 l1).Balanced) (hc : c.Balanced)
    (hd : done = true → c.height = l0.height)
    (hnd : done = false → c.height + 1 = l0.height) :
    ∃ r done1, AVLNode.removeR.finish (.mk k0 v0 b c l1) 0 found node done
        = .ok (r, (if IsNil found then node else found), done1) ∧
      r.Balanced ∧ r.inorder = c.inorder ++ (k0, v0) :: l1.inorder ∧
      (done1 = true → r.height = (AVLNode.mk k0 v0 b l0 l1).height) ∧
      (done1 = false → r.height + 1 = (AVLNode.mk k0 v0 b l0 l1).height) := by
  obtain ⟨hbe, hbc, hl0, hl1⟩ := balanced_cases k0 v0 b l0 l1 hb
  cases done with
  | true =>
    have hh := hd rfl
    refine ⟨.mk k0 v0 b c l1, true, (by rfl), balanced_mk _ _ _ _ _ (by omega) (by omega)
      (by omega) hc hl1, rfl, fun _ => ?_, fun h => by cases h⟩
    simp only [AVLNode.height]
    omega
  | false =>
    have hh := hnd rfl
    rcases hbc with rfl | rfl | rfl
    · refine ⟨.mk k0 v0 0 c l1, false, (by rfl), balanced_mk _ _ _ _ _ (by omega) (by omega)
        (by omega) hc hl1, rfl, fun h => (by cases h), fun _ => ?_⟩
      simp only [AVLNode.height]
      omega
    · refine ⟨.mk k0 v0 1 c l1, true, (by rfl), balanced_mk _ _ _ _ _ (by omega) (by omega)
        (by omega) hc hl1, rfl, fun _ => ?_, fun h => by cases h⟩
      simp only [AVLNode.height]
      omega
    · have hpos : 0 < l1.height := by omega
      obtain ⟨kc, vc, cb, c0, c1, rfl⟩ := height_pos_shape l1 hpos
      obtain ⟨hce, hcc, hc0, hc1⟩ := balanced_cases kc vc cb c0 c1 hl1
      simp only [AVLNode.height] at hbe
      rcases hcc with rfl | rfl | rfl
      · have hpos0 : 0 < c0.height := by omega
        obtain ⟨kn, vn, bn, n0, n1, rfl⟩ := height_pos_shape c0 hpos0
        obtain ⟨hne, hnc, hn0, hn1⟩ := balanced_cases kn vn bn n0 n1 hc0
        simp only [AVLNode.height] at hbe hce
        refine ⟨.mk kn vn 0
          (.mk k0 v0 (if bn = 0 then 0 else if bn = 1 then -1 else 0) c n0)
          (.mk kc vc (if bn = 0 then 0 else if bn = 1 then 0 else 1) n1 c1),
          false, (by rfl), ?_, ?_, fun h => (by cases h), fun _ => ?_⟩
        · rcases hnc with rfl | rfl | rfl <;>
            exact balanced_mk _ _ _ _ _ (by simp only [AVLNode.height]; omega) (by omega)
              (by omega)
              (balanced_mk _ _ _ _ _ (by simp; omega) (by simp) (by simp) hc hn0)
              (balanced_mk _ _ _ _ _ (by simp; omega) (by simp) (by simp) hn1 hc1)
        · simp [AVLNode.inorder]
        · simp only [AVLNode.height]
          omega
      · refine ⟨.mk kc vc (-1) (.mk k0 v0 1 c c0) c1, true, (by rfl), ?_, ?_,
          fun _ => ?_, fun h => by cases h⟩
        · exact balanced_mk _ _ _ _ _ (by simp only [AVLNode.height]; omega) (by omega)
            (by omega) (balanced_mk _ _ _ _ _ (by omega) (by omega) (by omega) hc hc0) hc1
        · simp [AVLNode.inorder]
        · simp only [AVLNode.height]
          omega
      · refine ⟨.mk kc vc 0 (.mk k0 v0 0 c c0) c1, false, (by rfl), ?_, ?_,
          fun h => (by cases h), fun _ => ?_⟩
        · exact balanced_mk _ _ _ _ _ (by simp only [AVLNode.height]; omega) (by omega)
            (by omega) (balanced_mk _ _ _ _ _ (by omega) (by omega) (by omega) hc hc0) hc1
        · simp [AVLNode.inorder]
        · simp only [AVLNode.height]
          omega


/-- The entry that the loop over the right links finds is the last one in
symmetric order. -/
theorem heir_spec (t : AVLNode K V) (k : K) (v : V) :
    ∃ pre, (k, v) :: t.inorder = pre ++ [AVLNode.removeR.heir k v t] := by
  induction t generalizing k v with
  | nil => exact ⟨[], rfl⟩
  | mk k1 v1 b a d _ ihd =>
    obtain ⟨pre, hpre⟩ := ihd k1 v1
    refine ⟨(k, v) :: a.inorder ++ pre, ?_⟩
    rw [AVLNode.removeR.heir, AVLNode.inorder, hpre]
    simp

theorem entry_none (n : AVLNode K V) (h : n.entry = none) : n = .nil := by
  cases n with
  | nil => rfl
  | mk k v b l0 l1 => cases h

variable [LinearOrder K]

theorem Compare_self (x : K) : ¬ Compare x x < 0 :=
  fun h => lt_irrefl x ((Compare_neg_iff x x).mp h)

theorem assocDel_last (pre : List (K × V)) (h : K × V) (hs : Sorted (pre ++ [h])) :
    assocDel h.1 (pre ++ [h]) = pre := by
  obtain ⟨_, _, hlt, _⟩ := (sorted_mid pre [] h).mp hs
  rw [assocDel_append_right _ _ _ (fun x hx => ne_of_lt (hlt x hx))]
  obtain ⟨a, w⟩ := h
  simp [assocDel]

theorem assocFind_last (pre : List (K × V)) (h : K × V) (hs : Sorted (pre ++ [h])) :
    assocFind h.1 (pre ++ [h]) = some h.2 := by
  obtain ⟨_, _, hlt, _⟩ := (sorted_mid pre [] h).mp hs
  rw [assocFind_append_right _ _ _ (fun x hx => ne_of_lt (hlt x hx))]
  obtain ⟨a, w⟩ := h
  simp [assocFind]

/-- What `removeR` does on a balanced, ordered subtree: it returns a balanced
subtree that holds the other entries, the entry of the key, and `done` tells
whether the height is unchanged; without an entry of the key the subtree is
returned as it is. -/
theorem removeR_spec (root : AVLNode K V) (k : K) :
    root.Balanced → root.Ordered →
    ∃ r done, root.removeR k
        = .ok (r, AVLNode.ofEntry ((assocFind k root.inorder).map fun w => (k, w)), done) ∧
      r.Balanced ∧ r.inorder = assocDel k root.inorder ∧
      (done = true → r.height = root.height) ∧
      (done = false → r.height + 1 = root.height) ∧
      (assocFind k root.inorder = none → r = root ∧ done = true) := by
  induction root generalizing k with
  | nil =>
    intro _ _
    exact ⟨.nil, true, rfl, trivial, rfl, fun _ => rfl, fun h => (by cases h),
      fun _ => ⟨rfl, rfl⟩⟩
  | mk k0 v0 b l0 l1 ih0 ih1 =>
    intro hb ho
    obtain ⟨hbe, hbc, hl0, hl1⟩ := balanced_cases k0 v0 b l0 l1 hb
    have ho1 : Sorted (l0.inorder ++ (k0, v0) :: l1.inorder) := ho
    obtain ⟨hs0, hs1, hlt0, hlt1⟩ := (sorted_mid _ _ _).mp ho1
    by_cases he : Equal k0 k = true
    · have hk : k0 = k := (Equal_iff k0 k).mp he
      subst hk
      have hf : assocFind k0 (l0.inorder ++ (k0, v0) :: l1.inorder) = some v0 := by
        rw [assocFind_append_right _ _ _ (fun x hx => ne_of_lt (hlt0 x hx)), assocFind,
          if_pos rfl]
      have hdel : assocDel k0 (l0.inorder ++ (k0, v0) :: l1.inorder)
          = l0.inorder ++ l1.inorder := by
        rw [assocDel_append_right _ _ _ (fun x hx => ne_of_lt (hlt0 x hx)), assocDel,
          if_pos rfl]
      simp only [AVLNode.inorder]
      rw [hf, hdel]
      cases l0 with
      | nil =>
        refine ⟨l1, false, ?_, hl1, rfl, fun h => (by cases h), fun _ => ?_,
          fun h => by cases h⟩
        · rw [AVLNode.removeR, if_pos he]
          rfl
        · simp only [AVLNode.height]
          omega
      | mk k00 v00 b00 l00 l01 =>
        cases l1 with
        | nil =>
          refine ⟨.mk k00 v00 b00 l00 l01, false, ?_, hl0, ?_, fun h => (by cases h),
            fun _ => ?_, fun h => by cases h⟩
          · rw [AVLNode.removeR, if_pos he]
            rfl
          · simp [AVLNode.inorder]
          · simp only [AVLNode.height]
            omega
        | mk k1 v1 b1 l10 l11 =>
          obtain ⟨pre, hpre⟩ := heir_spec l01 k00 v00
          have hin : (AVLNode.mk k00 v00 b00 l00 l01).inorder
              = (l00.inorder ++ pre) ++ [AVLNode.removeR.heir k00 v00 l01] := by
            rw [AVLNode.inorder, hpre, List.append_assoc]
          have hs0h : Sorted
              ((l00.inorder ++ pre) ++ [AVLNode.removeR.heir k00 v00 l01]) := by
            rw [← hin]
            exact hs0
          obtain ⟨c, done, hrem, hcb, hcin, hcd, hcnd, _⟩ :=
            ih0 (AVLNode.removeR.heir k00 v00 l01).1 hl0 hs0
          rw [hin, assocDel_last _ _ hs0h] at hcin
          have hbh : (AVLNode.mk (AVLNode.removeR.heir k00 v00 l01).1
              (AVLNode.removeR.heir k00 v00 l01).2 b
              (AVLNode.mk k00 v00 b00 l00 l01) (AVLNode.mk k1 v1 b1 l10 l11)).Balanced :=
            balanced_mk _ _ _ _ _ hbe (by omega) (by omega) hl0 hl1
          obtain ⟨r, done1, hfin, hrb, hrin, hrd, hrnd⟩ :=
            removeR_finish_zero _ _ b _ _ c (.mk k0 v0 0 .nil .nil) _ done hbh hcb hcd hcnd
          refine ⟨r, done1, ?_, hrb, ?_, hrd, hrnd, fun h => by cases h⟩
          · rw [AVLNode.removeR, if_pos he]
            simp only [if_neg (Compare_self _)]
            rw [hrem]
            exact hfin
          · rw [hrin, hcin, hin]
            simp
    · have hne : k0 ≠ k := fun h => he ((Equal_iff k0 k).mpr h)
      rw [AVLNode.removeR.eq_def]
      simp only [if_neg he, AVLNode.inorder]
      by_cases hc : Compare k0 k < 0
      · have hlt : k0 < k := (Compare_neg_iff k0 k).mp hc
        rw [if_pos hc]
        obtain ⟨c, done, hrem, hcb, hcin, hcd, hcnd, hcabs⟩ := ih1 k hl1 hs1
        rw [hrem]
        simp only
        have hl0ne : ∀ x ∈ l0.inorder, x.1 ≠ k :=
          fun x hx => ne_of_lt (lt_trans (hlt0 x hx) hlt)
        have hf : assocFind k (l0.inorder ++ (k0, v0) :: l1.inorder) = assocFind k l1.inorder := by
          rw [assocFind_append_right _ _ _ hl0ne, assocFind, if_neg (Ne.symm hne)]
        have hdel : assocDel k (l0.inorder ++ (k0, v0) :: l1.inorder)
            = l0.inorder ++ (k0, v0) :: assocDel k l1.inorder := by
          rw [assocDel_append_right _ _ _ hl0ne, assocDel, if_neg (Ne.symm hne)]
        rw [hf, hdel]
        obtain ⟨r, done1, hfin, hrb, hrin, hrd, hrnd⟩ :=
          removeR_finish_one k0 v0 b l0 l1 c .nil _ done hb hcb hcd hcnd
        refine ⟨r, done1, hfin, hrb, ?_, hrd, hrnd, fun habs => ?_⟩
        · rw [hrin, hcin]
        · obtain ⟨hcl, hdn⟩ := hcabs habs
          subst hcl
          subst hdn
          have h2 : Except.ok (AVLNode.mk k0 v0 b l0 c, _, true) = Except.ok (r, _, done1) := hfin
          simp only [Except.ok.injEq, Prod.mk.injEq] at h2
          exact ⟨h2.1.symm, h2.2.2.symm⟩
      · have hlt : k < k0 := lt_of_le_of_ne (not_lt.mp (fun h => hc ((Compare_neg_iff k0 k).mpr h)))
          (Ne.symm hne)
        rw [if_neg hc]
        obtain ⟨c, done, hrem, hcb, hcin, hcd, hcnd, hcabs⟩ := ih0 k hl0 hs0
        rw [hrem]
        simp only
        have hrne : ∀ x ∈ (k0, v0) :: l1.inorder, x.1 ≠ k := by
          intro x hx
          rcases List.mem_cons.mp hx with rfl | hx
          · exact hne
          · exact ne_of_gt (lt_trans hlt (hlt1 x hx))
        have hf : assocFind k (l0.inorder ++ (k0, v0) :: l1.inorder) = assocFind k l0.inorder :=
          assocFind_append_left _ _ _ hrne
        have hdel : assocDel k (l0.inorder ++ (k0, v0) :: l1.inorder)
            = assocDel k l0.inorder ++ (k0, v0) :: l1.inorder :=
          assocDel_append_left _ _ _ hrne
        rw [hf, hdel]
        obtain ⟨r, done1, hfin, hrb, hrin, hrd, hrnd⟩ :=
          removeR_finish_zero k0 v0 b l0 l1 c .nil _ done hb hcb hcd hcnd
        refine ⟨r, done1, hfin, hrb, ?_, hrd, hrnd, fun habs => ?_⟩
        · rw [hrin, hcin]
        · obtain ⟨hcl, hdn⟩ := hcabs habs
          subst hcl
          subst hdn
          have h2 : Except.ok (AVLNode.mk k0 v0 b c l1, _, true) = Except.ok (r, _, done1) := hfin
          simp only [Except.ok.injEq, Prod.mk.injEq] at h2
          exact ⟨h2.1.symm, h2.2.2.symm⟩

/-- What `getR` returns on an ordered, non-nil subtree: the node of the key,
or nil when no node has it. -/
theorem getR_spec (root : AVLNode K V) (k : K) (hne : root ≠ .nil) (ho : root.Ordered) :
    ∃ n, root.getR k = .ok n ∧ n.entry = (assocFind k root.inorder).map fun w => (k, w) := by
  induction root with
  | nil => exact absurd rfl hne
  | mk k0 v0 b l0 l1 ih0 ih1 =>
    have ho1 : Sorted (l0.inorder ++ (k0, v0) :: l1.inorder) := ho
    obtain ⟨hs0, hs1, hlt0, hlt1⟩ := (sorted_mid _ _ _).mp ho1
    rw [AVLNode.getR.eq_def]
    simp only [AVLNode.inorder]
    by_cases he : Equal k0 k = true
    · have hk : k0 = k := (Equal_iff k0 k).mp he
      subst hk
      rw [if_pos he, assocFind_append_right _ _ _ (fun x hx => ne_of_lt (hlt0 x hx)), assocFind,
        if_pos rfl]
      exact ⟨_, rfl, rfl⟩
    · have hne : k0 ≠ k := fun h => he ((Equal_iff k0 k).mpr h)
      rw [if_neg he]
      by_cases hc : Compare k0 k < 0
      · have hlt : k0 < k := (Compare_neg_iff k0 k).mp hc
        rw [if_pos hc, assocFind_append_right _ _ _
          (fun x hx => ne_of_lt (lt_trans (hlt0 x hx) hlt)), assocFind, if_neg (Ne.symm hne)]
        cases l1 with
        | nil => exact ⟨.nil, rfl, rfl⟩
        | mk k1 v1 b1 l10 l11 => exact ih1 (fun h => by cases h) hs1
      · have hlt : k < k0 := lt_of_le_of_ne (not_lt.mp (fun h => hc ((Compare_neg_iff k0 k).mpr h)))
          (Ne.symm hne)
        have hrne : ∀ x ∈ (k0, v0) :: l1.inorder, x.1 ≠ k := by
          intro x hx
          rcases List.mem_cons.mp hx with rfl | hx
          · exact hne
          · exact ne_of_gt (lt_trans hlt (hlt1 x hx))
        rw [if_neg hc, assocFind_append_left _ _ _ hrne]
        cases l0 with
        | nil => exact ⟨.nil, rfl, rfl⟩
        | mk k00 v00 b00 l00 l01 => exact ih0 (fun h => by cases h) hs0

/-- What `Get` returns on a tree with ordered keys. -/
theorem Get_spec (t : AVLTree K V) (k : K) (ho : t.root.Ordered) :
    ∃ n, t.Get k = .ok n ∧ n.entry = (assocFind k t.root.inorder).map fun w => (k, w) := by
  unfold AVLTree.Get
  cases hr : t.root with
  | nil => exact ⟨.nil, rfl, rfl⟩
  | mk k0 v0 b l0 l1 =>
    rw [hr] at ho
    exact getR_spec _ k (fun h => by cases h) ho

/-- What `Put` does on a balanced tree with ordered keys. -/
theorem Put_spec (t : AVLTree K V) (k : K) (v : V) (hb : t.root.Balanced) (ho : t.root.Ordered) :
    ∃ t1, t.Put (some k) v
        = .ok (t1, AVLNode.ofEntry ((assocFind k t.root.inorder).map fun w => (k, w))) ∧
      t1.root.Balanced ∧ t1.root.inorder = assocPut k v t.root.inorder := by
  unfold AVLTree.Put
  cases hr : t.root with
  | nil =>
    exact ⟨_, rfl, balanced_mk _ _ _ _ _ rfl (by decide) (by decide) trivial trivial, rfl⟩
  | mk k0 v0 b l0 l1 =>
    rw [hr] at hb ho
    obtain ⟨r, done, hput, hrb, hrin, _, _⟩ := putR_spec k v _ hb ho
    simp only
    rw [hput]
    exact ⟨_, rfl, hrb, hrin⟩

/-- What `Remove` does on a balanced tree with ordered keys. -/
theorem Remove_spec (t : AVLTree K V) (k : K) (hb : t.root.Balanced) (ho : t.root.Ordered) :
    ∃ t1, t.Remove (some k)
        = .ok (t1, AVLNode.ofEntry ((assocFind k t.root.inorder).map fun w => (k, w))) ∧
      t1.root.Balanced ∧ t1.root.inorder = assocDel k t.root.inorder ∧
      (assocFind k t.root.inorder = none → t1 = t) := by
  unfold AVLTree.Remove
  obtain ⟨r, done, hrem, hrb, hrin, _, _, habs⟩ := removeR_spec t.root k hb ho
  simp only
  rw [hrem]
  refine ⟨_, rfl, hrb, hrin, fun h => ?_⟩
  obtain ⟨hr, _⟩ := habs h
  rw [h, hr]
  rfl

/-- The trees built by `Put` and `Remove` calls are balanced and their keys
are ordered. -/
theorem reached_inv (t : AVLTree K V) (h : Reached t) : t.root.Balanced ∧ t.root.Ordered := by
  induction h with
  | new => exact ⟨trivial, List.Pairwise.nil⟩
  | put t t1 k v r _ hput ih =>
    obtain ⟨t2, h2, hb2, hin2⟩ := Put_spec t k v ih.1 ih.2
    rw [hput] at h2
    simp only [Except.ok.injEq, Prod.mk.injEq] at h2
    obtain ⟨rfl, _⟩ := h2
    refine ⟨hb2, ?_⟩
    unfold AVLNode.Ordered
    rw [hin2]
    exact sorted_assocPut k v _ ih.2
  | remove t t1 k r _ hrem ih =>
    obtain ⟨t2, h2, hb2, hin2, _⟩ := Remove_spec t k ih.1 ih.2
    rw [hrem] at h2
    simp only [Except.ok.injEq, Prod.mk.injEq] at h2
    obtain ⟨rfl, _⟩ := h2
    refine ⟨hb2, ?_⟩
    unfold AVLNode.Ordered
    rw [hin2]
    exact sorted_assocDel k _ ih.2

end collection

namespace util

theorem release_spec (tmp : List Nat) (occ occ1 : List Bool)
    (h : MPHBuild.release tmp occ = .ok occ1) :
    occ1.length = occ.length ∧ ∀ s : Nat, s ∉ tmp → occ1[s]? = occ[s]? := by
  induction tmp generalizing occ with
  | nil =>
    cases h
    exact ⟨rfl, fun _ _ => rfl⟩
  | cons n tmp ih =>
    rw [MPHBuild.release] at h
    split_ifs at h with hn
    obtain ⟨h1, h2⟩ := ih _ h
    refine ⟨by rw [h1, List.length_set], fun s hs => ?_⟩
    rw [h2 s (fun hm => hs (List.mem_cons_of_mem _ hm)),
      List.getElem?_set_ne (fun e => hs (by rw [← e]; exact List.mem_cons_self _ _))]

theorem getElem?_lt_length {α : Type} (l : List α) (n : Nat) (a : α) (h : l[n]? = some a) :
    n < l.length := by
  by_contra hn
  rw [List.getElem?_eq_none (Nat.le_of_not_lt hn)] at h
  cases h

/-- A pass of `place` that runs to its end keeps the occupied slots, and
occupies for every index of `vals` the slot of its key, which then holds the
index. -/
theorem place_true (keys : List Bytes) (mask seed : Nat) (vals : List Nat) (occ : List Bool)
    (tmp l : List Nat) (occ1 : List Bool) (l1 : List Nat)
    (h : MPHBuild.place keys mask seed vals occ tmp l = .ok (occ1, l1, true)) :
    MPHBuild.Kept occ l occ1 l1 ∧
    (∀ i ∈ vals, ∀ key, keys[i]? = some key →
      occ1[MurmurSeed.hash seed key &&& mask]? = some true ∧
        l1[MurmurSeed.hash seed key &&& mask]? = some (i % 2 ^ 32)) ∧
    ((∀ x ∈ l, x < keys.length) → ∀ x ∈ l1, x < keys.length) := by
  induction vals generalizing occ tmp l with
  | nil =>
    rw [MPHBuild.place] at h
    cases h
    exact ⟨⟨rfl, rfl, fun s hs => ⟨hs, rfl⟩⟩, fun i hi => (by cases hi), fun hb => hb⟩
  | cons i vals ih =>
    rw [MPHBuild.place] at h
    cases hk : keys[i]? with
    | none =>
      rw [hk] at h
      cases h
    | some key =>
      rw [hk] at h
      simp only at h
      cases ho : occ[MurmurSeed.hash seed key &&& mask]? with
      | none =>
        rw [ho] at h
        cases h
      | some b =>
        rw [ho] at h
        cases b with
        | true =>
          simp only at h
          cases hr : MPHBuild.release tmp occ with
          | error e =>
            rw [hr] at h
            cases h
          | ok occ2 =>
            rw [hr] at h
            cases h
        | false =>
          simp only at h
          split_ifs at h with hn
          obtain ⟨⟨k1, k2, k3⟩, hp, hbd⟩ := ih _ _ _ h
          have hno : MurmurSeed.hash seed key &&& mask < occ.length := getElem?_lt_length _ _ _ ho
          have hne : ∀ s : Nat, occ[s]? = some true → MurmurSeed.hash seed key &&& mask ≠ s := by
            intro s hs e
            rw [e, hs] at ho
            cases ho
          have hkept : ∀ s : Nat, occ[s]? = some true → occ1[s]? = some true ∧ l1[s]? = l[s]? := by
            intro s hs
            have h1 := k3 s (by rw [List.getElem?_set_ne (hne s hs)]; exact hs)
            rw [List.getElem?_set_ne (hne s hs)] at h1
            exact h1
          refine ⟨⟨by rw [k1, List.length_set], by rw [k2, List.length_set], hkept⟩, ?_, ?_⟩
          · intro j hj key1 hk1
            rcases List.mem_cons.mp hj with rfl | hj
            · rw [hk] at hk1
              cases hk1
              have h1 := k3 (MurmurSeed.hash seed key &&& mask)
                (by rw [List.getElem?_set_self hno])
              rw [List.getElem?_set_self hn] at h1
              exact h1
            · exact hp j hj key1 hk1
          · intro hb
            apply hbd
            intro x hx
            rcases List.mem_or_eq_of_mem_set hx with hx | rfl
            · exact hb x hx
            · exact lt_of_le_of_lt (Nat.mod_le _ _) (getElem?_lt_length _ _ _ hk)

/-- A pass of `place` that meets an occupied slot leaves occupied what was
occupied when the seed was first tried, and leaves the indexes there. -/
theorem place_false (keys : List Bytes) (mask seed : Nat) (vals : List Nat) (occ : List Bool)
    (tmp l : List Nat) (occ1 : List Bool) (l1 : List Nat) (occA : List Bool)
    (h : MPHBuild.place keys mask seed vals occ tmp l = .ok (occ1, l1, false))
    (hlen : occ.length = occA.length)
    (hA : ∀ s : Nat, occA[s]? = some true → occ[s]? = some true)
    (htmp : ∀ n : Nat, n ∈ tmp → occA[n]? = some false) :
    occ1.length = occA.length ∧ l1.length = l.length ∧
    (∀ s : Nat, occA[s]? = some true → occ1[s]? = some true) ∧
    (∀ s : Nat, occ[s]? = some true → l1[s]? = l[s]?) ∧
    ((∀ x ∈ l, x < keys.length) → ∀ x ∈ l1, x < keys.length) := by
  induction vals generalizing occ tmp l with
  | nil =>
    rw [MPHBuild.place] at h
    cases h
  | cons i vals ih =>
    rw [MPHBuild.place] at h
    cases hk : keys[i]? with
    | none =>
      rw [hk] at h
      cases h
    | some key =>
      rw [hk] at h
      simp only at h
      cases ho : occ[MurmurSeed.hash seed key &&& mask]? with
      | none =>
        rw [ho] at h
        cases h
      | some b =>
        rw [ho] at h
        cases b with
        | true =>
          simp only at h
          cases hr : MPHBuild.release tmp occ with
          | error e =>
            rw [hr] at h
            cases h
          | ok occ2 =>
            rw [hr] at h
            cases h
            obtain ⟨r1, r2⟩ := release_spec _ _ _ hr
            refine ⟨by rw [r1, hlen], rfl, fun s hs => ?_, fun _ _ => rfl, fun hb => hb⟩
            rw [r2 s (fun hm => by rw [htmp s hm] at hs; cases hs)]
            exact hA s hs
        | false =>
          simp only at h
          split_ifs at h with hn
          have hno : MurmurSeed.hash seed key &&& mask < occ.length := getElem?_lt_length _ _ _ ho
          have hne : ∀ s : Nat, occ[s]? = some true → MurmurSeed.hash seed key &&& mask ≠ s := by
            intro s hs e
            rw [e, hs] at ho
            cases ho
          have hAn : occA[MurmurSeed.hash seed key &&& mask]? = some false := by
            have hlt : MurmurSeed.hash seed key &&& mask < occA.length := by
              rw [← hlen]
              exact hno
            cases hv : occA[MurmurSeed.hash seed key &&& mask]? with
            | none =>
              rw [List.getElem?_eq_none_iff] at hv
              omega
            | some b =>
              cases b with
              | false => rfl
              | true =>
                rw [hA _ hv] at ho
                cases ho
          obtain ⟨k1, k2, k3, k4, hbd⟩ := ih _ _ _ h (by rw [List.length_set, hlen])
            (fun s hs => by rw [List.getElem?_set_ne (hne s (hA s hs))]; exact hA s hs)
            (fun n hn => by
              rcases List.mem_append.mp hn with hn | hn
              · exact htmp n hn
              · rw [List.mem_singleton.mp hn]
                exact hAn)
          refine ⟨k1, by rw [k2, List.length_set], k3, fun s hs => ?_, fun hb => ?_⟩
          · have h1 := k4 s (by rw [List.getElem?_set_ne (hne s hs)]; exact hs)
            rw [List.getElem?_set_ne (hne s hs)] at h1
            exact h1
          · apply hbd
            intro x hx
            rcases List.mem_or_eq_of_mem_set hx with hx | rfl
            · exact hb x hx
            · exact lt_of_le_of_lt (Nat.mod_le _ _) (getElem?_lt_length _ _ _ hk)

theorem kept_trans (occ : List Bool) (l : List Nat) (occ1 : List Bool) (l1 : List Nat)
    (occ2 : List Bool) (l2 : List Nat) (h1 : MPHBuild.Kept occ l occ1 l1)
    (h2 : MPHBuild.Kept occ1 l1 occ2 l2) : MPHBuild.Kept occ l occ2 l2 := by
  obtain ⟨a1, a2, a3⟩ := h1
  obtain ⟨b1, b2, b3⟩ := h2
  refine ⟨by rw [b1, a1], by rw [b2, a2], fun s hs => ?_⟩
  obtain ⟨c1, c2⟩ := a3 s hs
  obtain ⟨d1, d2⟩ := b3 s c1
  exact ⟨d1, by rw [d2, c2]⟩

/-- The seed that `trySeed` returns places every index of the bucket, and
the slots occupied before are kept. -/
theorem trySeed_spec (keys : List Bytes) (mask : Nat) (vals : List Nat) (fuel seed : Nat)
    (occ : List Bool) (l : List Nat) (seed1 : Nat) (occ1 : List Bool) (l1 : List Nat)
    (h : MPHBuild.trySeed keys mask vals fuel seed occ l = some (.ok (seed1, occ1, l1))) :
    MPHBuild.Kept occ l occ1 l1 ∧
    (∀ i ∈ vals, ∀ key, keys[i]? = some key →
      occ1[MurmurSeed.hash seed1 key &&& mask]? = some true ∧
        l1[MurmurSeed.hash seed1 key &&& mask]? = some (i % 2 ^ 32)) ∧
    ((∀ x ∈ l, x < keys.length) → ∀ x ∈ l1, x < keys.length) := by
  induction fuel generalizing seed occ l with
  | zero =>
    rw [MPHBuild.trySeed] at h
    cases h
  | succ fuel ih =>
    rw [MPHBuild.trySeed] at h
    cases hp : MPHBuild.place keys mask seed vals occ [] l with
    | error e =>
      rw [hp] at h
      cases h
    | ok r =>
      obtain ⟨occ2, l2, flag⟩ := r
      rw [hp] at h
      cases flag with
      | true =>
        simp only [Option.some.injEq, Except.ok.injEq, Prod.mk.injEq] at h
        obtain ⟨rfl, rfl, rfl⟩ := h
        exact place_true _ _ _ _ _ _ _ _ _ hp
      | false =>
        simp only at h
        obtain ⟨k1, k2, k3, k4, hbd⟩ := place_false _ _ _ _ _ _ _ _ _ occ hp rfl
          (fun s hs => hs) (fun n hn => by cases hn)
        obtain ⟨hk, hpl, hbd1⟩ := ih _ _ _ h
        exact ⟨kept_trans _ _ _ _ _ _ ⟨k1, k2, fun s hs => ⟨k3 s hs, k4 s hs⟩⟩ hk, hpl,
          fun hb => hbd1 (hbd hb)⟩

/-- After the loop over the buckets every index of every bucket is found
through the seed of its bucket. -/
theorem assign_spec (keys : List Bytes) (mask fuel : Nat) (buckets : List indexBucket)
    (level0 l : List Nat) (occ : List Bool) (level01 l1 : List Nat)
    (hnd : (buckets.map indexBucket.n).Nodup)
    (h : MPHBuild.assign keys mask fuel buckets level0 l occ = some (.ok (level01, l1))) :
    level01.length = level0.length ∧ l1.length = l.length ∧
    ((∀ x ∈ l, x < keys.length) → ∀ x ∈ l1, x < keys.length) ∧
    (∀ b ∈ buckets, ∀ i ∈ b.vals, ∀ key, keys[i]? = some key →
      ∃ seed, level01[b.n]? = some seed ∧
        l1[MurmurSeed.hash seed key &&& mask]? = some (i % 2 ^ 32)) ∧
    (∀ n : Nat, n ∉ buckets.map indexBucket.n → level01[n]? = level0[n]?) ∧
    (∀ s : Nat, occ[s]? = some true → l1[s]? = l[s]?) := by
  induction buckets generalizing level0 l occ with
  | nil =>
    rw [MPHBuild.assign] at h
    simp only [Option.some.injEq, Except.ok.injEq, Prod.mk.injEq] at h
    obtain ⟨rfl, rfl⟩ := h
    exact ⟨rfl, rfl, fun hb => hb, fun b hb => (by cases hb), fun _ _ => rfl, fun _ _ => rfl⟩
  | cons b buckets ih =>
    rw [MPHBuild.assign] at h
    rw [List.map_cons, List.nodup_cons] at hnd
    cases ht : MPHBuild.trySeed keys mask b.vals fuel 0 occ l with
    | none =>
      rw [ht] at h
      cases h
    | some r =>
      rw [ht] at h
      cases r with
      | error e =>
        cases h
      | ok r =>
        obtain ⟨seed, occ2, l2⟩ := r
        simp only at h
        split_ifs at h with hn
        · obtain ⟨⟨t1, t2, t3⟩, tp, tb⟩ := trySeed_spec _ _ _ _ _ _ _ _ _ _ ht
          obtain ⟨i1, i2, i3, i4, i5, i6⟩ := ih _ _ _ hnd.2 h
          refine ⟨by rw [i1, List.length_set], by rw [i2, t2], fun hb => i3 (tb hb), ?_, ?_, ?_⟩
          · intro b1 hb1 i hi key hk
            rcases List.mem_cons.mp hb1 with rfl | hb1
            · refine ⟨seed, ?_, ?_⟩
              · rw [i5 _ hnd.1, List.getElem?_set_self hn]
              · obtain ⟨p1, p2⟩ := tp i hi key hk
                rw [i6 _ p1]
                exact p2
            · exact i4 b1 hb1 i hi key hk
          · intro n hn1
            rw [List.map_cons, List.mem_cons, not_or] at hn1
            rw [i5 n hn1.2, List.getElem?_set_ne (fun e => hn1.1 e.symm)]
          · intro s hs
            obtain ⟨q1, q2⟩ := t3 s hs
            rw [i6 s q1, q2]
        · cases h

theorem fill_spec (mask : Nat) (keys : List Bytes) (i : Nat) (sb sb1 : List (List Nat))
    (h : MPHBuild.fill mask keys i sb = .ok sb1) :
    (∀ (n : Nat) (vals0 : List Nat), sb[n]? = some vals0 → ∃ vals, sb1[n]? = some vals ∧ ∀ x ∈ vals0, x ∈ vals) ∧
    (∀ (j : Nat) (key : Bytes), keys[j]? = some key →
      ∃ vals, sb1[MurmurSeed.hash 0 key &&& mask]? = some vals ∧ i + j ∈ vals) := by
  induction keys generalizing i sb with
  | nil =>
    rw [MPHBuild.fill] at h
    cases h
    exact ⟨fun n vals0 hn => ⟨vals0, hn, fun x hx => hx⟩, fun j key hj => by cases hj⟩
  | cons s keys ih =>
    rw [MPHBuild.fill] at h
    cases hs : sb[MurmurSeed.hash 0 s &&& mask]? with
    | none =>
      rw [hs] at h
      cases h
    | some vals =>
      rw [hs] at h
      simp only at h
      obtain ⟨hB, hC⟩ := ih _ _ h
      have hlt : MurmurSeed.hash 0 s &&& mask < sb.length := getElem?_lt_length _ _ _ hs
      have hB1 : ∀ (n : Nat) (vals0 : List Nat), sb[n]? = some vals0 →
          ∃ vals, sb1[n]? = some vals ∧ ∀ x ∈ vals0, x ∈ vals := by
        intro n vals0 hn
        by_cases e : MurmurSeed.hash 0 s &&& mask = n
        · subst e
          rw [hs] at hn
          cases hn
          obtain ⟨v1, g1, g2⟩ := hB _ _ (List.getElem?_set_self hlt)
          exact ⟨v1, g1, fun x hx => g2 x (List.mem_append_left _ hx)⟩
        · exact hB n vals0 (by rw [List.getElem?_set_ne e]; exact hn)
      refine ⟨hB1, fun j key hj => ?_⟩
      cases j with
      | zero =>
        simp only [List.getElem?_cons_zero, Option.some.injEq] at hj
        subst hj
        obtain ⟨v1, g1, g2⟩ := hB _ _ (List.getElem?_set_self hlt)
        exact ⟨v1, g1, g2 i (List.mem_append_right _ (List.mem_singleton_self i))⟩
      | succ j =>
        rw [List.getElem?_cons_succ] at hj
        obtain ⟨v1, g1, g2⟩ := hC j key hj
        exact ⟨v1, g1, by rw [show i + (j + 1) = i + 1 + j by omega]; exact g2⟩

theorem collect_spec (sb : List (List Nat)) (n0 : Nat) (acc : List indexBucket)
    (hacc : ∀ b ∈ acc, b.n < n0) (hnd : (acc.map indexBucket.n).Nodup) :
    ((MPHBuild.collect sb n0 acc).map indexBucket.n).Nodup ∧
    (∀ b ∈ acc, b ∈ MPHBuild.collect sb n0 acc) ∧
    (∀ (k : Nat) (vals : List Nat), sb[k]? = some vals → vals ≠ [] →
      (⟨n0 + k, vals⟩ : indexBucket) ∈ MPHBuild.collect sb n0 acc) := by
  induction sb generalizing n0 acc with
  | nil =>
    rw [MPHBuild.collect]
    exact ⟨hnd, fun b hb => hb, fun k vals hk => by cases hk⟩
  | cons vals rest ih =>
    rw [MPHBuild.collect]
    have hacc1 : ∀ b ∈ (if vals.length > 0 then acc ++ [⟨n0, vals⟩] else acc), b.n < n0 + 1 := by
      intro b hb
      split_ifs at hb
      · rcases List.mem_append.mp hb with hb | hb
        · exact Nat.lt_succ_of_lt (hacc b hb)
        · rw [List.mem_singleton.mp hb]
          exact Nat.lt_succ_self n0
      · exact Nat.lt_succ_of_lt (hacc b hb)
    have hnd1 : ((if vals.length > 0 then acc ++ [⟨n0, vals⟩] else acc).map indexBucket.n).Nodup := by
      split_ifs
      · rw [List.map_append, List.map_singleton]
        refine List.Nodup.append hnd (List.nodup_singleton _) ?_
        intro x hx hx1
        rw [List.mem_singleton] at hx1
        subst hx1
        obtain ⟨b, hb, hbn⟩ := List.mem_map.mp hx
        have := hacc b hb
        omega
      · exact hnd
    obtain ⟨g1, g2, g3⟩ := ih (n0 + 1) _ hacc1 hnd1
    refine ⟨g1, fun b hb => g2 b ?_, fun k vals1 hk hne => ?_⟩
    · split_ifs
      · exact List.mem_append_left _ hb
      · exact hb
    · cases k with
      | zero =>
        simp only [List.getElem?_cons_zero, Option.some.injEq] at hk
        subst hk
        apply g2
        rw [if_pos (List.length_pos.mpr hne)]
        exact List.mem_append_right _ (List.mem_singleton_self _)
      | succ k =>
        rw [List.getElem?_cons_succ] at hk
        have := g3 k vals1 hk hne
        rw [show n0 + (k + 1) = n0 + 1 + k by omega]
        exact this

theorem nextPow2_loop_pos (n fuel i r : Nat) (hi : 0 < i)
    (h : nextPow2.loop n fuel i = some r) : 0 < r := by
  induction fuel generalizing i with
  | zero =>
    rw [nextPow2.loop] at h
    cases h
  | succ fuel ih =>
    rw [nextPow2.loop] at h
    split_ifs at h
    · cases h
      exact hi
    · exact ih (i * 2) (by omega) h

/-- The table that `MPHBuild` returns: the indexes of `level1` are indexes of
the keys, and every key is found through the seed of its bucket. -/
theorem MPHBuild_spec (sort : List indexBucket → List indexBucket)
    (hperm : ∀ l, (sort l).Perm l) (fuel : Nat) (keys : List Bytes) (t : MPHTable)
    (h : MPHBuild sort fuel keys = some (.ok t)) :
    t.keys = keys ∧ t.level0Mask < t.level0.length ∧ t.level1Mask < t.level1.length ∧
    (0 < keys.length → ∀ x ∈ t.level1, x < keys.length) ∧
    (∀ (i : Nat) (key : Bytes), keys[i]? = some key →
      ∃ seed, t.level0[MurmurSeed.hash 0 key &&& t.level0Mask]? = some seed ∧
        t.level1[MurmurSeed.hash seed key &&& t.level1Mask]? = some (i % 2 ^ 32)) := by
  unfold MPHBuild at h
  cases h0 : nextPow2 (keys.length / 4) with
  | none =>
    rw [h0] at h
    cases h
  | some len0 =>
    cases h1 : nextPow2 keys.length with
    | none =>
      rw [h0, h1] at h
      cases h
    | some len1 =>
      rw [h0, h1] at h
      simp only [List.length_replicate] at h
      have hp0 : 0 < len0 := nextPow2_loop_pos _ _ _ _ Nat.one_pos h0
      have hp1 : 0 < len1 := nextPow2_loop_pos _ _ _ _ Nat.one_pos h1
      cases hf : MPHBuild.fill (len0 - 1) keys 0 (List.replicate len0 []) with
      | error e =>
        rw [hf] at h
        cases h
      | ok sb =>
        rw [hf] at h
        simp only at h
        cases ha : MPHBuild.assign keys (len1 - 1) fuel (sort (MPHBuild.collect sb 0 []))
            (List.replicate len0 0) (List.replicate len1 0) (List.replicate len1 false) with
        | none =>
          rw [ha] at h
          cases h
        | some r =>
          rw [ha] at h
          cases r with
          | error e => cases h
          | ok r =>
            obtain ⟨level0, level1⟩ := r
            simp only [Option.some.injEq, Except.ok.injEq] at h
            subst h
            obtain ⟨_, fC⟩ := fill_spec _ _ _ _ _ hf
            obtain ⟨c1, _, c3⟩ := collect_spec sb 0 [] (fun b hb => by cases hb) List.nodup_nil
            have hnd : ((sort (MPHBuild.collect sb 0 [])).map indexBucket.n).Nodup :=
              ((hperm _).map indexBucket.n).nodup_iff.mpr c1
            obtain ⟨a1, a2, a3, a4, _, _⟩ := assign_spec _ _ _ _ _ _ _ _ _ hnd ha
            rw [List.length_replicate] at a1 a2
            refine ⟨rfl, ?_, ?_, fun hpos => ?_, fun i key hk => ?_⟩
            · show len0 - 1 < level0.length
              omega
            · show len1 - 1 < level1.length
              omega
            · apply a3
              intro x hx
              rw [List.eq_of_mem_replicate hx]
              exact hpos
            · obtain ⟨vals, hv, hiv⟩ := fC i key hk
              rw [Nat.zero_add] at hiv
              have hmem := c3 _ vals hv (List.ne_nil_of_mem hiv)
              rw [Nat.zero_add] at hmem
              exact a4 _ ((hperm _).mem_iff.mpr hmem) i hiv key hk

/-- What `Lookup` returns on a table built from a list of keys that is not
empty and has at most `2 ^ 32` entries. -/
theorem Lookup_spec (sort : List indexBucket → List indexBucket)
    (hperm : ∀ l, (sort l).Perm l) (fuel : Nat) (keys : List Bytes) (t : MPHTable)
    (hne : keys ≠ []) (hlen : keys.length ≤ 2 ^ 32)
    (h : MPHBuild sort fuel keys = some (.ok t)) :
    (∀ (i : Nat) (key : Bytes), keys[i]? = some key → t.Lookup key = .ok (i, true)) ∧
    (∀ s, ∃ (n : Nat) (key : Bytes), keys[n]? = some key ∧ t.Lookup s = .ok (n, decide (s = key))) := by
  obtain ⟨hkeys, hm0, hm1, hbd, hfind⟩ := MPHBuild_spec sort hperm fuel keys t h
  have hpos : 0 < keys.length := List.length_pos.mpr hne
  constructor
  · intro i key hk
    obtain ⟨seed, g0, g1⟩ := hfind i key hk
    have hi : i < keys.length := getElem?_lt_length _ _ _ hk
    rw [Nat.mod_eq_of_lt (lt_of_lt_of_le hi hlen)] at g1
    unfold MPHTable.Lookup
    simp only [g0, g1, hkeys, hk, TestEq, decide_True]
  · intro s
    unfold MPHTable.Lookup
    have h0 : MurmurSeed.hash 0 s &&& t.level0Mask < t.level0.length :=
      lt_of_le_of_lt Nat.and_le_right hm0
    obtain ⟨seed, hseed⟩ : ∃ seed, t.level0[MurmurSeed.hash 0 s &&& t.level0Mask]? = some seed :=
      ⟨_, List.getElem?_eq_getElem h0⟩
    have h1 : MurmurSeed.hash seed s &&& t.level1Mask < t.level1.length :=
      lt_of_le_of_lt Nat.and_le_right hm1
    obtain ⟨n, hn⟩ : ∃ n, t.level1[MurmurSeed.hash seed s &&& t.level1Mask]? = some n :=
      ⟨_, List.getElem?_eq_getElem h1⟩
    have hnlt : n < keys.length := hbd hpos n (List.getElem?_mem hn)
    obtain ⟨key, hkey⟩ : ∃ key, keys[n]? = some key := ⟨_, List.getElem?_eq_getElem hnlt⟩
    refine ⟨n, key, hkey, ?_⟩
    simp only [hseed, hn, hkeys, hkey, TestEq]

theorem release_ok (tmp : List Nat) (occ : List Bool) (h : ∀ n ∈ tmp, n < occ.length) :
    ∃ occ1, MPHBuild.release tmp occ = .ok occ1 := by
  induction tmp generalizing occ with
  | nil => exact ⟨occ, rfl⟩
  | cons n tmp ih =>
    rw [MPHBuild.release, if_pos (h n (List.mem_cons_self _ _))]
    exact ih _ (fun k hk => by rw [List.length_set]; exact h k (List.mem_cons_of_mem _ hk))

/-- A pass of `place` does not panic. -/
theorem place_ok (keys : List Bytes) (mask seed : Nat) (vals : List Nat) (occ : List Bool)
    (tmp l : List Nat) (hm : mask < occ.length) (hl : occ.length = l.length)
    (hv : ∀ i ∈ vals, i < keys.length) (ht : ∀ n ∈ tmp, n < occ.length) :
    ∃ r, MPHBuild.place keys mask seed vals occ tmp l = .ok r := by
  induction vals generalizing occ tmp l with
  | nil => exact ⟨_, rfl⟩
  | cons i vals ih =>
    rw [MPHBuild.place]
    have hi : i < keys.length := hv i (List.mem_cons_self _ _)
    rw [List.getElem?_eq_getElem hi]
    simp only
    have hn : MurmurSeed.hash seed keys[i] &&& mask < occ.length :=
      lt_of_le_of_lt Nat.and_le_right hm
    rw [List.getElem?_eq_getElem hn]
    cases occ[MurmurSeed.hash seed keys[i] &&& mask] with
    | true =>
      simp only
      obtain ⟨occ1, h1⟩ := release_ok tmp occ ht
      rw [h1]
      exact ⟨_, rfl⟩
    | false =>
      simp only
      rw [if_pos (by rw [← hl]; exact hn)]
      apply ih
      · rw [List.length_set]
        exact hm
      · rw [List.length_set, List.length_set]
        exact hl
      · exact fun j hj => hv j (List.mem_cons_of_mem _ hj)
      · intro k hk
        rw [List.length_set]
        rcases List.mem_append.mp hk with hk | hk
        · exact ht k hk
        · rw [List.mem_singleton.mp hk]
          exact hn

/-- The search of a seed does not panic. -/
theorem trySeed_ok (keys : List Bytes) (mask : Nat) (vals : List Nat) (fuel seed : Nat)
    (occ : List Bool) (l : List Nat) (hm : mask < occ.length) (hl : occ.length = l.length)
    (hv : ∀ i ∈ vals, i < keys.length) (e : Failure) :
    MPHBuild.trySeed keys mask vals fuel seed occ l ≠ some (.error e) := by
  induction fuel generalizing seed occ l with
  | zero =>
    rw [MPHBuild.trySeed]
    exact fun h => by cases h
  | succ fuel ih =>
    rw [MPHBuild.trySeed]
    obtain ⟨r, hr⟩ := place_ok keys mask seed vals occ [] l hm hl hv (fun n hn => by cases hn)
    obtain ⟨occ1, l1, flag⟩ := r
    rw [hr]
    cases flag with
    | true => exact fun h => by cases h
    | false =>
      simp only
      obtain ⟨k1, k2, _⟩ := place_false _ _ _ _ _ _ _ _ _ occ hr rfl (fun s hs => hs)
        (fun n hn => by cases hn)
      exact ih _ _ _ (by rw [k1]; exact hm) (by rw [k1, k2]; exact hl)

/-- The loop over the buckets does not panic. -/
theorem assign_ok (keys : List Bytes) (mask fuel : Nat) (buckets : List indexBucket)
    (level0 l : List Nat) (occ : List Bool) (hm : mask < occ.length)
    (hl : occ.length = l.length)
    (hb : ∀ b ∈ buckets, b.n < level0.length ∧ ∀ i ∈ b.vals, i < keys.length) (e : Failure) :
    MPHBuild.assign keys mask fuel buckets level0 l occ ≠ some (.error e) := by
  induction buckets generalizing level0 l occ with
  | nil =>
    rw [MPHBuild.assign]
    exact fun h => by cases h
  | cons b buckets ih =>
    rw [MPHBuild.assign]
    obtain ⟨hbn, hbv⟩ := hb b (List.mem_cons_self _ _)
    cases ht : MPHBuild.trySeed keys mask b.vals fuel 0 occ l with
    | none => exact fun h => by cases h
    | some r =>
      cases r with
      | error e1 => exact absurd ht (trySeed_ok _ _ _ _ _ _ _ hm hl hbv e1)
      | ok r =>
        obtain ⟨seed, occ1, l1⟩ := r
        simp only
        rw [if_pos hbn]
        obtain ⟨⟨t1, t2, _⟩, _, _⟩ := trySeed_spec _ _ _ _ _ _ _ _ _ _ ht
        apply ih _ _ _ (by rw [t1]; exact hm) (by rw [t1, t2]; exact hl)
        intro b1 hb1
        rw [List.length_set]
        exact hb b1 (List.mem_cons_of_mem _ hb1)

theorem fill_ok (mask : Nat) (keys : List Bytes) (i : Nat) (sb : List (List Nat))
    (hm : mask < sb.length) (hsb : ∀ vals ∈ sb, ∀ x ∈ vals, x < i) :
    ∃ sb1, MPHBuild.fill mask keys i sb = .ok sb1 ∧ sb1.length = sb.length ∧
      ∀ vals ∈ sb1, ∀ x ∈ vals, x < i + keys.length := by
  induction keys generalizing i sb with
  | nil => exact ⟨sb, rfl, rfl, hsb⟩
  | cons s keys ih =>
    rw [MPHBuild.fill]
    have hn : MurmurSeed.hash 0 s &&& mask < sb.length := lt_of_le_of_lt Nat.and_le_right hm
    rw [List.getElem?_eq_getElem hn]
    simp only
    obtain ⟨sb1, h1, h2, h3⟩ := ih (i + 1)
      (sb.set (MurmurSeed.hash 0 s &&& mask) (sb[MurmurSeed.hash 0 s &&& mask] ++ [i]))
      (by rw [List.length_set]; exact hm)
      (by
        intro vals hvals x hx
        rcases List.mem_or_eq_of_mem_set hvals with hvals | rfl
        · exact Nat.lt_succ_of_lt (hsb vals hvals x hx)
        · rcases List.mem_append.mp hx with hx | hx
          · exact Nat.lt_succ_of_lt (hsb _ (List.getElem_mem hn) x hx)
          · rw [List.mem_singleton.mp hx]
            exact Nat.lt_succ_self i)
    refine ⟨sb1, h1, by rw [h2, List.length_set], fun vals hvals x hx => ?_⟩
    have := h3 vals hvals x hx
    rw [List.length_cons]
    omega

theorem collect_mem (sb : List (List Nat)) (n0 : Nat) (acc : List indexBucket)
    (b : indexBucket) (hb : b ∈ MPHBuild.collect sb n0 acc) :
    b ∈ acc ∨ (b.n < n0 + sb.length ∧ b.vals ∈ sb) := by
  induction sb generalizing n0 acc with
  | nil =>
    rw [MPHBuild.collect] at hb
    exact Or.inl hb
  | cons vals rest ih =>
    rw [MPHBuild.collect] at hb
    rcases ih _ _ hb with h | h
    · split_ifs at h
      · rcases List.mem_append.mp h with h | h
        · exact Or.inl h
        · rw [List.mem_singleton.mp h]
          exact Or.inr ⟨by rw [List.length_cons]; show n0 < _; omega, List.mem_cons_self _ _⟩
      · exact Or.inl h
    · exact Or.inr ⟨by rw [List.length_cons]; omega, List.mem_cons_of_mem _ h.2⟩

/-- The function `MPHBuild` does not panic. -/
theorem MPHBuild_ok (sort : List indexBucket → List indexBucket)
    (hperm : ∀ l, (sort l).Perm l) (fuel : Nat) (keys : List Bytes) (e : Failure) :
    MPHBuild sort fuel keys ≠ some (.error e) := by
  unfold MPHBuild
  cases h0 : nextPow2 (keys.length / 4) with
  | none => exact fun h => by cases h
  | some len0 =>
    cases h1 : nextPow2 keys.length with
    | none => exact fun h => by cases h
    | some len1 =>
      simp only [List.length_replicate]
      have hp0 : 0 < len0 := nextPow2_loop_pos _ _ _ _ Nat.one_pos h0
      have hp1 : 0 < len1 := nextPow2_loop_pos _ _ _ _ Nat.one_pos h1
      obtain ⟨sb, hf, hsl, hsb⟩ := fill_ok (len0 - 1) keys 0 (List.replicate len0 [])
        (by rw [List.length_replicate]; omega)
        (fun vals hvals x hx => by
          rw [List.eq_of_mem_replicate hvals] at hx
          cases hx)
      rw [hf]
      simp only
      rw [List.length_replicate] at hsl
      have ha := assign_ok keys (len1 - 1) fuel (sort (MPHBuild.collect sb 0 []))
        (List.replicate len0 0) (List.replicate len1 0) (List.replicate len1 false)
        (by rw [List.length_replicate]; omega)
        (by rw [List.length_replicate, List.length_replicate])
        (fun b hb => by
          rcases collect_mem sb 0 [] b ((hperm _).mem_iff.mp hb) with h | h
          · cases h
          · rw [List.length_replicate]
            refine ⟨by omega, fun i hi => ?_⟩
            have := hsb _ h.2 i hi
            omega)
      cases hr : MPHBuild.assign keys (len1 - 1) fuel (sort (MPHBuild.collect sb 0 []))
          (List.replicate len0 0) (List.replicate len1 0) (List.replicate len1 false) with
      | none => exact fun h => by cases h
      | some r =>
        cases r with
        | error e1 => exact absurd hr (ha e1)
        | ok r => exact fun h => by cases h

/-- The table built from the empty list of keys. -/
theorem MPHBuild_nil (sort : List indexBucket → List indexBucket)
    (hperm : ∀ l, (sort l).Perm l) (fuel : Nat) :
    MPHBuild sort fuel [] = some (.ok ⟨[], [0], 0, [0], 0⟩) := by
  have hs : sort [] = [] := List.perm_nil.mp (hperm [])
  unfold MPHBuild
  have h0 : nextPow2 (([] : List Bytes).length / 4) = some 1 := rfl
  have h1 : nextPow2 ([] : List Bytes).length = some 1 := rfl
  rw [h0, h1]
  simp only [List.replicate, List.length_cons, List.length_nil, MPHBuild.fill,
    MPHBuild.collect]
  rw [if_neg (by decide), hs]
  rfl

end util

namespace collection

variable {K V : Type} [LinearOrder K]

/-- The keys are increasing in symmetric order exactly when the tree is in
binary-search order. -/
theorem ordered_iff_searchTree (t : AVLNode K V) : t.Ordered ↔ t.IsSearchTree := by
  induction t with
  | nil => exact ⟨fun _ => trivial, fun _ => List.Pairwise.nil⟩
  | mk k v b l0 l1 ih0 ih1 =>
    unfold AVLNode.Ordered at ih0 ih1 ⊢
    rw [AVLNode.inorder, sorted_mid, AVLNode.IsSearchTree, ih0, ih1]
    constructor
    · rintro ⟨h1, h2, h3, h4⟩
      exact ⟨h3, h4, h1, h2⟩
    · rintro ⟨h3, h4, h1, h2⟩
      exact ⟨h1, h2, h3, h4⟩

end collection

/-- While the 16-bit counter does not wrap, the loop of `DataAt` written
with the counter is the loop that runs `idx + 1 - i` times. -/
theorem loop16_eq (content : Bytes) (idx : Nat) (hidx : idx < 65535) :
    ∀ (fuel i pos : Nat) (arr : List (Slot StandardMappedData)),
      i ≤ idx + 1 → idx + 1 - i ≤ fuel →
      StandardMappedData.DataAt.loop16 content idx fuel i pos arr
        = some (StandardMappedData.DataAt.loop content (idx + 1 - i) i pos arr) := by
  intro fuel
  induction fuel with
  | zero =>
    intro i pos arr hi hf
    have h0 : idx + 1 - i = 0 := by omega
    rw [StandardMappedData.DataAt.loop16, if_neg (by omega), h0, StandardMappedData.DataAt.loop]
  | succ fuel ih =>
    intro i pos arr hi hf
    rw [StandardMappedData.DataAt.loop16]
    by_cases hc : i ≤ idx
    · rw [if_pos hc]
      have hn : idx + 1 - i = (idx + 1 - (i + 1)) + 1 := by omega
      have hm : (i + 1) % 65536 = i + 1 := Nat.mod_eq_of_lt (by omega)
      rw [hn, StandardMappedData.DataAt.loop, hm]
      cases arr.get? i with
      | none => rfl
      | some s =>
        cases s with
        | nilPtr => rfl
        | ptr c => exact ih _ _ _ (by omega) (by omega)
        | empty =>
          simp only
          split_ifs
          · rfl
          · cases NewStandardMappedData (content.drop pos) with
            | error e => rfl
            | ok c => exact ih _ _ _ (by omega) (by omega)
    · rw [if_neg hc]
      have h0 : idx + 1 - i = 0 := by omega
      rw [h0, StandardMappedData.DataAt.loop]

/-- With the index 65535 the condition of the loop of `DataAt` holds of
every value of the counter: the loop never ends normally. -/
theorem loop16_max (content : Bytes) :
    ∀ (fuel i pos : Nat) (arr arr1 : List (Slot StandardMappedData)), i < 65536 →
      StandardMappedData.DataAt.loop16 content 65535 fuel i pos arr ≠ some (arr1, .ok ()) := by
  intro fuel
  induction fuel with
  | zero =>
    intro i pos arr arr1 hi
    rw [StandardMappedData.DataAt.loop16, if_pos (by omega)]
    exact fun h => by cases h
  | succ fuel ih =>
    intro i pos arr arr1 hi
    rw [StandardMappedData.DataAt.loop16, if_pos (by omega)]
    have hm : (i + 1) % 65536 < 65536 := Nat.mod_lt _ (by norm_num)
    cases arr.get? i with
    | none => exact fun h => by cases h
    | some s =>
      cases s with
      | nilPtr => exact fun h => by cases h
      | ptr c => exact ih _ _ _ _ hm
      | empty =>
        simp only
        split_ifs
        · exact fun h => by cases h
        · cases NewStandardMappedData (content.drop pos) with
          | error e => exact fun h => by cases h
          | ok c => exact ih _ _ _ _ hm

/-- With a count of 16 bits, `DataAt` written with the wrapping counter
returns within `idx + 1` runs of the body of its loop what `DataAt` returns. -/
theorem DataAt16_eq (d : StandardMappedData) (idx fuel : Nat) (hs : d.size < 65536)
    (hf : idx + 1 ≤ fuel) : d.DataAt16 fuel idx = some (d.DataAt idx) := by
  obtain ⟨dec, buf, arrs, recs, sz, ct⟩ := d
  have hs : sz < 65536 := hs
  unfold StandardMappedData.DataAt16 StandardMappedData.DataAt
  simp only [StandardMappedData.decoded, StandardMappedData.data_array, StandardMappedData.size,
    StandardMappedData.content, StandardMappedData.buf, StandardMappedData.record_list]
  cases dec with
  | false => rfl
  | true =>
  cases arrs with
  | none => rfl
  | some arr =>
    simp only [Bool.not_true, Bool.false_eq_true, if_false]
    by_cases hi : idx ≥ sz
    · rw [if_pos hi, if_pos hi]
    · rw [if_neg hi, if_neg hi]
      cases arr.get? idx with
      | none => rfl
      | some s =>
        cases s with
        | nilPtr => rfl
        | ptr c => rfl
        | empty =>
          simp only
          rw [loop16_eq ct idx (by omega) fuel 0 0 arr (by omega) (by omega)]
          simp only [Nat.sub_zero]
          rcases StandardMappedData.DataAt.loop ct (idx + 1) 0 0 arr with ⟨arr1, r⟩
          cases r with
          | error e => rfl
          | ok u =>
            simp only
            cases arr1.get? idx with
            | none => rfl
            | some s => rfl

/-- On a decoded mapped value `DataAt` of an index that is not below the
count returns an error and leaves the value as it is. -/
theorem DataAt_out_of_range (d : StandardMappedData) (idx : Nat) (hd : d.decoded = true)
    (hi : idx ≥ d.size) : d.DataAt idx = (d, .error .error) := by
  unfold StandardMappedData.DataAt
  rw [hd]
  simp only [Bool.not_true, Bool.false_eq_true, if_false]
  cases d.data_array with
  | none => rfl
  | some arr =>
    simp only
    rw [if_pos hi]

/-- The view of a child is the decode of the content at its offset. -/
theorem childView_eq (content : Bytes) (j pos : Nat) (c : StandardMappedData)
    (ho : childOffset content j = some pos) :
    childView content j = some c ↔ NewStandardMappedData (content.drop pos) = .ok c := by
  unfold childView
  rw [ho]
  simp only
  cases NewStandardMappedData (content.drop pos) with
  | error e => simp
  | ok c1 => simp

/-- The offset of the next child. -/
theorem childOffset_succ (content : Bytes) (j pos : Nat) (c : StandardMappedData)
    (ho : childOffset content j = some pos)
    (hc : NewStandardMappedData (content.drop pos) = .ok c) :
    childOffset content (j + 1) = some (pos + c.Buf.length) := by
  rw [childOffset, ho]
  simp only
  rw [hc]

/-- The loop of `DataAt`, started at the offset of the child `i`, keeps the
slots that hold a view holding the view of the child of their index. -/
theorem DataAt_loop_child (content : Bytes) :
    ∀ (n i pos : Nat) (arr : List (Slot StandardMappedData)),
      childOffset content i = some pos →
      (∀ (j : Nat) (c : StandardMappedData), arr[j]? = some (Slot.ptr c) →
        childView content j = some c) →
      ∀ (j : Nat) (c : StandardMappedData),
        (StandardMappedData.DataAt.loop content n i pos arr).1[j]? = some (Slot.ptr c) →
        childView content j = some c := by
  intro n
  induction n with
  | zero => intro i pos arr _ h; exact h
  | succ n ih =>
    intro i pos arr ho h
    rw [StandardMappedData.DataAt.loop]
    cases hg : arr.get? i with
    | none => exact h
    | some s =>
      rw [List.get?_eq_getElem?] at hg
      cases s with
      | nilPtr => exact h
      | ptr c =>
        exact ih _ _ _ (childOffset_succ content i pos c ho
          ((childView_eq content i pos c ho).mp (h i c hg))) h
      | empty =>
        simp only
        split_ifs
        · exact h
        · cases hc : NewStandardMappedData (content.drop pos) with
          | error e =>
            simp only
            intro j c hj
            by_cases hij : i = j
            · subst hij
              rw [List.getElem?_set_self', hg] at hj
              cases hj
            · rw [List.getElem?_set_ne hij] at hj
              exact h j c hj
          | ok c0 =>
            simp only
            apply ih _ _ _ (childOffset_succ content i pos c0 ho hc)
            intro j c hj
            by_cases hij : i = j
            · subst hij
              rw [List.getElem?_set_self', hg] at hj
              cases hj
              exact (childView_eq content i pos c0 ho).mpr hc
            · rw [List.getElem?_set_ne hij] at hj
              exact h j c hj

/-- The loop of `DataAt`, when it succeeds, leaves no nil pointer in a cache
that held none. -/
theorem DataAt_loop_clean (content : Bytes) :
    ∀ (n i pos : Nat) (arr : List (Slot StandardMappedData)),
      (∀ j : Nat, arr[j]? ≠ some Slot.nilPtr) →
      (StandardMappedData.DataAt.loop content n i pos arr).2 = .ok () →
      ∀ j : Nat, (StandardMappedData.DataAt.loop content n i pos arr).1[j]? ≠ some Slot.nilPtr := by
  intro n
  induction n with
  | zero => intro i pos arr h _; exact h
  | succ n ih =>
    intro i pos arr h
    rw [StandardMappedData.DataAt.loop]
    cases hg : arr.get? i with
    | none => exact fun _ => h
    | some s =>
      rw [List.get?_eq_getElem?] at hg
      cases s with
      | nilPtr => exact fun _ => h
      | ptr c => exact ih _ _ _ h
      | empty =>
        simp only
        split_ifs
        · exact fun _ => h
        · cases hc : NewStandardMappedData (content.drop pos) with
          | error e =>
            simp only
            intro hr
            cases hr
          | ok c0 =>
            simp only
            apply ih
            intro j hj
            by_cases hij : i = j
            · subst hij
              rw [List.getElem?_set_self', hg] at hj
              cases hj
            · rw [List.getElem?_set_ne hij] at hj
              exact h j hj

/-- The method `DataAt` keeps the slots that hold a view holding the view of
the child of their index. -/
theorem DataAt_slots_child (d : StandardMappedData) (idx : Nat)
    (h : ∀ (j : Nat) (c : StandardMappedData), d.slot j = some (Slot.ptr c) →
      childView d.content j = some c) :
    ∀ (j : Nat) (c : StandardMappedData), (d.DataAt idx).1.slot j = some (Slot.ptr c) →
      childView d.content j = some c := by
  obtain ⟨dec, buf, arrs, recs, sz, ct⟩ := d
  unfold StandardMappedData.DataAt
  simp only [StandardMappedData.decoded, StandardMappedData.data_array, StandardMappedData.size,
    StandardMappedData.content, StandardMappedData.buf, StandardMappedData.record_list]
  have h : ∀ (j : Nat) (c : StandardMappedData),
      (StandardMappedData.mk dec buf arrs recs sz ct).slot j = some (Slot.ptr c) →
      childView ct j = some c := h
  cases dec with
  | false => exact h
  | true =>
  cases arrs with
  | none => exact h
  | some arr =>
    simp only [Bool.not_true, Bool.false_eq_true, if_false]
    by_cases hi : idx ≥ sz
    · rw [if_pos hi]; exact h
    · rw [if_neg hi]
      cases arr.get? idx with
      | none => exact h
      | some s0 =>
        cases s0 with
        | ptr c => exact h
        | nilPtr => exact h
        | empty =>
          simp only
          have hl := DataAt_loop_child ct (idx + 1) 0 0 arr rfl (fun j c hj => h j c (by
            simp only [StandardMappedData.slot, StandardMappedData.data_array,
              List.get?_eq_getElem?]; exact hj))
          rcases hloop : StandardMappedData.DataAt.loop ct (idx + 1) 0 0 arr with ⟨arr1, r⟩
          rw [hloop] at hl
          have hres : ∀ (j : Nat) (c : StandardMappedData),
              (StandardMappedData.mk true buf (some arr1) recs sz ct).slot j = some (Slot.ptr c) →
              childView ct j = some c := by
            intro j c hj
            simp only [StandardMappedData.slot, StandardMappedData.data_array,
              List.get?_eq_getElem?] at hj
            exact hl j c hj
          cases r with
          | error e => exact hres
          | ok u =>
            simp only
            cases arr1.get? idx with
            | none => exact hres
            | some s => exact hres

/-- The slots of a decoded mapped value that hold a view hold the view of
the child of their index. -/
theorem slots_child (d : StandardMappedData) (hd : Decoded d) :
    ∀ (j : Nat) (c : StandardMappedData), d.slot j = some (Slot.ptr c) →
      childView d.content j = some c := by
  induction hd with
  | new b m hb hdec =>
    obtain ⟨b0, cnt, lenb, content, t, ac, rc, lc, n, -, -, rfl⟩ := frame_of_decode b m hb hdec
    intro j c hj
    by_cases h0 : ac = 0
    · simp only [StandardMappedData.slot, StandardMappedData.data_array, if_pos h0] at hj
      cases hj
    · simp only [StandardMappedData.slot, StandardMappedData.data_array, if_neg h0,
        List.get?_eq_getElem?] at hj
      rw [List.getElem?_replicate] at hj
      split_ifs at hj
      cases hj
  | dataAt d idx hd0 ih =>
    have hct : (d.DataAt idx).1.content = d.content := by
      have := congrArg StandardMappedData.content (emptied_DataAt d hd0 idx)
      exact this
    rw [hct]
    exact DataAt_slots_child d idx ih
  | recordAt ops d idx _ ih =>
    obtain ⟨dec, buf, arrs, recs, sz, ct⟩ := d
    obtain ⟨rl1, he, -⟩ := RecordAt_state ops dec buf arrs recs sz ct idx
    rw [he]
    exact ih

/-- The view that `DataAt` returns on a decoded mapped value is the view of
the child of that index. -/
theorem DataAt_child (d d1 c : StandardMappedData) (k : Nat) (hd : Decoded d)
    (h : d.DataAt k = (d1, .ok (Slot.ptr c))) : childView d.content k = some c := by
  have h1 : d1.slot k = some (Slot.ptr c) := DataAt_result_slot d d1 k _ h
  have hd1 : Decoded d1 := by
    have := Decoded.dataAt d k hd
    rw [h] at this
    exact this
  have hct : d1.content = d.content := by
    have := congrArg StandardMappedData.content (emptied_DataAt d hd k)
    rw [h] at this
    exact this
  rw [← hct]
  exact slots_child d1 hd1 k c h1

/-- A successful `DataAt` on a cache without nil pointer leaves none, and
what it returns is a view. -/
theorem DataAt_clean (d d1 : StandardMappedData) (idx : Nat) (s : Slot StandardMappedData)
    (hdc : ∀ arr, d.data_array = some arr → DownClosed arr)
    (hc : ∀ j : Nat, d.slot j ≠ some Slot.nilPtr) (h : d.DataAt idx = (d1, .ok s)) :
    (∀ j : Nat, d1.slot j ≠ some Slot.nilPtr) ∧ ∃ c, s = Slot.ptr c := by
  obtain ⟨dec, buf, arrs, recs, sz, ct⟩ := d
  unfold StandardMappedData.DataAt at h
  simp only [StandardMappedData.decoded, StandardMappedData.data_array, StandardMappedData.size,
    StandardMappedData.content, StandardMappedData.buf, StandardMappedData.record_list] at h
  cases dec with
  | false => simp at h
  | true =>
  cases arrs with
  | none => simp at h
  | some arr =>
    simp only [Bool.not_true, Bool.false_eq_true, if_false] at h
    by_cases hi : idx ≥ sz
    · rw [if_pos hi] at h
      simp at h
    · rw [if_neg hi] at h
      have hca : ∀ j : Nat, arr[j]? ≠ some Slot.nilPtr := by
        intro j hj
        exact hc j (by
          simp only [StandardMappedData.slot, StandardMappedData.data_array,
            List.get?_eq_getElem?]
          exact hj)
      cases hg : arr.get? idx with
      | none =>
        rw [hg] at h
        simp at h
      | some s0 =>
        rw [hg] at h
        rw [List.get?_eq_getElem?] at hg
        cases s0 with
        | ptr c =>
          simp only [Prod.mk.injEq, Except.ok.injEq] at h
          obtain ⟨rfl, rfl⟩ := h
          exact ⟨hc, c, rfl⟩
        | nilPtr => exact absurd hg (hca idx)
        | empty =>
          simp only at h
          have hl := DataAt_loop_clean ct (idx + 1) 0 0 arr hca
          have hp := (DataAt_loop_props ct (idx + 1) 0 0 arr (hdc arr rfl)
            (fun j hj => by omega)).2.2.2
          rcases hloop : StandardMappedData.DataAt.loop ct (idx + 1) 0 0 arr with ⟨arr1, r⟩
          rw [hloop] at h hl hp
          cases r with
          | error e => simp at h
          | ok u =>
            simp only at h
            obtain ⟨c, hc1⟩ := hp rfl idx (by omega) (by omega)
            rw [List.get?_eq_getElem?, hc1] at h
            simp only [Prod.mk.injEq, Except.ok.injEq] at h
            obtain ⟨rfl, rfl⟩ := h
            refine ⟨fun j hj => ?_, c, rfl⟩
            simp only [StandardMappedData.slot, StandardMappedData.data_array,
              List.get?_eq_getElem?] at hj
            exact hl rfl j hj

/-- The filled slots of the cache of a decoded mapped value form an initial
segment. -/
theorem decoded_downClosed (d : StandardMappedData) (hd : Decoded d) :
    ∀ arr, d.data_array = some arr → DownClosed arr := by
  obtain ⟨b0, cnt, lenb, content, ac, rc, lc, n, arrs, recs, -, rfl, h0, h1, -, -⟩ :=
    inv_of_decoded d hd
  intro arr ha
  have ha : arrs = some arr := ha
  by_cases hac : ac = 0
  · rw [h0 hac] at ha
    cases ha
  · obtain ⟨arr1, e1, -, hdc⟩ := h1 hac
    rw [e1] at ha
    cases ha
    exact hdc

/-- After successful `DataAt` calls only, the value is a decoded one whose
cache holds no nil pointer. -/
theorem viewed_inv (d : StandardMappedData) (hv : Viewed d) :
    Decoded d ∧ ∀ j : Nat, d.slot j ≠ some Slot.nilPtr := by
  induction hv with
  | new b m hb hdec =>
    refine ⟨Decoded.new b m hb hdec, ?_⟩
    obtain ⟨b0, cnt, lenb, content, t, ac, rc, lc, n, -, -, rfl⟩ := frame_of_decode b m hb hdec
    intro j hj
    by_cases h0 : ac = 0
    · simp only [StandardMappedData.slot, StandardMappedData.data_array, if_pos h0] at hj
      cases hj
    · simp only [StandardMappedData.slot, StandardMappedData.data_array, if_neg h0,
        List.get?_eq_getElem?] at hj
      rw [List.getElem?_replicate] at hj
      split_ifs at hj
      cases hj
  | dataAt d d1 idx s _ h ih =>
    have hd1 : Decoded d1 := by
      have := Decoded.dataAt d idx ih.1
      rw [h] at this
      exact this
    exact ⟨hd1, (DataAt_clean d d1 idx s (decoded_downClosed d ih.1) ih.2 h).1⟩

/-- On a buffer made of a header, a count field, a length field and a
content, the lengths announced by the header are those of the parts,
whatever the total length. -/
theorem parts_measures (b0 : Nat) (cnt lenb content t : Bytes) (ac rc lc n : Nat)
    (hac : (b0 >>> 6) &&& 0x03 = ac) (hrc : (b0 >>> 4) &&& 0x03 = rc)
    (hlc : b0 &&& 0x03 = lc)
    (hcnt : (ac = 0 ∧ rc = 0 ∧ cnt = [] ∧ n = 0) ∨ (ac = 1 ∧ rc = 0 ∧ cnt = [n]) ∨
      (ac = 2 ∧ rc = 0 ∧ cnt = [n / 256, n % 256]) ∨ (ac = 0 ∧ rc = 1 ∧ cnt = [n]) ∨
      (ac = 0 ∧ rc = 2 ∧ cnt = [n / 256, n % 256]))
    (hlen : (lc = 0 ∧ lenb = [] ∧ content.length = 0) ∨ (lc = 1 ∧ lenb = [content.length]) ∨
      (lc = 2 ∧ lenb = [content.length / 256, content.length % 256])) :
    consumedLength (b0 :: (cnt ++ (lenb ++ (content ++ t))))
      = (b0 :: (cnt ++ (lenb ++ content))).length := by
  have h1 : countFieldBytes (b0 :: (cnt ++ (lenb ++ (content ++ t)))) = cnt.length := by
    unfold countFieldBytes
    simp only [List.getD_cons_zero, hac, hrc]
    rcases hcnt with ⟨rfl, rfl, rfl, -⟩ | ⟨rfl, rfl, rfl⟩ | ⟨rfl, rfl, rfl⟩ | ⟨rfl, rfl, rfl⟩ |
      ⟨rfl, rfl, rfl⟩ <;> rfl
  have h2 : lengthFieldBytes (b0 :: (cnt ++ (lenb ++ (content ++ t)))) = lenb.length := by
    unfold lengthFieldBytes
    simp only [List.getD_cons_zero, hlc]
    rcases hlen with ⟨rfl, rfl, -⟩ | ⟨rfl, rfl⟩ | ⟨rfl, rfl⟩ <;> rfl
  have h3 : declaredContentLength (b0 :: (cnt ++ (lenb ++ (content ++ t)))) = content.length := by
    unfold declaredContentLength
    rw [h1, h2]
    have hB : b0 :: (cnt ++ (lenb ++ (content ++ t)))
        = (b0 :: cnt) ++ (lenb ++ (content ++ t)) := rfl
    have hp : 1 + cnt.length = (b0 :: cnt).length + 0 := by simp only [List.length_cons]; omega
    have hp1 : (b0 :: cnt).length + 0 + 1 = (b0 :: cnt).length + 1 := by omega
    rcases hlen with ⟨-, rfl, h0⟩ | ⟨-, rfl⟩ | ⟨-, rfl⟩
    · simp [h0]
    · rw [if_pos (show [content.length].length = 1 from rfl), hB, hp, getD_pre]
      rfl
    · rw [if_neg (show ¬ [content.length / 256, content.length % 256].length = 1 from by simp),
        if_pos (show [content.length / 256, content.length % 256].length = 2 from rfl), hB, hp]
      unfold bigEndianUint16
      rw [hp1, getD_pre, getD_pre]
      simp only [List.cons_append, List.getD_cons_zero, List.getD_cons_succ, List.nil_append]
      exact Nat.div_add_mod' _ 256
  unfold consumedLength
  rw [h1, h2, h3]
  simp only [List.length_cons, List.length_append]
  omega

/-- A buffer of bytes that `NewStandardMappedData` decodes announces fewer
than 65536 bytes. -/
theorem consumed_lt (b : Bytes) (m : StandardMappedData) (hb : ∀ x ∈ b, x < 256)
    (h : NewStandardMappedData b = .ok m) : consumedLength b < 65536 := by
  obtain ⟨b0, cnt, lenb, content, t, ac, rc, lc, n, hf, rfl, -⟩ := frame_of_decode b m hb h
  obtain ⟨h1, h2, h3⟩ := frame_measures b0 cnt lenb content t ac rc lc n hf
  unfold consumedLength
  rw [h1, h2, h3]
  exact hf.2.2.2.2.2.2.2

/-- The encoding of a primitive with non-nil data that decodes, whatever
follows it, is shorter than 65536 bytes. -/
theorem primitive_bound (d : Primitive) (data buf : Bytes) (code : Nat)
    (hd : d.data = some data) (henc : (d.Encode false).2 = .ok (buf, code)) (t : Bytes)
    (m : StandardMappedData) (hb : ∀ x ∈ buf ++ t, x < 256)
    (hm : NewStandardMappedData (buf ++ t) = .ok m) : buf.length < 65536 := by
  have hc := consumed_lt _ m hb hm
  unfold Primitive.Encode at henc
  rw [hd] at henc
  by_cases h0 : data.length = 0
  · have hnil : data = [] := List.length_eq_zero.mp h0
    subst hnil
    simp at henc
    obtain ⟨rfl, -⟩ := henc
    simp
  · by_cases h1 : data.length < 256
    · simp [h0, h1] at henc
      obtain ⟨rfl, -⟩ := henc
      have hm1 : data.length % 256 = data.length := Nat.mod_eq_of_lt h1
      rw [hm1] at hc ⊢
      have := parts_measures 1 [] [data.length] data t 0 0 1 0 (by decide) (by decide)
        (by decide) (Or.inl ⟨rfl, rfl, rfl, rfl⟩) (Or.inr (Or.inl ⟨rfl, rfl⟩))
      simp only [List.nil_append, List.cons_append, List.append_assoc, List.singleton_append]
        at hc this ⊢
      omega
    · have h2 : data.length < 65536 := by
        by_contra hcc
        simp [h0, h1, hcc] at henc
      simp [h0, h1, h2] at henc
      obtain ⟨rfl, -⟩ := henc
      have hm1 : data.length / 256 % 256 = data.length / 256 := by omega
      rw [shiftRight8_mod, hm1] at hc ⊢
      have := parts_measures 2 [] [data.length / 256, data.length % 256] data t 0 0 2 0
        (by decide) (by decide) (by decide) (Or.inl ⟨rfl, rfl, rfl, rfl⟩)
        (Or.inr (Or.inr ⟨rfl, rfl⟩))
      simp only [List.nil_append, List.cons_append, List.append_assoc, List.singleton_append]
        at hc this ⊢
      omega

/-- The encoding of a container that decodes, whatever follows it, is
shorter than 65536 bytes. -/
theorem container_bound (shift n : Nat) (content buf1 buf2 : Bytes)
    (hs : shift = 6 ∨ shift = 4)
    (h1 : encodeSize shift n = .ok buf1) (h2 : encodeContent buf1 content = .ok buf2)
    (t : Bytes) (m : StandardMappedData) (hb : ∀ x ∈ buf2 ++ t, x < 256)
    (hm : NewStandardMappedData (buf2 ++ t) = .ok m) : buf2.length < 65536 := by
  have hc := consumed_lt _ m hb hm
  obtain ⟨h0, cnt, rfl, hn, hh, hcnt, ha, hr⟩ := encodeSize_form shift n buf1 hs h1
  obtain ⟨lc, lenb, rfl, hl, hlenb⟩ := encodeContent_form h0 cnt content buf2 h2
  obtain ⟨b6, b4, b3, b2, b0⟩ := header_bits h0 lc hh hl
  have := parts_measures (h0 ||| lc) cnt lenb content t _ _ lc n b6 b4 b0 hcnt hlenb
  simp only [List.cons_append, List.append_assoc] at hc this ⊢
  omega

/-- What `Primitive.Encode` returns depends on the data alone. -/
theorem primitive_encode_data (d : Primitive) (parent : Bool) :
    (d.Encode parent).2 = ((NewPrimitive d.data).Encode parent).2 := by
  obtain ⟨e, mg, b, data⟩ := d
  unfold Primitive.Encode NewPrimitive
  cases data with
  | none => rfl
  | some data =>
    simp only
    split_ifs <;> rfl

theorem decode_nil : NewStandardMappedData [] = .error .error := rfl

/-- Decoding the children one after the other from a content made of
encodings, the empty ones standing for nothing: within as many children as
there are encodings, either the end of the content is reached or a child
does not decode. -/
theorem parse_short (ops : RecordOps) (content : Bytes) (hb : ∀ x ∈ content, x < 256) :
    ∀ (bs : List Bytes), (∀ b ∈ bs, b ≠ [] → Relifts ops b) →
      ∀ (pre : Bytes) (k : Nat), childOffset content k = some pre.length →
        content = pre ++ bs.flatten →
        (∃ j, j ≤ bs.length ∧ childOffset content (k + j) = some content.length) ∨
        (∃ j, j < bs.length ∧ childView content (k + j) = none) := by
  intro bs
  induction bs with
  | nil =>
    intro _ pre k ho hc
    refine Or.inl ⟨0, le_refl _, ?_⟩
    rw [Nat.add_zero, ho, hc]
    simp
  | cons b bs ih =>
    intro hr pre k ho hc
    have hr1 : ∀ b1 ∈ bs, b1 ≠ [] → Relifts ops b1 :=
      fun b1 h1 => hr b1 (List.mem_cons_of_mem _ h1)
    by_cases hbe : b = []
    · subst hbe
      rw [List.flatten_cons, List.nil_append] at hc
      rcases ih hr1 pre k ho hc with ⟨j, hj, h⟩ | ⟨j, hj, h⟩
      · exact Or.inl ⟨j, by rw [List.length_cons]; omega, h⟩
      · exact Or.inr ⟨j, by rw [List.length_cons]; omega, h⟩
    · cases hv : childView content k with
      | none => exact Or.inr ⟨0, by rw [List.length_cons]; omega, hv⟩
      | some ck =>
        have hdec := (childView_eq content k pre.length ck ho).mp hv
        have hdrop : content.drop pre.length = b ++ bs.flatten := by
          rw [hc, List.drop_left, List.flatten_cons]
        rw [hdrop] at hdec
        have hbuf := (hr b (List.mem_cons_self _ _) hbe bs.flatten ck
          (fun x hx => hb x (by rw [hc, List.flatten_cons]; exact List.mem_append_right _ hx))
          hdec).1
        have ho1 : childOffset content (k + 1) = some (pre ++ b).length := by
          rw [childOffset_succ content k pre.length ck ho (by rw [hdrop]; exact hdec), hbuf,
            List.length_append]
        rcases ih hr1 (pre ++ b) (k + 1) ho1
            (by rw [hc, List.flatten_cons, List.append_assoc]) with ⟨j, hj, h⟩ | ⟨j, hj, h⟩
        · refine Or.inl ⟨j + 1, by rw [List.length_cons]; omega, ?_⟩
          rw [show k + (j + 1) = k + 1 + j by omega]
          exact h
        · refine Or.inr ⟨j + 1, by rw [List.length_cons]; omega, ?_⟩
          rw [show k + (j + 1) = k + 1 + j by omega]
          exact h

/-- When as many children decode one after the other as there are
encodings in the content, no encoding is empty, the child `j` is the view
over the `j`-th encoding, and its copies re-encode to it. -/
theorem parse_children (ops : RecordOps) (content : Bytes) (hb : ∀ x ∈ content, x < 256) :
    ∀ (bs : List Bytes), (∀ b ∈ bs, b ≠ [] → Relifts ops b) →
      ∀ (pre : Bytes) (k : Nat), childOffset content k = some pre.length →
        content = pre ++ bs.flatten →
        (∀ j, j < bs.length → ∃ cj, childView content (k + j) = some cj) →
        ∀ (j : Nat) (cj : StandardMappedData), j < bs.length →
          childView content (k + j) = some cj →
          ∃ b, bs[j]? = some b ∧ ∀ fuel r, cj.CopyConstruct ops fuel = some (.ok r) →
            ∃ code, (r.Encode false).2 = .ok (b, code) := by
  intro bs
  induction bs with
  | nil =>
    intro _ pre k _ _ _ j cj hj
    cases hj
  | cons b bs ih =>
    intro hr pre k ho hc hall
    have hr1 : ∀ b1 ∈ bs, b1 ≠ [] → Relifts ops b1 :=
      fun b1 h1 => hr b1 (List.mem_cons_of_mem _ h1)
    have hbe : b ≠ [] := by
      intro hbe
      subst hbe
      rw [List.flatten_cons, List.nil_append] at hc
      rcases parse_short ops content hb bs hr1 pre k ho hc with ⟨j, hj, h⟩ | ⟨j, hj, h⟩
      · obtain ⟨cj, hcj⟩ := hall j (by rw [List.length_cons]; omega)
        have := (childView_eq content (k + j) content.length cj h).mp hcj
        rw [List.drop_length, decode_nil] at this
        cases this
      · obtain ⟨cj, hcj⟩ := hall j (by rw [List.length_cons]; omega)
        rw [h] at hcj
        cases hcj
    obtain ⟨ck, hv⟩ := hall 0 (by rw [List.length_cons]; omega)
    rw [Nat.add_zero] at hv
    have hdec := (childView_eq content k pre.length ck ho).mp hv
    have hdrop : content.drop pre.length = b ++ bs.flatten := by
      rw [hc, List.drop_left, List.flatten_cons]
    rw [hdrop] at hdec
    obtain ⟨hbuf, hre⟩ := hr b (List.mem_cons_self _ _) hbe bs.flatten ck
      (fun x hx => hb x (by rw [hc, List.flatten_cons]; exact List.mem_append_right _ hx))
      hdec
    have ho1 : childOffset content (k + 1) = some (pre ++ b).length := by
      rw [childOffset_succ content k pre.length ck ho (by rw [hdrop]; exact hdec), hbuf,
        List.length_append]
    intro j cj hj hcj
    cases j with
    | zero =>
      rw [Nat.add_zero, hv] at hcj
      cases hcj
      exact ⟨b, List.getElem?_cons_zero, hre⟩
    | succ j =>
      rw [show k + (j + 1) = k + 1 + j by omega] at hcj
      rw [List.length_cons] at hj
      obtain ⟨b1, hb1, hre1⟩ := ih hr1 (pre ++ b) (k + 1) ho1
        (by rw [hc, List.flatten_cons, List.append_assoc])
        (fun i hi => by
          obtain ⟨ci, hci⟩ := hall (i + 1) (by rw [List.length_cons]; omega)
          rw [show k + (i + 1) = k + 1 + i by omega] at hci
          exact ⟨ci, hci⟩) j cj (by omega) hcj
      exact ⟨b1, by rw [List.getElem?_cons_succ]; exact hb1, hre1⟩

/-- The decoded view of the encoding of a data array re-encodes to it when
the views of its children do. -/
theorem relifts_container (ops : RecordOps) (arr : List IData) (bufs : List Bytes)
    (buf1 buf2 : Bytes)
    (hf : List.Forall₂ (fun c b => ∃ code, (c.Encode false).2 = .ok (b, code)) arr bufs)
    (hr : ∀ b ∈ bufs, b ≠ [] → Relifts ops b)
    (h1 : encodeSize 6 arr.length = .ok buf1)
    (h2 : encodeContent buf1 bufs.flatten = .ok buf2) : Relifts ops buf2 := by
  intro t m hb hm
  have hlen := container_bound 6 arr.length bufs.flatten buf1 buf2 (Or.inl rfl) h1 h2 t m hb hm
  obtain ⟨hdec, hn, -⟩ :=
    decode_of_container 6 arr.length bufs.flatten buf1 buf2 (Or.inl rfl) h1 h2 hlen t
  have hd : Decoded m := Decoded.new _ m hb hm
  rw [hdec] at hm
  simp only [Except.ok.injEq] at hm
  refine ⟨by rw [← hm]; rfl, ?_⟩
  intro fuel c hc
  cases fuel with
  | zero =>
    rw [StandardMappedData.CopyConstruct] at hc
    cases hc
  | succ fuel =>
    by_cases hz : arr.length = 0
    · have ha : arr = [] := List.length_eq_zero.mp hz
      subst ha
      cases hf
      rw [← hm] at hc
      simp only [StandardMappedData.CopyConstruct, StandardMappedData.IsPrimitive,
        StandardMappedData.decoded, StandardMappedData.data_array,
        StandardMappedData.record_list, StandardMappedData.Data, StandardMappedData.content,
        List.length_nil, ne_eq, not_true_eq_false, and_false, if_false, Bool.not_true,
        Bool.false_eq_true, Option.isNone_none, Bool.and_self, if_true, List.flatten_nil,
        Option.some.injEq, Except.ok.injEq] at hc
      subst hc
      have e1 : buf1 = [0x00] := by
        have : encodeSize 6 0 = .ok [0x00] := rfl
        rw [List.length_nil, this] at h1
        simp only [Except.ok.injEq] at h1
        exact h1.symm
      have e2 : buf2 = [0x00] := by
        have : encodeContent [0x00] [] = .ok [0x00] := rfl
        rw [e1, List.flatten_nil, this] at h2
        simp only [Except.ok.injEq] at h2
        exact h2.symm
      rw [e2]
      exact ⟨0xff, rfl⟩
    · have hda : m.IsDataArray = .ok true := by
        rw [← hm]
        simp [StandardMappedData.IsDataArray, StandardMappedData.decoded,
          StandardMappedData.data_array, hz]
      obtain ⟨rs, hcr, hrl, hch⟩ := (std_copyConstruct_spec ops fuel m c hd hc).2.2.2.2.2.2 hda
      have hsz : m.size = arr.length := by rw [← hm]; rfl
      have hct : m.content = bufs.flatten := by rw [← hm]; rfl
      have hcb : ∀ x ∈ bufs.flatten, x < 256 := by
        rw [← hct]
        exact decoded_content_bytes m hd
      have hbl : bufs.length = arr.length := (List.Forall₂.length_eq hf).symm
      have hview : ∀ j, j < arr.length → ∃ cj rj, childView bufs.flatten j = some cj ∧
          cj.CopyConstruct ops fuel = some (.ok rj) ∧ rs[j]? = some rj := by
        intro j hj
        obtain ⟨dj, dj1, cj, rj, hdj, hem, hat, -, hcc, hrj⟩ := hch j (by rw [hsz]; exact hj)
        have hcd : dj.content = bufs.flatten := by
          have := congrArg StandardMappedData.content hem
          rw [← hct]
          exact this
        have := DataAt_child dj dj1 cj j hdj hat
        rw [hcd] at this
        exact ⟨cj, rj, this, hcc, hrj⟩
      have hparse := parse_children ops bufs.flatten hcb bufs hr [] 0 rfl
        (by rw [List.nil_append])
        (fun j hj => by
          obtain ⟨cj, rj, h, -, -⟩ := hview j (by rw [← hbl]; exact hj)
          exact ⟨cj, by rw [Nat.zero_add]; exact h⟩)
      have hf2 : List.Forall₂ (fun r b => ∃ code, (r.Encode false).2 = .ok (b, code))
          rs bufs := by
        rw [List.forall₂_iff_get]
        refine ⟨by rw [hrl, hsz, hbl], fun i hi1 hi2 => ?_⟩
        obtain ⟨cj, rj, h, hcc, hrj⟩ := hview i (by rw [← hbl]; exact hi2)
        obtain ⟨b, hbi, hre⟩ := hparse i cj hi2 (by rw [Nat.zero_add]; exact h)
        rw [List.getElem?_eq_getElem hi1] at hrj
        rw [List.getElem?_eq_getElem hi2] at hbi
        simp only [Option.some.injEq] at hrj hbi
        rw [List.get_eq_getElem, List.get_eq_getElem, hrj, hbi]
        exact hre fuel rj hcc
      have hloop := loop_of_forall₂ rs bufs hf2
      rw [hcr, IData.Encode, DataArray.Encode, hrl, hsz, h1]
      simp only
      rcases hl : DataArray.Encode.loop rs with ⟨rs1, r⟩
      rw [hl] at hloop
      have hloop : r = .ok bufs.flatten := hloop
      subst hloop
      simp only
      rw [h2]
      exact ⟨0xff, rfl⟩

/-- The decoded view of the encoding of a value built from primitives and
data arrays re-encodes to it, when the encoding is not empty. -/
theorem relifts_of_encode (ops : RecordOps) (v : IData) :
    v.isPlain = true → ∀ buf code, (v.Encode false).2 = .ok (buf, code) → buf ≠ [] →
      Relifts ops buf := by
  refine @IData.rec
    (fun v => v.isPlain = true → ∀ buf code, (v.Encode false).2 = .ok (buf, code) → buf ≠ [] →
      Relifts ops buf)
    (fun o => ∀ l, o = some l → isPlainList l = true → ∀ bs,
      List.Forall₂ (fun c b => ∃ code, (c.Encode false).2 = .ok (b, code)) l bs →
      ∀ b ∈ bs, b ≠ [] → Relifts ops b)
    (fun l => isPlainList l = true → ∀ bs,
      List.Forall₂ (fun c b => ∃ code, (c.Encode false).2 = .ok (b, code)) l bs →
      ∀ b ∈ bs, b ≠ [] → Relifts ops b)
    ?_ ?_ ?_ ?_ ?_ ?_ ?_ ?_ ?_ v
  · intro d hp
    cases hp
  · intro d hp
    cases hp
  · intro d _ buf code henc hne t m hb hm
    rw [IData.Encode] at henc
    cases hd : d.data with
    | none =>
      unfold Primitive.Encode at henc
      rw [hd] at henc
      simp only [Except.ok.injEq, Prod.mk.injEq] at henc
      exact absurd henc.1.symm hne
    | some data =>
      have hlen := primitive_bound d data buf code hd henc t m hb hm
      rw [decode_of_primitive d data buf code hd henc hlen t] at hm
      simp only [Except.ok.injEq] at hm
      subst hm
      refine ⟨rfl, fun fuel c hc => ?_⟩
      cases fuel with
      | zero =>
        rw [StandardMappedData.CopyConstruct] at hc
        cases hc
      | succ fuel =>
        simp only [StandardMappedData.CopyConstruct, StandardMappedData.IsPrimitive,
          StandardMappedData.decoded, StandardMappedData.data_array,
          StandardMappedData.record_list, StandardMappedData.Data, StandardMappedData.content,
          Bool.not_true, Bool.false_eq_true, if_false, Option.isNone_none, Bool.and_self,
          if_true, Option.some.injEq, Except.ok.injEq] at hc
        subst hc
        refine ⟨code, ?_⟩
        rw [IData.Encode]
        have := primitive_encode_data d false
        rw [hd] at this
        rw [← this]
        exact henc
  · intro e b o ih hp buf code henc hne
    rw [IData.isPlain] at hp
    cases o with
    | none =>
      rw [IData.Encode, DataArray.Encode] at henc
      simp only [Except.ok.injEq, Prod.mk.injEq] at henc
      exact absurd henc.1.symm hne
    | some arr =>
      rw [isPlainOpt] at hp
      rw [IData.Encode, DataArray.Encode] at henc
      cases h1 : encodeSize 6 arr.length with
      | error e1 => rw [h1] at henc; simp at henc
      | ok buf1 =>
        rw [h1] at henc
        simp only at henc
        rcases hl : DataArray.Encode.loop arr with ⟨arr1, r⟩
        rw [hl] at henc
        cases r with
        | error e2 => simp at henc
        | ok content =>
          simp only at henc
          cases h2 : encodeContent buf1 content with
          | error e3 => rw [h2] at henc; simp at henc
          | ok buf2 =>
            rw [h2] at henc
            simp only [Except.ok.injEq, Prod.mk.injEq] at henc
            obtain ⟨rfl, -⟩ := henc
            obtain ⟨bufs, hf, rfl⟩ := loop_inv arr content (by rw [hl])
            exact relifts_container ops arr bufs buf1 buf2 hf (ih arr rfl hp bufs hf) h1 h2
  · intro d hp
    cases hp
  · intro l h
    cases h
  · intro val ih l h
    cases h
    exact ih
  · intro _ bs hf b hb
    cases hf
    cases hb
  · intro head tail ih1 ih3 hp bs hf b hb hne
    rw [isPlainList, Bool.and_eq_true] at hp
    cases hf with
    | @cons _ b1 _ bs1 hc hrest =>
      obtain ⟨code, hc⟩ := hc
      rcases List.mem_cons.mp hb with rfl | hb
      · exact ih1 hp.1 b code hc hne
      · exact ih3 hp.2 bs1 hrest b hb hne

/-- The offset of a child lies within the content. -/
theorem childOffset_le (content : Bytes) (hb : ∀ x ∈ content, x < 256) :
    ∀ (j pos : Nat), childOffset content j = some pos → pos ≤ content.length := by
  intro j
  induction j with
  | zero =>
    intro pos h
    rw [childOffset] at h
    cases h
    exact Nat.zero_le _
  | succ j ih =>
    intro pos h
    rw [childOffset] at h
    cases ho : childOffset content j with
    | none =>
      rw [ho] at h
      cases h
    | some p =>
      rw [ho] at h
      simp only at h
      cases hc : NewStandardMappedData (content.drop p) with
      | error e =>
        rw [hc] at h
        cases h
      | ok c =>
        rw [hc] at h
        simp only [Option.some.injEq] at h
        obtain ⟨h1, h2, -⟩ := decode_consumes (content.drop p) c
          (fun x hx => hb x (List.mem_of_mem_drop hx)) hc
        have hp := ih p ho
        have hl : c.Buf.length ≤ (content.drop p).length := by
          rw [h2, List.length_take]
          exact Nat.min_le_right _ _
        rw [List.length_drop] at hl
        omega

/-- The loop of `DataAt` panics when it meets a nil pointer after slots that
hold views. -/
theorem DataAt_loop_panics (content : Bytes) :
    ∀ (n i pos : Nat) (arr : List (Slot StandardMappedData)) (j : Nat), i ≤ j → j < i + n →
      (∀ l, i ≤ l → l < j → ∃ c, arr[l]? = some (Slot.ptr c)) →
      arr[j]? = some Slot.nilPtr →
      StandardMappedData.DataAt.loop content n i pos arr = (arr, .error .panic) := by
  intro n
  induction n with
  | zero =>
    intro i pos arr j h1 h2
    omega
  | succ n ih =>
    intro i pos arr j h1 h2 hp hj
    rw [StandardMappedData.DataAt.loop, List.get?_eq_getElem?]
    by_cases hij : i = j
    · subst hij
      rw [hj]
    · obtain ⟨c, hc⟩ := hp i (le_refl _) (by omega)
      rw [hc]
      simp only
      exact ih _ _ _ j (by omega) (by omega) (fun l hl1 hl2 => hp l (by omega) hl2) hj

/-- A run of the loop of `DataAt` that returns an error, on a cache
without nil pointer whose views are those of the children: it stopped at an
empty slot whose child does not decode, and left a nil pointer there. -/
theorem DataAt_loop_error (content : Bytes) (hb : ∀ x ∈ content, x < 256) :
    ∀ (n i pos : Nat) (arr arr1 : List (Slot StandardMappedData)) (e : Failure),
      childOffset content i = some pos →
      (∀ (j : Nat) (c : StandardMappedData), arr[j]? = some (Slot.ptr c) →
        childView content j = some c) →
      (∀ j : Nat, arr[j]? ≠ some Slot.nilPtr) → i + n ≤ arr.length →
      (∀ l, l < i → ∃ c, arr[l]? = some (Slot.ptr c)) →
      StandardMappedData.DataAt.loop content n i pos arr = (arr1, .error e) →
      ∃ j, i ≤ j ∧ j < i + n ∧ arr[j]? = some Slot.empty ∧ arr1[j]? = some Slot.nilPtr ∧
        childView content j = none ∧
        (∀ l, l < j → ∃ c, arr1[l]? = some (Slot.ptr c)) ∧
        (∀ l, j < l → arr1[l]? = arr[l]?) := by
  intro n
  induction n with
  | zero =>
    intro i pos arr arr1 e _ _ _ _ _ h
    rw [StandardMappedData.DataAt.loop] at h
    cases h
  | succ n ih =>
    intro i pos arr arr1 e ho hinv hclean hlen hpre h
    rw [StandardMappedData.DataAt.loop, List.get?_eq_getElem?] at h
    have hi : i < arr.length := by omega
    cases hg : arr[i]? with
    | none =>
      rw [List.getElem?_eq_none_iff] at hg
      omega
    | some s =>
      rw [hg] at h
      cases s with
      | nilPtr => exact absurd hg (hclean i)
      | ptr c =>
        simp only at h
        have hc := (childView_eq content i pos c ho).mp (hinv i c hg)
        obtain ⟨j, h1, h2, h3, h4, h5, h6, h7⟩ := ih (i + 1) _ arr arr1 e
          (childOffset_succ content i pos c ho hc) hinv hclean (by omega)
          (fun l hl => by
            by_cases hli : l = i
            · subst hli
              exact ⟨c, hg⟩
            · exact hpre l (by omega)) h
        exact ⟨j, by omega, by omega, h3, h4, h5, h6, h7⟩
      | empty =>
        simp only at h
        rw [if_neg (by have := childOffset_le content hb i pos ho; omega)] at h
        cases hc : NewStandardMappedData (content.drop pos) with
        | error e1 =>
          rw [hc] at h
          simp only [Prod.mk.injEq, Except.error.injEq] at h
          obtain ⟨rfl, -⟩ := h
          refine ⟨i, le_refl _, by omega, hg, List.getElem?_set_self hi, ?_, ?_, ?_⟩
          · unfold childView
            rw [ho]
            simp only
            rw [hc]
          · intro l hl
            rw [List.getElem?_set_ne (by omega)]
            exact hpre l hl
          · intro l hl
            rw [List.getElem?_set_ne (by omega)]
        | ok c =>
          rw [hc] at h
          simp only at h
          obtain ⟨j, h1, h2, h3, h4, h5, h6, h7⟩ := ih (i + 1) _ (arr.set i (.ptr c)) arr1 e
            (childOffset_succ content i pos c ho hc)
            (fun l c1 hl => by
              by_cases hli : i = l
              · subst hli
                rw [List.getElem?_set_self hi] at hl
                cases hl
                exact (childView_eq content i pos c ho).mpr hc
              · rw [List.getElem?_set_ne hli] at hl
                exact hinv l c1 hl)
            (fun l hl => by
              by_cases hli : i = l
              · subst hli
                rw [List.getElem?_set_self hi] at hl
                cases hl
              · rw [List.getElem?_set_ne hli] at hl
                exact hclean l hl)
            (by rw [List.length_set]; omega)
            (fun l hl => by
              by_cases hli : i = l
              · subst hli
                exact ⟨c, List.getElem?_set_self hi⟩
              · rw [List.getElem?_set_ne hli]
                exact hpre l (by omega)) h
          rw [List.getElem?_set_ne (by omega)] at h3
          refine ⟨j, by omega, by omega, h3, h4, h5, h6, fun l hl => ?_⟩
          rw [h7 l hl, List.getElem?_set_ne (by omega)]

/-- After successful `DataAt` calls only, a `DataAt(i)` that returns an
error on a mapped data array, `i` being below its count, has left a nil
pointer in the empty slot `j` of the first child that does not decode:
`DataAt(j)` then returns that nil pointer without an error and `DataAt` of
every index above `j` panics. -/
theorem DataAt_failure_poisons (d d1 : StandardMappedData) (i : Nat) (e : Failure)
    (hv : Viewed d) (hda : d.data_array ≠ none) (hi : i < d.size)
    (h : d.DataAt i = (d1, .error e)) :
    ∃ j, j ≤ i ∧ d.slot j = some Slot.empty ∧ childView d.content j = none ∧
      d1.slot j = some Slot.nilPtr ∧
      d1.DataAt j = (d1, .ok Slot.nilPtr) ∧
      ∀ k, j < k → k < d.size → d1.DataAt k = (d1, .error .panic) := by
  obtain ⟨hd, hclean⟩ := viewed_inv d hv
  have hinv := slots_child d hd
  have hbytes := decoded_content_bytes d hd
  obtain ⟨b0, cnt, lenb, content, ac, rc, lc, n, arrs, recs, -, rfl, h0, h1, -, -⟩ :=
    inv_of_decoded d hd
  have hi : i < n := hi
  cases arrs with
  | none => exact absurd rfl hda
  | some arr =>
    have hac : ac ≠ 0 := fun hz => by
      have := h0 hz
      cases this
    obtain ⟨arr0, e0, hlen, hdc⟩ := h1 hac
    have e0 : arr = arr0 := Option.some.inj e0
    subst e0
    have hinv : ∀ (j : Nat) (c : StandardMappedData), arr[j]? = some (Slot.ptr c) →
        childView content j = some c := fun j c hj => hinv j c (by
      simp only [StandardMappedData.slot, StandardMappedData.data_array,
        List.get?_eq_getElem?]
      exact hj)
    have hclean : ∀ j : Nat, arr[j]? ≠ some Slot.nilPtr := fun j hj => hclean j (by
      simp only [StandardMappedData.slot, StandardMappedData.data_array,
        List.get?_eq_getElem?]
      exact hj)
    have hbytes : ∀ x ∈ content, x < 256 := hbytes
    unfold StandardMappedData.DataAt at h
    simp only [StandardMappedData.decoded, StandardMappedData.data_array,
      StandardMappedData.size, StandardMappedData.content, StandardMappedData.buf,
      StandardMappedData.record_list, Bool.not_true, Bool.false_eq_true, if_false] at h
    rw [if_neg (by omega), List.get?_eq_getElem?] at h
    cases hg : arr[i]? with
    | none =>
      rw [List.getElem?_eq_none_iff] at hg
      omega
    | some s =>
      rw [hg] at h
      cases s with
      | ptr c => simp at h
      | nilPtr => simp at h
      | empty =>
        simp only at h
        have hprops := DataAt_loop_props content (i + 1) 0 0 arr hdc (fun j hj => by omega)
        rcases hloop : StandardMappedData.DataAt.loop content (i + 1) 0 0 arr with ⟨arr1, r⟩
        rw [hloop] at h hprops
        have hlen1 : arr1.length = arr.length := hprops.1
        cases r with
        | ok u =>
          simp only at h
          rw [List.get?_eq_getElem?, List.getElem?_eq_getElem (by omega)] at h
          simp at h
        | error e1 =>
          simp only [Prod.mk.injEq, Except.error.injEq] at h
          obtain ⟨rfl, rfl⟩ := h
          obtain ⟨j, -, hj2, hj3, hj4, hj5, hj6, hj7⟩ := DataAt_loop_error content hbytes
            (i + 1) 0 0 arr arr1 e1 rfl hinv hclean (by omega) (fun l hl => by omega) hloop
          refine ⟨j, by omega, ?_, hj5, ?_, ?_, ?_⟩
          · simp only [StandardMappedData.slot, StandardMappedData.data_array,
              List.get?_eq_getElem?]
            exact hj3
          · simp only [StandardMappedData.slot, StandardMappedData.data_array,
              List.get?_eq_getElem?]
            exact hj4
          · unfold StandardMappedData.DataAt
            simp only [StandardMappedData.decoded, StandardMappedData.data_array,
              StandardMappedData.size, StandardMappedData.content, StandardMappedData.buf,
              StandardMappedData.record_list, Bool.not_true, Bool.false_eq_true, if_false]
            rw [if_neg (by omega), List.get?_eq_getElem?, hj4]
          · intro k hk1 hk2
            have hk2 : k < n := hk2
            have hk3 : arr1[k]? = some Slot.empty := by
              rw [hj7 k hk1]
              cases hs : arr[k]? with
              | none =>
                rw [List.getElem?_eq_none_iff] at hs
                omega
              | some s =>
                cases s with
                | empty => rfl
                | nilPtr => exact absurd hs (hclean k)
                | ptr c =>
                  obtain ⟨s1, hs1, hf⟩ := hdc j k _ (by omega) hs rfl
                  rw [hj3] at hs1
                  cases hs1
                  cases hf
            unfold StandardMappedData.DataAt
            simp only [StandardMappedData.decoded, StandardMappedData.data_array,
              StandardMappedData.size, StandardMappedData.content, StandardMappedData.buf,
              StandardMappedData.record_list, Bool.not_true, Bool.false_eq_true, if_false]
            rw [if_neg (by omega), List.get?_eq_getElem?, hk3]
            simp only
            rw [DataAt_loop_panics content (k + 1) 0 0 arr1 j (by omega) (by omega)
              (fun l _ hl => hj6 l hl) hj4]

/-- C1, as stated, fails: `Encode(false)` of the empty data array succeeds
with the buffer `[0x00]`, `NewStandardMappedData` succeeds on it, but the
mapped value is not a data array while the constructed one is: the variant
is not preserved. -/
theorem C1_empty_array_decodes_as_primitive :
    (NewDataArray.Encode false).2 = .ok ([0x00], 0xff) ∧
    NewStandardMappedData [0x00] = .ok (StandardMappedData.mk true [0x00] none none 0 []) ∧
    NewDataArray.IsDataArray = .ok true ∧
    (StandardMappedData.mk true [0x00] none none 0 []).IsDataArray = .ok false ∧
    (StandardMappedData.mk true [0x00] none none 0 []).IsPrimitive = .ok true := by
  refine ⟨rfl, rfl, rfl, rfl, rfl⟩

/-- C1, amended: for every value `v` without nil content (every primitive
has non-nil data) whose `Encode(false)` succeeds with a buffer shorter than
65536 bytes, `NewStandardMappedData` succeeds on that buffer, the view spans
the whole buffer, and it corresponds to `v`: the same `IsPrimitive()`,
`Size()` and `Data()`, the same `IsDataArray()` and `IsRecordList()` unless
`v` is an empty data array or record list (which is mapped as a nil
primitive), and at every depth `DataAt(i)` succeeds with a view that
corresponds to the `i`-th child. -/
theorem C1_round_trip (v : IData) (buf : Bytes) (code : Nat)
    (hnn : v.noNil = true) (henc : (v.Encode false).2 = .ok (buf, code))
    (hlen : buf.length < 65536) :
    ∃ m, NewStandardMappedData buf = .ok m ∧ m.Buf = buf ∧ Corresponds v m := by
  have h := good_of_encode v buf code hnn henc hlen []
  rw [List.append_nil] at h
  exact h

/-- C1, amended, on the data array that holds the primitive "abc" and a
nested data array holding the primitive "de". -/
theorem C1_round_trip_witness :
    (IData.dataArray false [] (some [IData.primitive (NewPrimitive (some [0x61, 0x62, 0x63])),
      IData.dataArray false [] (some [IData.primitive (NewPrimitive (some [0x64, 0x65]))])])).noNil
      = true ∧
    ((IData.dataArray false [] (some [IData.primitive (NewPrimitive (some [0x61, 0x62, 0x63])),
      IData.dataArray false [] (some [IData.primitive (NewPrimitive (some [0x64, 0x65]))])])).Encode
      false).2 = .ok ([0x41, 0x02, 0x0c, 0x01, 0x03, 0x61, 0x62, 0x63,
        0x41, 0x01, 0x04, 0x01, 0x02, 0x64, 0x65], 0xff) ∧
    [0x41, 0x02, 0x0c, 0x01, 0x03, 0x61, 0x62, 0x63,
        0x41, 0x01, 0x04, 0x01, 0x02, 0x64, 0x65].length < 65536 ∧
    ∃ m, NewStandardMappedData [0x41, 0x02, 0x0c, 0x01, 0x03, 0x61, 0x62, 0x63,
        0x41, 0x01, 0x04, 0x01, 0x02, 0x64, 0x65] = .ok m ∧
      m.Buf = [0x41, 0x02, 0x0c, 0x01, 0x03, 0x61, 0x62, 0x63,
        0x41, 0x01, 0x04, 0x01, 0x02, 0x64, 0x65] ∧
      Corresponds (IData.dataArray false [] (some
        [IData.primitive (NewPrimitive (some [0x61, 0x62, 0x63])),
         IData.dataArray false [] (some [IData.primitive (NewPrimitive (some [0x64, 0x65]))])])) m :=
  ⟨rfl, rfl, by decide,
    C1_round_trip
      (IData.dataArray false [] (some [IData.primitive (NewPrimitive (some [0x61, 0x62, 0x63])),
        IData.dataArray false [] (some [IData.primitive (NewPrimitive (some [0x64, 0x65]))])]))
      [0x41, 0x02, 0x0c, 0x01, 0x03, 0x61, 0x62, 0x63, 0x41, 0x01, 0x04, 0x01, 0x02, 0x64, 0x65]
      0xff rfl rfl (by decide)⟩

/-- C2: `NewPrimitive(nil).Encode(false)` returns the nil buffer with byte
0x00, and `Buf()` is then the nil buffer: no header byte is produced. -/
theorem C2_nil_primitive_encodes_to_no_bytes :
    ((NewPrimitive none).Encode false).2 = .ok ([], 0x00) ∧
    ((NewPrimitive none).Encode false).1.Buf = .ok [] := by
  constructor <;> rfl

/-- C3: for a primitive with non-nil content of length `L`, `1 ≤ L ≤ 65535`,
`Encode(false)` succeeds and returns `[code] ++ lengthField ++ content`, with
`code = 1` and the field `[L]` when `L < 256`, and `code = 2` and the field
`[L / 256, L mod 256]` when `L ≥ 256`. -/
theorem C3_primitive_encode_top_level (d : Primitive) (data : Bytes)
    (hd : d.data = some data) (h1 : 1 ≤ data.length) (h2 : data.length ≤ 65535) :
    (d.Encode false).2 =
      .ok ([codeOf data.length] ++ bigEndian (codeOf data.length) data.length ++ data, 0xff) ∧
    ((d.Encode false).1).Buf =
      .ok ([codeOf data.length] ++ bigEndian (codeOf data.length) data.length ++ data) ∧
    (data.length < 256 →
      [codeOf data.length] ++ bigEndian (codeOf data.length) data.length = [1, data.length]) ∧
    (256 ≤ data.length →
      [codeOf data.length] ++ bigEndian (codeOf data.length) data.length
        = [2, data.length / 256, data.length % 256]) := by
  have hz : data.length ≠ 0 := by omega
  unfold Primitive.Encode Primitive.Buf codeOf bigEndian
  rw [hd]
  by_cases h : data.length < 256
  · have hm : data.length % 256 = data.length := Nat.mod_eq_of_lt h
    simp [h, hz, hm]
  · have h3 : data.length < 65536 := by omega
    have hm : data.length / 256 % 256 = data.length / 256 := by omega
    simp [h, hz, h3, shiftRight8_mod, hm]

/-- C3, the literal scenario: the primitive "abc" encodes to
`[0x01, 0x03, 0x61, 0x62, 0x63]`. -/
theorem C3_primitive_encode_top_level_witness :
    (NewPrimitive (some [0x61, 0x62, 0x63])).data = some [0x61, 0x62, 0x63] ∧
    1 ≤ [0x61, 0x62, 0x63].length ∧ [0x61, 0x62, 0x63].length ≤ 65535 ∧
    ((NewPrimitive (some [0x61, 0x62, 0x63])).Encode false).2
      = .ok ([0x01, 0x03, 0x61, 0x62, 0x63], 0xff) :=
  ⟨rfl, by decide, by decide,
    (C3_primitive_encode_top_level (NewPrimitive (some [0x61, 0x62, 0x63])) [0x61, 0x62, 0x63]
      rfl (by decide) (by decide)).1⟩

/-- C4: `NewPrimitive([]byte("")).Encode(false)` returns the single header
byte `[0x00]`, and `Buf()` is then `[0x00]`: one byte, not two. -/
theorem C4_empty_primitive_encodes_to_one_byte :
    ((NewPrimitive (some [])).Encode false).2 = .ok ([0x00], 0xff) ∧
    ((NewPrimitive (some [])).Encode false).1.Buf = .ok [0x00] := by
  constructor <;> rfl

/-- C5: in child mode a primitive with non-nil content of length `L` gives
length code 0 and no bytes when `L = 0`, code 1 and `[L] ++ content` when
`1 ≤ L ≤ 255`, code 2 and `[L / 256, L mod 256] ++ content` when
`256 ≤ L ≤ 65535`, and an error when `L ≥ 65536`. -/
theorem C5_primitive_encode_child_length_code (d : Primitive) (data : Bytes)
    (hd : d.data = some data) :
    (data.length = 0 → (d.Encode true).2 = .ok ([], 0)) ∧
    (1 ≤ data.length → data.length ≤ 255 →
      (d.Encode true).2 = .ok ([data.length] ++ data, 1)) ∧
    (256 ≤ data.length → data.length ≤ 65535 →
      (d.Encode true).2 = .ok ([data.length / 256, data.length % 256] ++ data, 2)) ∧
    (65536 ≤ data.length → (d.Encode true).2 = .error .error) := by
  unfold Primitive.Encode
  rw [hd]
  refine ⟨?_, ?_, ?_, ?_⟩
  · intro h
    simp [h]
  · intro h1 h2
    have hz : data.length ≠ 0 := by omega
    have h3 : data.length < 256 := by omega
    have hm : data.length % 256 = data.length := Nat.mod_eq_of_lt h3
    simp [hz, h3, hm]
  · intro h1 h2
    have hz : data.length ≠ 0 := by omega
    have h3 : ¬ data.length < 256 := by omega
    have h4 : data.length < 65536 := by omega
    have hm : data.length / 256 % 256 = data.length / 256 := by omega
    simp [hz, h3, h4, shiftRight8_mod, hm]
  · intro h1
    have hz : data.length ≠ 0 := by omega
    have h3 : ¬ data.length < 256 := by omega
    have h4 : ¬ data.length < 65536 := by omega
    simp [hz, h3, h4]

/-- C5 at the boundary lengths 0, 1, 255, 256, 65535 and 65536 (content made
of zero bytes): the codes are 0, 1, 1, 2, 2 and the last one fails. -/
theorem C5_primitive_encode_child_length_code_witness :
    ((NewPrimitive (some (List.replicate 0 0))).Encode true).2 = .ok ([], 0) ∧
    ((NewPrimitive (some (List.replicate 1 0))).Encode true).2
      = .ok ([1] ++ List.replicate 1 0, 1) ∧
    ((NewPrimitive (some (List.replicate 255 0))).Encode true).2
      = .ok ([255] ++ List.replicate 255 0, 1) ∧
    ((NewPrimitive (some (List.replicate 256 0))).Encode true).2
      = .ok ([1, 0] ++ List.replicate 256 0, 2) ∧
    ((NewPrimitive (some (List.replicate 65535 0))).Encode true).2
      = .ok ([255, 255] ++ List.replicate 65535 0, 2) ∧
    ((NewPrimitive (some (List.replicate 65536 0))).Encode true).2 = .error .error := by
  refine ⟨?_, ?_, ?_, ?_, ?_, ?_⟩
  · exact (C5_primitive_encode_child_length_code _ (List.replicate 0 0) rfl).1 rfl
  · have h := (C5_primitive_encode_child_length_code (NewPrimitive (some (List.replicate 1 0)))
      (List.replicate 1 0) rfl).2.1
    simp only [List.length_replicate] at h
    exact h (by decide) (by decide)
  · have h := (C5_primitive_encode_child_length_code (NewPrimitive (some (List.replicate 255 0)))
      (List.replicate 255 0) rfl).2.1
    simp only [List.length_replicate] at h
    exact h (by decide) (by decide)
  · have h := (C5_primitive_encode_child_length_code (NewPrimitive (some (List.replicate 256 0)))
      (List.replicate 256 0) rfl).2.2.1
    simp only [List.length_replicate] at h
    exact h (by decide) (by decide)
  · have h := (C5_primitive_encode_child_length_code (NewPrimitive (some (List.replicate 65535 0)))
      (List.replicate 65535 0) rfl).2.2.1
    simp only [List.length_replicate] at h
    exact h (by decide) (by decide)
  · have h := (C5_primitive_encode_child_length_code (NewPrimitive (some (List.replicate 65536 0)))
      (List.replicate 65536 0) rfl).2.2.2
    simp only [List.length_replicate] at h
    exact h (by decide)

/-- C6: for a primitive with non-nil content of length at most 65535, if
`Encode(true)` returns `(bytes, code)` then `Encode(false)` returns
`[code] ++ bytes`: the flag only suppresses the header byte. -/
theorem C6_child_flag_only_drops_header (d : Primitive) (data bytes : Bytes) (code : Nat)
    (hd : d.data = some data) (hL : data.length ≤ 65535)
    (hc : (d.Encode true).2 = .ok (bytes, code)) :
    (d.Encode false).2 = .ok ([code] ++ bytes, 0xff) := by
  unfold Primitive.Encode at hc ⊢
  rw [hd] at hc ⊢
  by_cases h0 : data.length = 0
  · simp [h0] at hc ⊢
    obtain ⟨rfl, rfl⟩ := hc
    exact ⟨rfl, rfl⟩
  · by_cases h1 : data.length < 256
    · simp [h0, h1] at hc ⊢
      obtain ⟨rfl, rfl⟩ := hc
      simp
    · have h2 : data.length < 65536 := by omega
      simp [h0, h1, h2] at hc ⊢
      obtain ⟨rfl, rfl⟩ := hc
      simp

/-- C6 for content of length 0: the child form is empty, the top-level form
is the single header byte 0x00. -/
theorem C6_child_flag_only_drops_header_witness :
    (NewPrimitive (some [])).data = some [] ∧ ([] : Bytes).length ≤ 65535 ∧
    ((NewPrimitive (some [])).Encode true).2 = .ok ([], 0) ∧
    ((NewPrimitive (some [])).Encode false).2 = .ok ([0x00], 0xff) :=
  ⟨rfl, by decide, rfl,
    C6_child_flag_only_drops_header (NewPrimitive (some [])) [] [] 0 rfl (by decide) rfl⟩

/-- C7: for a data array with `n` children, `1 ≤ n ≤ 65535`, whose
children's `Encode(false)` outputs `bufs` concatenate to `L` bytes,
`1 ≤ L ≤ 65535`, `Encode` returns `[header] ++ count ++ length ++ content`
with `header = (ac << 6) | lc`, the count in `ac` bytes and the length in
`lc` bytes, both big-endian. -/
theorem C7_data_array_wire_format (encoded : Bool) (buf : Bytes) (arr : List IData)
    (bufs : List Bytes) (parent : Bool)
    (hc : List.Forall₂ (fun c b => ∃ code, (c.Encode false).2 = .ok (b, code)) arr bufs)
    (hn1 : 1 ≤ arr.length) (hn2 : arr.length ≤ 65535)
    (hL1 : 1 ≤ bufs.flatten.length) (hL2 : bufs.flatten.length ≤ 65535) :
    ((IData.dataArray encoded buf (some arr)).Encode parent).2 =
      .ok ([(codeOf arr.length <<< 6) ||| codeOf bufs.flatten.length]
        ++ bigEndian (codeOf arr.length) arr.length
        ++ bigEndian (codeOf bufs.flatten.length) bufs.flatten.length
        ++ bufs.flatten, 0xff) := by
  rw [IData.Encode, DataArray.Encode, encodeSize_eq 6 arr.length hn1 hn2]
  have hl := loop_of_forall₂ arr bufs hc
  rcases hr : DataArray.Encode.loop arr with ⟨arr1, r⟩
  rw [hr] at hl
  simp only at hl
  subst hl
  simp only [encodeContent_eq _ _ _ hL1 hL2]

/-- C7, the literal scenario: the array holding the single primitive "abc"
encodes to `[0x41, 0x01, 0x05, 0x01, 0x03, 'a', 'b', 'c']`. -/
theorem C7_data_array_wire_format_witness :
    List.Forall₂ (fun c b => ∃ code, (IData.Encode c false).2 = .ok (b, code))
      [IData.primitive (NewPrimitive (some [0x61, 0x62, 0x63]))] [[0x01, 0x03, 0x61, 0x62, 0x63]] ∧
    ((IData.dataArray false [] (some [IData.primitive (NewPrimitive (some [0x61, 0x62, 0x63]))])).Encode
      false).2 = .ok ([0x41, 0x01, 0x05, 0x01, 0x03, 0x61, 0x62, 0x63], 0xff) :=
  ⟨List.Forall₂.cons ⟨0xff, rfl⟩ List.Forall₂.nil,
    C7_data_array_wire_format false [] [IData.primitive (NewPrimitive (some [0x61, 0x62, 0x63]))]
      [[0x01, 0x03, 0x61, 0x62, 0x63]] false (List.Forall₂.cons ⟨0xff, rfl⟩ List.Forall₂.nil)
      (by decide) (by decide) (by decide) (by decide)⟩

/-- C8, as stated, fails: after `Encode(false)` the buffer of the data array
holding the single primitive "abc" is not
`[0x45, 0x01, 0x05, 0x01, 0x03, 0x61, 0x62, 0x63]`. -/
theorem C8_abc_array_header_is_not_0x45 :
    ((NewDataArray.Append (.primitive (NewPrimitive (some [0x61, 0x62, 0x63])))).Encode false).1.Buf
      ≠ .ok [0x45, 0x01, 0x05, 0x01, 0x03, 0x61, 0x62, 0x63] := by
  have h : ((NewDataArray.Append (.primitive (NewPrimitive (some [0x61, 0x62, 0x63])))).Encode
      false).1.Buf = .ok [0x41, 0x01, 0x05, 0x01, 0x03, 0x61, 0x62, 0x63] := rfl
  rw [h]
  simp

/-- C8, amended: encoding the data array that holds exactly the primitive
"abc" returns, and caches as `Buf()`, the buffer
`[0x41, 0x01, 0x05, 0x01, 0x03, 0x61, 0x62, 0x63]`. -/
theorem C8_abc_array_encodes_with_header_0x41 :
    ((NewDataArray.Append (.primitive (NewPrimitive (some [0x61, 0x62, 0x63])))).Encode false).2
      = .ok ([0x41, 0x01, 0x05, 0x01, 0x03, 0x61, 0x62, 0x63], 0xff) ∧
    ((NewDataArray.Append (.primitive (NewPrimitive (some [0x61, 0x62, 0x63])))).Encode false).1.Buf
      = .ok [0x41, 0x01, 0x05, 0x01, 0x03, 0x61, 0x62, 0x63] := by
  constructor <;> rfl

/-- C9: for a record list with `n` records, `1 ≤ n ≤ 65535`, whose
`Encode()` outputs `bufs` concatenate to `L` bytes, `1 ≤ L ≤ 65535`,
`Encode` returns `[header] ++ count ++ length ++ content` with
`header = (rc << 4) | lc`, which is below 64 (bits 7-6 are zero). -/
theorem C9_record_list_wire_format (d : RecordList) (recs : List Record) (bufs : List Bytes)
    (parent : Bool) (hd : d.record_list = some recs)
    (hc : recs.map Record.Encode = bufs.map Except.ok)
    (hn1 : 1 ≤ recs.length) (hn2 : recs.length ≤ 65535)
    (hL1 : 1 ≤ bufs.flatten.length) (hL2 : bufs.flatten.length ≤ 65535) :
    (d.Encode parent).2 =
      .ok ([(codeOf recs.length <<< 4) ||| codeOf bufs.flatten.length]
        ++ bigEndian (codeOf recs.length) recs.length
        ++ bigEndian (codeOf bufs.flatten.length) bufs.flatten.length
        ++ bufs.flatten, 0xff) ∧
    ((codeOf recs.length <<< 4) ||| codeOf bufs.flatten.length) >>> 6 = 0 := by
  constructor
  · unfold RecordList.Encode
    rw [hd]
    simp only [encodeSize_eq 4 recs.length hn1 hn2, recordLoop_of_map recs bufs hc,
      encodeContent_eq _ _ _ hL1 hL2]
  · unfold codeOf
    split <;> split <;> decide

/-- C9 for a list of one record whose encoding is the 5 bytes
`[0x40, 0x03, 'a', 'b', 'c']`: the result starts with `0x11, 0x01, 0x05`. -/
theorem C9_record_list_wire_format_witness :
    (NewRecordList.Append ⟨.ok [0x40, 0x03, 0x61, 0x62, 0x63]⟩).record_list
      = some [⟨.ok [0x40, 0x03, 0x61, 0x62, 0x63]⟩] ∧
    ((NewRecordList.Append ⟨.ok [0x40, 0x03, 0x61, 0x62, 0x63]⟩).Encode false).2
      = .ok ([0x11, 0x01, 0x05, 0x40, 0x03, 0x61, 0x62, 0x63], 0xff) :=
  ⟨rfl,
    (C9_record_list_wire_format (NewRecordList.Append ⟨.ok [0x40, 0x03, 0x61, 0x62, 0x63]⟩)
      [⟨.ok [0x40, 0x03, 0x61, 0x62, 0x63]⟩] [[0x40, 0x03, 0x61, 0x62, 0x63]] false rfl rfl
      (by decide) (by decide) (by decide) (by decide)).1⟩

/-- C10: a buffer whose first byte has both the array-count code (bits
7-6) and the record-count code (bits 5-4) non-zero is rejected by
`NewStandardMappedData` with an error, whatever follows the first byte. -/
theorem C10_conflicting_variant_rejected (b0 : Nat) (rest : Bytes)
    (ha : (b0 >>> 6) &&& 0x03 ≠ 0) (hr : (b0 >>> 4) &&& 0x03 ≠ 0) :
    NewStandardMappedData (b0 :: rest) = .error .error := by
  have ha4 : (b0 >>> 6) &&& 0x03 < 4 := by rw [and3_eq_mod]; omega
  have hr4 : (b0 >>> 4) &&& 0x03 < 4 := by rw [and3_eq_mod]; omega
  have hdec : ((StandardMappedData.mk false (b0 :: rest) none none 0 []).Decode 0xff).2
      = .error .error := by
    unfold StandardMappedData.Decode
    simp only [StandardMappedData.buf]
    rw [if_neg (by decide)]
    rcases dataArrayBits_nonzero (StandardMappedData.mk false (b0 :: rest) none none 0 []) b0 1 ha
      with h | ⟨d1, pos1, h⟩
    · rw [h]
    · rw [h]
      simp only [recordListBits_conflict d1 b0 pos1 hr]
  unfold NewStandardMappedData
  rw [if_neg (by simp)]
  rcases hd : (StandardMappedData.mk false (b0 :: rest) none none 0 []).Decode 0xff with ⟨d1, r⟩
  rw [hd] at hdec
  simp only at hdec
  subst hdec
  rfl

/-- C10 at the header 0x50 (array-count code 1, record-count code 1)
followed by well-formed count, length and content bytes. -/
theorem C10_conflicting_variant_rejected_witness :
    (0x50 >>> 6) &&& 0x03 ≠ 0 ∧ (0x50 >>> 4) &&& 0x03 ≠ 0 ∧
    NewStandardMappedData (0x50 :: [0x01, 0x01, 0x00]) = .error .error :=
  ⟨by decide, by decide,
    C10_conflicting_variant_rejected 0x50 [0x01, 0x01, 0x00] (by decide) (by decide)⟩

/-- C11: a buffer whose first byte has the lookup bit (bit 3) or the
compression bit (bit 2) set, or the value 3 in one of the three 2-bit fields
(bits 7-6, 5-4, 1-0), is rejected by `NewStandardMappedData` with an error. -/
theorem C11_reserved_header_rejected (b0 : Nat) (rest : Bytes)
    (h : (b0 >>> 3) &&& 0x01 = 1 ∨ (b0 >>> 2) &&& 0x01 = 1 ∨ (b0 >>> 6) &&& 0x03 = 3 ∨
      (b0 >>> 4) &&& 0x03 = 3 ∨ b0 &&& 0x03 = 3) :
    NewStandardMappedData (b0 :: rest) = .error .error := by
  rw [NewStandardMappedData_cons]
  cases h1 : StandardMappedData.Decode.dataArrayBits
      (StandardMappedData.mk false (b0 :: rest) none none 0 []) b0 1 with
  | error e => rw [dataArrayBits_error _ _ _ _ h1]
  | ok x =>
    obtain ⟨d1, fmt, pos1⟩ := x
    simp only
    cases h2 : StandardMappedData.Decode.recordListBits d1 b0 fmt pos1 with
    | error e => rw [recordListBits_error _ _ _ _ _ h2]
    | ok y =>
      obtain ⟨d2, pos2⟩ := y
      simp only
      by_cases hlk : (b0 >>> 3) &&& 0x01 = 1
      · rw [if_pos hlk]
      · rw [if_neg hlk]
        by_cases hcp : (b0 >>> 2) &&& 0x01 = 1
        · rw [if_pos hcp]
        · rw [if_neg hcp]
          rcases h with h | h | h | h | h
          · exact absurd h hlk
          · exact absurd h hcp
          · rw [dataArrayBits_three _ _ _ h] at h1
            cases h1
          · rw [recordListBits_three _ _ _ _ h] at h2
            cases h2
          · rw [lengthBits_three _ _ _ h]

/-- C11 at the headers 0x08 (lookup), 0x04 (compression), 0xc0, 0x30 and
0x03 (code 3 in each 2-bit field), each followed by more bytes. -/
theorem C11_reserved_header_rejected_witness :
    NewStandardMappedData (0x08 :: [0x00]) = .error .error ∧
    NewStandardMappedData (0x04 :: [0x00]) = .error .error ∧
    NewStandardMappedData (0xc0 :: [0x00, 0x00, 0x00]) = .error .error ∧
    NewStandardMappedData (0x30 :: [0x00, 0x00, 0x00]) = .error .error ∧
    NewStandardMappedData (0x03 :: [0x00, 0x00, 0x00]) = .error .error :=
  ⟨C11_reserved_header_rejected 0x08 [0x00] (Or.inl (by decide)),
   C11_reserved_header_rejected 0x04 [0x00] (Or.inr (Or.inl (by decide))),
   C11_reserved_header_rejected 0xc0 [0x00, 0x00, 0x00] (Or.inr (Or.inr (Or.inl (by decide)))),
   C11_reserved_header_rejected 0x30 [0x00, 0x00, 0x00]
     (Or.inr (Or.inr (Or.inr (Or.inl (by decide))))),
   C11_reserved_header_rejected 0x03 [0x00, 0x00, 0x00]
     (Or.inr (Or.inr (Or.inr (Or.inr (by decide)))))⟩

/-- C16: for every mapped value and every parent byte whose low two bits
are not 0x03, `Decode(parent)` returns an error and leaves the receiver
(`buf`, `content`, `size`, cache, `decoded` flag) as it was. -/
theorem C16_parent_context_check (d : StandardMappedData) (parent : Nat)
    (h : parent &&& 0x03 ≠ 0x03) :
    d.Decode parent = (d, .error .error) := by
  unfold StandardMappedData.Decode
  rw [if_pos h]

/-- C16 on the decoded view of `[0x01, 0x01, 0x61]` with the parent bytes
0x00, 0x01 and 0x02. -/
theorem C16_parent_context_check_witness :
    (0x01 : Nat) &&& 0x03 ≠ 0x03 ∧
    (StandardMappedData.mk true [0x01, 0x01, 0x61] none none 0 [0x61]).Decode 0x01
      = (StandardMappedData.mk true [0x01, 0x01, 0x61] none none 0 [0x61], .error .error) :=
  ⟨by decide, C16_parent_context_check _ 0x01 (by decide)⟩

/-- C19: on every data array and record list whose slice is not nil, after
a successful `Encode` `IsEncoded()` is true and `Buf()` is the buffer that
`Encode` returned; on a nil slice (the zero value `&DataArray{}` or
`&RecordList{}`) `Encode` returns no bytes and no error and leaves the value
as it was, so that `IsEncoded()` is false and `Buf()` panics. `Append` always
returns, with the child added and `IsEncoded()` false; `DeleteAt(idx)`
returns for every `idx` below `uint16(len)`, with that child removed and
`IsEncoded()` false, and panics for every other `idx`. -/
theorem C19_encode_cache_state_machine (encoded : Bool) (buf : Bytes)
    (da : Option (List IData)) (d : RecordList) (parent : Bool) :
    (∀ v1 out code, da ≠ none →
      (IData.dataArray encoded buf da).Encode parent = (v1, .ok (out, code)) →
        v1.IsEncoded = true ∧ v1.Buf = .ok out) ∧
    ((IData.dataArray false buf none).Encode parent
        = (.dataArray false buf none, .ok ([], 0x00)) ∧
      ((IData.dataArray false buf none).Encode parent).1.IsEncoded = false ∧
      ((IData.dataArray false buf none).Encode parent).1.Buf = .error .panic) ∧
    (∀ c, (IData.dataArray encoded buf da).Append c
        = .dataArray false buf (some (da.getD [] ++ [c])) ∧
      ((IData.dataArray encoded buf da).Append c).IsEncoded = false) ∧
    (∀ idx, idx < (da.getD []).length % 65536 →
      (IData.dataArray encoded buf da).DeleteAt idx
        = .ok (.dataArray false buf (some ((da.getD []).eraseIdx idx)))) ∧
    (∀ idx, (da.getD []).length % 65536 ≤ idx →
      (IData.dataArray encoded buf da).DeleteAt idx = .error .panic) ∧
    (∀ idx v1, (IData.dataArray encoded buf da).DeleteAt idx = .ok v1 → v1.IsEncoded = false) ∧
    (∀ d1 out code, d.record_list ≠ none → d.Encode parent = (d1, .ok (out, code)) →
      d1.encoded = true ∧ d1.Buf = .ok out) ∧
    ((RecordList.mk false buf none).Encode parent
        = (RecordList.mk false buf none, .ok ([], 0x00)) ∧
      ((RecordList.mk false buf none).Encode parent).1.encoded = false ∧
      ((RecordList.mk false buf none).Encode parent).1.Buf = .error .panic) ∧
    (∀ r, (d.Append r).record_list = some (d.record_list.getD [] ++ [r]) ∧
      (d.Append r).encoded = false) ∧
    (∀ idx, idx < (d.record_list.getD []).length % 65536 →
      d.DeleteAt idx = .ok { d with record_list := some ((d.record_list.getD []).eraseIdx idx),
                                    encoded := false }) ∧
    (∀ idx, (d.record_list.getD []).length % 65536 ≤ idx → d.DeleteAt idx = .error .panic) ∧
    (∀ idx d1, d.DeleteAt idx = .ok d1 → d1.encoded = false) := by
  refine ⟨?_, ⟨?_, ?_, ?_⟩, ?_, ?_, ?_, ?_, ?_, ⟨rfl, rfl, rfl⟩, ?_, ?_, ?_, ?_⟩
  · intro v1 out code hda h
    cases da with
    | none => exact absurd rfl hda
    | some arr =>
      rw [IData.Encode] at h
      rcases DataArray_Encode_cases encoded buf arr parent with
        ⟨e1, arr1, hk, -⟩ | ⟨buf1, arr1, content, buf2, -, -, -, -, -, hk⟩
      · rw [hk] at h
        cases h
      · rw [hk] at h
        simp only [Prod.mk.injEq, Except.ok.injEq] at h
        obtain ⟨rfl, rfl, -⟩ := h
        exact ⟨rfl, rfl⟩
  · rw [IData.Encode, DataArray.Encode]
  · rw [IData.Encode, DataArray.Encode]
    rfl
  · rw [IData.Encode, DataArray.Encode]
    rfl
  · intro c
    exact ⟨rfl, rfl⟩
  · intro idx h
    rw [IData.DeleteAt, if_neg (by omega)]
  · intro idx h
    rw [IData.DeleteAt, if_pos h]
  · intro idx v1 h
    simp only [IData.DeleteAt] at h
    split_ifs at h
    injection h with h
    subst h
    rfl
  · intro d1 out code hd h
    cases hr : d.record_list with
    | none => exact absurd hr hd
    | some recs =>
      unfold RecordList.Encode at h
      rw [hr] at h
      simp only at h
      cases h1 : encodeSize 4 recs.length with
      | error e => rw [h1] at h; simp at h
      | ok buf1 =>
        rw [h1] at h
        simp only at h
        cases hl : RecordList.Encode.loop recs with
        | error e => rw [hl] at h; simp at h
        | ok content =>
          rw [hl] at h
          simp only at h
          cases h2 : encodeContent buf1 content with
          | error e => rw [h2] at h; simp at h
          | ok buf2 =>
            rw [h2] at h
            simp only [Prod.mk.injEq, Except.ok.injEq] at h
            obtain ⟨rfl, rfl, -⟩ := h
            exact ⟨rfl, rfl⟩
  · intro r
    exact ⟨rfl, rfl⟩
  · intro idx h
    rw [RecordList.DeleteAt, if_neg (by omega)]
  · intro idx h
    rw [RecordList.DeleteAt, if_pos h]
  · intro idx d1 h
    unfold RecordList.DeleteAt at h
    split_ifs at h
    injection h with h
    subst h
    rfl

/-- C19 on the data array holding the primitive "abc": encoded after
`Encode`, with `Buf()` the returned buffer; not encoded any more after an
`Append` and after `DeleteAt(0)` on the encoded array, `DeleteAt(1)`
panicking; and on the zero value, whose `Encode` succeeds and leaves it not
encoded. The same for the record list holding one record. -/
theorem C19_encode_cache_state_machine_witness :
    (((IData.dataArray false [] (some [IData.primitive (NewPrimitive (some [0x61, 0x62, 0x63]))])).Encode
      false).1).IsEncoded = true ∧
    (((IData.dataArray false [] (some [IData.primitive (NewPrimitive (some [0x61, 0x62, 0x63]))])).Encode
      false).1).Buf = .ok [0x41, 0x01, 0x05, 0x01, 0x03, 0x61, 0x62, 0x63] ∧
    ((IData.dataArray true [0x41, 0x01, 0x05, 0x01, 0x03, 0x61, 0x62, 0x63]
      (some [IData.primitive (NewPrimitive (some [0x61, 0x62, 0x63]))])).Append
      (IData.primitive (NewPrimitive none))).IsEncoded = false ∧
    (IData.dataArray true [0x41, 0x01, 0x05, 0x01, 0x03, 0x61, 0x62, 0x63]
      (some [IData.primitive (NewPrimitive (some [0x61, 0x62, 0x63]))])).DeleteAt 0
      = .ok (.dataArray false [0x41, 0x01, 0x05, 0x01, 0x03, 0x61, 0x62, 0x63] (some [])) ∧
    (IData.dataArray true [0x41, 0x01, 0x05, 0x01, 0x03, 0x61, 0x62, 0x63]
      (some [IData.primitive (NewPrimitive (some [0x61, 0x62, 0x63]))])).DeleteAt 1
      = .error .panic ∧
    ((IData.dataArray false [] none).Encode false).2 = .ok ([], 0x00) ∧
    ((IData.dataArray false [] none).Encode false).1.IsEncoded = false ∧
    ((IData.dataArray false [] none).Encode false).1.Buf = .error .panic ∧
    (((NewRecordList.Append ⟨.ok [0x40, 0x03, 0x61, 0x62, 0x63]⟩).Encode false).1).encoded = true ∧
    (((NewRecordList.Append ⟨.ok [0x40, 0x03, 0x61, 0x62, 0x63]⟩).Encode false).1).Buf
      = .ok [0x11, 0x01, 0x05, 0x40, 0x03, 0x61, 0x62, 0x63] ∧
    (((RecordList.mk true [0x11, 0x01, 0x05, 0x40, 0x03, 0x61, 0x62, 0x63]
      (some [⟨.ok [0x40, 0x03, 0x61, 0x62, 0x63]⟩])).DeleteAt 0).map
        (fun d1 => (d1.encoded, (d1.record_list.getD []).length))) = .ok (false, 0) ∧
    ((RecordList.mk false [] none).Encode false).1.Buf = .error .panic :=
  ⟨((C19_encode_cache_state_machine false [] (some [IData.primitive (NewPrimitive (some [0x61, 0x62, 0x63]))])
      NewRecordList false).1 _ [0x41, 0x01, 0x05, 0x01, 0x03, 0x61, 0x62, 0x63] 0xff
      (fun h => by cases h) rfl).1,
    ((C19_encode_cache_state_machine false [] (some [IData.primitive (NewPrimitive (some [0x61, 0x62, 0x63]))])
      NewRecordList false).1 _ [0x41, 0x01, 0x05, 0x01, 0x03, 0x61, 0x62, 0x63] 0xff
      (fun h => by cases h) rfl).2,
    ((C19_encode_cache_state_machine true [0x41, 0x01, 0x05, 0x01, 0x03, 0x61, 0x62, 0x63]
      (some [IData.primitive (NewPrimitive (some [0x61, 0x62, 0x63]))])
      NewRecordList false).2.2.1 (IData.primitive (NewPrimitive none))).2,
    (C19_encode_cache_state_machine true [0x41, 0x01, 0x05, 0x01, 0x03, 0x61, 0x62, 0x63]
      (some [IData.primitive (NewPrimitive (some [0x61, 0x62, 0x63]))])
      NewRecordList false).2.2.2.1 0 (by decide),
    (C19_encode_cache_state_machine true [0x41, 0x01, 0x05, 0x01, 0x03, 0x61, 0x62, 0x63]
      (some [IData.primitive (NewPrimitive (some [0x61, 0x62, 0x63]))])
      NewRecordList false).2.2.2.2.1 1 (by decide),
    congrArg Prod.snd (C19_encode_cache_state_machine false [] none NewRecordList false).2.1.1,
    (C19_encode_cache_state_machine false [] none NewRecordList false).2.1.2.1,
    (C19_encode_cache_state_machine false [] none NewRecordList false).2.1.2.2,
    ((C19_encode_cache_state_machine false [] none (NewRecordList.Append ⟨.ok [0x40, 0x03, 0x61, 0x62, 0x63]⟩)
      false).2.2.2.2.2.2.1 _ [0x11, 0x01, 0x05, 0x40, 0x03, 0x61, 0x62, 0x63] 0xff
      (fun h => by cases h) rfl).1,
    ((C19_encode_cache_state_machine false [] none (NewRecordList.Append ⟨.ok [0x40, 0x03, 0x61, 0x62, 0x63]⟩)
      false).2.2.2.2.2.2.1 _ [0x11, 0x01, 0x05, 0x40, 0x03, 0x61, 0x62, 0x63] 0xff
      (fun h => by cases h) rfl).2,
    (by
      rw [(C19_encode_cache_state_machine false [] none (RecordList.mk true [0x11, 0x01, 0x05, 0x40, 0x03, 0x61, 0x62, 0x63]
        (some [⟨.ok [0x40, 0x03, 0x61, 0x62, 0x63]⟩])) false).2.2.2.2.2.2.2.2.2.1 0 (by decide)]
      rfl),
    (C19_encode_cache_state_machine false [] none NewRecordList false).2.2.2.2.2.2.2.1.2.2⟩

/-- C20: `DataAt(i)` returns an error on a data array and on a decoded
mapped array when `i >= Size()`; `DataAt` and `RecordAt` return an error on
a primitive, on a simple mapped value and on a decoded mapped primitive; and
`DataAt(i)` on a constructed data array with `i < Size()` returns the `i`-th
child. -/
theorem C20_child_access_fallible (encoded : Bool) (buf : Bytes) (da : Option (List IData))
    (m : StandardMappedData) (p : Primitive) (s : SimpleMappedData) (ops : RecordOps)
    (i n : Nat) :
    (IData.Size (.dataArray encoded buf da) = .ok n → i ≥ n →
      DataArray.DataAt da i = .error .error) ∧
    (m.IsDataArray = .ok true → m.Size = .ok n → i ≥ n → m.DataAt i = (m, .error .error)) ∧
    (p.DataAt i = .error .error ∧ p.RecordAt i = .error .error) ∧
    (s.DataAt i = .error .error ∧ s.RecordAt i = .error .error) ∧
    (m.IsPrimitive = .ok true →
      m.DataAt i = (m, .error .error) ∧ m.RecordAt ops i = (m, .error .error)) ∧
    (IData.Size (.dataArray encoded buf da) = .ok n → i < n →
      ∃ c, (da.getD [])[i]? = some c ∧ DataArray.DataAt da i = .ok c) := by
  refine ⟨?_, ?_, ⟨rfl, rfl⟩, ⟨rfl, rfl⟩, ?_, ?_⟩
  · intro hs hi
    simp only [IData.Size, Except.ok.injEq] at hs
    unfold DataArray.DataAt
    rw [if_pos (by omega)]
  · intro ha hs hi
    cases m with
    | mk dec b arr rl sz ct =>
      unfold StandardMappedData.IsDataArray at ha
      unfold StandardMappedData.Size at hs
      simp only [StandardMappedData.decoded, StandardMappedData.data_array,
        StandardMappedData.size] at ha hs
      cases dec with
      | false => simp at ha
      | true =>
        simp only [Bool.not_true, Bool.false_eq_true, if_false, Except.ok.injEq] at ha hs
        cases arr with
        | none => simp at ha
        | some a =>
          subst hs
          unfold StandardMappedData.DataAt
          simp only [StandardMappedData.decoded, StandardMappedData.data_array,
            StandardMappedData.size, Bool.not_true, Bool.false_eq_true, if_false]
          rw [if_pos hi]
  · intro hp
    cases m with
    | mk dec b arr rl sz ct =>
      unfold StandardMappedData.IsPrimitive at hp
      simp only [StandardMappedData.decoded, StandardMappedData.data_array,
        StandardMappedData.record_list] at hp
      cases dec with
      | false => simp at hp
      | true =>
        simp only [Bool.not_true, Bool.false_eq_true, if_false, Except.ok.injEq,
          Bool.and_eq_true, Option.isNone_iff_eq_none] at hp
        obtain ⟨rfl, rfl⟩ := hp
        exact ⟨rfl, rfl⟩
  · intro hs hi
    simp only [IData.Size, Except.ok.injEq] at hs
    have hlen : i < (da.getD []).length := by
      have := Nat.mod_le (da.getD []).length 65536
      omega
    refine ⟨(da.getD [])[i], by simp [hlen], ?_⟩
    unfold DataArray.DataAt
    rw [if_neg (by omega), List.get?_eq_getElem?, List.getElem?_eq_getElem hlen]

/-- C20 on the data array holding the primitive "abc": `DataAt(0)` returns
that child, `DataAt(1)` returns an error. -/
theorem C20_child_access_fallible_witness :
    DataArray.DataAt (some [IData.primitive (NewPrimitive (some [0x61, 0x62, 0x63]))]) 1
      = .error .error ∧
    ∃ c, [IData.primitive (NewPrimitive (some [0x61, 0x62, 0x63]))][0]? = some c ∧
      DataArray.DataAt (some [IData.primitive (NewPrimitive (some [0x61, 0x62, 0x63]))]) 0
        = .ok c :=
  ⟨(C20_child_access_fallible false []
      (some [IData.primitive (NewPrimitive (some [0x61, 0x62, 0x63]))])
      (StandardMappedData.mk true [0x00] none none 0 []) (NewPrimitive none)
      ⟨true, 0, [], []⟩ ⟨fun _ => .error .error, fun _ => .error .error, fun _ => .error .error⟩
      1 1).1 rfl (by decide),
   (C20_child_access_fallible false []
      (some [IData.primitive (NewPrimitive (some [0x61, 0x62, 0x63]))])
      (StandardMappedData.mk true [0x00] none none 0 []) (NewPrimitive none)
      ⟨true, 0, [], []⟩ ⟨fun _ => .error .error, fun _ => .error .error, fun _ => .error .error⟩
      0 1).2.2.2.2.2 rfl (by decide)⟩

/-- C13: when `NewStandardMappedData` succeeds on a buffer `b` of bytes,
`Buf()` is the prefix of `b` of length 1 + count bytes + length bytes +
declared content length, the content region is the last declared-length
bytes of that prefix, and whatever follows the prefix has no influence:
decoding the prefix followed by any bytes gives the same view. -/
theorem C13_exact_consumption (b : Bytes) (m : StandardMappedData)
    (hb : ∀ x ∈ b, x < 256) (h : NewStandardMappedData b = .ok m) :
    consumedLength b ≤ b.length ∧
    m.Buf = b.take (consumedLength b) ∧
    m.content = (b.take (consumedLength b)).drop (consumedLength b - declaredContentLength b) ∧
    m.content.length = declaredContentLength b ∧
    ∀ t, NewStandardMappedData (b.take (consumedLength b) ++ t) = .ok m :=
  decode_consumes b m hb h

/-- C13 on the buffer `[0x01, 0x03, 'a', 'b', 'c']` followed by two more
bytes: the view spans the first five bytes, with content "abc". -/
theorem C13_exact_consumption_witness :
    (∀ x ∈ [0x01, 0x03, 0x61, 0x62, 0x63, 0x07, 0x08], x < 256) ∧
    NewStandardMappedData [0x01, 0x03, 0x61, 0x62, 0x63, 0x07, 0x08]
      = .ok (StandardMappedData.mk true [0x01, 0x03, 0x61, 0x62, 0x63] none none 0
          [0x61, 0x62, 0x63]) ∧
    consumedLength [0x01, 0x03, 0x61, 0x62, 0x63, 0x07, 0x08] = 5 ∧
    (StandardMappedData.mk true [0x01, 0x03, 0x61, 0x62, 0x63] none none 0 [0x61, 0x62, 0x63]).Buf
      = [0x01, 0x03, 0x61, 0x62, 0x63, 0x07, 0x08].take
          (consumedLength [0x01, 0x03, 0x61, 0x62, 0x63, 0x07, 0x08]) :=
  ⟨by decide, rfl, rfl,
    (C13_exact_consumption [0x01, 0x03, 0x61, 0x62, 0x63, 0x07, 0x08]
      (StandardMappedData.mk true [0x01, 0x03, 0x61, 0x62, 0x63] none none 0 [0x61, 0x62, 0x63])
      (by decide) rfl).2.1⟩

/-- C12: a proper prefix of a buffer of bytes that `NewStandardMappedData`
decodes consuming it whole is rejected with an error; and so is every
buffer whose header announces more bytes (count field, length field and
content) than the buffer holds. -/
theorem C12_truncated_input_rejected (B : Bytes) (m : StandardMappedData) (k : Nat)
    (hb : ∀ x ∈ B, x < 256) (h : NewStandardMappedData B = .ok m) (hwhole : m.Buf = B)
    (hk : k < B.length) :
    NewStandardMappedData (B.take k) = .error .error ∧
    ∀ b : Bytes, b.length < consumedLength b → NewStandardMappedData b = .error .error := by
  have hgen : ∀ b : Bytes, b.length < consumedLength b →
      NewStandardMappedData b = .error .error := by
    intro b hlt
    by_contra hne
    have := (consumed_le_of_not_error b hne).2
    omega
  refine ⟨?_, hgen⟩
  by_contra hne
  obtain ⟨hhead, hcons⟩ := consumed_le_of_not_error (B.take k) hne
  have hlen : (B.take k).length = k := by simp; omega
  rw [hlen] at hhead hcons
  rw [consumedLength_take B k hhead] at hcons
  obtain ⟨-, hbuf, -⟩ := decode_consumes B m hb h
  rw [hwhole] at hbuf
  have : B.length = (B.take (consumedLength B)).length := by rw [← hbuf]
  simp at this
  omega

/-- C12 on the buffer `[0x01, 0x03, 'a', 'b', 'c']` cut after three bytes,
inside the content. -/
theorem C12_truncated_input_rejected_witness :
    (∀ x ∈ [0x01, 0x03, 0x61, 0x62, 0x63], x < 256) ∧
    NewStandardMappedData [0x01, 0x03, 0x61, 0x62, 0x63]
      = .ok (StandardMappedData.mk true [0x01, 0x03, 0x61, 0x62, 0x63] none none 0
          [0x61, 0x62, 0x63]) ∧
    3 < [0x01, 0x03, 0x61, 0x62, 0x63].length ∧
    NewStandardMappedData ([0x01, 0x03, 0x61, 0x62, 0x63].take 3) = .error .error :=
  ⟨by decide, rfl, by decide,
    (C12_truncated_input_rejected [0x01, 0x03, 0x61, 0x62, 0x63]
      (StandardMappedData.mk true [0x01, 0x03, 0x61, 0x62, 0x63] none none 0 [0x61, 0x62, 0x63])
      3 (by decide) rfl rfl (by decide)).1⟩

/-- C14: on a decoded mapped value `d`, when `DataAt(k)` succeeds then
`k < Size()`, every cache slot `j ≤ k` is filled afterwards (it is no longer
the nil interface), every slot `j > k` is as it was, `Buf()`, the content
and `Size()` are unchanged, and the value returned is what slot `k` holds
afterwards; if slot `k` was filled before the call, the receiver is
unchanged and the value returned is the one that was cached. -/
theorem C14_lazy_materialization (d d1 : StandardMappedData) (k : Nat)
    (s : Slot StandardMappedData) (hd : Decoded d) (h : d.DataAt k = (d1, .ok s)) :
    k < d.size ∧
    (∀ j, j ≤ k → ∃ s1, d1.slot j = some s1 ∧ s1.isFilled = true) ∧
    (∀ j, k < j → d1.slot j = d.slot j) ∧
    d1.Buf = d.Buf ∧ d1.content = d.content ∧ d1.Size = d.Size ∧
    d1.slot k = some s ∧
    (∀ s0, d.slot k = some s0 → s0.isFilled = true → d1 = d ∧ s = s0) := by
  obtain ⟨b0, cnt, lenb, content, ac, rc, lc, n, arrs, recs, -, rfl, h1, h2, -, -⟩ :=
    inv_of_decoded d hd
  unfold StandardMappedData.DataAt at h
  simp only [StandardMappedData.decoded, StandardMappedData.data_array, StandardMappedData.size,
    StandardMappedData.content, StandardMappedData.buf, StandardMappedData.record_list,
    Bool.not_true, Bool.false_eq_true, if_false] at h
  cases arrs with
  | none => cases h
  | some arr =>
    have hac : ac ≠ 0 := fun h0 => Option.noConfusion (h1 h0)
    obtain ⟨arrZ, harr, hlen, hdc⟩ := h2 hac
    cases harr
    simp only at h
    by_cases hi : k ≥ n
    · rw [if_pos hi] at h; cases h
    · rw [if_neg hi, List.get?_eq_getElem?] at h
      have hcached : ∀ s0 : Slot StandardMappedData, arr[k]? = some s0 → s0.isFilled = true →
          (StandardMappedData.mk true (b0 :: (cnt ++ (lenb ++ content))) (some arr) recs n content,
            (Except.ok s0 : Except Failure (Slot StandardMappedData))) = (d1, .ok s) →
          k < n ∧
          (∀ j, j ≤ k → ∃ s1, d1.slot j = some s1 ∧ s1.isFilled = true) ∧
          (∀ j, k < j → d1.slot j = (StandardMappedData.mk true (b0 :: (cnt ++ (lenb ++ content)))
              (some arr) recs n content).slot j) ∧
          d1.Buf = (StandardMappedData.mk true (b0 :: (cnt ++ (lenb ++ content)))
              (some arr) recs n content).Buf ∧
          d1.content = content ∧
          d1.Size = (StandardMappedData.mk true (b0 :: (cnt ++ (lenb ++ content)))
              (some arr) recs n content).Size ∧
          d1.slot k = some s ∧
          (∀ s2, (StandardMappedData.mk true (b0 :: (cnt ++ (lenb ++ content)))
              (some arr) recs n content).slot k = some s2 → s2.isFilled = true →
            d1 = StandardMappedData.mk true (b0 :: (cnt ++ (lenb ++ content)))
              (some arr) recs n content ∧ s = s2) := by
        intro s0 hs0 hf he
        obtain ⟨rfl, he2⟩ := Prod.mk.inj he
        have he3 : s0 = s := Except.ok.inj he2
        subst he3
        refine ⟨by omega, ?_, fun j _ => rfl, rfl, rfl, rfl, ?_, ?_⟩
        · intro j hj
          obtain ⟨s1, hs1, hf1⟩ := hdc j k s0 hj hs0 hf
          exact ⟨s1, by simp only [StandardMappedData.slot, StandardMappedData.data_array,
            List.get?_eq_getElem?]; exact hs1, hf1⟩
        · simp only [StandardMappedData.slot, StandardMappedData.data_array,
            List.get?_eq_getElem?]; exact hs0
        · intro s2 hs2 _
          simp only [StandardMappedData.slot, StandardMappedData.data_array,
            List.get?_eq_getElem?] at hs2
          rw [hs0] at hs2
          exact ⟨rfl, Option.some.inj hs2⟩
      cases hk : arr[k]? with
      | none => rw [hk] at h; cases h
      | some s0 =>
        rw [hk] at h
        cases s0 with
        | ptr c => exact hcached (Slot.ptr c) hk rfl h
        | nilPtr => exact hcached Slot.nilPtr hk rfl h
        | empty =>
          simp only at h
          have hp := DataAt_loop_props content (k + 1) 0 0 arr hdc
            (fun j hj => absurd hj (Nat.not_lt_zero j))
          rcases hl : StandardMappedData.DataAt.loop content (k + 1) 0 0 arr with ⟨arr1, r⟩
          rw [hl] at hp h
          obtain ⟨-, -, hout, hin⟩ := hp
          cases r with
          | error e => cases h
          | ok u =>
            simp only at h hin hout
            rw [List.get?_eq_getElem?] at h
            cases hk1 : arr1[k]? with
            | none => rw [hk1] at h; cases h
            | some s1 =>
              rw [hk1] at h
              simp only at h
              obtain ⟨rfl, he2⟩ := Prod.mk.inj h
              have he3 : s1 = s := Except.ok.inj he2
              subst he3
              refine ⟨Nat.lt_of_not_ge hi, ?_, ?_, rfl, rfl, rfl, ?_, ?_⟩
              · intro j hj
                obtain ⟨c, hc⟩ := hin trivial j (Nat.zero_le j) (by omega)
                exact ⟨Slot.ptr c, by simp only [StandardMappedData.slot,
                  StandardMappedData.data_array, List.get?_eq_getElem?]; exact hc, rfl⟩
              · intro j hj
                simp only [StandardMappedData.slot, StandardMappedData.data_array,
                  List.get?_eq_getElem?]
                exact hout j (Or.inr (by omega))
              · simp only [StandardMappedData.slot, StandardMappedData.data_array,
                  List.get?_eq_getElem?]; exact hk1
              · intro s2 hs2 hf2
                simp only [StandardMappedData.slot, StandardMappedData.data_array,
                  List.get?_eq_getElem?] at hs2
                rw [hk] at hs2
                cases Option.some.inj hs2
                cases hf2

/-- C14 on the mapped array of the two primitives "a" and "b": `DataAt(0)`
fills slot 0 and leaves slot 1 empty. -/
theorem C14_lazy_materialization_witness :
    Decoded (StandardMappedData.mk true [0x41, 2, 6, 1, 1, 0x61, 1, 1, 0x62]
      (some [Slot.empty, Slot.empty]) none 2 [1, 1, 0x61, 1, 1, 0x62]) ∧
    (StandardMappedData.mk true [0x41, 2, 6, 1, 1, 0x61, 1, 1, 0x62]
      (some [Slot.empty, Slot.empty]) none 2 [1, 1, 0x61, 1, 1, 0x62]).DataAt 0
      = (StandardMappedData.mk true [0x41, 2, 6, 1, 1, 0x61, 1, 1, 0x62]
          (some [Slot.ptr (StandardMappedData.mk true [1, 1, 0x61] none none 0 [0x61]), Slot.empty])
          none 2 [1, 1, 0x61, 1, 1, 0x62],
        .ok (Slot.ptr (StandardMappedData.mk true [1, 1, 0x61] none none 0 [0x61]))) ∧
    (StandardMappedData.mk true [0x41, 2, 6, 1, 1, 0x61, 1, 1, 0x62]
        (some [Slot.ptr (StandardMappedData.mk true [1, 1, 0x61] none none 0 [0x61]), Slot.empty])
        none 2 [1, 1, 0x61, 1, 1, 0x62]).slot 1
      = (StandardMappedData.mk true [0x41, 2, 6, 1, 1, 0x61, 1, 1, 0x62]
        (some [Slot.empty, Slot.empty]) none 2 [1, 1, 0x61, 1, 1, 0x62]).slot 1 :=
  ⟨Decoded.new [0x41, 2, 6, 1, 1, 0x61, 1, 1, 0x62] _ (by decide) rfl, rfl,
    (C14_lazy_materialization _ _ 0 _
      (Decoded.new [0x41, 2, 6, 1, 1, 0x61, 1, 1, 0x62] _ (by decide) rfl) rfl).2.2.1 1
      (by decide)⟩

/-- C18: `Copy` of a decoded mapped value does not panic: decoding the
duplicate of its buffer succeeds, and the copy is the value with an empty
cache, so that `Buf()`, `Size()`, the variant and `Data()` are those of the
source. And `Copy` of a view that `NewSimpleMappedData` returned on a
buffer of bytes returns a view equal to it. -/
theorem C18_copy_never_fails (d : StandardMappedData) (hd : Decoded d) :
    (∃ c, d.Copy = .ok c ∧ c = d.emptied ∧ c.Buf = d.Buf ∧ c.Size = d.Size ∧
      c.IsPrimitive = d.IsPrimitive ∧ c.IsDataArray = d.IsDataArray ∧
      c.IsRecordList = d.IsRecordList ∧ c.Data = d.Data) ∧
    ∀ (p : Nat) (b : Bytes) (s : SimpleMappedData) (n : Nat),
      (∀ x ∈ b, x < 256) → NewSimpleMappedData p b = .ok (s, n) → s.Copy = .ok s := by
  constructor
  · refine ⟨d.emptied, ?_, rfl, ?_⟩
    · unfold StandardMappedData.Copy
      rw [redecode_of_decoded d hd]
    · obtain ⟨dec, buf, arrs, recs, sz, ct⟩ := d
      refine ⟨rfl, rfl, ?_, ?_, ?_, ?_⟩
      · cases arrs <;> cases recs <;> rfl
      · cases arrs <;> rfl
      · cases recs <;> rfl
      · cases arrs <;> cases recs <;> rfl
  · intro p b s n hb h
    unfold SimpleMappedData.Copy
    rw [simple_redecode p b s n hb h]

/-- C18 on the mapped array of the primitive "a" after `DataAt(0)`: the copy
is the freshly decoded view. -/
theorem C18_copy_never_fails_witness :
    Decoded ((StandardMappedData.mk true [0x41, 1, 3, 1, 1, 0x61] (some [Slot.empty]) none 1
        [1, 1, 0x61]).DataAt 0).1 ∧
    ∃ c, (((StandardMappedData.mk true [0x41, 1, 3, 1, 1, 0x61] (some [Slot.empty]) none 1
        [1, 1, 0x61]).DataAt 0).1).Copy = .ok c ∧
      c.Buf = [0x41, 1, 3, 1, 1, 0x61] :=
  ⟨Decoded.dataAt _ 0 (Decoded.new [0x41, 1, 3, 1, 1, 0x61] _ (by decide) rfl),
    (C18_copy_never_fails _
      (Decoded.dataAt _ 0 (Decoded.new [0x41, 1, 3, 1, 1, 0x61] _ (by decide) rfl))).1.imp
      fun _ h => ⟨h.1, h.2.2.1⟩⟩

/-- C17, counterexample: the mapped data array with no children (buffer
`[0x40, 0x00]`) is not a primitive, but its `CopyConstruct()` is an empty
`DataArray`, whose `IsPrimitive()` is true. -/
theorem C17_empty_mapped_array_copy_is_primitive :
    NewStandardMappedData [0x40, 0x00]
      = .ok (StandardMappedData.mk true [0x40, 0x00] (some []) none 0 []) ∧
    (IData.standard (StandardMappedData.mk true [0x40, 0x00] (some []) none 0 [])).IsPrimitive
      = .ok false ∧
    (IData.standard (StandardMappedData.mk true [0x40, 0x00] (some []) none 0 [])).CopyConstruct
        ⟨fun _ => .error .error, fun _ => .error .error, fun _ => .error .error⟩ 1
      = some (.ok (IData.dataArray false [] (some []))) ∧
    (IData.dataArray false [] (some [])).IsPrimitive = .ok true :=
  ⟨rfl, rfl, rfl, rfl⟩

/-- C17, amended: when `CopyConstruct` succeeds on a value of any
implementation (a mapped `StandardMappedData` being a decoded one), the
result is constructed at every node and answers `IsDataArray`,
`IsRecordList`, `Size` and `Data` as the source does; it answers
`IsPrimitive` as the source does too, except that the copy of a mapped data
array or record list of size 0 is a primitive. The children of the copy of
a `DataArray` are the copies of its children, in order; the children of the
copy of a mapped data array are the copies of the decoded children that
`DataAt` returns on it, one for each index below `Size()`. On a decoded
mapped value the copy comes to an end, with a value or an error, as soon as
the bound on the nesting depth exceeds the length of the buffer. -/
theorem C17_copy_construct_normalizes (ops : RecordOps) (fuel : Nat) (v r : IData)
    (hv : ∀ d, v = .standard d → Decoded d)
    (h : v.CopyConstruct ops fuel = some (.ok r)) :
    r.isConstructed = true ∧
    r.IsDataArray = v.IsDataArray ∧ r.IsRecordList = v.IsRecordList ∧
    r.Size = v.Size ∧ r.Data = v.Data ∧
    ((∀ d, v = .standard d → d.size ≠ 0 ∨ d.IsPrimitive = .ok true) →
      r.IsPrimitive = v.IsPrimitive) ∧
    (∀ d, v = .standard d → d.size = 0 → r.IsPrimitive = .ok true) ∧
    (∀ e b cs, v = .dataArray e b (some cs) → ∃ rs, r = .dataArray false [] (some rs) ∧
      List.Forall₂ (fun c rc => c.CopyConstruct ops fuel = some (.ok rc)) cs rs) ∧
    (∀ d, v = .standard d → d.IsDataArray = .ok true →
      ∃ rs, r = .dataArray false [] (some rs) ∧ rs.length = d.size ∧
        ∀ j, j < d.size → ∃ dj dj1 cj rj, Decoded dj ∧ dj.emptied = d.emptied ∧
          dj.DataAt j = (dj1, .ok (Slot.ptr cj)) ∧ Decoded cj ∧
          (IData.standard cj).CopyConstruct ops (fuel - 1) = some (.ok rj) ∧
          rs[j]? = some rj) ∧
    (∀ d, v = .standard d → ∀ fuel1, d.Buf.length < fuel1 →
      v.CopyConstruct ops fuel1 ≠ none) := by
  have hcon := idata_constructed ops fuel v r h
  cases v with
  | simple s =>
    rw [IData.CopyConstruct, SimpleMappedData.CopyConstruct] at h
    cases Except.ok.inj (Option.some.inj h)
    exact ⟨rfl, rfl, rfl, rfl, rfl, fun _ => rfl, fun d hd => IData.noConfusion hd,
      fun e b cs hd => IData.noConfusion hd, fun d hd => IData.noConfusion hd,
      fun d hd => IData.noConfusion hd⟩
  | primitive p =>
    rw [IData.CopyConstruct, Primitive.CopyConstruct] at h
    cases Except.ok.inj (Option.some.inj h)
    exact ⟨rfl, rfl, rfl, rfl, rfl, fun _ => rfl, fun d hd => IData.noConfusion hd,
      fun e b cs hd => IData.noConfusion hd, fun d hd => IData.noConfusion hd,
      fun d hd => IData.noConfusion hd⟩
  | recordList l =>
    rw [IData.CopyConstruct, RecordList.CopyConstruct] at h
    obtain ⟨enc, buf, rl⟩ := l
    cases rl with
    | none =>
      cases Except.ok.inj (Option.some.inj h)
      exact ⟨rfl, rfl, rfl, rfl, rfl, fun _ => rfl, fun d hd => IData.noConfusion hd,
        fun e b cs hd => IData.noConfusion hd, fun d hd => IData.noConfusion hd,
        fun d hd => IData.noConfusion hd⟩
    | some recs =>
      simp only at h
      cases hl : RecordList.CopyConstruct.loop ops recs with
      | error e => rw [hl] at h; cases h
      | ok rs =>
        rw [hl] at h
        cases Except.ok.inj (Option.some.inj h)
        have hlen := recordCopyLoop_length ops recs rs hl
        refine ⟨rfl, rfl, rfl, ?_, rfl, fun _ => ?_, fun d hd => IData.noConfusion hd,
          fun e b cs hd => IData.noConfusion hd, fun d hd => IData.noConfusion hd,
          fun d hd => IData.noConfusion hd⟩
        · simp [IData.Size, hlen]
        · simp [IData.IsPrimitive, hlen]
  | dataArray e b o =>
    rw [IData.CopyConstruct] at h
    cases o with
    | none =>
      rw [DataArray.CopyConstruct] at h
      cases Except.ok.inj (Option.some.inj h)
      exact ⟨rfl, rfl, rfl, rfl, rfl, fun _ => rfl, fun d hd => IData.noConfusion hd,
        fun e b cs hd => (by cases hd), fun d hd => IData.noConfusion hd,
        fun d hd => IData.noConfusion hd⟩
    | some cs =>
      rw [DataArray.CopyConstruct] at h
      cases hl : DataArray.CopyConstruct.loop ops fuel cs with
      | none => rw [hl] at h; cases h
      | some o1 =>
        rw [hl] at h
        cases o1 with
        | error e1 => cases h
        | ok rs =>
          cases Except.ok.inj (Option.some.inj h)
          have hf := copyLoop_forall₂ ops fuel cs rs hl
          have hlen : cs.length = rs.length := hf.length_eq
          refine ⟨hcon, rfl, rfl, ?_, rfl, fun _ => ?_, fun d hd => IData.noConfusion hd,
            ?_, fun d hd => IData.noConfusion hd, fun d hd => IData.noConfusion hd⟩
          · simp [IData.Size, hlen]
          · simp [IData.IsPrimitive, hlen]
          · intro e1 b1 cs1 heq
            cases heq
            exact ⟨rs, rfl, hf⟩
  | standard d =>
    have hd := hv d rfl
    rw [IData.CopyConstruct] at h
    cases fuel with
    | zero =>
      rw [StandardMappedData.CopyConstruct] at h
      cases h
    | succ fuel =>
      obtain ⟨h1, h2, h3, h4, h5, h6, h7⟩ := std_copyConstruct_spec ops fuel d r hd h
      refine ⟨hcon, h1, h2, h3, h4, fun hx => h5 (hx d rfl), ?_, fun e b cs hd => IData.noConfusion hd,
        ?_, ?_⟩
      · intro d1 heq
        cases heq
        exact h6
      · intro d1 heq
        cases heq
        exact h7
      · intro d1 heq fuel1 hlt
        cases heq
        rw [IData.CopyConstruct]
        exact copyConstruct_ends ops fuel1 d hd hlt

/-- C17, amended, on the mapped array of the two primitives "a" and "b": its
copy is the constructed array of the two primitives. -/
theorem C17_copy_construct_normalizes_witness :
    (IData.standard (StandardMappedData.mk true [0x41, 2, 6, 1, 1, 0x61, 1, 1, 0x62]
        (some [Slot.empty, Slot.empty]) none 2 [1, 1, 0x61, 1, 1, 0x62])).CopyConstruct
        ⟨fun _ => .error .error, fun _ => .error .error, fun _ => .error .error⟩ 2
      = some (.ok (IData.dataArray false []
          (some [IData.primitive (NewPrimitive (some [0x61])),
            IData.primitive (NewPrimitive (some [0x62]))]))) ∧
    (IData.dataArray false []
        (some [IData.primitive (NewPrimitive (some [0x61])),
          IData.primitive (NewPrimitive (some [0x62]))])).isConstructed = true ∧
    (IData.dataArray false []
        (some [IData.primitive (NewPrimitive (some [0x61])),
          IData.primitive (NewPrimitive (some [0x62]))])).Size
      = (IData.standard (StandardMappedData.mk true [0x41, 2, 6, 1, 1, 0x61, 1, 1, 0x62]
        (some [Slot.empty, Slot.empty]) none 2 [1, 1, 0x61, 1, 1, 0x62])).Size :=
  ⟨rfl,
    (C17_copy_construct_normalizes
      ⟨fun _ => .error .error, fun _ => .error .error, fun _ => .error .error⟩ 2
      (IData.standard (StandardMappedData.mk true [0x41, 2, 6, 1, 1, 0x61, 1, 1, 0x62]
        (some [Slot.empty, Slot.empty]) none 2 [1, 1, 0x61, 1, 1, 0x62])) _
      (fun d hd => by
        cases hd
        exact Decoded.new [0x41, 2, 6, 1, 1, 0x61, 1, 1, 0x62] _ (by decide) rfl)
      rfl).1,
    (C17_copy_construct_normalizes
      ⟨fun _ => .error .error, fun _ => .error .error, fun _ => .error .error⟩ 2
      (IData.standard (StandardMappedData.mk true [0x41, 2, 6, 1, 1, 0x61, 1, 1, 0x62]
        (some [Slot.empty, Slot.empty]) none 2 [1, 1, 0x61, 1, 1, 0x62])) _
      (fun d hd => by
        cases hd
        exact Decoded.new [0x41, 2, 6, 1, 1, 0x61, 1, 1, 0x62] _ (by decide) rfl)
      rfl).2.2.2.1⟩

/-- C21, counterexample: after 65536 values have been appended to a fresh
`DataArray`, `Size()` is 0 and `DataAt(0)` returns an error. -/
theorem C21_size_wraps_at_65536 :
    ((List.replicate 65536 (IData.primitive (NewPrimitive none))).foldl IData.Append
      NewDataArray).Size = .ok 0 ∧
    (List.replicate 65536 (IData.primitive (NewPrimitive none))).foldl IData.Append NewDataArray
      = .dataArray false [] (some (List.replicate 65536 (IData.primitive (NewPrimitive none)))) ∧
    DataArray.DataAt (some (List.replicate 65536 (IData.primitive (NewPrimitive none)))) 0
      = .error .error := by
  have key : ∀ l : List IData, l.length = 65536 →
      (l.foldl IData.Append NewDataArray).Size = .ok 0 ∧
      l.foldl IData.Append NewDataArray = .dataArray false [] (some l) ∧
      DataArray.DataAt (some l) 0 = .error .error := by
    intro l hl
    have h := foldl_Append l false [] []
    rw [List.nil_append, Bool.false_and] at h
    refine ⟨?_, h, ?_⟩
    · rw [NewDataArray, h, IData.Size]
      simp only [Option.getD_some]
      rw [hl]
    · rw [DataArray.DataAt]
      simp only [Option.getD_some]
      rw [hl]
      rfl
  exact key _ (List.length_replicate _ _)

/-- C21, amended: after the values `vs`, fewer than 65536 of them, have
been appended in order to a fresh `DataArray`, `Size()` is their number and
`DataAt(i)` returns the `i`-th of them for every `i` below it; for any
number of values `Size()` is their number modulo 65536. -/
theorem C21_size_is_child_count (vs : List IData) (hn : vs.length < 65536) :
    (vs.foldl IData.Append NewDataArray).Size = .ok vs.length ∧
    (∃ encoded buf, vs.foldl IData.Append NewDataArray = .dataArray encoded buf (some vs)) ∧
    (∀ i, i < vs.length → ∃ c, vs[i]? = some c ∧ DataArray.DataAt (some vs) i = .ok c) ∧
    (∀ ws : List IData, (ws.foldl IData.Append NewDataArray).Size = .ok (ws.length % 65536)) := by
  have hgen : ∀ ws : List IData,
      ws.foldl IData.Append NewDataArray
        = .dataArray false [] (some ws) := by
    intro ws
    have := foldl_Append ws false [] []
    rw [List.nil_append, Bool.false_and] at this
    exact this
  refine ⟨?_, ⟨_, _, hgen vs⟩, ?_, ?_⟩
  · rw [hgen vs, IData.Size]
    simp only [Option.getD_some]
    rw [Nat.mod_eq_of_lt hn]
  · intro i hi
    refine ⟨vs[i], List.getElem?_eq_getElem hi, ?_⟩
    rw [DataArray.DataAt]
    simp only [Option.getD_some]
    rw [Nat.mod_eq_of_lt hn, if_neg (by omega), List.get?_eq_getElem?,
      List.getElem?_eq_getElem hi]
  · intro ws
    rw [hgen ws, IData.Size]
    simp only [Option.getD_some]

/-- C21, amended, on the two primitives "a" and "b". -/
theorem C21_size_is_child_count_witness :
    [IData.primitive (NewPrimitive (some [0x61])),
      IData.primitive (NewPrimitive (some [0x62]))].length < 65536 ∧
    ([IData.primitive (NewPrimitive (some [0x61])),
      IData.primitive (NewPrimitive (some [0x62]))].foldl IData.Append NewDataArray).Size
      = .ok 2 :=
  ⟨by decide,
    (C21_size_is_child_count [IData.primitive (NewPrimitive (some [0x61])),
      IData.primitive (NewPrimitive (some [0x62]))] (by decide)).1⟩

/-- C28: on the buffer that starts with the header 0x02 and the length
field `ff ff` and holds 65535 more bytes (then any bytes `t`), every length
check of `Decode(0xff)` passes, the 16-bit position wraps around and
`Decode` panics on the slice expression instead of returning. -/
theorem C28_decode_position_wraps (t : Bytes) :
    NewStandardMappedData (0x02 :: 0xff :: 0xff :: (List.replicate 65535 0 ++ t))
      = .error .panic ∧
    ((StandardMappedData.mk false (0x02 :: 0xff :: 0xff :: (List.replicate 65535 0 ++ t))
      none none 0 []).Decode 0xff).2 = .error .panic :=
  decode_wraps _ (by rw [List.length_append, List.length_replicate]; omega)

/-- C27: the child-mode encoding of a primitive with 65534 bytes of content
succeeds with length code 2, but `NewSimpleMappedData` panics on it (whatever
bytes `tail` follow), because the `uint16` sum `2+length` wraps to 0. The
round trip holds for every content of at most 65533 bytes, and for nil
content. -/
theorem C27_simple_decode_panics_near_ceiling (data tail : Bytes) :
    ((NewPrimitive (some (List.replicate 65534 0))).Encode true).2
      = .ok ([0xff, 0xfe] ++ List.replicate 65534 0, 0x02) ∧
    NewSimpleMappedData 0x02 (([0xff, 0xfe] ++ List.replicate 65534 0) ++ tail)
      = .error .panic ∧
    (data.length ≤ 65533 → ∃ buf code s,
      ((NewPrimitive (some data)).Encode true).2 = .ok (buf, code) ∧
      NewSimpleMappedData code (buf ++ tail) = .ok (s, buf.length) ∧ s.content = data) ∧
    (∃ s, ((NewPrimitive none).Encode true).2 = .ok ([], 0x00) ∧
      NewSimpleMappedData 0x00 ([] ++ tail) = .ok (s, 0) ∧ s.content = []) := by
  have hlen : (List.replicate 65534 0 : Bytes).length = 65534 := List.length_replicate _ _
  refine ⟨?_, ?_, ?_, ?_⟩
  · have key : ∀ d : Bytes, d.length = 65534 →
        ((NewPrimitive (some d)).Encode true).2 = .ok ([0xff, 0xfe] ++ d, 0x02) := by
      intro d hd
      unfold Primitive.Encode NewPrimitive
      simp only [hd]
      rw [if_neg (by decide), if_neg (by decide), if_pos (by decide)]
      have e1 : (65534 >>> 8) % 256 = 0xff := by decide
      have e2 : 65534 % 256 = 0xfe := by decide
      simp only [e1, e2, if_true]
    exact key _ hlen
  · have hg : bigEndianUint16 (([0xff, 0xfe] ++ List.replicate 65534 0) ++ tail) 0 = 65534 := by
      unfold bigEndianUint16
      show 255 * 256 + 254 = 65534
      norm_num
    have hl : (([0xff, 0xfe] ++ List.replicate 65534 0) ++ tail).length
        = 65536 + tail.length := by
      rw [List.length_append, List.length_append, hlen]
      rfl
    exact simple_decode_wraps _ (le_of_eq hg.symm) (lt_of_eq_of_lt hg (by norm_num))
      (by rw [hg, hl]; omega)
  · intro hL
    by_cases h0 : data.length = 0
    · have hd : data = [] := List.length_eq_zero.mp h0
      subst hd
      exact ⟨[], 0x00, { decoded := true, parent := 0, buf := [], content := [] }, rfl,
        simple_decode_zero _, rfl⟩
    · by_cases h1 : data.length < 256
      · refine ⟨[data.length % 256] ++ data, 0x01, _, ?_, simple_decode_one_tail data tail h1, rfl⟩
        unfold Primitive.Encode NewPrimitive
        simp only [if_neg h0, if_pos h1]
        rfl
      · refine ⟨[(data.length >>> 8) % 256, data.length % 256] ++ data, 0x02, _, ?_,
          simple_decode_two_tail data tail hL, rfl⟩
        unfold Primitive.Encode NewPrimitive
        simp only [if_neg h0, if_neg h1, if_pos (show data.length < 65536 by omega)]
        rfl
  · exact ⟨{ decoded := true, parent := 0, buf := [], content := [] }, rfl,
      simple_decode_zero _, rfl⟩

/-- C27 at the content "a" followed by one more byte: the round trip
holds. -/
theorem C27_simple_decode_panics_near_ceiling_witness :
    ([0x61] : Bytes).length ≤ 65533 ∧
    ∃ buf code s, ((NewPrimitive (some [0x61])).Encode true).2 = .ok (buf, code) ∧
      NewSimpleMappedData code (buf ++ [0x07]) = .ok (s, buf.length) ∧ s.content = [0x61] :=
  ⟨by decide, (C27_simple_decode_panics_near_ceiling [0x61] [0x07]).2.2.1 (by decide)⟩

/-- C30: the buffer that a successful `Encode` of a data array with a
non-nil slice returns starts with a byte whose bits 5-2 are zero, and the
one of a record list with a non-nil slice starts with a byte whose bits 7-6
and 3-2 are zero; in both the two count codes are not both non-zero, the
lookup and compression bits are clear and no 2-bit field holds 3. On a nil
slice `Encode` returns no bytes. -/
theorem C30_encoder_headers_valid (encoded : Bool) (buf : Bytes) (arr : List IData)
    (d : RecordList) (recs : List Record) (parent : Bool) (out : Bytes) (code : Nat) :
    (∀ v1, (IData.dataArray encoded buf (some arr)).Encode parent = (v1, .ok (out, code)) →
      ∃ b0 rest, out = b0 :: rest ∧ (b0 >>> 4) &&& 0x03 = 0 ∧ (b0 >>> 2) &&& 0x03 = 0 ∧
        (b0 >>> 3) &&& 0x01 = 0 ∧ (b0 >>> 2) &&& 0x01 = 0 ∧
        (b0 >>> 6) &&& 0x03 ≠ 3 ∧ b0 &&& 0x03 ≠ 3) ∧
    (∀ d1, d.record_list = some recs → d.Encode parent = (d1, .ok (out, code)) →
      ∃ b0 rest, out = b0 :: rest ∧ (b0 >>> 6) &&& 0x03 = 0 ∧ (b0 >>> 2) &&& 0x03 = 0 ∧
        (b0 >>> 3) &&& 0x01 = 0 ∧ (b0 >>> 2) &&& 0x01 = 0 ∧
        (b0 >>> 4) &&& 0x03 ≠ 3 ∧ b0 &&& 0x03 ≠ 3) ∧
    ((IData.dataArray encoded buf none).Encode parent).2 = .ok ([], 0x00) ∧
    (d.record_list = none → (d.Encode parent).2 = .ok ([], 0x00)) := by
  have hbits : ∀ b0 : Nat, (b0 >>> 3) &&& 0x01 = 0 → (b0 >>> 2) &&& 0x01 = 0 →
      (b0 >>> 2) &&& 0x03 = 0 := by
    intro b0 h3 h2
    rw [and3_eq_mod]
    rw [and1_eq_mod] at h3 h2
    simp only [Nat.shiftRight_eq_div_pow] at *
    omega
  refine ⟨?_, ?_, ?_, ?_⟩
  · intro v1 h
    rw [IData.Encode] at h
    rcases DataArray_Encode_cases encoded buf arr parent with
      ⟨e1, arr1, hk, -⟩ | ⟨buf1, arr1, content, buf2, -, h1, -, -, h2, hk⟩
    · rw [hk] at h; cases h
    · rw [hk] at h
      cases h
      obtain ⟨b0, rest, rfl, e3, e2, n6, -, n0, z4, -⟩ :=
        container_header_valid 6 arr.length content buf1 _ (Or.inl rfl) h1 h2
      exact ⟨b0, rest, rfl, z4 rfl, hbits b0 e3 e2, e3, e2, n6, n0⟩
  · intro d1 hd h
    rw [RecordList.Encode, hd] at h
    simp only at h
    cases h1 : encodeSize 4 recs.length with
    | error e => rw [h1] at h; cases h
    | ok buf1 =>
      rw [h1] at h
      simp only at h
      cases hl : RecordList.Encode.loop recs with
      | error e => rw [hl] at h; cases h
      | ok content =>
        rw [hl] at h
        simp only at h
        cases h2 : encodeContent buf1 content with
        | error e => rw [h2] at h; cases h
        | ok buf2 =>
          rw [h2] at h
          cases h
          obtain ⟨b0, rest, rfl, e3, e2, -, n4, n0, -, z6⟩ :=
            container_header_valid 4 recs.length content buf1 _ (Or.inr rfl) h1 h2
          exact ⟨b0, rest, rfl, z6 rfl, hbits b0 e3 e2, e3, e2, n4, n0⟩
  · rw [IData.Encode, DataArray.Encode]
  · intro hd
    rw [RecordList.Encode, hd]

/-- C30 on the array holding the primitive "abc": the header is 0x41. -/
theorem C30_encoder_headers_valid_witness :
    (IData.dataArray false [] (some [IData.primitive (NewPrimitive (some [0x61, 0x62, 0x63]))])).Encode
        false
      = (IData.dataArray true [0x41, 0x01, 0x05, 0x01, 0x03, 0x61, 0x62, 0x63]
          (some [IData.primitive ((NewPrimitive (some [0x61, 0x62, 0x63])).Encode false).1]),
        .ok ([0x41, 0x01, 0x05, 0x01, 0x03, 0x61, 0x62, 0x63], 0xff)) ∧
    ∃ b0 rest, [0x41, 0x01, 0x05, 0x01, 0x03, 0x61, 0x62, 0x63] = b0 :: rest ∧
      (b0 >>> 4) &&& 0x03 = 0 ∧ (b0 >>> 2) &&& 0x03 = 0 ∧
      (b0 >>> 3) &&& 0x01 = 0 ∧ (b0 >>> 2) &&& 0x01 = 0 ∧
      (b0 >>> 6) &&& 0x03 ≠ 3 ∧ b0 &&& 0x03 ≠ 3 :=
  ⟨rfl,
    (C30_encoder_headers_valid false []
      [IData.primitive (NewPrimitive (some [0x61, 0x62, 0x63]))] NewRecordList [] false
      [0x41, 0x01, 0x05, 0x01, 0x03, 0x61, 0x62, 0x63] 0xff).1 _ rfl⟩

/-- C25: in the package `util`, `Put` of a datum that is not yet stored in a
non-empty tree does not complete: the recursion of `putR` reaches a nil
link and dereferences it. In particular the second of two `Put` calls with
different data panics. -/
theorem C25_util_put_panics (D : Type) [LinearOrder D] (t : util.AVLTree D) (x a : D)
    (hne : t.root ≠ .nil) (hx : x ∉ t.root.contents) (ha : a ≠ x) :
    t.Put x = .error .panic ∧
    ((util.AVLTree.mk .nil).Put a = .ok (util.AVLTree.mk (.mk a 0 .nil .nil)) ∧
      (util.AVLTree.mk (.mk a 0 .nil .nil)).Put x = .error .panic) := by
  have key : ∀ t : util.AVLTree D, t.root ≠ .nil → x ∉ t.root.contents →
      t.Put x = .error .panic := by
    intro t hne hx
    unfold util.AVLTree.Put
    cases hr : t.root with
    | nil => exact absurd hr hne
    | mk d b l0 l1 =>
      rw [hr] at hx
      simp only
      rw [util_putR_panics _ x hx]
  refine ⟨key t hne hx, rfl, key _ (fun h => by cases h) ?_⟩
  simp [util.AVLNode.contents, Ne.symm ha]

/-- C25 on the natural numbers: `Put(1)` on the empty tree, then `Put(2)`. -/
theorem C25_util_put_panics_witness :
    (util.AVLTree.mk (util.AVLNode.mk 1 0 .nil .nil)).root ≠ util.AVLNode.nil ∧
    (2 : Nat) ∉ (util.AVLTree.mk (util.AVLNode.mk 1 0 .nil .nil)).root.contents ∧
    (util.AVLTree.mk (util.AVLNode.nil : util.AVLNode Nat)).Put 1
      = .ok (util.AVLTree.mk (.mk 1 0 .nil .nil)) ∧
    (util.AVLTree.mk (util.AVLNode.mk (1 : Nat) 0 .nil .nil)).Put 2 = .error .panic :=
  ⟨fun h => util.AVLNode.noConfusion h, by decide,
    (C25_util_put_panics Nat (util.AVLTree.mk (.mk 1 0 .nil .nil)) 2 1
      (fun h => util.AVLNode.noConfusion h) (by decide) (by decide)).2.1,
    (C25_util_put_panics Nat (util.AVLTree.mk (.mk 1 0 .nil .nil)) 2 1
      (fun h => util.AVLNode.noConfusion h) (by decide) (by decide)).1⟩

/-- C24: on the tree that holds the single key 5, `RangeIterator(1, 10)`
yields nothing: the first `Next()` returns nil although 5 lies in the range.
On the tree that holds 1, 2 and 3, the first `Next()` of
`RangeIterator(2, 3)` returns the entry of key 1, which is below the start
of the range. The loop of `advance` that should skip the keys below `start`
runs while `start` is below the current key. -/
theorem C24_range_iterator_wrong_start :
    (collection.NewAVLTree : collection.AVLTree Nat Nat).Put (some 5) 50
      = .ok ({ root := .mk 5 50 0 .nil .nil, size := 1 }, .nil) ∧
    (collection.AVLTree.mk (.mk 5 50 0 .nil .nil) 1 :
        collection.AVLTree Nat Nat).RangeIterator (some 1) (some 10)
      = .ok ⟨false, [], .mk 5 50 0 .nil .nil, 0, some 1, some 10⟩ ∧
    (collection.AVLIterator.mk false [] (.mk 5 50 0 .nil .nil) 0 (some 1) (some 10) :
        collection.AVLIterator Nat Nat).Next
      = some (.ok (⟨false, [], .nil, 0, some 1, some 10⟩, .nil)) ∧
    (collection.NewAVLTree : collection.AVLTree Nat Nat).Put (some 2) 20
      = .ok ({ root := .mk 2 20 0 .nil .nil, size := 1 }, .nil) ∧
    (collection.AVLTree.mk (.mk 2 20 0 .nil .nil) 1 :
        collection.AVLTree Nat Nat).Put (some 1) 10
      = .ok ({ root := .mk 2 20 (-1) (.mk 1 10 0 .nil .nil) .nil, size := 2 }, .nil) ∧
    (collection.AVLTree.mk (.mk 2 20 (-1) (.mk 1 10 0 .nil .nil) .nil) 2 :
        collection.AVLTree Nat Nat).Put (some 3) 30
      = .ok ({ root := .mk 2 20 0 (.mk 1 10 0 .nil .nil) (.mk 3 30 0 .nil .nil), size := 3 },
          .nil) ∧
    (collection.AVLTree.mk (.mk 2 20 0 (.mk 1 10 0 .nil .nil) (.mk 3 30 0 .nil .nil)) 3 :
        collection.AVLTree Nat Nat).RangeIterator (some 2) (some 3)
      = .ok ⟨false, [.mk 2 20 0 (.mk 1 10 0 .nil .nil) (.mk 3 30 0 .nil .nil)],
          .mk 1 10 0 .nil .nil, 0, some 2, some 3⟩ ∧
    (collection.AVLIterator.mk false [.mk 2 20 0 (.mk 1 10 0 .nil .nil) (.mk 3 30 0 .nil .nil)]
        (.mk 1 10 0 .nil .nil) 0 (some 2) (some 3) : collection.AVLIterator Nat Nat).Next
      = some (.ok (⟨false, [.mk 2 20 0 (.mk 1 10 0 .nil .nil) (.mk 3 30 0 .nil .nil)],
          .mk 1 10 0 .nil .nil, 1, none, some 3⟩, .mk 1 10 0 .nil .nil)) :=
  ⟨rfl, rfl, rfl, rfl, rfl, rfl, rfl, rfl⟩

/-- C22: `collection.AVLTree` is a map under `Put` and `Get`, the keys being
totally ordered by `Compare` and `Equal` holding exactly of equal keys. On
every tree reached by `Put` and `Remove` calls, `Put(k, v)` with a non-nil
key returns; afterwards `Get(k)` returns a node holding `k` and `v`, `Get` of
every other key returns a node with the same entry as before (nil where it
returned nil), and the node that `Put` returned holds the entry that `Get(k)`
found before the call: it is nil when `k` was absent and a node with the
previous key and value when `k` was present. -/
theorem C22_put_get_map {K V : Type} [LinearOrder K] (t : collection.AVLTree K V) (k : K) (v : V)
    (ht : collection.Reached t) :
    ∃ t1 r, t.Put (some k) v = .ok (t1, r) ∧
      (∃ n, t1.Get k = .ok n ∧ n.entry = some (k, v)) ∧
      (∀ k1, k1 ≠ k →
        ∃ n0 n1, t.Get k1 = .ok n0 ∧ t1.Get k1 = .ok n1 ∧ n1.entry = n0.entry) ∧
      (∃ n0, t.Get k = .ok n0 ∧ r = collection.AVLNode.ofEntry n0.entry) := by
  obtain ⟨hb, ho⟩ := collection.reached_inv t ht
  obtain ⟨t1, hput, _, hin1⟩ := collection.Put_spec t k v hb ho
  have ho1 : t1.root.Ordered := by
    unfold collection.AVLNode.Ordered
    rw [hin1]
    exact collection.sorted_assocPut k v _ ho
  refine ⟨t1, _, hput, ?_, ?_, ?_⟩
  · obtain ⟨n, hn, hne⟩ := collection.Get_spec t1 k ho1
    refine ⟨n, hn, ?_⟩
    rw [hne, hin1, collection.assocFind_put_same]
    rfl
  · intro k1 hk
    obtain ⟨n0, h0, e0⟩ := collection.Get_spec t k1 ho
    obtain ⟨n1, h1, e1⟩ := collection.Get_spec t1 k1 ho1
    refine ⟨n0, n1, h0, h1, ?_⟩
    rw [e1, e0, hin1, collection.assocFind_put_other _ _ _ _ hk]
  · obtain ⟨n0, h0, e0⟩ := collection.Get_spec t k ho
    exact ⟨n0, h0, by rw [e0]⟩

/-- C22 at the tree that holds the key 1 with the value 10, for `Put(1, 11)`. -/
theorem C22_put_get_map_witness :
    collection.Reached (collection.AVLTree.mk (.mk 1 10 0 .nil .nil) 1 : collection.AVLTree Nat Nat) ∧
    ∃ t1 r, (collection.AVLTree.mk (.mk 1 10 0 .nil .nil) 1 : collection.AVLTree Nat Nat).Put
        (some 1) 11 = .ok (t1, r) ∧
      (∃ n, t1.Get 1 = .ok n ∧ n.entry = some (1, 11)) ∧
      (∀ k1, k1 ≠ 1 →
        ∃ n0 n1, (collection.AVLTree.mk (.mk 1 10 0 .nil .nil) 1 :
            collection.AVLTree Nat Nat).Get k1 = .ok n0 ∧
          t1.Get k1 = .ok n1 ∧ n1.entry = n0.entry) ∧
      (∃ n0, (collection.AVLTree.mk (.mk 1 10 0 .nil .nil) 1 :
          collection.AVLTree Nat Nat).Get 1 = .ok n0 ∧
        r = collection.AVLNode.ofEntry n0.entry) :=
  ⟨collection.Reached.put collection.NewAVLTree _ 1 10 .nil collection.Reached.new rfl,
    C22_put_get_map _ 1 11
      (collection.Reached.put collection.NewAVLTree _ 1 10 .nil collection.Reached.new rfl)⟩

/-- C23: `collection.AVLTree.Remove` removes exactly one key, the keys being
totally ordered by `Compare` and `Equal` holding exactly of equal keys. On
every tree reached by `Put` and `Remove` calls, `Remove(k)` with a non-nil key
returns; afterwards `Get(k)` returns nil, `Get` of every other key returns a
node with the same entry as before, and the node that `Remove` returned holds
the entry that `Get(k)` found before the call, whatever the number of
children of its node; when `Get(k)` found nothing, `Remove` returns nil and
the tree is the same as before. -/
theorem C23_remove_exactly_one {K V : Type} [LinearOrder K] (t : collection.AVLTree K V) (k : K)
    (ht : collection.Reached t) :
    ∃ t1 r, t.Remove (some k) = .ok (t1, r) ∧
      t1.Get k = .ok .nil ∧
      (∀ k1, k1 ≠ k →
        ∃ n0 n1, t.Get k1 = .ok n0 ∧ t1.Get k1 = .ok n1 ∧ n1.entry = n0.entry) ∧
      (∃ n0, t.Get k = .ok n0 ∧ r = collection.AVLNode.ofEntry n0.entry) ∧
      (t.Get k = .ok .nil → r = .nil ∧ t1 = t) := by
  obtain ⟨hb, ho⟩ := collection.reached_inv t ht
  obtain ⟨t1, hrem, _, hin1, habs⟩ := collection.Remove_spec t k hb ho
  have ho1 : t1.root.Ordered := by
    unfold collection.AVLNode.Ordered
    rw [hin1]
    exact collection.sorted_assocDel k _ ho
  obtain ⟨n0, h0, e0⟩ := collection.Get_spec t k ho
  refine ⟨t1, _, hrem, ?_, ?_, ⟨n0, h0, by rw [e0]⟩, fun hnil => ?_⟩
  · obtain ⟨n, hn, hne⟩ := collection.Get_spec t1 k ho1
    rw [hin1, collection.assocFind_del_same k _ ho] at hne
    rw [hn, collection.entry_none n hne]
  · intro k1 hk
    obtain ⟨m0, g0, f0⟩ := collection.Get_spec t k1 ho
    obtain ⟨m1, g1, f1⟩ := collection.Get_spec t1 k1 ho1
    refine ⟨m0, m1, g0, g1, ?_⟩
    rw [f1, f0, hin1, collection.assocFind_del_other _ _ _ hk]
  · rw [h0] at hnil
    simp only [Except.ok.injEq] at hnil
    subst hnil
    have hnone : collection.assocFind k t.root.inorder = none := by
      cases hf : collection.assocFind k t.root.inorder with
      | none => rfl
      | some w =>
        rw [hf] at e0
        cases e0
    exact ⟨by rw [hnone]; rfl, habs hnone⟩

/-- C23 at the tree that holds the keys 1, 2 and 3, for the removal of the
key 2, whose node has two children. -/
theorem C23_remove_exactly_one_witness :
    collection.Reached (collection.AVLTree.mk
      (.mk 2 20 0 (.mk 1 10 0 .nil .nil) (.mk 3 30 0 .nil .nil)) 3 : collection.AVLTree Nat Nat) ∧
    (collection.AVLTree.mk (.mk 2 20 0 (.mk 1 10 0 .nil .nil) (.mk 3 30 0 .nil .nil)) 3 :
        collection.AVLTree Nat Nat).Remove (some 2)
      = .ok (⟨.mk 1 10 1 .nil (.mk 3 30 0 .nil .nil), 2⟩, .mk 2 20 0 .nil .nil) ∧
    ∃ t1 r, (collection.AVLTree.mk
        (.mk 2 20 0 (.mk 1 10 0 .nil .nil) (.mk 3 30 0 .nil .nil)) 3 :
          collection.AVLTree Nat Nat).Remove (some 2) = .ok (t1, r) ∧
      t1.Get 2 = .ok .nil ∧
      (∀ k1, k1 ≠ 2 →
        ∃ n0 n1, (collection.AVLTree.mk
            (.mk 2 20 0 (.mk 1 10 0 .nil .nil) (.mk 3 30 0 .nil .nil)) 3 :
              collection.AVLTree Nat Nat).Get k1 = .ok n0 ∧
          t1.Get k1 = .ok n1 ∧ n1.entry = n0.entry) ∧
      (∃ n0, (collection.AVLTree.mk
          (.mk 2 20 0 (.mk 1 10 0 .nil .nil) (.mk 3 30 0 .nil .nil)) 3 :
            collection.AVLTree Nat Nat).Get 2 = .ok n0 ∧
        r = collection.AVLNode.ofEntry n0.entry) ∧
      ((collection.AVLTree.mk
          (.mk 2 20 0 (.mk 1 10 0 .nil .nil) (.mk 3 30 0 .nil .nil)) 3 :
            collection.AVLTree Nat Nat).Get 2 = .ok .nil →
        r = .nil ∧ t1 = (collection.AVLTree.mk
          (.mk 2 20 0 (.mk 1 10 0 .nil .nil) (.mk 3 30 0 .nil .nil)) 3 :
            collection.AVLTree Nat Nat)) :=
  ⟨collection.Reached.put ⟨.mk 2 20 (-1) (.mk 1 10 0 .nil .nil) .nil, 2⟩ _ 3 30 .nil
      (collection.Reached.put ⟨.mk 2 20 0 .nil .nil, 1⟩ _ 1 10 .nil
        (collection.Reached.put collection.NewAVLTree _ 2 20 .nil collection.Reached.new rfl)
        (by rfl)) (by rfl),
    rfl,
    C23_remove_exactly_one _ 2
      (collection.Reached.put ⟨.mk 2 20 (-1) (.mk 1 10 0 .nil .nil) .nil, 2⟩ _ 3 30 .nil
        (collection.Reached.put ⟨.mk 2 20 0 .nil .nil, 1⟩ _ 1 10 .nil
          (collection.Reached.put collection.NewAVLTree _ 2 20 .nil collection.Reached.new rfl)
          (by rfl)) (by rfl))⟩

/-- C26: the lookup in a table of `MPHBuild`, for every function `sort`
that permutes the buckets and every number of seeds tried. `MPHBuild` never
panics. On the table built from the empty list of keys, `Lookup(s)` panics
for every `s`: it reads `keys[0]`. On a table that `MPHBuild` returns for a
list of keys that is not empty and has at most `2 ^ 32` entries, `Lookup` of
the key at the index `i` returns `(i, true)`, and `Lookup(s)` of any `s`
returns an index `n` in the range of the keys with `ok = true` exactly when
`s` is one of the keys, the key at `n` being `s` in that case. -/
theorem C26_lookup_on_built_table (sort : List util.indexBucket → List util.indexBucket)
    (hperm : ∀ l, (sort l).Perm l) (fuel : Nat) :
    (∀ keys e, util.MPHBuild sort fuel keys ≠ some (.error e)) ∧
    (∃ t, util.MPHBuild sort fuel [] = some (.ok t) ∧ ∀ s, t.Lookup s = .error .panic) ∧
    (∀ keys t, keys ≠ [] → keys.length ≤ 2 ^ 32 →
      util.MPHBuild sort fuel keys = some (.ok t) →
      (∀ (i : Nat) (key : Bytes), keys[i]? = some key → t.Lookup key = .ok (i, true)) ∧
      (∀ s, ∃ (n : Nat) (ok : Bool), t.Lookup s = .ok (n, ok) ∧ n < keys.length ∧
        (ok = true ↔ s ∈ keys) ∧ (ok = true → keys[n]? = some s))) := by
  refine ⟨fun keys e => util.MPHBuild_ok sort hperm fuel keys e,
    ⟨_, util.MPHBuild_nil sort hperm fuel, fun s => ?_⟩, fun keys t hne hlen h => ?_⟩
  · simp [util.MPHTable.Lookup]
  · obtain ⟨h1, h2⟩ := util.Lookup_spec sort hperm fuel keys t hne hlen h
    refine ⟨h1, fun s => ?_⟩
    obtain ⟨n, key, hk, hl⟩ := h2 s
    refine ⟨n, decide (s = key), hl, util.getElem?_lt_length _ _ _ hk, ?_, ?_⟩
    · rw [decide_eq_true_iff]
      constructor
      · rintro rfl
        exact List.getElem?_mem hk
      · intro hs
        obtain ⟨i, hi⟩ := List.getElem?_of_mem hs
        have h3 := h1 i s hi
        rw [hl] at h3
        simp only [Except.ok.injEq, Prod.mk.injEq, decide_eq_true_eq] at h3
        exact h3.2
    · intro hd
      rw [decide_eq_true_iff] at hd
      rw [hd]
      exact hk

/-- C26 with the sort by insertion and at most 8 seeds for a bucket, at the
five keys `[1]`, `[2]`, `[3]`, `[4, 5]` and `[6, 7, 8, 9, 10]`, whose single
bucket is placed by the seed 5. -/
theorem C26_lookup_on_built_table_witness :
    (∀ l, (util.sortBySize l).Perm l) ∧
    util.MPHBuild util.sortBySize 8 [[1], [2], [3], [4, 5], [6, 7, 8, 9, 10]]
      = some (.ok ⟨[[1], [2], [3], [4, 5], [6, 7, 8, 9, 10]], [5], 0,
          [0, 3, 0, 0, 4, 1, 3, 2], 7⟩) ∧
    (∀ (i : Nat) (key : Bytes),
      [[1], [2], [3], [4, 5], [6, 7, 8, 9, 10]][i]? = some key →
      (util.MPHTable.mk [[1], [2], [3], [4, 5], [6, 7, 8, 9, 10]] [5] 0
        [0, 3, 0, 0, 4, 1, 3, 2] 7).Lookup key = .ok (i, true)) ∧
    (∃ t, util.MPHBuild util.sortBySize 8 [] = some (.ok t) ∧
      ∀ s, t.Lookup s = .error .panic) :=
  ⟨fun l => List.perm_insertionSort _ l, by rfl,
    ((C26_lookup_on_built_table util.sortBySize (fun l => List.perm_insertionSort _ l) 8).2.2
      [[1], [2], [3], [4, 5], [6, 7, 8, 9, 10]] _ (by decide) (by norm_num) (by rfl)).1,
    (C26_lookup_on_built_table util.sortBySize (fun l => List.perm_insertionSort _ l) 8).2.1⟩

/-- C36: `collection.AVLTree` stays a valid AVL tree, the keys being totally
ordered by `Compare` and `Equal` holding exactly of equal keys. In every
tree reached from `NewAVLTree` by `Put` and `Remove` calls, the balance field
of every node is the height of its right subtree minus the height of its
left subtree and lies between -1 and 1, the keys are strictly increasing in
symmetric order, and at every node the keys of the left subtree are below
the key of the node and those of the right subtree above it. -/
theorem C36_avl_invariants {K V : Type} [LinearOrder K] (t : collection.AVLTree K V)
    (ht : collection.Reached t) :
    t.root.Balanced ∧ t.root.Ordered ∧ t.root.IsSearchTree :=
  ⟨(collection.reached_inv t ht).1, (collection.reached_inv t ht).2,
    (collection.ordered_iff_searchTree t.root).mp (collection.reached_inv t ht).2⟩

/-- C36 at the tree built by `Put` of the keys 1, 2 and 3 in this order,
which takes a rotation. -/
theorem C36_avl_invariants_witness :
    collection.Reached (collection.AVLTree.mk
      (.mk 2 20 0 (.mk 1 10 0 .nil .nil) (.mk 3 30 0 .nil .nil)) 3 : collection.AVLTree Nat Nat) ∧
    (collection.AVLNode.mk 2 20 0 (.mk 1 10 0 .nil .nil) (.mk 3 30 0 .nil .nil) :
      collection.AVLNode Nat Nat).Balanced ∧
    (collection.AVLNode.mk 2 20 0 (.mk 1 10 0 .nil .nil) (.mk 3 30 0 .nil .nil) :
      collection.AVLNode Nat Nat).IsSearchTree :=
  ⟨collection.Reached.put ⟨.mk 1 10 1 .nil (.mk 2 20 0 .nil .nil), 2⟩ _ 3 30 .nil
      (collection.Reached.put ⟨.mk 1 10 0 .nil .nil, 1⟩ _ 2 20 .nil
        (collection.Reached.put collection.NewAVLTree _ 1 10 .nil collection.Reached.new (by rfl))
        (by rfl)) (by rfl),
    (C36_avl_invariants _
      (collection.Reached.put ⟨.mk 1 10 1 .nil (.mk 2 20 0 .nil .nil), 2⟩ _ 3 30 .nil
        (collection.Reached.put ⟨.mk 1 10 0 .nil .nil, 1⟩ _ 2 20 .nil
          (collection.Reached.put collection.NewAVLTree _ 1 10 .nil collection.Reached.new
            (by rfl))
          (by rfl)) (by rfl))).1,
    (C36_avl_invariants _
      (collection.Reached.put ⟨.mk 1 10 1 .nil (.mk 2 20 0 .nil .nil), 2⟩ _ 3 30 .nil
        (collection.Reached.put ⟨.mk 1 10 0 .nil .nil, 1⟩ _ 2 20 .nil
          (collection.Reached.put collection.NewAVLTree _ 1 10 .nil collection.Reached.new
            (by rfl))
          (by rfl)) (by rfl))).2.2⟩

/-- C34, counterexample: the data array that `NewDataArray` returns answers
true to both `IsPrimitive()` and `IsDataArray()`, and the record list that
`NewRecordList` returns to both `IsPrimitive()` and `IsRecordList()`. -/
theorem C34_empty_container_is_also_primitive :
    NewDataArray.IsPrimitive = .ok true ∧ NewDataArray.IsDataArray = .ok true ∧
    NewDataArray.IsRecordList = .ok false ∧
    (IData.recordList NewRecordList).IsPrimitive = .ok true ∧
    (IData.recordList NewRecordList).IsDataArray = .ok false ∧
    (IData.recordList NewRecordList).IsRecordList = .ok true :=
  ⟨rfl, rfl, rfl, rfl, rfl, rfl⟩

/-- C34, amended: on a value of any implementation (a mapped
`StandardMappedData` being a decoded one) the three methods `IsPrimitive()`,
`IsDataArray()` and `IsRecordList()` return, and exactly one of them returns
true unless the value is a `DataArray` or a `RecordList` whose slice is nil
or empty; such a value answers true to `IsPrimitive()` and to the method of
its own variant, and false to the third. -/
theorem C34_variant_classification (v : IData) (hv : ∀ d, v = .standard d → Decoded d) :
    ∃ p a r, v.IsPrimitive = .ok p ∧ v.IsDataArray = .ok a ∧ v.IsRecordList = .ok r ∧
      (v.isEmptyContainer = false → exactlyOne p a r = true) ∧
      (v.isEmptyContainer = true → p = true ∧ (a = true ∨ r = true) ∧ (a = false ∨ r = false)) ∧
      (v.isEmptyContainer = true ↔
        (∃ e b, v = .dataArray e b none ∨ v = .dataArray e b (some [])) ∨
        (∃ d, v = .recordList d ∧ (d.record_list = none ∨ d.record_list = some []))) := by
  cases v with
  | simple d =>
    exact ⟨true, false, false, rfl, rfl, rfl, fun _ => rfl, fun h => (by cases h),
      ⟨fun h => (by cases h), fun h => by
        rcases h with ⟨e, b, h | h⟩ | ⟨d, h, _⟩ <;> cases h⟩⟩
  | primitive d =>
    exact ⟨true, false, false, rfl, rfl, rfl, fun _ => rfl, fun h => (by cases h),
      ⟨fun h => (by cases h), fun h => by
        rcases h with ⟨e, b, h | h⟩ | ⟨d, h, _⟩ <;> cases h⟩⟩
  | standard d =>
    obtain ⟨_, _, h3, h4⟩ := decoded_size d (hv d rfl)
    refine ⟨d.data_array.isNone && d.record_list.isNone, d.data_array.isSome,
      d.record_list.isSome, ?_, ?_, ?_, fun _ => ?_, fun h => (by cases h),
      ⟨fun h => (by cases h), fun h => by
        rcases h with ⟨e, b, h | h⟩ | ⟨d, h, _⟩ <;> cases h⟩⟩
    · simp [IData.IsPrimitive, StandardMappedData.IsPrimitive, h4]
    · simp [IData.IsDataArray, StandardMappedData.IsDataArray, h4]
    · simp [IData.IsRecordList, StandardMappedData.IsRecordList, h4]
    · cases ha : d.data_array with
      | none => cases d.record_list <;> rfl
      | some arr =>
        rw [h3 (by rw [ha]; exact fun h => by cases h)]
        rfl
  | dataArray e b arr =>
    refine ⟨(arr.isNone || (arr.getD []).length == 0) || false, true, false, rfl, rfl, rfl,
      ?_, ?_, ?_⟩
    · intro h
      cases arr with
      | none => cases h
      | some cs =>
        cases cs with
        | nil => cases h
        | cons c cs => rfl
    · intro h
      cases arr with
      | none => exact ⟨rfl, Or.inl rfl, Or.inr rfl⟩
      | some cs =>
        cases cs with
        | nil => exact ⟨rfl, Or.inl rfl, Or.inr rfl⟩
        | cons c cs => cases h
    · constructor
      · intro h
        cases arr with
        | none => exact Or.inl ⟨e, b, Or.inl rfl⟩
        | some cs =>
          cases cs with
          | nil => exact Or.inl ⟨e, b, Or.inr rfl⟩
          | cons c cs => cases h
      · rintro (⟨e1, b1, h | h⟩ | ⟨d, h, _⟩)
        · cases h
          rfl
        · cases h
          rfl
        · cases h
  | recordList d =>
    refine ⟨(d.record_list.isNone || (d.record_list.getD []).length == 0) || false, false, true,
      rfl, rfl, rfl, ?_, ?_, ?_⟩
    · intro h
      obtain ⟨e, b, rl⟩ := d
      cases rl with
      | none => cases h
      | some cs =>
        cases cs with
        | nil => cases h
        | cons c cs => rfl
    · intro h
      obtain ⟨e, b, rl⟩ := d
      cases rl with
      | none => exact ⟨rfl, Or.inr rfl, Or.inl rfl⟩
      | some cs =>
        cases cs with
        | nil => exact ⟨rfl, Or.inr rfl, Or.inl rfl⟩
        | cons c cs => cases h
    · constructor
      · intro h
        obtain ⟨e, b, rl⟩ := d
        cases rl with
        | none => exact Or.inr ⟨_, rfl, Or.inl rfl⟩
        | some cs =>
          cases cs with
          | nil => exact Or.inr ⟨_, rfl, Or.inr rfl⟩
          | cons c cs => cases h
      · rintro (⟨e1, b1, h | h⟩ | ⟨d1, h, h1⟩)
        · cases h
        · cases h
        · cases h
          rcases h1 with h1 | h1
          · simp [IData.isEmptyContainer, h1]
          · simp [IData.isEmptyContainer, h1]

/-- C34, amended, on the view decoded from the buffer `00`: it is a
primitive only. -/
theorem C34_variant_classification_witness :
    Decoded (StandardMappedData.mk true [0x00] none none 0 []) ∧
    ∃ p a r, (IData.standard (StandardMappedData.mk true [0x00] none none 0 [])).IsPrimitive
        = .ok p ∧
      (IData.standard (StandardMappedData.mk true [0x00] none none 0 [])).IsDataArray = .ok a ∧
      (IData.standard (StandardMappedData.mk true [0x00] none none 0 [])).IsRecordList = .ok r ∧
      exactlyOne p a r = true :=
  ⟨Decoded.new [0x00] _ (by decide) (by rfl),
    (C34_variant_classification (.standard (StandardMappedData.mk true [0x00] none none 0 []))
      (fun d hd => by
        cases hd
        exact Decoded.new [0x00] _ (by decide) (by rfl))).elim
      fun p hp => hp.elim fun a ha => ha.elim fun r hr =>
        ⟨p, a, r, hr.1, hr.2.1, hr.2.2.1, hr.2.2.2.1 rfl⟩⟩

/-- C35: `DataAt` terminates. On every decoded mapped value, `DataAt(idx)`
written with its wrapping 16-bit counter returns within `idx + 1` runs of
the body of its loop, and it returns what the model `DataAt` with a loop of
`idx + 1` runs returns. The count is below 65536, so that for an index of
65535 or more `DataAt` returns an error before the loop. With the index
65535 the loop would never end normally, its condition holding of every
value of the counter. -/
theorem C35_data_at_terminates (d : StandardMappedData) (idx fuel : Nat)
    (hd : Decoded d) (hf : idx + 1 ≤ fuel) :
    d.DataAt16 fuel idx = some (d.DataAt idx) ∧
    d.size < 65536 ∧
    (idx ≥ 65535 → d.DataAt idx = (d, .error .error)) ∧
    (∀ (content : Bytes) (n i pos : Nat) (arr arr1 : List (Slot StandardMappedData)),
      i < 65536 →
      StandardMappedData.DataAt.loop16 content 65535 n i pos arr ≠ some (arr1, .ok ())) := by
  obtain ⟨hs, _, _, hdec⟩ := decoded_size d hd
  exact ⟨DataAt16_eq d idx fuel hs hf, hs,
    fun hi => DataAt_out_of_range d idx hdec (by omega),
    fun content n i pos arr arr1 hi => loop16_max content n i pos arr arr1 hi⟩

/-- C35 on the mapped array decoded from `41 02 01 08`, for the index 0 and
one run of the body. -/
theorem C35_data_at_terminates_witness :
    Decoded (StandardMappedData.mk true [0x41, 0x02, 0x01, 0x08] (some [.empty, .empty]) none 2
      [0x08]) ∧
    (StandardMappedData.mk true [0x41, 0x02, 0x01, 0x08] (some [.empty, .empty]) none 2
      [0x08]).DataAt16 1 0
      = some ((StandardMappedData.mk true [0x41, 0x02, 0x01, 0x08] (some [.empty, .empty]) none 2
        [0x08]).DataAt 0) :=
  ⟨Decoded.new [0x41, 0x02, 0x01, 0x08] _ (by decide) (by rfl),
    (C35_data_at_terminates _ 0 1
      (Decoded.new [0x41, 0x02, 0x01, 0x08] _ (by decide) (by rfl)) (by decide)).1⟩

/-- C33: cache transparency. On a mapped value decoded from a buffer of
bytes, after any number of successful `DataAt` calls: below a filled slot
of the cache every slot is filled; a filled slot `j` holds the view decoded
from the content at the offset of the child `j`, which is the sum of the
lengths of the buffers of the children before it; and a successful
`DataAt(i)` returns the view of the child `i`, a function of the content and
of `i` alone, so that it returns the same view on any two values reached
from the same decode by successful `DataAt` calls, whatever these were. -/
theorem C33_cache_transparency (d : StandardMappedData) (hv : Viewed d) :
    (∀ (j k : Nat) (s : Slot StandardMappedData), j ≤ k → d.slot k = some s →
      s.isFilled = true → ∃ c, d.slot j = some (Slot.ptr c)) ∧
    (∀ (j : Nat) (s : Slot StandardMappedData), d.slot j = some s → s.isFilled = true →
      ∃ c pos, s = Slot.ptr c ∧ childOffset d.content j = some pos ∧
        NewStandardMappedData (d.content.drop pos) = .ok c) ∧
    (∀ (i : Nat) (d1 : StandardMappedData) (s : Slot StandardMappedData),
      d.DataAt i = (d1, .ok s) → ∃ c, s = Slot.ptr c ∧ childView d.content i = some c) ∧
    (∀ (e : StandardMappedData) (i : Nat) (d1 e1 : StandardMappedData)
      (s s1 : Slot StandardMappedData), Viewed e → e.emptied = d.emptied →
      d.DataAt i = (d1, .ok s) → e.DataAt i = (e1, .ok s1) → s1 = s) := by
  obtain ⟨hd, hclean⟩ := viewed_inv d hv
  have hfilled : ∀ (j : Nat) (s : Slot StandardMappedData), d.slot j = some s →
      s.isFilled = true → ∃ c, s = Slot.ptr c := by
    intro j s hs hf
    cases s with
    | empty => cases hf
    | nilPtr => exact absurd hs (hclean j)
    | ptr c => exact ⟨c, rfl⟩
  have hres : ∀ (e : StandardMappedData), Viewed e → ∀ (i : Nat) (e1 : StandardMappedData)
      (s : Slot StandardMappedData), e.DataAt i = (e1, .ok s) →
      ∃ c, s = Slot.ptr c ∧ childView e.content i = some c := by
    intro e he i e1 s h
    obtain ⟨hde, hce⟩ := viewed_inv e he
    obtain ⟨c, rfl⟩ := (DataAt_clean e e1 i s (decoded_downClosed e hde) hce h).2
    exact ⟨c, rfl, DataAt_child e e1 c i hde h⟩
  refine ⟨?_, ?_, hres d hv, ?_⟩
  · intro j k s hjk hk hf
    cases ha : d.data_array with
    | none =>
      simp only [StandardMappedData.slot, ha] at hk
      cases hk
    | some arr =>
      have hdc := decoded_downClosed d hd arr ha
      simp only [StandardMappedData.slot, ha, List.get?_eq_getElem?] at hk
      obtain ⟨s1, h1, h2⟩ := hdc j k s hjk hk hf
      have h3 : d.slot j = some s1 := by
        simp only [StandardMappedData.slot, ha, List.get?_eq_getElem?]
        exact h1
      obtain ⟨c, rfl⟩ := hfilled j s1 h3 h2
      exact ⟨c, h3⟩
  · intro j s hs hf
    obtain ⟨c, rfl⟩ := hfilled j s hs hf
    have hcv := slots_child d hd j c hs
    cases ho : childOffset d.content j with
    | none =>
      unfold childView at hcv
      rw [ho] at hcv
      cases hcv
    | some pos => exact ⟨c, pos, rfl, rfl, (childView_eq d.content j pos c ho).mp hcv⟩
  · intro e i d1 e1 s s1 he hee h h1
    obtain ⟨c, rfl, hc⟩ := hres d hv i d1 s h
    obtain ⟨c1, rfl, hc1⟩ := hres e he i e1 s1 h1
    have hct : e.content = d.content := by
      have := congrArg StandardMappedData.content hee
      exact this
    rw [hct, hc] at hc1
    cases hc1
    rfl

/-- C33 on the mapped array decoded from `41 02 04 00 01 01 61` (the
children `00` and `01 01 61`) after `DataAt(0)`: `DataAt(1)` returns the
view of the child 1, decoded at the offset 1. -/
theorem C33_cache_transparency_witness :
    Viewed (StandardMappedData.mk true [0x41, 0x02, 0x04, 0x00, 0x01, 0x01, 0x61]
      (some [.ptr (.mk true [0x00] none none 0 []), .empty]) none 2 [0x00, 0x01, 0x01, 0x61]) ∧
    (StandardMappedData.mk true [0x41, 0x02, 0x04, 0x00, 0x01, 0x01, 0x61]
      (some [.ptr (.mk true [0x00] none none 0 []), .empty]) none 2
        [0x00, 0x01, 0x01, 0x61]).DataAt 1
      = (.mk true [0x41, 0x02, 0x04, 0x00, 0x01, 0x01, 0x61]
          (some [.ptr (.mk true [0x00] none none 0 []),
            .ptr (.mk true [0x01, 0x01, 0x61] none none 0 [0x61])]) none 2
          [0x00, 0x01, 0x01, 0x61],
        .ok (.ptr (.mk true [0x01, 0x01, 0x61] none none 0 [0x61]))) ∧
    childOffset [0x00, 0x01, 0x01, 0x61] 1 = some 1 ∧
    ∃ c, Slot.ptr (StandardMappedData.mk true [0x01, 0x01, 0x61] none none 0 [0x61]) = Slot.ptr c ∧
      childView [0x00, 0x01, 0x01, 0x61] 1 = some c :=
  ⟨Viewed.dataAt _ _ 0 _
      (Viewed.new [0x41, 0x02, 0x04, 0x00, 0x01, 0x01, 0x61]
        (.mk true [0x41, 0x02, 0x04, 0x00, 0x01, 0x01, 0x61] (some [.empty, .empty]) none 2
          [0x00, 0x01, 0x01, 0x61]) (by decide) (by rfl)) (by rfl),
    by rfl, by rfl,
    (C33_cache_transparency _
      (Viewed.dataAt _ _ 0 _
        (Viewed.new [0x41, 0x02, 0x04, 0x00, 0x01, 0x01, 0x61]
          (.mk true [0x41, 0x02, 0x04, 0x00, 0x01, 0x01, 0x61] (some [.empty, .empty]) none 2
            [0x00, 0x01, 0x01, 0x61]) (by decide) (by rfl)) (by rfl))).2.2.1 1 _ _ (by rfl)⟩

/-- C32: re-encoding a lifted view reproduces the buffer. For every value
`v` built from primitives and data arrays whose `Encode(false)` returns a
buffer (of bytes) on which `NewStandardMappedData` succeeds with the view
`m`, every successful `CopyConstruct` of `m` returns a value whose
`Encode(false)` succeeds and returns exactly the bytes of `m.Buf()`, which
are those of the buffer. -/
theorem C32_reencode_lifted_view (ops : RecordOps) (v : IData) (buf : Bytes) (code : Nat)
    (m : StandardMappedData) (fuel : Nat) (c : IData)
    (hp : v.isPlain = true) (henc : (v.Encode false).2 = .ok (buf, code))
    (hb : ∀ x ∈ buf, x < 256) (hm : NewStandardMappedData buf = .ok m)
    (hc : m.CopyConstruct ops fuel = some (.ok c)) :
    m.Buf = buf ∧ ∃ code1, (c.Encode false).2 = .ok (m.Buf, code1) := by
  have hne : buf ≠ [] := by
    intro h
    rw [h, decode_nil] at hm
    cases hm
  obtain ⟨h1, h2⟩ := relifts_of_encode ops v hp buf code henc hne [] m
    (by rw [List.append_nil]; exact hb) (by rw [List.append_nil]; exact hm)
  rw [h1]
  exact ⟨rfl, h2 fuel c hc⟩

/-- C32 on the data array holding the primitive "a" and a data array that
holds the primitive "b": its encoding decodes, the copy of the view is the
same tree of constructed values, and it re-encodes to the buffer. -/
theorem C32_reencode_lifted_view_witness :
    (IData.dataArray false [] (some [.primitive (NewPrimitive (some [0x61])),
      .dataArray false [] (some [.primitive (NewPrimitive (some [0x62]))])])).isPlain = true ∧
    ((IData.dataArray false [] (some [.primitive (NewPrimitive (some [0x61])),
      .dataArray false [] (some [.primitive (NewPrimitive (some [0x62]))])])).Encode false).2
      = .ok ([0x41, 0x02, 0x09, 0x01, 0x01, 0x61, 0x41, 0x01, 0x03, 0x01, 0x01, 0x62], 0xff) ∧
    NewStandardMappedData [0x41, 0x02, 0x09, 0x01, 0x01, 0x61, 0x41, 0x01, 0x03, 0x01, 0x01, 0x62]
      = .ok (.mk true [0x41, 0x02, 0x09, 0x01, 0x01, 0x61, 0x41, 0x01, 0x03, 0x01, 0x01, 0x62]
          (some [.empty, .empty]) none 2
          [0x01, 0x01, 0x61, 0x41, 0x01, 0x03, 0x01, 0x01, 0x62]) ∧
    (StandardMappedData.mk true
        [0x41, 0x02, 0x09, 0x01, 0x01, 0x61, 0x41, 0x01, 0x03, 0x01, 0x01, 0x62]
        (some [.empty, .empty]) none 2
        [0x01, 0x01, 0x61, 0x41, 0x01, 0x03, 0x01, 0x01, 0x62]).CopyConstruct
          ⟨fun _ => .error .error, fun _ => .error .error, fun _ => .error .error⟩ 3
      = some (.ok (.dataArray false [] (some [.primitive (NewPrimitive (some [0x61])),
          .dataArray false [] (some [.primitive (NewPrimitive (some [0x62]))])]))) ∧
    ∃ code1, ((IData.dataArray false [] (some [.primitive (NewPrimitive (some [0x61])),
      .dataArray false [] (some [.primitive (NewPrimitive (some [0x62]))])])).Encode false).2
      = .ok ((StandardMappedData.mk true
          [0x41, 0x02, 0x09, 0x01, 0x01, 0x61, 0x41, 0x01, 0x03, 0x01, 0x01, 0x62]
          (some [.empty, .empty]) none 2
          [0x01, 0x01, 0x61, 0x41, 0x01, 0x03, 0x01, 0x01, 0x62]).Buf, code1) :=
  ⟨by rfl, by rfl, by rfl, by rfl,
    (C32_reencode_lifted_view
      ⟨fun _ => .error .error, fun _ => .error .error, fun _ => .error .error⟩
      (.dataArray false [] (some [.primitive (NewPrimitive (some [0x61])),
        .dataArray false [] (some [.primitive (NewPrimitive (some [0x62]))])]))
      [0x41, 0x02, 0x09, 0x01, 0x01, 0x61, 0x41, 0x01, 0x03, 0x01, 0x01, 0x62] 0xff
      (.mk true [0x41, 0x02, 0x09, 0x01, 0x01, 0x61, 0x41, 0x01, 0x03, 0x01, 0x01, 0x62]
        (some [.empty, .empty]) none 2 [0x01, 0x01, 0x61, 0x41, 0x01, 0x03, 0x01, 0x01, 0x62])
      3
      (.dataArray false [] (some [.primitive (NewPrimitive (some [0x61])),
        .dataArray false [] (some [.primitive (NewPrimitive (some [0x62]))])]))
      (by rfl) (by rfl) (by decide) (by rfl) (by rfl)).2⟩

/-- C31: a failed materialization poisons the cache. On a mapped data array
decoded from a buffer of bytes, after successful `DataAt` calls only, every
`DataAt(i)` with `i` below the count that returns an error has stopped at an
empty slot `j ≤ i` whose child does not decode, and has left there a nil
`*StandardMappedData` wrapped in the interface, which is not the nil
interface: slot `j` is not empty afterwards, `DataAt(j)` returns that value
with a nil error, and `DataAt` of every later index below the count panics,
`Buf()` being called on the nil pointer. -/
theorem C31_failed_materialization_poisons_cache (d d1 : StandardMappedData) (i : Nat)
    (e : Failure) (hv : Viewed d) (hda : d.data_array ≠ none) (hi : i < d.size)
    (h : d.DataAt i = (d1, .error e)) :
    ∃ j, j ≤ i ∧ d.slot j = some Slot.empty ∧ childView d.content j = none ∧
      d1.slot j = some Slot.nilPtr ∧
      d1.DataAt j = (d1, .ok Slot.nilPtr) ∧
      ∀ k, j < k → k < d.size → d1.DataAt k = (d1, .error .panic) :=
  DataAt_failure_poisons d d1 i e hv hda hi h

/-- C31 on the mapped array decoded from `41 02 01 08` (two children
announced, the content `08` being a header with the lookup bit set):
`DataAt(0)` returns an error and leaves a nil pointer in slot 0, the
repeated `DataAt(0)` returns it with a nil error, and `DataAt(1)` panics. -/
theorem C31_failed_materialization_poisons_cache_witness :
    NewStandardMappedData [0x41, 0x02, 0x01, 0x08]
      = .ok (.mk true [0x41, 0x02, 0x01, 0x08] (some [.empty, .empty]) none 2 [0x08]) ∧
    (StandardMappedData.mk true [0x41, 0x02, 0x01, 0x08] (some [.empty, .empty]) none 2
        [0x08]).DataAt 0
      = (.mk true [0x41, 0x02, 0x01, 0x08] (some [.nilPtr, .empty]) none 2 [0x08],
          .error .error) ∧
    (StandardMappedData.mk true [0x41, 0x02, 0x01, 0x08] (some [.nilPtr, .empty]) none 2
        [0x08]).DataAt 0
      = (.mk true [0x41, 0x02, 0x01, 0x08] (some [.nilPtr, .empty]) none 2 [0x08],
          .ok .nilPtr) ∧
    (StandardMappedData.mk true [0x41, 0x02, 0x01, 0x08] (some [.nilPtr, .empty]) none 2
        [0x08]).DataAt 1
      = (.mk true [0x41, 0x02, 0x01, 0x08] (some [.nilPtr, .empty]) none 2 [0x08],
          .error .panic) ∧
    ∃ j, j ≤ 0 ∧
      (StandardMappedData.mk true [0x41, 0x02, 0x01, 0x08] (some [.nilPtr, .empty]) none 2
        [0x08]).slot j = some Slot.nilPtr :=
  ⟨by rfl, by rfl, by rfl, by rfl,
    (C31_failed_materialization_poisons_cache
      (.mk true [0x41, 0x02, 0x01, 0x08] (some [.empty, .empty]) none 2 [0x08])
      (.mk true [0x41, 0x02, 0x01, 0x08] (some [.nilPtr, .empty]) none 2 [0x08]) 0 .error
      (Viewed.new [0x41, 0x02, 0x01, 0x08] _ (by decide) (by rfl))
      (fun h => by cases h) (by decide) (by rfl)).elim
      fun j hj => ⟨j, hj.1, hj.2.2.2.1⟩⟩

end Poodle
